import Mathlib

/-!
# parallelGBC: the F4 driver, pair manager and reduction engine

A shallow embedding of `src/src/F4Algorithm.C`.  Vectors are lists, the
`std::set`/`std::map` containers are lists kept in comparator order, and the
members of `F4` that the functions mutate are passed and returned explicitly.
The headers that declare terms, polynomials, the coefficient field and the
comparators are not part of the excerpt; they are modelled from the
specification and marked as such.
-/

namespace ParallelGBC

/-! ## Terms -/

/-- Modelled from the spec: `Term` (declared in Term.H, absent).  An interned
power product over `n` indeterminates, held as its exponent vector; identity
of interned terms is equality of exponent vectors. -/
def Term (n : Nat) : Type := { e : List Nat // e.length = n }

instance instDecidableEqTerm (n : Nat) : DecidableEq (Term n) :=
  inferInstanceAs (DecidableEq { e : List Nat // e.length = n })

namespace Term

variable {n : Nat}

/-- Modelled from the spec: the exponent vector of a term. -/
def exps (a : Term n) : List Nat := a.1

/-- Modelled from the spec: the identity term (all exponents zero). -/
def one (n : Nat) : Term n := ⟨List.replicate n 0, by simp⟩

/-- Modelled from the spec: `Term::mul`, the product of two power products. -/
def mul (a b : Term n) : Term n :=
  ⟨List.zipWith (fun x y => x + y) a.1 b.1, by simp [a.2, b.2]⟩

/-- Modelled from the spec: `Term::div`, exact division (exponents are
subtracted; the source only divides a term by one of its divisors). -/
def div (a b : Term n) : Term n :=
  ⟨List.zipWith (fun x y => x - y) a.1 b.1, by simp [a.2, b.2]⟩

/-- Modelled from the spec: `Term::lcm`, the least common multiple. -/
def lcm (a b : Term n) : Term n :=
  ⟨List.zipWith (fun x y => max x y) a.1 b.1, by simp [a.2, b.2]⟩

/-- Modelled from the spec: `Term::deg`, the total degree. -/
def deg (a : Term n) : Int := (a.1.sum : Nat)

/-- Modelled from the spec: `a->isDivisibleBy(b)`, true when `b` divides `a`. -/
def isDivisibleBy (a b : Term n) : Bool :=
  (List.zipWith (fun x y => decide (y ≤ x)) a.1 b.1).all id

end Term

/-! ## Term orderings -/

/-- Modelled from the spec: `TOrdering` (declared in TOrdering.H, absent), a
total order on terms, given by its strict comparison. -/
structure TOrdering (n : Nat) where
  /-- The term `a` is strictly smaller than `b`. -/
  lt : Term n → Term n → Bool
  irrefl : ∀ a, lt a a = false
  trans : ∀ a b c, lt a b = true → lt b c = true → lt a c = true
  total : ∀ a b, a ≠ b → lt a b = true ∨ lt b a = true

/-- Modelled from the spec: `TermComparator(O, gt)` (declared in Term.H,
absent): ascending in `O` when `gt` is false, descending when it is true. -/
def TermComparator {n : Nat} (O : TOrdering n) (gt : Bool) (a b : Term n) : Bool :=
  if gt then O.lt b a else O.lt a b

/-- Modelled from the spec: part of the degree-reverse-lexicographic
comparison; at the first position where the two exponent lists differ the left
list has the larger entry. -/
def lexGt : List Nat → List Nat → Bool
  | a :: as, b :: bs => if a = b then lexGt as bs else decide (b < a)
  | _, _ => false

/-- Modelled from the spec: strict comparison of the degree-reverse-lexicographic
ordering (TOrdering.H is absent): smaller degree first; at equal degree the term with the larger exponent in the last
indeterminate where the two differ is the smaller one. -/
def degRevLexLt {n : Nat} (a b : Term n) : Bool :=
  decide (a.1.sum < b.1.sum) || (decide (a.1.sum = b.1.sum) && lexGt a.1.reverse b.1.reverse)

/-- Modelled from the spec: `DegRevLexOrdering(n)` (declared in TOrdering.H,
absent), the degree-reverse-lexicographic ordering on `n` indeterminates. -/
def DegRevLexOrdering (n : Nat) : TOrdering n where
  lt := degRevLexLt
  irrefl := by
    intro a
    have key : ∀ l : List Nat, lexGt l l = false := by
      intro l
      induction l with
      | nil => rfl
      | cons x l ih => simp [lexGt, ih]
    simp [degRevLexLt, key]
  trans := by
    intro a b c
    have key : ∀ (x y z : List Nat), lexGt x y = true → lexGt y z = true →
        lexGt x z = true := by
      intro x
      induction x with
      | nil => intro y z h; simp [lexGt] at h
      | cons p x ih =>
        intro y z h1 h2
        cases y with
        | nil => simp [lexGt] at h1
        | cons q y =>
          cases z with
          | nil => simp [lexGt] at h2
          | cons r z =>
            simp only [lexGt] at h1 h2 ⊢
            have ih := ih y z
            split_ifs at h1 h2 ⊢ <;> simp_all <;> omega
    simp only [degRevLexLt, Bool.or_eq_true, Bool.and_eq_true, decide_eq_true_eq]
    rintro (h1 | ⟨h1, h1'⟩) (h2 | ⟨h2, h2'⟩)
    · left; omega
    · left; omega
    · left; omega
    · right; exact ⟨by omega, key _ _ _ h1' h2'⟩
  total := by
    intro a b hab
    have key : ∀ (x y : List Nat), x.length = y.length → x ≠ y →
        lexGt x y = true ∨ lexGt y x = true := by
      intro x
      induction x with
      | nil => intro y hl hne; cases y <;> simp_all
      | cons p x ih =>
        intro y hl hne
        cases y with
        | nil => simp at hl
        | cons q y =>
          simp only [lexGt]
          by_cases hpq : p = q
          · subst hpq
            simp at hl hne ⊢
            exact ih y hl hne
          · have hqp : ¬ q = p := fun h => hpq h.symm
            simp only [hpq, hqp, if_false, decide_eq_true_eq]
            omega
    have hne : a.1.reverse ≠ b.1.reverse := by
      intro h
      exact hab (Subtype.ext (List.reverse_injective h))
    have hlen : a.1.reverse.length = b.1.reverse.length := by
      simp [a.2, b.2]
    simp only [degRevLexLt, Bool.or_eq_true, Bool.and_eq_true, decide_eq_true_eq]
    rcases Nat.lt_trichotomy a.1.sum b.1.sum with h | h | h
    · left; left; exact h
    · rcases key _ _ hlen hne with h' | h'
      · left; right; exact ⟨h, h'⟩
      · right; right; exact ⟨h.symm, h'⟩
    · right; left; exact h

/-! ## Coefficient field -/

/-- Modelled from the spec: `coeffType` (its declaration is absent), a field
element kept as a residue. -/
abbrev coeffType : Type := Nat

/-- Modelled from the spec: `CoeffField` (declared in CoeffField.H, absent),
the prime field of the given characteristic with the arithmetic `add`, `mul`,
`inv` and the fused `mulSub(x, y, f) = x - y*f`. -/
structure CoeffField where
  /-- The characteristic. -/
  modn : Nat
deriving DecidableEq, Repr

namespace CoeffField

/-- Modelled from the spec: field addition. -/
def add (F : CoeffField) (a b : coeffType) : coeffType := (a + b) % F.modn

/-- Modelled from the spec: field multiplication. -/
def mul (F : CoeffField) (a b : coeffType) : coeffType := (a * b) % F.modn

/-- Modelled from the spec: the power `a ^ e` modulo `m` by repeated squaring,
used for the inverse; the first argument bounds the number of halvings of the
exponent. -/
def powMod (m a : Nat) : Nat → Nat → Nat
  | 0, _ => 1 % m
  | fuel + 1, e =>
    if e = 0 then 1 % m
    else
      let h := powMod m a fuel (e / 2)
      if e % 2 = 0 then h * h % m else h * h % m * a % m

/-- Modelled from the spec: the multiplicative inverse, as the power
`a ^ (p - 2)` in the field of characteristic `p`. -/
def inv (F : CoeffField) (a : coeffType) : coeffType := powMod F.modn a F.modn (F.modn - 2)

/-- Modelled from the spec: the fused primitive `x - y*f`. -/
def mulSub (F : CoeffField) (x y f : coeffType) : coeffType :=
  (x % F.modn + (F.modn - (y * f) % F.modn)) % F.modn

/-- Modelled from the spec: `getFactor`, the multiplier handed to `mulSub`
for a matrix entry (so that the update subtracts `row[k][p] * row[i]`). -/
def getFactor (_F : CoeffField) (a : coeffType) : coeffType := a

/-- Modelled from the spec: the row form of `mulSub` called by `pReduce`,
`target[c] <- target[c] - oper[c]*f` in every column. -/
def mulSubRow (F : CoeffField) (target oper : List coeffType) (f : coeffType) :
    List coeffType :=
  (List.range target.length).map (fun c => F.mulSub (target.getD c 0) (oper.getD c 0) f)

end CoeffField

/-! ## Polynomials -/

/-- Modelled from the spec: `Monomial` (its declaration is absent), the pair of
a coefficient and a term. -/
abbrev Monomial (n : Nat) : Type := coeffType × Term n

/-- Modelled from the spec: `Polynomial` (declared in Polynomial.H, absent), a
sequence of monomials together with its sugar degree.  Degrees are integers
without a width: `degreeType` is declared in an absent header. -/
structure Polynomial (n : Nat) where
  /-- The monomials, leading monomial first. -/
  coeffs : List (Monomial n)
  /-- The sugar degree. -/
  sugar : Int
deriving DecidableEq

instance instInhabitedPolynomial (n : Nat) : Inhabited (Polynomial n) := ⟨⟨[], 0⟩⟩

namespace Polynomial

variable {n : Nat}

/-- Modelled from the spec: `size()`, the number of monomials. -/
def size (p : Polynomial n) : Nat := p.coeffs.length

/-- Modelled from the spec: `LT()`, the term of the first monomial.  The
source reads element 0, which does not exist for the zero polynomial; the
identity term stands in there. -/
def LT (p : Polynomial n) : Term n :=
  match p.coeffs with
  | [] => Term.one n
  | m :: _ => m.2

/-- Modelled from the spec: `lcmLT`, the lcm of the two leading terms. -/
def lcmLT (p q : Polynomial n) : Term n := Term.lcm p.LT q.LT

/-- Modelled from the spec: `normalize`, which makes the polynomial monic. -/
def normalize (F : CoeffField) (p : Polynomial n) : Polynomial n :=
  match p.coeffs with
  | [] => p
  | m :: _ =>
    if m.1 = 1 then p
    else ⟨p.coeffs.map (fun c => (F.mul c.1 (F.inv m.1), c.2)), p.sugar⟩

end Polynomial

/-- Modelled from the spec: `PolynomialComparator(o, gt)` (declared in
Polynomial.H, absent): polynomials are compared by leading term with
`TermComparator(o, gt)`. -/
def PolynomialComparator {n : Nat} (O : TOrdering n) (gt : Bool) (a b : Polynomial n) : Bool :=
  TermComparator O gt a.LT b.LT

/-! ## Critical pairs -/

/-- Modelled from the spec: `F4Pair` (declared in F4Algorithm.H, absent), with
the constructor argument order `(LCM, i, j, marked, sugar)` used by the source. -/
structure F4Pair (n : Nat) where
  LCM : Term n
  i : Nat
  j : Nat
  marked : Bool
  sugar : Int
deriving DecidableEq

/-- Modelled from the spec: `F4PairComparator` (declared in F4Algorithm.H,
absent): pairs are ordered by their lcm under the term ordering, so two pairs
are equivalent keys exactly when they have the same lcm. -/
def F4PairComparator {n : Nat} (O : TOrdering n) (a b : F4Pair n) : Bool :=
  TermComparator O false a.LCM b.LCM

/-- A `std::set<F4Pair, F4PairComparator>`, as the list of its elements in
iteration order. -/
abbrev F4PairSet (n : Nat) : Type := List (F4Pair n)

/-- Insertion into a `std::set` with comparator `comp`: nothing happens when an
equivalent element is present; the flag tells whether the element went in. -/
def setInsert {α : Type} (comp : α → α → Bool) (x : α) (s : List α) : List α × Bool :=
  if s.any (fun y => !comp x y && !comp y x) then (s, false)
  else (List.orderedInsert (fun a b => comp a b = true) x s, true)

/-- Range insertion `s.insert(first, last)`. -/
def setInsertAll {α : Type} (comp : α → α → Bool) (xs : List α) (s : List α) : List α :=
  xs.foldl (fun acc x => (setInsert comp x acc).1) s

/-! ## The algorithm state -/

/-- The members of `F4` that the functions of F4Algorithm.C read and write. -/
structure F4 (n : Nat) where
  groebnerBasis : List (Polynomial n)
  inGroebnerBasis : List Bool
  currentDegree : Int
deriving DecidableEq

namespace F4

variable {n : Nat}

/-- A freshly constructed `F4` object: no basis element yet. -/
def empty (n : Nat) : F4 n := ⟨[], [], 0⟩

/-! ## `F4::updatePairs` -/

/-- Line 17: the condition under which an old pair is copied to `P1`. -/
def keepB (G : List (Polynomial n)) (h : Polynomial n) (p : F4Pair n) : Bool :=
  !p.LCM.isDivisibleBy h.LT || h.lcmLT (G.getD p.i default) == p.LCM
    || h.lcmLT (G.getD p.j default) == p.LCM

/-- Lines 14-21: the loop that builds `P1`, which then replaces `pairs`. -/
def criterionB (O : TOrdering n) (G : List (Polynomial n)) (h : Polynomial n)
    (pairs : F4PairSet n) : F4PairSet n :=
  pairs.foldl
    (fun P1 p => if keepB G h p then (setInsert (F4PairComparator O) p P1).1 else P1) []

/-- Lines 30-31 and 60-61: the pair object built for `(i, t)`. -/
def newPair (G : List (Polynomial n)) (h : Polynomial n) (i t : Nat) : F4Pair n :=
  let g := G.getD i default
  let LCM := g.lcmLT h
  { LCM := LCM, i := i, j := t, marked := LCM == g.LT.mul h.LT,
    sugar := max (g.sugar - g.LT.deg) (h.sugar - h.LT.deg) + LCM.deg }

/-- Lines 25-33: the loop that decides `insertIntoG`.  The pair it constructs
on the way is a local that is dropped at the end of the block. -/
def scanInsertIntoG (G : List (Polynomial n)) (D1 : List Bool) (h : Polynomial n) : Bool :=
  (List.range G.length).foldl
    (fun insertIntoG i =>
      if insertIntoG && (D1.getD i false && h.LT.isDivisibleBy (G.getD i default).LT) then false
      else insertIntoG)
    true

/-- Lines 40-51: the inner loop of Criterion M for a fixed `i`. -/
def criterionMInner (G : List (Polynomial n)) (h : Polynomial n) (i : Nat)
    (D1 : List Bool) : List Bool :=
  let a := h.lcmLT (G.getD i default)
  (List.range D1.length).foldl
    (fun D j =>
      if D.getD i false && (i != j && D.getD j false) then
        let b := h.lcmLT (G.getD j default)
        if a.isDivisibleBy b && a != b then D.set i false else D
      else D)
    D1

/-- Lines 38-52: Criterion M, run in place on `D1`. -/
def criterionM (G : List (Polynomial n)) (h : Polynomial n) (D1 : List Bool) : List Bool :=
  (List.range D1.length).foldl (fun D i => criterionMInner G h i D) D1

/-- Lines 55-71: the loop that fills `P2`. -/
def bucketP2 (O : TOrdering n) (G : List (Polynomial n)) (h : Polynomial n) (t : Nat)
    (D1 : List Bool) : F4PairSet n :=
  (List.range D1.length).foldl
    (fun P2 i =>
      if D1.getD i false then
        let newpair := newPair G h i t
        let ret := setInsert (F4PairComparator O) newpair P2
        if newpair.marked && ret.2 then
          (setInsert (F4PairComparator O) newpair (ret.1.erase newpair)).1
        else ret.1
      else P2)
    []

/-- Lines 74-80: the unmarked elements of `P2` go into `pairs`. -/
def criterionF (O : TOrdering n) (P2 pairs : F4PairSet n) : F4PairSet n :=
  P2.foldl
    (fun acc p => if !p.marked then (setInsert (F4PairComparator O) p acc).1 else acc) pairs

/-- Lines 82-88: flags of elements whose leading term `LT(h)` divides are cleared. -/
def clearFlags (G : List (Polynomial n)) (h : Polynomial n) (inG : List Bool) : List Bool :=
  (List.range G.length).foldl
    (fun fl j =>
      if fl.getD j false && (G.getD j default).LT.isDivisibleBy h.LT then fl.set j false
      else fl)
    inG

/-- Lines 11-93: one iteration of the loop over `polys`, for the polynomial `h`
with prospective index `t`. -/
def updatePairsBody (O : TOrdering n) (st : F4 n × F4PairSet n × Nat) (h : Polynomial n) :
    F4 n × F4PairSet n × Nat :=
  let f4 := st.1
  let t := st.2.2
  let pairs := criterionB O f4.groebnerBasis h st.2.1
  let D1 := f4.inGroebnerBasis
  let insertIntoG := scanInsertIntoG f4.groebnerBasis D1 h
  if insertIntoG then
    let D1 := criterionM f4.groebnerBasis h D1
    let P2 := bucketP2 O f4.groebnerBasis h t D1
    let pairs := criterionF O P2 pairs
    let flags := clearFlags f4.groebnerBasis h f4.inGroebnerBasis
    ({ f4 with groebnerBasis := f4.groebnerBasis ++ [h], inGroebnerBasis := flags ++ [true] },
      pairs, t + 1)
  else
    ({ f4 with groebnerBasis := f4.groebnerBasis ++ [h],
               inGroebnerBasis := f4.inGroebnerBasis ++ [false] },
      pairs, t + 1)

/-- Lines 5-97: `F4::updatePairs`. -/
def updatePairs (O : TOrdering n) (f4 : F4 n) (pairs : F4PairSet n)
    (polys : List (Polynomial n)) : F4 n × F4PairSet n :=
  let r := polys.foldl (updatePairsBody O) (f4, pairs, f4.groebnerBasis.length)
  (r.1, r.2.1)

end F4

/-! ## `F4::prepare` -/

/-- How a run of the model can stop short of a result. -/
inductive Fault where
  /-- The step budget of a loop of the model ran out. -/
  | outOfFuel
  /-- The source would read or write outside a container. -/
  | outOfBounds
deriving DecidableEq, Repr

deriving instance DecidableEq for Except

/-- Lines 99-105: `struct s`, the comparator of the selection sort. -/
def s {n : Nat} (a b : F4Pair n) : Bool := decide (a.sugar < b.sugar)

/-- The call `sort(first, last, comp)`.  `std::sort` leaves the relative order
of equivalent elements open; the model keeps their order. -/
def stdSort {α : Type} (comp : α → α → Bool) (l : List α) : List α :=
  l.insertionSort (fun a b => comp b a = false)

/-- The call `m.insert(make_pair(k, v))` on an `unordered_map`: an existing key
keeps its value. -/
def mapInsert {α β : Type} [DecidableEq α] (m : List (α × β)) (k : α) (v : β) : List (α × β) :=
  if m.any (fun e => e.1 == k) then m else m ++ [(k, v)]

/-- The call `m.count(k) > 0`. -/
def mapHas {α β : Type} [DecidableEq α] (m : List (α × β)) (k : α) : Bool :=
  m.any (fun e => e.1 == k)

/-- The access `m[k]` used as a read: the stored value, or the default. -/
def mapGet {α β : Type} [DecidableEq α] (m : List (α × β)) (k : α) (d : β) : β :=
  match m.find? (fun e => e.1 == k) with
  | some e => e.2
  | none => d

/-- The statement `m[k].push_back(v)` on a map of vectors. -/
def mapPush {α β : Type} [DecidableEq α] (m : List (α × List β)) (k : α) (v : β) :
    List (α × List β) :=
  if m.any (fun e => e.1 == k) then m.map (fun e => if e.1 == k then (e.1, e.2 ++ [v]) else e)
  else m ++ [(k, [v])]

/-- An operation `row[target] <- row[target] - factor * row[oper]`. -/
structure F4Operation where
  target : Nat
  oper : Nat
  factor : coeffType
deriving DecidableEq, Repr

/-- What the selection block of `prepare` (lines 191-211) leaves behind. -/
structure Selection (n : Nat) where
  currentDegree : Int
  rows : List (Nat × Term n)
  pivots : List (Term n × Nat)
  index : Nat
  pairs : F4PairSet n

/-- Lines 202-207: the seeding loop, run over what is left of `tmp` from
position `index` on. -/
def seedLoop {n : Nat} (currentDegree : Int) :
    List (F4Pair n) → Nat → List (Nat × Term n) → List (Term n × Nat) →
      Nat × List (Nat × Term n) × List (Term n × Nat)
  | [], index, rows, pivots => (index, rows, pivots)
  | p :: ps, index, rows, pivots =>
    if p.sugar = currentDegree then
      seedLoop currentDegree ps (index + 1) (rows ++ [(p.i, p.LCM), (p.j, p.LCM)])
        (mapInsert pivots p.LCM (2 * index))
    else (index, rows, pivots)

/-- Lines 191-211: the selection block.  Reading `tmp.begin()->sugar` of an
empty pair set is outside the container. -/
def selection {n : Nat} (O : TOrdering n) (pairs : F4PairSet n) : Except Fault (Selection n) :=
  let tmp := stdSort s pairs
  match tmp with
  | [] => .error .outOfBounds
  | first :: _ =>
    let currentDegree := first.sugar
    let r := seedLoop currentDegree tmp 0 [] []
    .ok { currentDegree := currentDegree, rows := r.2.1, pivots := r.2.2, index := r.1,
          pairs := setInsertAll (F4PairComparator O) (tmp.drop r.1) [] }

/-- The containers that symbolic preprocessing (lines 216-269) fills. -/
structure Prep (n : Nat) where
  rows : List (Nat × Term n)
  pivots : List (Term n × Nat)
  pivotOps : List (Term n × List (Nat × coeffType))
  termsUnordered : List (Term n)
  rightSide : List (List (Monomial n))

namespace F4

variable {n : Nat}

/-- Lines 250-257: the first basis index `k` that is flagged in-basis and whose
leading term divides `t`. -/
def findReducer (f4 : F4 n) (t : Term n) : Option Nat :=
  (List.range f4.groebnerBasis.length).find?
    (fun k => f4.inGroebnerBasis.getD k false
      && t.isDivisibleBy (f4.groebnerBasis.getD k default).LT)

/-- Lines 240-267: the body of the loop over the monomials of row `i`, for the
monomial `m` whose shifted term is `t`. -/
def setupMonomial (f4 : F4 n) (i : Nat) (st : Prep n) (m : Monomial n) (t : Term n) : Prep n :=
  let wontFound := st.termsUnordered.contains t
  let st1 : Bool × Prep n :=
    if wontFound then (false, st)
    else if mapHas st.pivots t then (true, st)
    else
      match f4.findReducer t with
      | some k =>
        let rows := st.rows ++ [(k, t)]
        (true, { st with rows := rows, pivots := mapInsert st.pivots t (rows.length - 1) })
      | none => (false, st)
  let found := st1.1
  let st := st1.2
  if found then { st with pivotOps := mapPush st.pivotOps t (i, m.1) }
  else
    { st with
      rightSide := st.rightSide.set i (st.rightSide.getD i [] ++ [(m.1, t)])
      termsUnordered := if !wontFound then st.termsUnordered ++ [t] else st.termsUnordered }

/-- Lines 226-268: the body of the loop over the rows, for row `i`. -/
def setupRow (f4 : F4 n) (upper i : Nat) (st : Prep n) : Prep n :=
  let row := st.rows.getD i (0, Term.one n)
  let currentRow := row.1
  let st := { st with rightSide := st.rightSide ++ [[]] }
  let g := f4.groebnerBasis.getD currentRow default
  let ir := row.2.div g.LT
  let pcm := g.coeffs.map (fun m => ir.mul m.2)
  let start := if i > upper || i % 2 == 0 then 1 else 0
  ((g.coeffs.zip pcm).drop start).foldl (fun st mt => setupMonomial f4 i st mt.1 mt.2) st

/-- Lines 224-269: the loop over the row list, which grows while it is walked.
`fuel` bounds the number of rows visited. -/
def setupRows (f4 : F4 n) (upper : Nat) : Nat → Nat → Prep n → Except Fault (Prep n)
  | 0, i, st => if i < st.rows.length then .error .outOfFuel else .ok st
  | fuel + 1, i, st =>
    if i < st.rows.length then setupRows f4 upper fuel (i + 1) (setupRow f4 upper i st)
    else .ok st

/-- Lines 277-285: the dense write-out of one sparse row.  `cols` is what the
column iterator has not passed yet, `k` the dense column index, and `row` the
sparse entries from position `j` on; the iterator is dereferenced without
a check against the end of the set. -/
def denseRow : List (Monomial n) → List (Term n) → Nat → List coeffType →
    Except Fault (List coeffType)
  | [], _, _, out => .ok out
  | _ :: _, [], _, _ => .error .outOfBounds
  | m :: ms, c :: cs, k, out =>
    if m.2 = c then denseRow ms cs (k + 1) (out.set k m.1)
    else denseRow (m :: ms) cs (k + 1) out

/-- Lines 275-286: the dense table `rs`. -/
def denseRows (terms : List (Term n)) (rightSide : List (List (Monomial n))) :
    Except Fault (List (List coeffType)) :=
  rightSide.mapM (fun row => denseRow row terms 0 (List.replicate terms.length 0))

/-- The level counters and levels of the scheduler. -/
structure Sched where
  l : List Nat
  ops : List (List F4Operation)

/-- Lines 296-306: the body of the inner scheduler loop, for the entry `e` of
the operation list of the pivot row `o`. -/
def scheduleOp (o : Nat) (sc : Sched) (e : Nat × coeffType) : Except Fault Sched :=
  let t := e.1
  if t < sc.l.length ∧ o < sc.l.length ∧ sc.l.getD t 0 < sc.ops.length then
    let lt := sc.l.getD t 0
    let ops := sc.ops.set lt (sc.ops.getD lt [] ++ [F4Operation.mk t o e.2])
    let l := sc.l.set t (lt + 1)
    let l := if l.getD o 0 < l.getD t 0 then l.set o (l.getD t 0) else l
    let ops := if l.getD t 0 ≥ ops.length then ops ++ [[]] else ops
    .ok { l := l, ops := ops }
  else .error .outOfBounds

/-- Lines 289-309: the scheduler. -/
def schedule (pivots : List (Term n × Nat))
    (pivotOpsOrdered : List (Term n × List (Nat × coeffType))) (rows : Nat) :
    Except Fault (List (List F4Operation)) := do
  let sc ← pivotOpsOrdered.foldlM
    (fun sc it => it.2.foldlM (scheduleOp (mapGet pivots it.1 0)) sc)
    ({ l := List.replicate rows 0, ops := [[]] } : Sched)
  pure sc.ops.dropLast

/-- What `prepare` hands back: its return value `upper`, the out-parameters
`ops`, `terms` and `rs`, the pair set and the member `currentDegree`. -/
structure Prepared (n : Nat) where
  upper : Nat
  ops : List (List F4Operation)
  terms : List (Term n)
  rs : List (List coeffType)
  pairs : F4PairSet n
  currentDegree : Int

/-- Lines 188-314: `F4::prepare`. -/
def prepare (O : TOrdering n) (fuel : Nat) (f4 : F4 n) (pairs : F4PairSet n) :
    Except Fault (Prepared n) := do
  let sel ← selection O pairs
  let upper := 2 * sel.index
  let st ← setupRows f4 upper fuel 0
    { rows := sel.rows, pivots := sel.pivots, pivotOps := [], termsUnordered := [],
      rightSide := [] }
  let terms := setInsertAll (TermComparator O true) st.termsUnordered []
  let rs ← denseRows terms st.rightSide
  let pivotOpsOrdered :=
    setInsertAll (fun a b => TermComparator O true a.1 b.1) st.pivotOps []
  let ops ← schedule st.pivots pivotOpsOrdered rs.length
  pure { upper := upper, ops := ops, terms := terms, rs := rs, pairs := sel.pairs,
         currentDegree := sel.currentDegree }

/-! ## `F4::pReduce` and `F4::gauss` -/

/-- Lines 176-186: `F4::pReduce`.  The levels run from the last to the first;
the operations of a level are applied in index order. -/
def pReduce (F : CoeffField) (ops : List (List F4Operation)) (rs : List (List coeffType)) :
    List (List coeffType) :=
  ops.reverse.foldl
    (fun rs level =>
      level.foldl
        (fun rs op =>
          rs.set op.target (F.mulSubRow (rs.getD op.target []) (rs.getD op.oper []) op.factor))
        rs)
    rs

/-- Lines 144-147: the scan for the first nonzero entry; yields the final
values of `p`, `found` and `factor`. -/
def gaussScan : List coeffType → Nat → Nat × Bool × coeffType
  | [], p => (p, false, 0)
  | x :: xs, p => if x ≠ 0 then (p + 1, true, x) else gaussScan xs (p + 1)

/-- Lines 152-157: normalisation of a row from column `p` on. -/
def gaussNormalize (F : CoeffField) (p : Nat) (factor : coeffType) (row : List coeffType) :
    List coeffType :=
  if factor ≠ 1 then
    let factor := F.inv factor
    (List.range row.length).map
      (fun j => if p ≤ j then F.mul (row.getD j 0) factor else row.getD j 0)
  else row

/-- Lines 162-169: the body of the update loop, for the loop variable `j`. -/
def gaussUpdate (F : CoeffField) (upper i p : Nat) (matrix : List (List coeffType)) (j : Nat) :
    List (List coeffType) :=
  let k := (i + j) % upper
  let rowk := matrix.getD k []
  if rowk.getD p 0 ≠ 0 then
    let factor := F.getFactor (rowk.getD p 0)
    let rowi := matrix.getD i []
    matrix.set k ((List.range rowk.length).map
      (fun m => if p ≤ m then F.mulSub (rowk.getD m 0) (rowi.getD m 0) factor
                else rowk.getD m 0))
  else matrix

/-- Lines 141-171: the body of the loop over the odd rows, for row `i`. -/
def gaussRow (F : CoeffField) (upper : Nat) (st : List (List coeffType) × List Bool) (i : Nat) :
    List (List coeffType) × List Bool :=
  let matrix := st.1
  let sc := gaussScan (matrix.getD i []) 0
  let p := sc.1 - 1
  let found := sc.2.1
  let factor := sc.2.2
  let empty := st.2.set i (!found)
  if found then
    let matrix := matrix.set i (gaussNormalize F p factor (matrix.getD i []))
    let matrix := ((List.range upper).filter (fun j => 2 ≤ j && j % 2 == 0)).foldl
      (gaussUpdate F upper i p) matrix
    (matrix, empty)
  else (matrix, empty)

/-- Lines 137-174: `F4::gauss`. -/
def gauss (F : CoeffField) (matrix : List (List coeffType)) (upper : Nat) (empty : List Bool) :
    List (List coeffType) × List Bool :=
  ((List.range upper).filter (fun i => i % 2 == 1)).foldl (gaussRow F upper) (matrix, empty)

/-! ## `F4::reduce` and the driver -/

/-- Lines 341-351: the polynomial read off row `i`. -/
def extractRow (currentDegree : Int) (terms : List (Term n)) (row : List coeffType) :
    Polynomial n :=
  { coeffs := (List.range terms.length).filterMap
      (fun j => if row.getD j 0 ≠ 0 then some (row.getD j 0, terms.getD j (Term.one n)) else none)
    sugar := currentDegree }

/-- Lines 316-356: `F4::reduce`; returns the state, the pair set and `polys`. -/
def reduce (O : TOrdering n) (F : CoeffField) (fuel : Nat) (f4 : F4 n) (pairs : F4PairSet n) :
    Except Fault (F4 n × F4PairSet n × List (Polynomial n)) := do
  let pr ← prepare O fuel f4 pairs
  let f4 := { f4 with currentDegree := pr.currentDegree }
  let empty := List.replicate pr.upper false
  let rs := pReduce F pr.ops pr.rs
  let g := gauss F rs pr.upper empty
  let polys := ((List.range pr.upper).filter (fun i => i % 2 == 1)).filterMap
    (fun i => if !g.2.getD i false then
        some (extractRow f4.currentDegree pr.terms (g.1.getD i []))
      else none)
  pure (f4, pr.pairs, polys)

/-- The call `getchar()` of the C library on what is left of the standard
input, given as byte values: the next byte and the rest of the input.  At the
end of the input it returns `EOF` (-1) and the input stays at its end. -/
def getchar (stdin : List Nat) : Int × List Nat :=
  match stdin with
  | [] => (-1, [])
  | c :: cs => ((c : Int), cs)

/-- Line 3: the macro `BREAKPOINT`, the loop `while(getchar() != '\n');`.  It
reads the standard input up to and including the next newline (byte 10) and
yields what is left of the input.  At the end of the input `getchar` keeps
returning `EOF`, which is not a newline, so the loop goes on; `fuel` bounds the
number of calls of `getchar`. -/
def BREAKPOINT : Nat → List Nat → Except Fault (List Nat)
  | 0, _ => .error .outOfFuel
  | fuel + 1, stdin =>
    if (getchar stdin).1 ≠ 10 then BREAKPOINT fuel (getchar stdin).2
    else .ok (getchar stdin).2

/-- Lines 382-402: the driver loop, on what is left of the standard input.
Every turn starts with `BREAKPOINT` (line 383).  `fuel` bounds the number of
batches and, in each batch, the number of bytes read and the number of matrix
rows. -/
def mainLoop (O : TOrdering n) (F : CoeffField) :
    Nat → F4 n × F4PairSet n → List Nat → Except Fault (F4 n × F4PairSet n)
  | 0, st, _ => if st.2.isEmpty then .ok st else .error .outOfFuel
  | fuel + 1, st, stdin =>
    if st.2.isEmpty then .ok st
    else
      match BREAKPOINT (fuel + 1) stdin with
      | .error e => .error e
      | .ok stdin =>
        match reduce O F (fuel + 1) st.1 st.2 with
        | .error e => .error e
        | .ok r =>
          if !r.2.2.isEmpty then mainLoop O F fuel (updatePairs O r.1 r.2.1 r.2.2) stdin
          else mainLoop O F fuel (r.1, r.2.1) stdin

/-- Lines 406-413: the elements flagged in-basis, in basis order. -/
def result (f4 : F4 n) : List (Polynomial n) :=
  (List.range f4.groebnerBasis.length).filterMap
    (fun i => if f4.inGroebnerBasis.getD i false then f4.groebnerBasis.get? i else none)

/-- Lines 364-414: `F4::operator()`, on a fresh `F4` object and with `stdin`
as the standard input. -/
def compute (O : TOrdering n) (F : CoeffField) (fuel : Nat) (generators : List (Polynomial n))
    (stdin : List Nat) : Except Fault (List (Polynomial n)) :=
  let generators := stdSort (PolynomialComparator O true) generators
  let generators := generators.map (Polynomial.normalize F)
  let st := updatePairs O (F4.empty n) [] generators
  match mainLoop O F fuel st stdin with
  | .error e => .error e
  | .ok st => .ok (result st.1)

/-! ## Traces of the pair manager -/

/-- What the driver does to the basis and the pair set: a call of
`updatePairs`, or the selection of a batch at the start of `reduce`. -/
inductive Action (n : Nat) where
  | update (polys : List (Polynomial n))
  | select

/-- The effect of one action on the basis and the pair set.  The driver selects
only from a non-empty pair set; on an empty one the action does nothing. -/
def step (O : TOrdering n) (st : F4 n × F4PairSet n) : Action n → F4 n × F4PairSet n
  | .update polys => updatePairs O st.1 st.2 polys
  | .select =>
    match selection O st.2 with
    | .ok sel => ({ st.1 with currentDegree := sel.currentDegree }, sel.pairs)
    | .error _ => st

/-- The state after a sequence of actions on a fresh `F4` object and an empty
pair set. -/
def run (O : TOrdering n) (acts : List (Action n)) : F4 n × F4PairSet n :=
  acts.foldl (step O) (F4.empty n, [])

/-- The condition `a->isDivisibleBy(b) && a != b` of line 46: `a` is a proper
multiple of `b`. -/
def properMultiple (a b : Term n) : Bool := a.isDivisibleBy b && a != b

/-- Criterion M as the specification words it, evaluated on the original
candidate set `D1`: the candidate `(i, t)` stays when `i` is in-basis and no
other in-basis `j` has `lcm(LT(h), LT(f_i))` a proper multiple of
`lcm(LT(h), LT(f_j))`. -/
def criterionMSpec (G : List (Polynomial n)) (h : Polynomial n) (D1 : List Bool) (i : Nat) :
    Bool :=
  D1.getD i false &&
    !(List.range D1.length).any (fun j =>
      j != i && D1.getD j false &&
        properMultiple (h.lcmLT (G.getD i default)) (h.lcmLT (G.getD j default)))

end F4

/-- A pair set holds at most one pair per key (per lcm), as every
`std::set<F4Pair, F4PairComparator>` does. -/
def KeysDistinct {n : Nat} (pairs : F4PairSet n) : Prop :=
  pairs.Pairwise (fun a b => a.LCM ≠ b.LCM)

/-- No leading term of an in-basis element divides the leading term of another
in-basis element. -/
def Antichain (f4 : F4 n) : Prop :=
  ∀ i j, i ≠ j → f4.inGroebnerBasis.getD i false = true →
    f4.inGroebnerBasis.getD j false = true →
    (f4.groebnerBasis.getD j default).LT.isDivisibleBy (f4.groebnerBasis.getD i default).LT
      = false

/-- A pair is unmarked, its indices are ordered and inside the basis, and it is
the pair object the source builds for those two basis elements. -/
def PairOk (G : List (Polynomial n)) (p : F4Pair n) : Prop :=
  p.marked = false ∧ p.i < p.j ∧ p.j < G.length ∧
    p = F4.newPair G (G.getD p.j default) p.i p.j

/-- The invariant of the pair manager. -/
def Inv (st : F4 n × F4PairSet n) : Prop :=
  st.1.groebnerBasis.length = st.1.inGroebnerBasis.length ∧ KeysDistinct st.2 ∧
    (∀ p ∈ st.2, PairOk st.1.groebnerBasis p) ∧ Antichain st.1

/-! ## Reduction modulo a list of polynomials -/

/-- Subtraction of the monomial `c * t` from a list of monomials. -/
def subMonomial {n : Nat} (F : CoeffField) (p : List (Monomial n)) (c : coeffType)
    (t : Term n) : List (Monomial n) :=
  if p.any (fun m => m.2 == t) then
    p.map (fun m => if m.2 == t then (F.mulSub m.1 c 1, m.2) else m)
  else p ++ [(F.mulSub 0 c 1, t)]

/-- The polynomial `p - c * t * g`, without zero coefficients and sorted
descending. -/
def subScaled {n : Nat} (O : TOrdering n) (F : CoeffField) (p : List (Monomial n))
    (c : coeffType) (t : Term n) (g : List (Monomial n)) : List (Monomial n) :=
  stdSort (fun a b => TermComparator O true a.2 b.2)
    ((g.foldl (fun acc m => subMonomial F acc (F.mul c m.1) (t.mul m.2)) p).filter
      (fun m => m.1 ≠ 0))

/-- Modelled from the spec: the remainder of `p` on division by the list `B`
("reducing `g` modulo the output set").  The leading monomial of what is left
is cancelled by the first element of `B` whose leading term divides it, or
moved to the remainder `r` when there is none. -/
def normalForm {n : Nat} (O : TOrdering n) (F : CoeffField) (B : List (Polynomial n)) :
    Nat → List (Monomial n) → List (Monomial n) → Option (List (Monomial n))
  | _, [], r => some r
  | 0, _ :: _, _ => none
  | fuel + 1, m :: ms, r =>
    match B.find? (fun g => !g.coeffs.isEmpty && m.2.isDivisibleBy g.LT) with
    | some g =>
      let lc := (g.coeffs.headD (1, Term.one n)).1
      normalForm O F B fuel
        (subScaled O F (m :: ms) (F.mul m.1 (F.inv lc)) (m.2.div g.LT) g.coeffs) r
    | none => normalForm O F B fuel ms (r ++ [m])

/-! ## Concrete inputs -/

/-- The power product `x^a y^b z^c` in three indeterminates `x > y > z`. -/
def mk3 (a b c : Nat) : Term 3 := ⟨[a, b, c], rfl⟩

/-- The prime field with 32003 elements. -/
def F32003 : CoeffField := ⟨32003⟩

/-- The generator `x + y + z`. -/
def cyclic1 : Polynomial 3 := ⟨[(1, mk3 1 0 0), (1, mk3 0 1 0), (1, mk3 0 0 1)], 1⟩

/-- The generator `xy + xz + yz`. -/
def cyclic2 : Polynomial 3 := ⟨[(1, mk3 1 1 0), (1, mk3 1 0 1), (1, mk3 0 1 1)], 2⟩

/-- The generator `xyz - 1`. -/
def cyclic3 : Polynomial 3 := ⟨[(1, mk3 1 1 1), (32002, mk3 0 0 0)], 3⟩

/-- The polynomial `y^2 + yz + z^2`. -/
def cyclicOut2 : Polynomial 3 := ⟨[(1, mk3 0 2 0), (1, mk3 0 1 1), (1, mk3 0 0 2)], 2⟩

/-- The polynomial `z^3 - 1`. -/
def cyclicOut3 : Polynomial 3 := ⟨[(1, mk3 0 0 3), (32002, mk3 0 0 0)], 3⟩

/-- The pair set of the cyclic example after the initial `updatePairs`. -/
def cyclicPairs : F4PairSet 3 :=
  (F4.updatePairs (DegRevLexOrdering 3) (F4.empty 3) [] [cyclic3, cyclic2, cyclic1]).2

/-- The pair of `xy + xz + yz` (index 1) and `x + y + z` (index 2). -/
def cyclicPair12 : F4Pair 3 := F4.newPair [cyclic3, cyclic2, cyclic1] cyclic1 1 2

/-- The generator `x + y`. -/
def xPlusY : Polynomial 3 := ⟨[(1, mk3 1 0 0), (1, mk3 0 1 0)], 1⟩

/-- The generator `x + z`. -/
def xPlusZ : Polynomial 3 := ⟨[(1, mk3 1 0 0), (1, mk3 0 0 1)], 1⟩

/-- The power product `x^a y^b` in two indeterminates `x > y`. -/
def mk2 (a b : Nat) : Term 2 := ⟨[a, b], rfl⟩

/-- The generator `x^2 + y` in two indeterminates. -/
def xxPlusY : Polynomial 2 := ⟨[(1, mk2 2 0), (1, mk2 0 1)], 2⟩

/-- The generator `x` in two indeterminates. -/
def justX : Polynomial 2 := ⟨[(1, mk2 1 0)], 1⟩

/-- The generator `y` in two indeterminates. -/
def justY : Polynomial 2 := ⟨[(1, mk2 0 1)], 1⟩

/-- The leading terms are not constant and any two of them are relatively
prime (their lcm is their product). -/
def CoprimeLeadingTerms (polys : List (Polynomial n)) : Prop :=
  (∀ g ∈ polys, g.LT ≠ Term.one n) ∧
    polys.Pairwise (fun a b => Term.lcm a.LT b.LT = a.LT.mul b.LT)

/-- Line 183: the statement executed for one operation,
`rs[target] <- rs[target] - factor * rs[oper]`. -/
def F4.pReduceOp (F : CoeffField) (rs : List (List coeffType)) (op : F4Operation) :
    List (List coeffType) :=
  rs.set op.target (F.mulSubRow (rs.getD op.target []) (rs.getD op.oper []) op.factor)

/-- The triangular solve as the specification words it ("levels are executed
in order"): level 0 first, then level 1, and so on. -/
def F4.pReduceInOrder (F : CoeffField) (ops : List (List F4Operation))
    (rs : List (List coeffType)) : List (List coeffType) :=
  ops.foldl (fun rs level => level.foldl (F4.pReduceOp F) rs) rs

/-- The matrix entry `matrix[k][c]`; outside the table it reads as zero. -/
def F4.entry (matrix : List (List coeffType)) (k c : Nat) : coeffType :=
  (matrix.getD k []).getD c 0

/-- A table over the field of `F`: every row has `w` columns and every entry is
a residue. -/
def F4.MatrixOk (F : CoeffField) (w : Nat) (matrix : List (List coeffType)) : Prop :=
  (∀ k, k < matrix.length → (matrix.getD k []).length = w) ∧
    ∀ k c, F4.entry matrix k c < F.modn

/-- Row `i` is finished: either it is marked empty and is zero, or it is not
marked empty, its first nonzero entry is a 1 in some column `p`, and every
other odd row below `upper` has a zero in column `p`. -/
def F4.RowReduced (upper : Nat) (matrix : List (List coeffType)) (empty : List Bool)
    (i : Nat) : Prop :=
  (empty.getD i false = true ∧ ∀ c, F4.entry matrix i c = 0) ∨
    (empty.getD i false = false ∧
      ∃ p, F4.entry matrix i p = 1 ∧ (∀ c, c < p → F4.entry matrix i c = 0) ∧
        ∀ k, k < upper → k % 2 = 1 → k ≠ i → F4.entry matrix k p = 0)

/-- A table with two odd rows below `upper = 4`, for `gauss`. -/
def gaussIn : List (List coeffType) := [[0, 0, 0], [2, 4, 6], [0, 0, 0], [1, 2, 5]]

/-- The monomials that the loop of lines 240-267 walks for row `i`, each with
its shifted term `pcm[j]`: those of the row's basis element from position
`start` on. -/
def F4.rowMonomials {n : Nat} (f4 : F4 n) (upper i : Nat) (row : Nat × Term n) :
    List (Monomial n × Term n) :=
  let g := f4.groebnerBasis.getD row.1 default
  let ir := row.2.div g.LT
  ((g.coeffs.zip (g.coeffs.map (fun m => ir.mul m.2))).drop
    (if i > upper || i % 2 == 0 then 1 else 0))

/-- The operations the scheduler of lines 289-309 places, in the order in which
it walks them: for each entry of `pivotOpsOrdered` in turn, one operation per
element of its list, with the pivot row of the entry's term as the operator. -/
def F4.scheduledOps {n : Nat} (pivots : List (Term n × Nat))
    (pivotOpsOrdered : List (Term n × List (Nat × coeffType))) : List F4Operation :=
  pivotOpsOrdered.flatMap
    (fun it => it.2.map (fun e => F4Operation.mk e.1 (mapGet pivots it.1 0) e.2))

/-- The invariant of the scheduler state after the operations `done` have been
placed: there is a level, every counter points inside the levels, an operation
sits below the counters of its target and of its operator, the targets of a
level are distinct, an operation on a row sits above every operation that uses
the row as operator, and the levels hold exactly the operations placed. -/
def F4.SchedInv (sc : F4.Sched) (done : List F4Operation) : Prop :=
  1 ≤ sc.ops.length ∧
    (∀ x, x < sc.l.length → sc.l.getD x 0 < sc.ops.length) ∧
    (∀ L op, op ∈ sc.ops.getD L [] →
      op.target < sc.l.length ∧ op.oper < sc.l.length ∧
        L < sc.l.getD op.target 0 ∧ L < sc.l.getD op.oper 0) ∧
    (∀ L, ((sc.ops.getD L []).map F4Operation.target).Nodup) ∧
    (∀ L1 L2 op1 op2, op1 ∈ sc.ops.getD L1 [] → op2 ∈ sc.ops.getD L2 [] →
      op1.target = op2.oper → L2 < L1) ∧
    sc.ops.flatten.Perm done

/-- The ordering is compatible with multiplication: `a < b` gives
`c*a < c*b`. -/
def TOrdering.Multiplicative {n : Nat} (O : TOrdering n) : Prop :=
  ∀ a b c : Term n, O.lt a b = true → O.lt (c.mul a) (c.mul b) = true

/-- The monomials of a polynomial are sorted strictly descending, the class
invariant of `Polynomial`. -/
def SortedPoly {n : Nat} (O : TOrdering n) (g : Polynomial n) : Prop :=
  g.coeffs.Pairwise (fun a b => O.lt b.2 a.2 = true)

/-- The test `i > upper || i % 2 == 0` of line 238: row `i` is a pivot row,
walked from its second monomial on. -/
def F4.pivotRow (upper i : Nat) : Bool := i > upper || i % 2 == 0

/-- The invariant of symbolic preprocessing: the term of every row is a
multiple of the leading term of the row's basis element; every pivot entry
points to a pivot row with that term; every key of `pivotOps` has a pivot; and
a pivot row is listed only under terms smaller than its own term. -/
def F4.PrepInv {n : Nat} (O : TOrdering n) (f4 : F4 n) (upper : Nat) (st : Prep n) : Prop :=
  upper ≤ st.rows.length ∧
    (∀ x, x < st.rows.length →
      (st.rows.getD x (0, Term.one n)).2.isDivisibleBy
        (f4.groebnerBasis.getD (st.rows.getD x (0, Term.one n)).1 default).LT = true) ∧
    (∀ τ, mapHas st.pivots τ = true →
      mapGet st.pivots τ 0 < st.rows.length ∧ F4.pivotRow upper (mapGet st.pivots τ 0) = true ∧
        (st.rows.getD (mapGet st.pivots τ 0) (0, Term.one n)).2 = τ) ∧
    (∀ e ∈ st.pivotOps, mapHas st.pivots e.1 = true) ∧
    (∀ e ∈ st.pivotOps, ∀ rc ∈ e.2, rc.1 < st.rows.length ∧
      (F4.pivotRow upper rc.1 = true →
        O.lt e.1 (st.rows.getD rc.1 (0, Term.one n)).2 = true))

instance instDecidableSortedPoly {n : Nat} (O : TOrdering n) (g : Polynomial n) :
    Decidable (SortedPoly O g) :=
  inferInstanceAs (Decidable (g.coeffs.Pairwise (fun a b : Monomial n => O.lt b.2 a.2 = true)))

/-- The leading coefficient of the polynomial is 1. -/
def Monic {n : Nat} (g : Polynomial n) : Prop := g.coeffs.head?.map Prod.fst = some 1

instance instDecidableMonic {n : Nat} (g : Polynomial n) : Decidable (Monic g) :=
  inferInstanceAs (Decidable (g.coeffs.head?.map Prod.fst = some 1))

/-- The polynomial of a matrix row `(k, t)`: the coefficient of the term `u` in
`(t / LT(f_k)) * f_k`, as an element of the field. -/
def F4.rowPoly {n : Nat} (F : CoeffField) (f4 : F4 n) (row : Nat × Term n) (u : Term n) :
    ZMod F.modn :=
  (((f4.groebnerBasis.getD row.1 default).coeffs.filter
      (fun m => (row.2.div (f4.groebnerBasis.getD row.1 default).LT).mul m.2 = u)).map
    (fun m => (m.1 : ZMod F.modn))).sum

/-- A dense row read as a polynomial over the column terms: the coefficient of
the term `u`. -/
def F4.densePoly {n : Nat} (F : CoeffField) (terms : List (Term n)) (v : List coeffType)
    (u : Term n) : ZMod F.modn :=
  (((List.range terms.length).filter (fun c => terms.getD c (Term.one n) = u)).map
    (fun c => (v.getD c 0 : ZMod F.modn))).sum

/-- The sum of the coefficients a sparse row holds for the term `u`. -/
def F4.sumAt {n : Nat} (row : List (Monomial n)) (u : Term n) : Nat :=
  ((row.filter (fun e => e.2 = u)).map Prod.fst).sum

/-- The sum of the coefficients of the walked monomials whose shifted term is
`u`. -/
def F4.monoSum {n : Nat} (ms : List (Monomial n × Term n)) (u : Term n) : Nat :=
  ((ms.filter (fun mt => mt.2 = u)).map (fun mt => mt.1.1)).sum

/-- The sum of the coefficients that `pivotOps` lists for row `x` under the
term `u`. -/
def F4.poSum {n : Nat} (pivotOps : List (Term n × List (Nat × coeffType))) (x : Nat)
    (u : Term n) : Nat :=
  ((pivotOps.filter (fun e => e.1 = u)).map
    (fun e => ((e.2.filter (fun rc => rc.1 = x)).map Prod.snd).sum)).sum

/-- What symbolic preprocessing has stored, when `P x` are the monomials walked
so far for row `x`: every walked monomial went either to the sparse row or to
`pivotOps`; the sparse rows only hold collected terms; no collected term has a
pivot; `pivotOps` has one entry per term; and the rows name basis elements. -/
def F4.ContentInv {n : Nat} (f4 : F4 n) (P : Nat → List (Monomial n × Term n))
    (st : Prep n) : Prop :=
  (∀ x u, F4.sumAt (st.rightSide.getD x []) u + F4.poSum st.pivotOps x u = F4.monoSum (P x) u) ∧
    (∀ x, ∀ e ∈ st.rightSide.getD x [], e.2 ∈ st.termsUnordered) ∧
    (∀ u ∈ st.termsUnordered, mapHas st.pivots u = false) ∧
    (st.pivotOps.map Prod.fst).Nodup ∧
    (∀ x, x < st.rows.length →
      (st.rows.getD x (0, Term.one n)).1 < f4.groebnerBasis.length)

/-- The final polynomial of row `x` after `pReduce`: the dense row read over the
column terms, plus the implicit leading monomial (the row's own term with
coefficient 1) when `x` is a pivot row. -/
def F4.fullPoly {n : Nat} (F : CoeffField) (upper : Nat) (rows : List (Nat × Term n))
    (terms : List (Term n)) (R : List (List coeffType)) (x : Nat) (u : Term n) :
    ZMod F.modn :=
  F4.densePoly F terms (R.getD x []) u +
    (if F4.pivotRow upper x = true ∧ (rows.getD x (0, Term.one n)).2 = u then 1 else 0)

/-- A set of terms is closed under symbolic preprocessing: with a term `τ` and a
basis element `g` whose leading term divides `τ`, it holds the term of every
monomial of `(τ / LT(g)) * g`. -/
def F4.TermClosed {n : Nat} (G : List (Polynomial n)) (S : Finset (Term n)) : Prop :=
  ∀ τ ∈ S, ∀ g ∈ G, τ.isDivisibleBy g.LT = true →
    ∀ m ∈ g.coeffs, (τ.div g.LT).mul m.2 ∈ S

/-- The rows stay inside a set `S` of terms, and the rows appended after the
seed rows have distinct terms, each with a pivot. -/
def F4.BoundInv {n : Nat} (S : Finset (Term n)) (upper : Nat) (st : Prep n) : Prop :=
  (∀ e ∈ st.rows, e.2 ∈ S) ∧ ((st.rows.drop upper).map Prod.snd).Nodup ∧
    (∀ e ∈ st.rows.drop upper, mapHas st.pivots e.2 = true)

/-- Every leading term of the basis is a multiple of the leading term of an
element flagged in-basis. -/
def Cover {n : Nat} (f4 : F4 n) : Prop :=
  ∀ i, i < f4.groebnerBasis.length →
    ∃ j, j < f4.groebnerBasis.length ∧ f4.inGroebnerBasis.getD j false = true ∧
      (f4.groebnerBasis.getD i default).LT.isDivisibleBy (f4.groebnerBasis.getD j default).LT
        = true

/-- The basis `G'` extends `G` by at least one element whose leading term is not
a multiple of any leading term of `G`. -/
def F4.Grows {n : Nat} (G G' : List (Polynomial n)) : Prop :=
  (∀ g ∈ G, g ∈ G') ∧ ∃ h ∈ G', ∀ g ∈ G, h.LT.isDivisibleBy g.LT = false

/-- One turn of the driver loop makes progress: the basis grows by a new
leading term, or the basis stays and the pair set shrinks. -/
def F4.StepRel {n : Nat} (s' s : F4 n × F4PairSet n) : Prop :=
  F4.Grows s.1.groebnerBasis s'.1.groebnerBasis ∨
    (s'.1.groebnerBasis = s.1.groebnerBasis ∧ s'.2.length < s.2.length)

/-- What the driver keeps true of its state: the invariant of the pair manager,
sorted polynomials with reduced coefficients, and covered leading terms. -/
def F4.StateOk {n : Nat} (O : TOrdering n) (F : CoeffField) (s : F4 n × F4PairSet n) : Prop :=
  Inv s ∧ (∀ g ∈ s.1.groebnerBasis, SortedPoly O g) ∧
    (∀ g ∈ s.1.groebnerBasis, ∀ m ∈ g.coeffs, m.1 < F.modn) ∧ Cover s.1

/-- Lines 160-162: the rows `k = (i + j) % upper` that the update loop of row
`i` visits, in the order of the loop variable `j = 2, 4, ...`. -/
def F4.gaussTargets (upper i : Nat) : List Nat :=
  ((List.range upper).filter (fun j => 2 ≤ j && j % 2 == 0)).map (fun j => (i + j) % upper)

/-- What symbolic preprocessing keeps true of its containers, whatever the
basis holds: the rows cover the seed block; `pivots` has one entry per term and
extends the seed entries `pivots0` by entries that point at or above `upper`;
every entry points at a row with that term; every row from `upper` on was
appended for its term with an in-basis element whose leading term divides the
term, and is registered; every key of `pivotOps` has a pivot and lists rows
that exist; `pivotOps` has one entry per term; a collected term has neither a
pivot nor an in-basis reducer; and the sparse rows hold collected terms only. -/
def F4.PivotInv {n : Nat} (f4 : F4 n) (upper : Nat) (pivots0 : List (Term n × Nat))
    (st : Prep n) : Prop :=
  upper ≤ st.rows.length ∧
  (st.pivots.map Prod.fst).Nodup ∧
  (∃ extra, st.pivots = pivots0 ++ extra ∧ ∀ e ∈ extra, upper ≤ e.2) ∧
  (∀ e ∈ st.pivots, e.2 < st.rows.length ∧ (st.rows.getD e.2 (0, Term.one n)).2 = e.1) ∧
  (∀ x, upper ≤ x → x < st.rows.length →
    (st.rows.getD x (0, Term.one n)).1 < f4.groebnerBasis.length ∧
    f4.inGroebnerBasis.getD (st.rows.getD x (0, Term.one n)).1 false = true ∧
    (st.rows.getD x (0, Term.one n)).2.isDivisibleBy
      (f4.groebnerBasis.getD (st.rows.getD x (0, Term.one n)).1 default).LT = true ∧
    ((st.rows.getD x (0, Term.one n)).2, x) ∈ st.pivots) ∧
  (∀ e ∈ st.pivotOps, mapHas st.pivots e.1 = true ∧ ∀ rc ∈ e.2, rc.1 < st.rows.length) ∧
  (st.pivotOps.map Prod.fst).Nodup ∧
  (∀ u ∈ st.termsUnordered, mapHas st.pivots u = false ∧ f4.findReducer u = none) ∧
  (∀ x, ∀ e ∈ st.rightSide.getD x [], e.2 ∈ st.termsUnordered)

/-- Lines 234-235: the polynomial of the matrix row `(k, t)`, the product
`(t / LT(f_k)) * f_k`, monomial by monomial (`ir` times each term of `f_k`). -/
def F4.rowPolynomial {n : Nat} (f4 : F4 n) (row : Nat × Term n) : Polynomial n :=
  ⟨(f4.groebnerBasis.getD row.1 default).coeffs.map
      (fun m => (m.1, (row.2.div (f4.groebnerBasis.getD row.1 default).LT).mul m.2)),
    (f4.groebnerBasis.getD row.1 default).sugar⟩

/-- What the scheduler keeps true after the operations `done` have been placed,
whatever the operations are: there is a level; every counter points inside the
levels; an operation of level `L` has a target whose counter is above `L`;
every level but the last holds an operation; and the levels hold exactly the
operations placed. -/
def F4.LevelInv (sc : F4.Sched) (done : List F4Operation) : Prop :=
  1 ≤ sc.ops.length ∧
    (∀ x, x < sc.l.length → sc.l.getD x 0 < sc.ops.length) ∧
    (∀ L op, op ∈ sc.ops.getD L [] → op.target < sc.l.length ∧ L < sc.l.getD op.target 0) ∧
    (∀ L, L + 1 < sc.ops.length → sc.ops.getD L [] ≠ []) ∧
    sc.ops.flatten.Perm done

/-- The state of the cyclic example after the initial `updatePairs`: only
`x + y + z` is flagged in-basis. -/
def cyclicF4 : F4 3 := ⟨[cyclic3, cyclic2, cyclic1], [false, false, true], 0⟩

/-- Lines 176-186, with the parallel loop of lines 180-184 spelled out.  The
levels run from the last to the first, one after the other (the parallel loop
of a level ends before the next level starts).  Line 180
(`#pragma omp parallel for`) fixes no order among the operations of a level,
so `orders` gives, for every level, the order in which its operations take
effect: `orders[i]` is an arrangement of `ops[i]`. -/
def F4.pReduceParallel (F : CoeffField) (orders : List (List F4Operation))
    (rs : List (List coeffType)) : List (List coeffType) :=
  orders.reverse.foldl (fun rs order => order.foldl (F4.pReduceOp F) rs) rs

/-- A schedule with two operations in level 0 and one in level 1. -/
def levelsIn : List (List F4Operation) := [[⟨1, 0, 1⟩, ⟨2, 0, 1⟩], [⟨0, 3, 1⟩]]

/-- The schedule `levelsIn` with the two operations of level 0 taking effect in
the other order. -/
def levelsSwapped : List (List F4Operation) := [[⟨2, 0, 1⟩, ⟨1, 0, 1⟩], [⟨0, 3, 1⟩]]

/-! # Theorems -/

variable {n : Nat}

/-! ## Sets of pairs -/

theorem pairEquiv_iff (O : TOrdering n) (a b : F4Pair n) :
    (!F4PairComparator O a b && !F4PairComparator O b a) = true ↔ a.LCM = b.LCM := by
  simp only [F4PairComparator, TermComparator, Bool.false_eq_true, if_false, Bool.and_eq_true,
    Bool.not_eq_true']
  constructor
  · rintro ⟨h1, h2⟩
    by_contra hne
    rcases O.total _ _ hne with h | h
    · rw [h1] at h; exact Bool.false_ne_true h
    · rw [h2] at h; exact Bool.false_ne_true h
  · intro h
    rw [h]
    exact ⟨O.irrefl _, O.irrefl _⟩

theorem setInsert_of_key_mem (O : TOrdering n) (x : F4Pair n) (s : F4PairSet n)
    (h : ∃ y ∈ s, y.LCM = x.LCM) : setInsert (F4PairComparator O) x s = (s, false) := by
  unfold setInsert
  rw [if_pos]
  rw [List.any_eq_true]
  obtain ⟨y, hy, hk⟩ := h
  exact ⟨y, hy, (pairEquiv_iff O x y).2 hk.symm⟩

theorem setInsert_of_key_not_mem (O : TOrdering n) (x : F4Pair n) (s : F4PairSet n)
    (h : ∀ y ∈ s, y.LCM ≠ x.LCM) :
    setInsert (F4PairComparator O) x s
      = (List.orderedInsert (fun a b => F4PairComparator O a b = true) x s, true) := by
  unfold setInsert
  rw [if_neg]
  rw [List.any_eq_true]
  rintro ⟨y, hy, hk⟩
  exact h y hy ((pairEquiv_iff O x y).1 hk).symm

theorem setInsert_perm (O : TOrdering n) (x : F4Pair n) (s : F4PairSet n)
    (h : ∀ y ∈ s, y.LCM ≠ x.LCM) : (setInsert (F4PairComparator O) x s).1.Perm (x :: s) := by
  rw [setInsert_of_key_not_mem O x s h]
  exact List.perm_orderedInsert _ _ _

theorem setInsert_mem (O : TOrdering n) (x : F4Pair n) (s : F4PairSet n) (q : F4Pair n) :
    q ∈ (setInsert (F4PairComparator O) x s).1 ↔
      q ∈ s ∨ (q = x ∧ ∀ y ∈ s, y.LCM ≠ x.LCM) := by
  by_cases h : ∃ y ∈ s, y.LCM = x.LCM
  · rw [setInsert_of_key_mem O x s h]
    constructor
    · intro hq; exact Or.inl hq
    · rintro (hq | ⟨_, hq⟩)
      · exact hq
      · obtain ⟨y, hy, hk⟩ := h
        exact absurd hk (hq y hy)
  · have h' : ∀ y ∈ s, y.LCM ≠ x.LCM := fun y hy hk => h ⟨y, hy, hk⟩
    rw [(setInsert_perm O x s h').mem_iff]
    simp only [List.mem_cons]
    constructor
    · rintro (hq | hq)
      · exact Or.inr ⟨hq, h'⟩
      · exact Or.inl hq
    · rintro (hq | ⟨hq, _⟩)
      · exact Or.inr hq
      · exact Or.inl hq

theorem keysDistinct_perm {s t : F4PairSet n} (h : s.Perm t) :
    KeysDistinct s ↔ KeysDistinct t :=
  List.Perm.pairwise_iff (fun hxy => fun e => hxy e.symm) h

theorem keysDistinct_setInsert (O : TOrdering n) (x : F4Pair n) (s : F4PairSet n)
    (hs : KeysDistinct s) : KeysDistinct (setInsert (F4PairComparator O) x s).1 := by
  by_cases h : ∃ y ∈ s, y.LCM = x.LCM
  · rw [setInsert_of_key_mem O x s h]; exact hs
  · have h' : ∀ y ∈ s, y.LCM ≠ x.LCM := fun y hy hk => h ⟨y, hy, hk⟩
    rw [keysDistinct_perm (setInsert_perm O x s h')]
    exact List.Pairwise.cons (fun y hy => (h' y hy).symm) hs

theorem criterionB_fold_perm (O : TOrdering n) (G : List (Polynomial n)) (h : Polynomial n) :
    ∀ (pairs acc : F4PairSet n), KeysDistinct (acc ++ pairs) →
      (pairs.foldl (fun P1 p =>
          if F4.keepB G h p then (setInsert (F4PairComparator O) p P1).1 else P1) acc).Perm
        (acc ++ pairs.filter (F4.keepB G h)) := by
  intro pairs
  induction pairs with
  | nil => intro acc _; simp
  | cons p ps ih =>
    intro acc hk
    simp only [List.foldl_cons]
    by_cases hp : F4.keepB G h p = true
    · have hacc : ∀ y ∈ acc, y.LCM ≠ p.LCM := by
        intro y hy
        have := List.pairwise_append.1 hk
        exact this.2.2 y hy p (List.mem_cons_self _ _)
      have hperm := setInsert_perm O p acc hacc
      rw [if_pos hp, List.filter_cons_of_pos hp]
      have hk' : KeysDistinct ((setInsert (F4PairComparator O) p acc).1 ++ ps) := by
        have hp2 : ((setInsert (F4PairComparator O) p acc).1 ++ ps).Perm (acc ++ p :: ps) := by
          refine (List.Perm.append_right ps hperm).trans ?_
          exact (List.perm_middle : (acc ++ p :: ps).Perm (p :: (acc ++ ps))).symm
        exact (keysDistinct_perm hp2).2 hk
      refine (ih _ hk').trans ?_
      refine (List.Perm.append_right _ hperm).trans ?_
      exact (List.perm_middle : (acc ++ p :: ps.filter (F4.keepB G h)).Perm
        (p :: (acc ++ ps.filter (F4.keepB G h)))).symm
    · rw [if_neg hp, List.filter_cons_of_neg hp]
      apply ih
      have : (acc ++ ps).Sublist (acc ++ p :: ps) :=
        List.Sublist.append_left (List.sublist_cons_self p ps) acc
      exact List.Pairwise.sublist this hk


/-! ## Divisibility of terms -/

theorem divList_iff : ∀ (a b : List Nat), a.length = b.length →
    ((List.zipWith (fun x y => decide (y ≤ x)) a b).all id = true ↔ List.Forall₂ (fun x y => y ≤ x) a b)
  | [], [] => by simp
  | [], _ :: _ => by simp
  | _ :: _, [] => by simp
  | x :: a, y :: b => by
    intro hl
    have ih := divList_iff a b (by simpa using hl)
    simp only [List.zipWith_cons_cons, List.all_cons, id, Bool.and_eq_true, decide_eq_true_eq,
      List.forall₂_cons]
    rw [ih]

theorem Term.isDivisibleBy_iff (a b : Term n) :
    a.isDivisibleBy b = true ↔ List.Forall₂ (fun x y => y ≤ x) a.1 b.1 :=
  divList_iff a.1 b.1 (by rw [a.2, b.2])

theorem forall₂_ge_trans : ∀ (a b c : List Nat), List.Forall₂ (fun x y => y ≤ x) a b →
    List.Forall₂ (fun x y => y ≤ x) b c → List.Forall₂ (fun x y => y ≤ x) a c := by
  intro a b c h1
  induction h1 generalizing c with
  | nil => intro h2; cases h2; exact List.Forall₂.nil
  | cons hxy _ ih =>
    intro h2
    cases h2 with
    | cons hyz h2' => exact List.Forall₂.cons (le_trans hyz hxy) (ih _ h2')

theorem forall₂_ge_sum : ∀ (a b : List Nat), List.Forall₂ (fun x y => y ≤ x) a b →
    b.sum ≤ a.sum ∧ (a ≠ b → b.sum < a.sum) := by
  intro a b h
  induction h with
  | nil => simp
  | cons hxy _ ih =>
    rename_i x y a b _
    obtain ⟨ih1, ih2⟩ := ih
    refine ⟨by simp only [List.sum_cons]; omega, ?_⟩
    intro hne
    simp only [List.sum_cons]
    by_cases hab : a = b
    · subst hab
      have : x ≠ y := fun e => hne (by rw [e])
      omega
    · have := ih2 hab
      omega

theorem Term.isDivisibleBy_refl (a : Term n) : a.isDivisibleBy a = true := by
  rw [Term.isDivisibleBy_iff]
  exact List.forall₂_same.2 (fun _ _ => le_refl _)

theorem Term.isDivisibleBy_trans {a b c : Term n} (h1 : a.isDivisibleBy b = true)
    (h2 : b.isDivisibleBy c = true) : a.isDivisibleBy c = true := by
  rw [Term.isDivisibleBy_iff] at *
  exact forall₂_ge_trans _ _ _ h1 h2

theorem properMultiple_sum {a b : Term n} (h : F4.properMultiple a b = true) :
    b.1.sum < a.1.sum := by
  simp only [F4.properMultiple, Bool.and_eq_true, bne_iff_ne] at h
  rw [Term.isDivisibleBy_iff] at h
  exact (forall₂_ge_sum _ _ h.1).2 (fun e => h.2 (Subtype.ext e))

theorem properMultiple_trans {a b c : Term n} (h1 : F4.properMultiple a b = true)
    (h2 : F4.properMultiple b c = true) : F4.properMultiple a c = true := by
  have s1 := properMultiple_sum h1
  have s2 := properMultiple_sum h2
  simp only [F4.properMultiple, Bool.and_eq_true, bne_iff_ne] at h1 h2 ⊢
  refine ⟨Term.isDivisibleBy_trans h1.1 h2.1, ?_⟩
  intro e
  rw [e] at s1
  omega

theorem properMultiple_irrefl (a : Term n) : F4.properMultiple a a = false := by
  simp [F4.properMultiple]


theorem getD_set_false (D : List Bool) (i k : Nat) :
    (D.set k false).getD i false = (if i = k then false else D.getD i false) := by
  simp only [List.getD_eq_getElem?_getD, List.getElem?_set]
  by_cases h : k = i
  · subst h
    by_cases hk : k < D.length <;> simp [hk]
  · have h' : ¬ i = k := fun e => h e.symm
    simp [h, h']

theorem inner_fold_gen (i : Nat) (c : Nat → Bool) :
    ∀ (js : List Nat) (D : List Bool),
      js.foldl (fun D j =>
          if D.getD i false && (i != j && D.getD j false) then
            if c j then D.set i false else D
          else D) D
        = if D.getD i false && js.any (fun j => j != i && D.getD j false && c j)
          then D.set i false else D := by
  intro js
  induction js with
  | nil => intro D; simp
  | cons j js ih =>
    intro D
    simp only [List.foldl_cons, List.any_cons]
    rw [ih]
    by_cases hi : D.getD i false = true
    · by_cases hij : i = j
      · subst hij
        simp [-List.getD_eq_getElem?_getD, hi]
      · have hji : ¬ j = i := fun e => hij e.symm
        by_cases hj : D.getD j false = true
        · by_cases hc : c j = true
          · simp [-List.getD_eq_getElem?_getD, hi, hij, hji, hj, hc, getD_set_false]
          · simp [-List.getD_eq_getElem?_getD, hi, hij, hji, hj, hc]
        · simp [-List.getD_eq_getElem?_getD, hi, hij, hji, hj]
    · simp [-List.getD_eq_getElem?_getD, hi]

theorem criterionMInner_eq (G : List (Polynomial n)) (h : Polynomial n) (i : Nat)
    (D : List Bool) :
    F4.criterionMInner G h i D
      = if D.getD i false && (List.range D.length).any (fun j => j != i && D.getD j false &&
            F4.properMultiple (h.lcmLT (G.getD i default)) (h.lcmLT (G.getD j default)))
        then D.set i false else D := by
  unfold F4.criterionMInner
  exact inner_fold_gen i
    (fun j => F4.properMultiple (h.lcmLT (G.getD i default)) (h.lcmLT (G.getD j default))) _ D


theorem criterionMSpec_imp (G : List (Polynomial n)) (h : Polynomial n) (D : List Bool)
    (i : Nat) (hs : F4.criterionMSpec G h D i = true) : D.getD i false = true := by
  simp only [F4.criterionMSpec, Bool.and_eq_true] at hs
  exact hs.1

theorem getD_true_lt (D : List Bool) (i : Nat) (hi : D.getD i false = true) : i < D.length := by
  by_contra hlt
  rw [List.getD_eq_default _ _ (by omega)] at hi
  exact Bool.false_ne_true hi

theorem exists_minimal_survivor (G : List (Polynomial n)) (h : Polynomial n) (D : List Bool)
    (a : Term n) :
    ∀ (d j : Nat), (h.lcmLT (G.getD j default)).1.sum = d → D.getD j false = true →
      F4.properMultiple a (h.lcmLT (G.getD j default)) = true →
      ∃ j', D.getD j' false = true ∧ F4.properMultiple a (h.lcmLT (G.getD j' default)) = true ∧
        F4.criterionMSpec G h D j' = true := by
  intro d
  induction d using Nat.strong_induction_on with
  | _ d ih =>
    intro j hd hj hpm
    by_cases hs : F4.criterionMSpec G h D j = true
    · exact ⟨j, hj, hpm, hs⟩
    · simp only [F4.criterionMSpec, hj, Bool.true_and, Bool.not_eq_true', Bool.not_eq_false,
        List.any_eq_true, Bool.and_eq_true] at hs
      obtain ⟨j2, _, ⟨_, hj2⟩, hpm2⟩ := hs
      have hlt := properMultiple_sum hpm2
      exact ih _ (by omega) j2 rfl hj2 (properMultiple_trans hpm hpm2)

theorem criterionM_upto (G : List (Polynomial n)) (h : Polynomial n) (D : List Bool) :
    ∀ k, k ≤ D.length →
      ((List.range k).foldl (fun D' i => F4.criterionMInner G h i D') D).length = D.length ∧
      ∀ i, ((List.range k).foldl (fun D' i => F4.criterionMInner G h i D') D).getD i false
        = if i < k then F4.criterionMSpec G h D i else D.getD i false := by
  intro k
  induction k with
  | zero => intro _; simp
  | succ k ih =>
    intro hk
    obtain ⟨hlen, hget⟩ := ih (by omega)
    rw [List.range_succ, List.foldl_append]
    simp only [List.foldl_cons, List.foldl_nil]
    generalize hDk : (List.range k).foldl (fun D' i => F4.criterionMInner G h i D') D = Dk at *
    rw [criterionMInner_eq]
    have hkk : Dk.getD k false = D.getD k false := by rw [hget]; simp
    have hany : (List.range Dk.length).any (fun j => j != k && Dk.getD j false &&
            F4.properMultiple (h.lcmLT (G.getD k default)) (h.lcmLT (G.getD j default)))
        = (List.range D.length).any (fun j => j != k && D.getD j false &&
            F4.properMultiple (h.lcmLT (G.getD k default)) (h.lcmLT (G.getD j default))) := by
      rw [hlen, Bool.eq_iff_iff]
      simp only [List.any_eq_true, Bool.and_eq_true, bne_iff_ne, List.mem_range]
      constructor
      · rintro ⟨j, hjl, ⟨hjk, hj⟩, hpm⟩
        refine ⟨j, hjl, ⟨hjk, ?_⟩, hpm⟩
        rw [hget] at hj
        split_ifs at hj
        · exact criterionMSpec_imp G h D j hj
        · exact hj
      · rintro ⟨j, _, ⟨_, hj⟩, hpm⟩
        obtain ⟨j2, hj2, hpm2, hs2⟩ := exists_minimal_survivor G h D _ _ j rfl hj hpm
        have hne : j2 ≠ k := by
          intro e
          rw [e, properMultiple_irrefl] at hpm2
          exact Bool.false_ne_true hpm2
        refine ⟨j2, getD_true_lt D j2 hj2, ⟨hne, ?_⟩, hpm2⟩
        rw [hget]
        split_ifs
        · exact hs2
        · exact hj2
    rw [hkk, hany]
    have hspec : F4.criterionMSpec G h D k = (D.getD k false &&
        !(List.range D.length).any (fun j => j != k && D.getD j false &&
            F4.properMultiple (h.lcmLT (G.getD k default)) (h.lcmLT (G.getD j default)))) := rfl
    generalize (List.range D.length).any (fun j => j != k && D.getD j false &&
            F4.properMultiple (h.lcmLT (G.getD k default)) (h.lcmLT (G.getD j default))) = A
      at hspec ⊢
    constructor
    · split_ifs <;> simp [hlen]
    · intro i
      by_cases hik : i = k
      · subst hik
        rw [if_pos (show i < i + 1 by omega), hspec]
        cases hD : D.getD i false
        · rw [hD] at hkk
          simp [-List.getD_eq_getElem?_getD, hkk]
        · cases A
          · rw [hD] at hkk
            simp [-List.getD_eq_getElem?_getD, hkk]
          · simp [-List.getD_eq_getElem?_getD, getD_set_false]
      · have e : (if (D.getD k false && A) = true then Dk.set k false else Dk).getD i false
            = Dk.getD i false := by
          split_ifs
          · rw [getD_set_false, if_neg hik]
          · rfl
        rw [e, hget]
        by_cases h1 : i < k
        · rw [if_pos h1, if_pos (by omega)]
        · rw [if_neg h1, if_neg (by omega)]

theorem criterionM_eq_spec (G : List (Polynomial n)) (h : Polynomial n) (D1 : List Bool) :
    F4.criterionM G h D1 = (List.range D1.length).map (F4.criterionMSpec G h D1) := by
  obtain ⟨hlen, hget⟩ := criterionM_upto G h D1 D1.length (le_refl _)
  unfold F4.criterionM
  apply List.ext_getElem
  · simp [hlen]
  · intro i h1 h2
    have := hget i
    rw [hlen] at h1
    rw [if_pos h1, List.getD_eq_getElem _ _ (by omega)] at this
    rw [this]
    simp


/-! ## Criterion B and Criterion M -/

theorem criterionB_perm (O : TOrdering n) (G : List (Polynomial n)) (h : Polynomial n)
    (pairs : F4PairSet n) (hk : KeysDistinct pairs) :
    (F4.criterionB O G h pairs).Perm (pairs.filter (F4.keepB G h)) := by
  have := criterionB_fold_perm O G h pairs [] (by simpa using hk)
  simpa [F4.criterionB] using this

theorem criterionM_getD (G : List (Polynomial n)) (h : Polynomial n) (D1 : List Bool)
    (i : Nat) :
    (F4.criterionM G h D1).getD i false
      = if i < D1.length then F4.criterionMSpec G h D1 i else D1.getD i false :=
  (criterionM_upto G h D1 D1.length (le_refl _)).2 i

/-- C4: for a pair set (one pair per lcm) and a new polynomial `h`, the pair
set after the Criterion-B pass consists of exactly the old pairs `(i, j, lcm)`
for which `lcm` is not divisible by `LT(h)`, or `lcm(LT(h), LT(f_i)) = lcm`, or
`lcm(LT(h), LT(f_j)) = lcm`, each of them once; every other old pair is gone. -/
theorem C4_criterionB_exact (O : TOrdering n) (G : List (Polynomial n)) (h : Polynomial n)
    (pairs : F4PairSet n) (hk : KeysDistinct pairs) :
    (F4.criterionB O G h pairs).Perm
        (pairs.filter (fun p =>
          !p.LCM.isDivisibleBy h.LT || Term.lcm h.LT (G.getD p.i default).LT == p.LCM
            || Term.lcm h.LT (G.getD p.j default).LT == p.LCM)) ∧
      ∀ p, p ∈ F4.criterionB O G h pairs ↔
        p ∈ pairs ∧ (p.LCM.isDivisibleBy h.LT = false
          ∨ Term.lcm h.LT (G.getD p.i default).LT = p.LCM
          ∨ Term.lcm h.LT (G.getD p.j default).LT = p.LCM) := by
  have hperm := criterionB_perm O G h pairs hk
  refine ⟨hperm, ?_⟩
  intro p
  rw [hperm.mem_iff, List.mem_filter]
  simp [F4.keepB, Polynomial.lcmLT, or_assoc]

/-- C5: the in-place Criterion-M loop leaves set exactly the flags the
declarative rule leaves set on the original candidate set: the candidate
`(i, t)` survives if and only if `i` is in-basis and no other in-basis `j` has
`lcm(LT(h), LT(f_i))` a proper multiple of `lcm(LT(h), LT(f_j))`. -/
theorem C5_criterionM_refines_spec (G : List (Polynomial n)) (h : Polynomial n)
    (D1 : List Bool) :
    F4.criterionM G h D1 = (List.range D1.length).map (F4.criterionMSpec G h D1) ∧
      ∀ i, (F4.criterionM G h D1).getD i false = true ↔
        (D1.getD i false = true ∧
          ¬ ∃ j, j ≠ i ∧ D1.getD j false = true ∧
            (Term.lcm h.LT (G.getD i default).LT).isDivisibleBy
                (Term.lcm h.LT (G.getD j default).LT) = true ∧
            Term.lcm h.LT (G.getD i default).LT ≠ Term.lcm h.LT (G.getD j default).LT) := by
  refine ⟨criterionM_eq_spec G h D1, ?_⟩
  intro i
  obtain ⟨_, hget⟩ := criterionM_upto G h D1 D1.length (le_refl _)
  have hfold : F4.criterionM G h D1
      = (List.range D1.length).foldl (fun D i => F4.criterionMInner G h i D) D1 := rfl
  rw [hfold, hget i]
  by_cases hi : i < D1.length
  · rw [if_pos hi]
    simp only [F4.criterionMSpec, F4.properMultiple, Polynomial.lcmLT, Bool.and_eq_true,
      Bool.not_eq_true', List.any_eq_false, List.mem_range, bne_iff_ne, not_exists, not_and]
    constructor
    · rintro ⟨h1, h2⟩
      refine ⟨h1, ?_⟩
      intro j hji hj hd hne
      exact h2 j (getD_true_lt D1 j hj) ⟨hji, hj⟩ hd hne
    · rintro ⟨h1, h2⟩
      refine ⟨h1, ?_⟩
      rintro j _ ⟨hji, hj⟩ hd
      exact h2 j hji hj hd
  · rw [if_neg hi]
    constructor
    · intro h1; exact absurd (getD_true_lt D1 i h1) hi
    · rintro ⟨h1, _⟩; exact absurd (getD_true_lt D1 i h1) hi

/-- C4, at the two pairs of the cyclic example and the new polynomial
`y^2 + yz + z^2`. -/
theorem C4_criterionB_exact_witness :
    KeysDistinct [F4.newPair [cyclic3, cyclic2, cyclic1] cyclic1 1 2,
        F4.newPair [cyclic3, cyclic2, cyclic1] cyclic2 0 1] ∧
      ((F4.criterionB (DegRevLexOrdering 3) [cyclic3, cyclic2, cyclic1] cyclicOut2
          [F4.newPair [cyclic3, cyclic2, cyclic1] cyclic1 1 2,
            F4.newPair [cyclic3, cyclic2, cyclic1] cyclic2 0 1]).Perm
        ([F4.newPair [cyclic3, cyclic2, cyclic1] cyclic1 1 2,
            F4.newPair [cyclic3, cyclic2, cyclic1] cyclic2 0 1].filter (fun p =>
          !p.LCM.isDivisibleBy cyclicOut2.LT
            || Term.lcm cyclicOut2.LT ([cyclic3, cyclic2, cyclic1].getD p.i default).LT == p.LCM
            || Term.lcm cyclicOut2.LT ([cyclic3, cyclic2, cyclic1].getD p.j default).LT == p.LCM)) ∧
        ∀ p, p ∈ F4.criterionB (DegRevLexOrdering 3) [cyclic3, cyclic2, cyclic1] cyclicOut2
            [F4.newPair [cyclic3, cyclic2, cyclic1] cyclic1 1 2,
              F4.newPair [cyclic3, cyclic2, cyclic1] cyclic2 0 1] ↔
          p ∈ [F4.newPair [cyclic3, cyclic2, cyclic1] cyclic1 1 2,
              F4.newPair [cyclic3, cyclic2, cyclic1] cyclic2 0 1] ∧
            (p.LCM.isDivisibleBy cyclicOut2.LT = false
              ∨ Term.lcm cyclicOut2.LT ([cyclic3, cyclic2, cyclic1].getD p.i default).LT = p.LCM
              ∨ Term.lcm cyclicOut2.LT ([cyclic3, cyclic2, cyclic1].getD p.j default).LT = p.LCM)) :=
  ⟨by unfold KeysDistinct; decide,
    C4_criterionB_exact (DegRevLexOrdering 3) [cyclic3, cyclic2, cyclic1] cyclicOut2 _
      (by unfold KeysDistinct; decide)⟩


theorem scan_fold (c : Nat → Bool) : ∀ (js : List Nat) (b : Bool),
    js.foldl (fun ins i => if ins && c i then false else ins) b = (b && !js.any c) := by
  intro js
  induction js with
  | nil => intro b; simp
  | cons j js ih =>
    intro b
    simp only [List.foldl_cons, List.any_cons]
    rw [ih]
    cases b <;> cases c j <;> simp

theorem scanInsertIntoG_eq (G : List (Polynomial n)) (D1 : List Bool) (h : Polynomial n) :
    F4.scanInsertIntoG G D1 h
      = !(List.range G.length).any
          (fun i => D1.getD i false && h.LT.isDivisibleBy (G.getD i default).LT) := by
  unfold F4.scanInsertIntoG
  rw [scan_fold (fun i => D1.getD i false && h.LT.isDivisibleBy (G.getD i default).LT)]
  simp

theorem clear_fold (c : Nat → Bool) : ∀ (js : List Nat) (fl : List Bool),
    (js.foldl (fun fl j => if fl.getD j false && c j then fl.set j false else fl) fl).length
        = fl.length ∧
      ∀ i, (js.foldl (fun fl j => if fl.getD j false && c j then fl.set j false else fl) fl).getD
          i false = (fl.getD i false && !(decide (i ∈ js) && c i)) := by
  intro js
  induction js with
  | nil => intro fl; simp
  | cons j js ih =>
    intro fl
    simp only [List.foldl_cons]
    obtain ⟨hl, hg⟩ := ih (if fl.getD j false && c j then fl.set j false else fl)
    constructor
    · rw [hl]; split_ifs <;> simp
    · intro i
      rw [hg]
      by_cases hc : (fl.getD j false && c j) = true
      · rw [if_pos hc, getD_set_false]
        simp only [Bool.and_eq_true] at hc
        by_cases hij : i = j
        · subst hij
          simp [-List.getD_eq_getElem?_getD, hc.1, hc.2]
        · simp [-List.getD_eq_getElem?_getD, hij]
      · rw [if_neg hc]
        by_cases hij : i = j
        · subst hij
          simp only [Bool.and_eq_true, not_and, Bool.not_eq_true] at hc
          cases hf : fl.getD i false
          · simp
          · simp [hc hf]
        · simp [-List.getD_eq_getElem?_getD, hij]

theorem clearFlags_length (G : List (Polynomial n)) (h : Polynomial n) (inG : List Bool) :
    (F4.clearFlags G h inG).length = inG.length :=
  (clear_fold (fun j => (G.getD j default).LT.isDivisibleBy h.LT) _ inG).1

theorem clearFlags_getD (G : List (Polynomial n)) (h : Polynomial n) (inG : List Bool)
    (i : Nat) :
    (F4.clearFlags G h inG).getD i false
      = (inG.getD i false &&
          !(decide (i < G.length) && (G.getD i default).LT.isDivisibleBy h.LT)) := by
  have := (clear_fold (fun j => (G.getD j default).LT.isDivisibleBy h.LT)
    (List.range G.length) inG).2 i
  simp only [List.mem_range] at this
  exact this

theorem updatePairsBody_basis (O : TOrdering n) (st : F4 n × F4PairSet n × Nat)
    (h : Polynomial n) :
    (F4.updatePairsBody O st h).1.groebnerBasis = st.1.groebnerBasis ++ [h] ∧
      (F4.updatePairsBody O st h).2.2 = st.2.2 + 1 ∧
      (F4.updatePairsBody O st h).1.inGroebnerBasis.length = st.1.inGroebnerBasis.length + 1 ∧
      (F4.updatePairsBody O st h).1.currentDegree = st.1.currentDegree := by
  unfold F4.updatePairsBody
  simp only
  split_ifs <;> simp [clearFlags_length]

theorem updatePairs_fold_basis (O : TOrdering n) : ∀ (polys : List (Polynomial n))
    (st : F4 n × F4PairSet n × Nat),
    (polys.foldl (F4.updatePairsBody O) st).1.groebnerBasis = st.1.groebnerBasis ++ polys ∧
      (polys.foldl (F4.updatePairsBody O) st).2.2 = st.2.2 + polys.length ∧
      (polys.foldl (F4.updatePairsBody O) st).1.inGroebnerBasis.length
        = st.1.inGroebnerBasis.length + polys.length ∧
      (polys.foldl (F4.updatePairsBody O) st).1.currentDegree = st.1.currentDegree := by
  intro polys
  induction polys with
  | nil => intro st; simp
  | cons p ps ih =>
    intro st
    simp only [List.foldl_cons]
    obtain ⟨h1, h2, h3, h4⟩ := ih (F4.updatePairsBody O st p)
    obtain ⟨b1, b2, b3, b4⟩ := updatePairsBody_basis O st p
    rw [h1, h2, h3, h4, b1, b2, b3, b4]
    simp only [List.length_cons, List.append_assoc, List.singleton_append, true_and, and_true]
    omega


theorem bucket_body_eq (O : TOrdering n) (np : F4Pair n) (P2 : F4PairSet n) :
    (if np.marked && (setInsert (F4PairComparator O) np P2).2 then
        (setInsert (F4PairComparator O) np
          ((setInsert (F4PairComparator O) np P2).1.erase np)).1
      else (setInsert (F4PairComparator O) np P2).1)
      = (setInsert (F4PairComparator O) np P2).1 := by
  by_cases hk : ∃ y ∈ P2, y.LCM = np.LCM
  · rw [setInsert_of_key_mem O np P2 hk]
    simp
  · have hk' : ∀ y ∈ P2, y.LCM ≠ np.LCM := fun y hy e => hk ⟨y, hy, e⟩
    have hnot : np ∉ P2 := fun hm => hk' np hm rfl
    rw [setInsert_of_key_not_mem O np P2 hk']
    simp only [Bool.and_true]
    split_ifs
    · rw [List.erase_orderedInsert_of_not_mem hnot, setInsert_of_key_not_mem O np P2 hk']
    · rfl

theorem bucketP2_eq (O : TOrdering n) (G : List (Polynomial n)) (h : Polynomial n) (t : Nat)
    (D1 : List Bool) :
    F4.bucketP2 O G h t D1
      = (List.range D1.length).foldl
          (fun P2 i => if D1.getD i false then
              (setInsert (F4PairComparator O) (F4.newPair G h i t) P2).1 else P2) [] := by
  unfold F4.bucketP2
  congr 1
  funext P2 i
  split_ifs
  · exact bucket_body_eq O _ P2
  · rfl

/-- What the bucket loop has built after the indices below `k`. -/
theorem bucket_upto (O : TOrdering n) (f : Nat → F4Pair n) (d : Nat → Bool) :
    ∀ k, KeysDistinct ((List.range k).foldl
          (fun P2 i => if d i then (setInsert (F4PairComparator O) (f i) P2).1 else P2) []) ∧
      ∀ q, q ∈ (List.range k).foldl
          (fun P2 i => if d i then (setInsert (F4PairComparator O) (f i) P2).1 else P2) [] ↔
        ∃ i, i < k ∧ d i = true ∧ q = f i ∧
          ∀ i', i' < i → d i' = true → (f i').LCM ≠ (f i).LCM := by
  intro k
  induction k with
  | zero => simp [KeysDistinct]
  | succ k ih =>
    obtain ⟨hkd, hmem⟩ := ih
    rw [List.range_succ, List.foldl_append]
    simp only [List.foldl_cons, List.foldl_nil]
    generalize (List.range k).foldl
          (fun P2 i => if d i then (setInsert (F4PairComparator O) (f i) P2).1 else P2) [] = P
      at hkd hmem ⊢
    -- every live key below `k` is present in `P`
    have hpres : ∀ i, i < k → d i = true → ∃ y ∈ P, y.LCM = (f i).LCM := by
      intro i
      induction i using Nat.strong_induction_on with
      | _ i ihi =>
        intro hik hdi
        by_cases hfirst : ∀ i', i' < i → d i' = true → (f i').LCM ≠ (f i).LCM
        · exact ⟨f i, (hmem (f i)).2 ⟨i, hik, hdi, rfl, hfirst⟩, rfl⟩
        · push_neg at hfirst
          obtain ⟨i', hi', hdi', he⟩ := hfirst
          obtain ⟨y, hy, hye⟩ := ihi i' hi' (by omega) hdi'
          exact ⟨y, hy, hye.trans he⟩
    have hkey : (∀ y ∈ P, y.LCM ≠ (f k).LCM) ↔
        ∀ i', i' < k → d i' = true → (f i').LCM ≠ (f k).LCM := by
      constructor
      · intro hall i' hi' hdi' he
        obtain ⟨y, hy, hye⟩ := hpres i' hi' hdi'
        exact hall y hy (hye.trans he)
      · intro hall y hy he
        obtain ⟨i, hik, hdi, hq, _⟩ := (hmem y).1 hy
        rw [hq] at he
        exact hall i hik hdi he
    by_cases hdk : d k = true
    · rw [if_pos hdk]
      refine ⟨keysDistinct_setInsert O _ _ hkd, ?_⟩
      intro q
      rw [setInsert_mem, hmem, hkey]
      constructor
      · rintro (⟨i, hik, hdi, hq, hf⟩ | ⟨hq, hf⟩)
        · exact ⟨i, by omega, hdi, hq, hf⟩
        · exact ⟨k, by omega, hdk, hq, hf⟩
      · rintro ⟨i, hik, hdi, hq, hf⟩
        by_cases hlt : i < k
        · exact Or.inl ⟨i, hlt, hdi, hq, hf⟩
        · have : i = k := by omega
          subst this
          exact Or.inr ⟨hq, hf⟩
    · rw [if_neg hdk]
      refine ⟨hkd, ?_⟩
      intro q
      rw [hmem]
      constructor
      · rintro ⟨i, hik, hdi, hq, hf⟩
        exact ⟨i, by omega, hdi, hq, hf⟩
      · rintro ⟨i, hik, hdi, hq, hf⟩
        by_cases hlt : i < k
        · exact ⟨i, hlt, hdi, hq, hf⟩
        · have : i = k := by omega
          subst this
          exact absurd hdi hdk

theorem bucketP2_keysDistinct (O : TOrdering n) (G : List (Polynomial n)) (h : Polynomial n)
    (t : Nat) (D1 : List Bool) : KeysDistinct (F4.bucketP2 O G h t D1) := by
  rw [bucketP2_eq]
  exact (bucket_upto O (fun i => F4.newPair G h i t) (fun i => D1.getD i false) D1.length).1

theorem bucketP2_mem (O : TOrdering n) (G : List (Polynomial n)) (h : Polynomial n)
    (t : Nat) (D1 : List Bool) (q : F4Pair n) :
    q ∈ F4.bucketP2 O G h t D1 ↔
      ∃ i, i < D1.length ∧ D1.getD i false = true ∧ q = F4.newPair G h i t ∧
        ∀ i', i' < i → D1.getD i' false = true →
          (F4.newPair G h i' t).LCM ≠ (F4.newPair G h i t).LCM := by
  rw [bucketP2_eq]
  exact (bucket_upto O (fun i => F4.newPair G h i t) (fun i => D1.getD i false) D1.length).2 q

theorem criterionF_fold (O : TOrdering n) : ∀ (P2 pairs : F4PairSet n),
    (KeysDistinct pairs → KeysDistinct (F4.criterionF O P2 pairs)) ∧
      ∀ q, q ∈ F4.criterionF O P2 pairs → q ∈ pairs ∨ (q ∈ P2 ∧ q.marked = false) := by
  intro P2
  induction P2 with
  | nil => intro pairs; simp [F4.criterionF]
  | cons p ps ih =>
    intro pairs
    have hstep : F4.criterionF O (p :: ps) pairs
        = F4.criterionF O ps
            (if !p.marked then (setInsert (F4PairComparator O) p pairs).1 else pairs) := rfl
    rw [hstep]
    obtain ⟨ih1, ih2⟩ := ih (if !p.marked then (setInsert (F4PairComparator O) p pairs).1 else pairs)
    constructor
    · intro hk
      apply ih1
      split_ifs
      · exact keysDistinct_setInsert O _ _ hk
      · exact hk
    · intro q hq
      rcases ih2 q hq with h1 | ⟨h1, h2⟩
      · by_cases hm : (!p.marked) = true
        · rw [if_pos hm, setInsert_mem] at h1
          rcases h1 with h1 | ⟨h1, _⟩
          · exact Or.inl h1
          · subst h1
            exact Or.inr ⟨List.mem_cons_self _ _, by simpa using hm⟩
        · rw [if_neg hm] at h1
          exact Or.inl h1
      · exact Or.inr ⟨List.mem_cons_of_mem _ h1, h2⟩

/-! ## The invariant of the pair manager -/

theorem newPair_append (G : List (Polynomial n)) (h g : Polynomial n) (i t : Nat)
    (hi : i < G.length) : F4.newPair (G ++ [h]) g i t = F4.newPair G g i t := by
  unfold F4.newPair
  rw [List.getD_append _ _ _ _ hi]

theorem pairOk_append (G : List (Polynomial n)) (h : Polynomial n) (p : F4Pair n)
    (hp : PairOk G p) : PairOk (G ++ [h]) p := by
  obtain ⟨h1, h2, h3, h4⟩ := hp
  refine ⟨h1, h2, by simp; omega, ?_⟩
  rw [newPair_append _ _ _ _ _ (by omega), List.getD_append _ _ _ _ h3]
  exact h4

theorem pairOk_new (G : List (Polynomial n)) (h : Polynomial n) (i : Nat) (hi : i < G.length)
    (hm : (F4.newPair G h i G.length).marked = false) :
    PairOk (G ++ [h]) (F4.newPair G h i G.length) := by
  have hj : (F4.newPair G h i G.length).j = G.length := rfl
  have hi' : (F4.newPair G h i G.length).i = i := rfl
  refine ⟨hm, by rw [hi', hj]; exact hi, by rw [hj]; simp, ?_⟩
  rw [hi', hj, newPair_append _ _ _ _ _ hi, List.getD_append_right _ _ _ _ (le_refl _)]
  simp

theorem criterionM_imp (G : List (Polynomial n)) (h : Polynomial n) (D1 : List Bool) (i : Nat)
    (hi : (F4.criterionM G h D1).getD i false = true) : D1.getD i false = true := by
  rw [criterionM_getD] at hi
  split_ifs at hi
  · exact criterionMSpec_imp G h D1 i hi
  · exact hi

theorem antichain_body_admitted (f4 : F4 n) (h : Polynomial n)
    (hlen : f4.groebnerBasis.length = f4.inGroebnerBasis.length)
    (hscan : F4.scanInsertIntoG f4.groebnerBasis f4.inGroebnerBasis h = true)
    (ha : Antichain f4) :
    Antichain { f4 with groebnerBasis := f4.groebnerBasis ++ [h],
                        inGroebnerBasis :=
                          F4.clearFlags f4.groebnerBasis h f4.inGroebnerBasis ++ [true] } := by
  intro i j hij hi hj
  simp only at hi hj ⊢
  have hcl := clearFlags_length f4.groebnerBasis h f4.inGroebnerBasis
  rw [scanInsertIntoG_eq] at hscan
  simp only [Bool.not_eq_true', List.any_eq_false, List.mem_range, Bool.and_eq_true,
    not_and, Bool.not_eq_true] at hscan
  -- an index with a set flag is at most the old length
  have hle : ∀ k, (F4.clearFlags f4.groebnerBasis h f4.inGroebnerBasis ++ [true]).getD k false
      = true → k ≤ f4.groebnerBasis.length := by
    intro k hk
    have := getD_true_lt _ k hk
    simp [hcl] at this
    omega
  have hold : ∀ k, k < f4.groebnerBasis.length →
      (F4.clearFlags f4.groebnerBasis h f4.inGroebnerBasis ++ [true]).getD k false = true →
      f4.inGroebnerBasis.getD k false = true ∧
        (f4.groebnerBasis.getD k default).LT.isDivisibleBy h.LT = false := by
    intro k hk hkt
    rw [List.getD_append _ _ _ _ (by omega), clearFlags_getD] at hkt
    simp only [Bool.and_eq_true, Bool.not_eq_true', Bool.and_eq_false_iff, decide_eq_false_iff_not]
      at hkt
    refine ⟨hkt.1, ?_⟩
    rcases hkt.2 with h1 | h1
    · exact absurd hk h1
    · exact h1
  have hi1 := hle i hi
  have hj1 := hle j hj
  by_cases hil : i < f4.groebnerBasis.length
  · by_cases hjl : j < f4.groebnerBasis.length
    · rw [List.getD_append _ _ _ _ hil, List.getD_append _ _ _ _ hjl]
      exact ha i j hij (hold i hil hi).1 (hold j hjl hj).1
    · have hje : j = f4.groebnerBasis.length := by omega
      rw [List.getD_append _ _ _ _ hil, hje, List.getD_append_right _ _ _ _ (le_refl _)]
      simp only [Nat.sub_self, List.getD_cons_zero]
      exact hscan i hil (hold i hil hi).1
  · have hie : i = f4.groebnerBasis.length := by omega
    have hjl : j < f4.groebnerBasis.length := by omega
    rw [List.getD_append _ _ _ _ hjl, hie, List.getD_append_right _ _ _ _ (le_refl _)]
    simp only [Nat.sub_self, List.getD_cons_zero]
    exact (hold j hjl hj).2

theorem antichain_body_excluded (f4 : F4 n) (h : Polynomial n)
    (hlen : f4.groebnerBasis.length = f4.inGroebnerBasis.length) (ha : Antichain f4) :
    Antichain { f4 with groebnerBasis := f4.groebnerBasis ++ [h],
                        inGroebnerBasis := f4.inGroebnerBasis ++ [false] } := by
  intro i j hij hi hj
  simp only at hi hj ⊢
  have hlt : ∀ k, (f4.inGroebnerBasis ++ [false]).getD k false = true →
      k < f4.groebnerBasis.length ∧ f4.inGroebnerBasis.getD k false = true := by
    intro k hk
    have h1 := getD_true_lt _ k hk
    simp at h1
    by_cases hkl : k < f4.inGroebnerBasis.length
    · rw [List.getD_append _ _ _ _ hkl] at hk
      exact ⟨by omega, hk⟩
    · have hke : k = f4.inGroebnerBasis.length := by omega
      rw [hke, List.getD_append_right _ _ _ _ (le_refl _)] at hk
      simp at hk
  obtain ⟨hi1, hi2⟩ := hlt i hi
  obtain ⟨hj1, hj2⟩ := hlt j hj
  rw [List.getD_append _ _ _ _ hi1, List.getD_append _ _ _ _ hj1]
  exact ha i j hij hi2 hj2


theorem criterionM_length (G : List (Polynomial n)) (h : Polynomial n) (D1 : List Bool) :
    (F4.criterionM G h D1).length = D1.length := by
  rw [criterionM_eq_spec]; simp

theorem criterionB_keysDistinct (O : TOrdering n) (G : List (Polynomial n)) (h : Polynomial n)
    (pairs : F4PairSet n) (hk : KeysDistinct pairs) : KeysDistinct (F4.criterionB O G h pairs) := by
  rw [keysDistinct_perm (criterionB_perm O G h pairs hk)]
  exact List.Pairwise.sublist (List.filter_sublist _) hk

theorem criterionB_subset (O : TOrdering n) (G : List (Polynomial n)) (h : Polynomial n)
    (pairs : F4PairSet n) (hk : KeysDistinct pairs) (p : F4Pair n)
    (hp : p ∈ F4.criterionB O G h pairs) : p ∈ pairs :=
  (List.mem_filter.1 ((criterionB_perm O G h pairs hk).mem_iff.1 hp)).1

theorem inv_body (O : TOrdering n) (st : F4 n × F4PairSet n × Nat) (h : Polynomial n)
    (hinv : Inv (st.1, st.2.1)) (ht : st.2.2 = st.1.groebnerBasis.length) :
    Inv ((F4.updatePairsBody O st h).1, (F4.updatePairsBody O st h).2.1) ∧
      (F4.updatePairsBody O st h).2.2 = (F4.updatePairsBody O st h).1.groebnerBasis.length := by
  obtain ⟨f4, pairs, t⟩ := st
  obtain ⟨hlen, hkd, hok, hanti⟩ := hinv
  simp only at hlen hkd hok hanti ht
  subst ht
  refine ⟨?_, by rw [(updatePairsBody_basis O _ h).1, (updatePairsBody_basis O _ h).2.1]; simp⟩
  unfold F4.updatePairsBody
  simp only
  have hB := criterionB_keysDistinct O f4.groebnerBasis h pairs hkd
  have hBok : ∀ p ∈ F4.criterionB O f4.groebnerBasis h pairs,
      PairOk (f4.groebnerBasis ++ [h]) p := fun p hp =>
    pairOk_append _ h p (hok p (criterionB_subset O _ h pairs hkd p hp))
  by_cases hscan : F4.scanInsertIntoG f4.groebnerBasis f4.inGroebnerBasis h = true
  · rw [if_pos hscan]
    refine ⟨by simp [clearFlags_length, hlen], ?_, ?_, antichain_body_admitted f4 h hlen hscan hanti⟩
    · exact (criterionF_fold O _ _).1 hB
    · intro q hq
      rcases (criterionF_fold O _ _).2 q hq with h1 | ⟨h1, h2⟩
      · exact hBok q h1
      · rw [bucketP2_mem] at h1
        obtain ⟨i, hi, _, hqe, _⟩ := h1
        rw [criterionM_length, ← hlen] at hi
        subst hqe
        exact pairOk_new _ h i hi h2
  · rw [if_neg hscan]
    exact ⟨by simp [hlen], hB, hBok, antichain_body_excluded f4 h hlen hanti⟩

theorem inv_fold (O : TOrdering n) : ∀ (polys : List (Polynomial n))
    (st : F4 n × F4PairSet n × Nat), Inv (st.1, st.2.1) → st.2.2 = st.1.groebnerBasis.length →
      Inv ((polys.foldl (F4.updatePairsBody O) st).1, (polys.foldl (F4.updatePairsBody O) st).2.1) := by
  intro polys
  induction polys with
  | nil => intro st h _; exact h
  | cons p ps ih =>
    intro st h1 h2
    simp only [List.foldl_cons]
    obtain ⟨h3, h4⟩ := inv_body O st p h1 h2
    exact ih _ h3 h4

theorem inv_updatePairs (O : TOrdering n) (f4 : F4 n) (pairs : F4PairSet n)
    (polys : List (Polynomial n)) (hinv : Inv (f4, pairs)) :
    Inv (F4.updatePairs O f4 pairs polys) :=
  inv_fold O polys (f4, pairs, f4.groebnerBasis.length) hinv rfl

theorem setInsertAll_fold (O : TOrdering n) : ∀ (xs acc : F4PairSet n),
    (KeysDistinct acc → KeysDistinct (setInsertAll (F4PairComparator O) xs acc)) ∧
      (∀ q, q ∈ setInsertAll (F4PairComparator O) xs acc → q ∈ acc ∨ q ∈ xs) ∧
      (KeysDistinct (acc ++ xs) → (setInsertAll (F4PairComparator O) xs acc).Perm (acc ++ xs)) := by
  intro xs
  induction xs with
  | nil => intro acc; simp [setInsertAll]
  | cons x xs ih =>
    intro acc
    have hstep : setInsertAll (F4PairComparator O) (x :: xs) acc
        = setInsertAll (F4PairComparator O) xs (setInsert (F4PairComparator O) x acc).1 := rfl
    rw [hstep]
    obtain ⟨ih1, ih2, ih3⟩ := ih (setInsert (F4PairComparator O) x acc).1
    refine ⟨fun hk => ih1 (keysDistinct_setInsert O _ _ hk), ?_, ?_⟩
    · intro q hq
      rcases ih2 q hq with h1 | h1
      · rw [setInsert_mem] at h1
        rcases h1 with h1 | ⟨h1, _⟩
        · exact Or.inl h1
        · exact Or.inr (h1 ▸ List.mem_cons_self _ _)
      · exact Or.inr (List.mem_cons_of_mem _ h1)
    · intro hk
      have hacc : ∀ y ∈ acc, y.LCM ≠ x.LCM := by
        intro y hy
        exact (List.pairwise_append.1 hk).2.2 y hy x (List.mem_cons_self _ _)
      have hperm := setInsert_perm O x acc hacc
      have hp2 : ((setInsert (F4PairComparator O) x acc).1 ++ xs).Perm (acc ++ x :: xs) := by
        refine (List.Perm.append_right xs hperm).trans ?_
        exact (List.perm_middle : (acc ++ x :: xs).Perm (x :: (acc ++ xs))).symm
      exact (ih3 ((keysDistinct_perm hp2).2 hk)).trans hp2

theorem stdSort_perm {α : Type} (comp : α → α → Bool) (l : List α) : (stdSort comp l).Perm l :=
  List.perm_insertionSort _ l

theorem selection_sub (O : TOrdering n) (pairs : F4PairSet n) (sel : Selection n)
    (hs : selection O pairs = .ok sel) :
    KeysDistinct sel.pairs ∧ ∀ q ∈ sel.pairs, q ∈ pairs := by
  unfold selection at hs
  simp only at hs
  split at hs
  · exact absurd hs (by simp)
  · rename_i first rest heq
    simp only [Except.ok.injEq] at hs
    subst hs
    simp only
    obtain ⟨h1, h2, _⟩ := setInsertAll_fold O
      (List.drop (seedLoop first.sugar (stdSort s pairs) 0 [] []).1 (stdSort s pairs)) []
    refine ⟨h1 List.Pairwise.nil, ?_⟩
    intro q hq
    rcases h2 q hq with h3 | h3
    · exact absurd h3 (List.not_mem_nil _)
    · exact (stdSort_perm s pairs).mem_iff.1 (List.mem_of_mem_drop h3)

theorem inv_step (O : TOrdering n) (st : F4 n × F4PairSet n) (a : F4.Action n)
    (hinv : Inv st) : Inv (F4.step O st a) := by
  cases a with
  | update polys => exact inv_updatePairs O st.1 st.2 polys hinv
  | select =>
    unfold F4.step
    simp only
    split
    · rename_i sel hs
      obtain ⟨h1, h2⟩ := selection_sub O st.2 sel hs
      obtain ⟨hlen, _, hok, hanti⟩ := hinv
      exact ⟨hlen, h1, fun p hp => hok p (h2 p hp), hanti⟩
    · exact hinv

theorem inv_run (O : TOrdering n) (acts : List (F4.Action n)) : Inv (F4.run O acts) := by
  unfold F4.run
  have h0 : Inv ((F4.empty n, []) : F4 n × F4PairSet n) := by
    refine ⟨rfl, List.Pairwise.nil, fun p hp => absurd hp (List.not_mem_nil _), ?_⟩
    intro i j _ hi
    simp [F4.empty] at hi
  generalize ((F4.empty n, []) : F4 n × F4PairSet n) = st at h0
  induction acts generalizing st with
  | nil => exact h0
  | cons a as ih => exact ih _ (inv_step O st a h0)


theorem marked_same_lcm_div : ∀ (hh g0 g1 : List Nat), g0.length = hh.length →
    g1.length = hh.length →
    List.zipWith (fun x y => max x y) g0 hh = List.zipWith (fun x y => x + y) g0 hh →
    List.zipWith (fun x y => max x y) g1 hh = List.zipWith (fun x y => max x y) g0 hh →
    List.Forall₂ (fun x y => y ≤ x) g1 g0 := by
  intro hh
  induction hh with
  | nil =>
    intro g0 g1 h0 h1 _ _
    simp at h0 h1
    subst h0 h1
    exact List.Forall₂.nil
  | cons c hh ih =>
    intro g0 g1 h0 h1 hm he
    cases g0 with
    | nil => simp at h0
    | cons a g0 =>
      cases g1 with
      | nil => simp at h1
      | cons b g1 =>
        simp only [List.zipWith_cons_cons, List.cons.injEq, List.length_cons,
          Nat.add_right_cancel_iff] at hm he h0 h1
        refine List.Forall₂.cons ?_ (ih g0 g1 h0 h1 hm.2 he.2)
        have := hm.1
        have := he.1
        omega

theorem marked_same_lcm (G : List (Polynomial n)) (h : Polynomial n) (i0 i1 t : Nat)
    (hm : (F4.newPair G h i0 t).marked = true)
    (he : (F4.newPair G h i1 t).LCM = (F4.newPair G h i0 t).LCM) :
    (G.getD i1 default).LT.isDivisibleBy (G.getD i0 default).LT = true := by
  simp only [F4.newPair, Polynomial.lcmLT, beq_iff_eq] at hm he
  rw [Term.isDivisibleBy_iff]
  have hm' := congrArg Subtype.val hm
  have he' := congrArg Subtype.val he
  simp only [Term.lcm, Term.mul] at hm' he'
  exact marked_same_lcm_div h.LT.1 _ _ ((G.getD i0 default).LT.2.trans h.LT.2.symm)
    ((G.getD i1 default).LT.2.trans h.LT.2.symm) hm' he'

theorem filter_key_length_one : ∀ (P : F4PairSet n) (y : F4Pair n), KeysDistinct P → y ∈ P →
    (P.filter (fun p => p.LCM = y.LCM)).length = 1 := by
  intro P
  induction P with
  | nil => intro y _ hy; exact absurd hy (List.not_mem_nil _)
  | cons a P ih =>
    intro y hk hy
    have hk' := List.pairwise_cons.1 hk
    by_cases ha : a.LCM = y.LCM
    · rw [List.filter_cons_of_pos (by simpa using ha)]
      have : P.filter (fun p => decide (p.LCM = y.LCM)) = [] := by
        rw [List.filter_eq_nil_iff]
        intro b hb
        simp only [decide_eq_true_eq]
        intro e
        exact hk'.1 b hb (ha.trans e.symm)
      rw [this]; rfl
    · rw [List.filter_cons_of_neg (by simpa using ha)]
      rcases List.mem_cons.1 hy with e | hy'
      · exact absurd (e ▸ rfl) ha
      · exact ih y hk'.2 hy'


theorem criterionB_fold_subset (O : TOrdering n) (G : List (Polynomial n)) (h : Polynomial n) :
    ∀ (pairs acc : F4PairSet n) (q : F4Pair n),
      q ∈ pairs.foldl (fun P1 p =>
          if F4.keepB G h p then (setInsert (F4PairComparator O) p P1).1 else P1) acc →
        q ∈ acc ∨ q ∈ pairs := by
  intro pairs
  induction pairs with
  | nil => intro acc q hq; exact Or.inl hq
  | cons p ps ih =>
    intro acc q hq
    simp only [List.foldl_cons] at hq
    rcases ih _ q hq with h1 | h1
    · split_ifs at h1
      · rw [setInsert_mem] at h1
        rcases h1 with h1 | ⟨h1, _⟩
        · exact Or.inl h1
        · exact Or.inr (h1 ▸ List.mem_cons_self _ _)
      · exact Or.inl h1
    · exact Or.inr (List.mem_cons_of_mem _ h1)

theorem body_flag (O : TOrdering n) (f4 : F4 n) (pairs : F4PairSet n) (t : Nat)
    (h : Polynomial n) :
    (F4.updatePairsBody O (f4, pairs, t) h).1.inGroebnerBasis
      = (if F4.scanInsertIntoG f4.groebnerBasis f4.inGroebnerBasis h then
          F4.clearFlags f4.groebnerBasis h f4.inGroebnerBasis
        else f4.inGroebnerBasis)
        ++ [F4.scanInsertIntoG f4.groebnerBasis f4.inGroebnerBasis h] := by
  unfold F4.updatePairsBody
  simp only
  split_ifs with hs
  · rw [hs]
  · simp only [Bool.not_eq_true] at hs
    rw [hs]

theorem body_pairs_excluded (O : TOrdering n) (f4 : F4 n) (pairs : F4PairSet n) (t : Nat)
    (h : Polynomial n) (hs : F4.scanInsertIntoG f4.groebnerBasis f4.inGroebnerBasis h = false) :
    (F4.updatePairsBody O (f4, pairs, t) h).2.1 = F4.criterionB O f4.groebnerBasis h pairs := by
  unfold F4.updatePairsBody
  simp only
  rw [if_neg (by simp [hs])]

/-- C8: `updatePairs` appends every new polynomial, in order, so that `h`
lands at the index `t` equal to the basis length before it (basis and flag
vector grow by one per polynomial, and the running index `t` is the basis
length).  The flag stored for `h` is true exactly when no element that is
in-basis at that moment has a leading term dividing `LT(h)`; when it is false
the pair set is just the Criterion-B survivors of the old pair set, so no pair
with second index `t` (no pair at all) is added. -/
theorem C8_updatePairs_appends (O : TOrdering n) (f4 : F4 n) (pairs : F4PairSet n)
    (polys : List (Polynomial n)) (h : Polynomial n) :
    ((F4.updatePairs O f4 pairs polys).1.groebnerBasis = f4.groebnerBasis ++ polys ∧
      (F4.updatePairs O f4 pairs polys).1.inGroebnerBasis.length
        = f4.inGroebnerBasis.length + polys.length ∧
      (polys.foldl (F4.updatePairsBody O) (f4, pairs, f4.groebnerBasis.length)).2.2
        = (F4.updatePairs O f4 pairs polys).1.groebnerBasis.length) ∧
    ((F4.updatePairsBody O (f4, pairs, f4.groebnerBasis.length) h).1.groebnerBasis
        = f4.groebnerBasis ++ [h] ∧
      (F4.updatePairsBody O (f4, pairs, f4.groebnerBasis.length) h).1.groebnerBasis.get?
          f4.groebnerBasis.length = some h ∧
      (F4.updatePairsBody O (f4, pairs, f4.groebnerBasis.length) h).1.inGroebnerBasis.length
        = f4.inGroebnerBasis.length + 1 ∧
      ((F4.updatePairsBody O (f4, pairs, f4.groebnerBasis.length) h).1.inGroebnerBasis.getD
          f4.inGroebnerBasis.length false = true ↔
        ¬ ∃ i, i < f4.groebnerBasis.length ∧ f4.inGroebnerBasis.getD i false = true ∧
            h.LT.isDivisibleBy (f4.groebnerBasis.getD i default).LT = true) ∧
      ((F4.updatePairsBody O (f4, pairs, f4.groebnerBasis.length) h).1.inGroebnerBasis.getD
          f4.inGroebnerBasis.length false = false →
        (F4.updatePairsBody O (f4, pairs, f4.groebnerBasis.length) h).2.1
            = F4.criterionB O f4.groebnerBasis h pairs ∧
          ∀ p ∈ (F4.updatePairsBody O (f4, pairs, f4.groebnerBasis.length) h).2.1,
            p ∈ pairs)) := by
  have hflag : (F4.updatePairsBody O (f4, pairs, f4.groebnerBasis.length) h).1.inGroebnerBasis.getD
      f4.inGroebnerBasis.length false
        = F4.scanInsertIntoG f4.groebnerBasis f4.inGroebnerBasis h := by
    rw [body_flag, List.getD_append_right _ _ _ _ (by split_ifs <;> simp [clearFlags_length])]
    have : f4.inGroebnerBasis.length - (if F4.scanInsertIntoG f4.groebnerBasis
        f4.inGroebnerBasis h = true then F4.clearFlags f4.groebnerBasis h f4.inGroebnerBasis
        else f4.inGroebnerBasis).length = 0 := by
      split_ifs <;> simp [clearFlags_length]
    rw [this]; rfl
  obtain ⟨f1, f2, f3, _⟩ := updatePairs_fold_basis O polys (f4, pairs, f4.groebnerBasis.length)
  obtain ⟨b1, _, b3, _⟩ := updatePairsBody_basis O (f4, pairs, f4.groebnerBasis.length) h
  refine ⟨⟨f1, f3, ?_⟩, b1, ?_, b3, ?_, ?_⟩
  · rw [f2]
    show _ = (polys.foldl (F4.updatePairsBody O) (f4, pairs, f4.groebnerBasis.length)).1.groebnerBasis.length
    rw [f1]; simp
  · rw [b1]; simp
  · rw [hflag, scanInsertIntoG_eq]
    simp only [Bool.not_eq_true', List.any_eq_false, List.mem_range, Bool.and_eq_true,
      not_exists, not_and, Bool.not_eq_true]
  · intro hf
    rw [hflag] at hf
    have hp := body_pairs_excluded O f4 pairs f4.groebnerBasis.length h hf
    refine ⟨hp, ?_⟩
    intro p hpm
    rw [hp] at hpm
    rcases criterionB_fold_subset O f4.groebnerBasis h pairs [] p hpm with h1 | h1
    · exact absurd h1 (List.not_mem_nil _)
    · exact h1


/-- C9 (as stated) fails: after `updatePairs` has processed `x + y` and then
`x + z`, the earlier element `x + y` has a leading term divisible by
`LT(x + z) = x`, yet its in-basis flag is still set (the new element is the one
that is excluded). -/
theorem C9_counterexample :
    ((F4.updatePairs (DegRevLexOrdering 3) (F4.empty 3) [] [xPlusY]).1.groebnerBasis.getD 0
        default).LT.isDivisibleBy xPlusZ.LT = true ∧
      (F4.updatePairs (DegRevLexOrdering 3) (F4.empty 3) [] [xPlusY]).1.inGroebnerBasis
        = [true] ∧
      (F4.updatePairs (DegRevLexOrdering 3)
          (F4.updatePairs (DegRevLexOrdering 3) (F4.empty 3) [] [xPlusY]).1
          (F4.updatePairs (DegRevLexOrdering 3) (F4.empty 3) [] [xPlusY]).2
          [xPlusZ]).1.inGroebnerBasis = [true, false] := by
  decide

/-- C9 (amended): when `updatePairs` processes `h`, the flag of an earlier
element is cleared exactly if `h` is admitted to the active basis and the
element's leading term is divisible by `LT(h)`; every other earlier flag is
unchanged, and when `h` is excluded no earlier flag changes at all.  The flag
appended for `h` itself is the admission decision. -/
theorem C9_flags_cleared_when_admitted (O : TOrdering n) (f4 : F4 n) (pairs : F4PairSet n)
    (t : Nat) (h : Polynomial n) (j : Nat) :
    (F4.updatePairsBody O (f4, pairs, t) h).1.inGroebnerBasis.getD j false
      = if j = f4.inGroebnerBasis.length then
          F4.scanInsertIntoG f4.groebnerBasis f4.inGroebnerBasis h
        else
          (f4.inGroebnerBasis.getD j false &&
            !(F4.scanInsertIntoG f4.groebnerBasis f4.inGroebnerBasis h &&
              (decide (j < f4.groebnerBasis.length) &&
                (f4.groebnerBasis.getD j default).LT.isDivisibleBy h.LT))) := by
  rw [body_flag]
  by_cases hs : F4.scanInsertIntoG f4.groebnerBasis f4.inGroebnerBasis h = true
  · rw [if_pos hs, hs]
    by_cases hj : j < f4.inGroebnerBasis.length
    · rw [if_neg (by omega), List.getD_append _ _ _ _ (by rw [clearFlags_length]; exact hj),
        clearFlags_getD]
      simp
    · by_cases hje : j = f4.inGroebnerBasis.length
      · rw [if_pos hje, hje, List.getD_append_right _ _ _ _ (by rw [clearFlags_length])]
        simp [clearFlags_length]
      · rw [if_neg hje, List.getD_eq_default _ _ (by simp [clearFlags_length]; omega),
          List.getD_eq_default _ _ (by omega)]
        simp
  · simp only [Bool.not_eq_true] at hs
    rw [hs]
    simp only [Bool.false_eq_true, if_false, Bool.false_and, Bool.not_false, Bool.and_true]
    by_cases hj : j < f4.inGroebnerBasis.length
    · rw [if_neg (by omega), List.getD_append _ _ _ _ hj]
    · by_cases hje : j = f4.inGroebnerBasis.length
      · rw [if_pos hje, hje, List.getD_append_right _ _ _ _ (le_refl _)]
        simp
      · rw [if_neg hje, List.getD_eq_default _ _ (by simp; omega),
          List.getD_eq_default _ _ (by omega)]

/-- C7: from an empty pair set, after any sequence of `updatePairs` calls and
batch selections no pair in the pair set has `marked = true`; equivalently the
lcm of a pair in the set is never the product of the two leading terms. -/
theorem C7_no_marked_pair (O : TOrdering n) (acts : List (F4.Action n)) (p : F4Pair n) :
    p ∈ (F4.run O acts).2 →
      p.marked = false ∧
        p.LCM ≠ ((F4.run O acts).1.groebnerBasis.getD p.i default).LT.mul
          ((F4.run O acts).1.groebnerBasis.getD p.j default).LT := by
  intro hp
  obtain ⟨_, _, hok, _⟩ := inv_run O acts
  obtain ⟨h1, _, _, h4⟩ := hok p hp
  refine ⟨h1, ?_⟩
  rw [h4] at h1
  simp only [F4.newPair, beq_eq_false_iff_ne] at h1
  have hl : p.LCM = ((F4.run O acts).1.groebnerBasis.getD p.i default).lcmLT
      ((F4.run O acts).1.groebnerBasis.getD p.j default) := by
    conv_lhs => rw [h4]
    rfl
  rw [hl]
  exact h1

/-- C10: from an empty basis and pair set, after any sequence of `updatePairs`
calls (and batch selections) every pair `(i, j, lcm, marked, sugar)` in the
pair set has `i < j < basis length`, `lcm = lcm(LT(f_i), LT(f_j))` and
`sugar = max(sugar(f_i) - deg(LT(f_i)), sugar(f_j) - deg(LT(f_j))) + deg(lcm)`. -/
theorem C10_pair_wellformed (O : TOrdering n) (acts : List (F4.Action n)) (p : F4Pair n) :
    p ∈ (F4.run O acts).2 →
      p.i < p.j ∧ p.j < (F4.run O acts).1.groebnerBasis.length ∧
        p.LCM = Term.lcm ((F4.run O acts).1.groebnerBasis.getD p.i default).LT
          ((F4.run O acts).1.groebnerBasis.getD p.j default).LT ∧
        p.sugar = max
            (((F4.run O acts).1.groebnerBasis.getD p.i default).sugar
              - ((F4.run O acts).1.groebnerBasis.getD p.i default).LT.deg)
            (((F4.run O acts).1.groebnerBasis.getD p.j default).sugar
              - ((F4.run O acts).1.groebnerBasis.getD p.j default).LT.deg)
          + p.LCM.deg := by
  intro hp
  obtain ⟨_, _, hok, _⟩ := inv_run O acts
  obtain ⟨_, h2, h3, h4⟩ := hok p hp
  have hl : p.LCM = Term.lcm ((F4.run O acts).1.groebnerBasis.getD p.i default).LT
      ((F4.run O acts).1.groebnerBasis.getD p.j default).LT := by
    conv_lhs => rw [h4]
    rfl
  refine ⟨h2, h3, hl, ?_⟩
  conv_lhs => rw [h4]
  rw [hl]
  rfl


/-- C6: in every state the pair manager can reach, and for every new
polynomial `h`: each group of Criterion-M survivors `(i, t)` with the same lcm
has exactly one representative in `P2`, that representative is the pair of a
survivor of the group, and if the group contains a candidate with
`marked = false` then the representative has `marked = false`. -/
theorem C6_bucket_one_representative (O : TOrdering n) (acts : List (F4.Action n))
    (h : Polynomial n) (t i : Nat) :
    (F4.criterionM (F4.run O acts).1.groebnerBasis h
        (F4.run O acts).1.inGroebnerBasis).getD i false = true →
      ((F4.bucketP2 O (F4.run O acts).1.groebnerBasis h t
          (F4.criterionM (F4.run O acts).1.groebnerBasis h
            (F4.run O acts).1.inGroebnerBasis)).filter
          (fun p => p.LCM = (F4.newPair (F4.run O acts).1.groebnerBasis h i t).LCM)).length = 1 ∧
      ∀ p ∈ F4.bucketP2 O (F4.run O acts).1.groebnerBasis h t
          (F4.criterionM (F4.run O acts).1.groebnerBasis h (F4.run O acts).1.inGroebnerBasis),
        p.LCM = (F4.newPair (F4.run O acts).1.groebnerBasis h i t).LCM →
          (∃ i0, (F4.criterionM (F4.run O acts).1.groebnerBasis h
                (F4.run O acts).1.inGroebnerBasis).getD i0 false = true ∧
              p = F4.newPair (F4.run O acts).1.groebnerBasis h i0 t) ∧
            ((∃ i1, (F4.criterionM (F4.run O acts).1.groebnerBasis h
                  (F4.run O acts).1.inGroebnerBasis).getD i1 false = true ∧
                (F4.newPair (F4.run O acts).1.groebnerBasis h i1 t).LCM
                  = (F4.newPair (F4.run O acts).1.groebnerBasis h i t).LCM ∧
                (F4.newPair (F4.run O acts).1.groebnerBasis h i1 t).marked = false) →
              p.marked = false) := by
  obtain ⟨_, _, _, hanti⟩ := inv_run O acts
  generalize (F4.run O acts).1 = f4 at hanti ⊢
  generalize hD : F4.criterionM f4.groebnerBasis h f4.inGroebnerBasis = D1
  intro hi
  have hex : ∃ i0, D1.getD i0 false = true ∧
      (F4.newPair f4.groebnerBasis h i0 t).LCM = (F4.newPair f4.groebnerBasis h i t).LCM :=
    ⟨i, hi, rfl⟩
  classical
  have hfind := Nat.find_spec hex
  have hmin := fun m => @Nat.find_min _ _ hex m
  have hrep : F4.newPair f4.groebnerBasis h (Nat.find hex) t
      ∈ F4.bucketP2 O f4.groebnerBasis h t D1 := by
    rw [bucketP2_mem]
    refine ⟨Nat.find hex, getD_true_lt _ _ hfind.1, hfind.1, rfl, ?_⟩
    intro i' hi' hd he
    exact hmin i' hi' ⟨hd, he.trans hfind.2⟩
  constructor
  · have := filter_key_length_one _ _ (bucketP2_keysDistinct O f4.groebnerBasis h t D1) hrep
    rw [hfind.2] at this
    exact this
  · intro p hp hpe
    rw [bucketP2_mem] at hp
    obtain ⟨i0, _, hi0, hpi0, _⟩ := hp
    refine ⟨⟨i0, hi0, hpi0⟩, ?_⟩
    rintro ⟨i1, hi1, he1, hm1⟩
    cases hm : p.marked
    · rfl
    · exfalso
      rw [hpi0] at hm hpe
      have hdiv := marked_same_lcm f4.groebnerBasis h i0 i1 t hm (he1.trans hpe.symm)
      have hne : i0 ≠ i1 := by
        intro e
        rw [e, hm1] at hm
        exact Bool.false_ne_true hm
      rw [← hD] at hi0 hi1
      have := hanti i0 i1 hne (criterionM_imp _ h _ i0 hi0) (criterionM_imp _ h _ i1 hi1)
      rw [this] at hdiv
      exact Bool.false_ne_true hdiv


theorem stdSort_s_sorted (pairs : F4PairSet n) :
    List.Sorted (fun a b : F4Pair n => a.sugar ≤ b.sugar) (stdSort s pairs) := by
  haveI : IsTotal (F4Pair n) (fun a b => s b a = false) :=
    ⟨fun a b => by simp only [s, decide_eq_false_iff_not, not_lt]; exact le_total _ _⟩
  haveI : IsTrans (F4Pair n) (fun a b => s b a = false) :=
    ⟨fun a b c => by simp only [s, decide_eq_false_iff_not, not_lt]; exact le_trans⟩
  have h := List.sorted_insertionSort (fun a b : F4Pair n => s b a = false) pairs
  refine List.Pairwise.imp ?_ h
  intro a b hab
  simpa [s] using hab

theorem seedLoop_spec (cd : Int) : ∀ (l : List (F4Pair n)) (index : Nat)
    (rows : List (Nat × Term n)) (pivots : List (Term n × Nat)),
    List.Sorted (fun a b : F4Pair n => a.sugar ≤ b.sugar) l → (∀ p ∈ l, cd ≤ p.sugar) →
    ∃ k, k ≤ l.length ∧ (seedLoop cd l index rows pivots).1 = index + k ∧
      (seedLoop cd l index rows pivots).2.1
        = rows ++ (l.take k).flatMap (fun p => [(p.i, p.LCM), (p.j, p.LCM)]) ∧
      l.take k = l.filter (fun p => decide (p.sugar = cd)) ∧
      l.drop k = l.filter (fun p => decide (cd < p.sugar)) := by
  intro l
  induction l with
  | nil => intro index rows pivots _ _; exact ⟨0, by simp [seedLoop]⟩
  | cons p ps ih =>
    intro index rows pivots hs hge
    have hs' := List.sorted_cons.1 hs
    by_cases hp : p.sugar = cd
    · obtain ⟨k, h0, h1, h2, h3, h4⟩ := ih (index + 1)
        (rows ++ [(p.i, p.LCM), (p.j, p.LCM)]) (mapInsert pivots p.LCM (2 * index)) hs'.2
        (fun q hq => hge q (List.mem_cons_of_mem _ hq))
      refine ⟨k + 1, by simp; omega, ?_, ?_, ?_, ?_⟩
      · simp only [seedLoop, if_pos hp]; rw [h1]; omega
      · simp only [seedLoop, if_pos hp]; rw [h2]; simp
      · rw [List.take_succ_cons, h3, List.filter_cons_of_pos (by simpa using hp)]
      · rw [List.drop_succ_cons, h4, List.filter_cons_of_neg (by simp [hp])]
    · have hlt : cd < p.sugar :=
        lt_of_le_of_ne (hge p (List.mem_cons_self _ _)) (fun e => hp e.symm)
      have hall : ∀ q ∈ p :: ps, cd < q.sugar := by
        intro q hq
        rcases List.mem_cons.1 hq with e | hq'
        · rw [e]; exact hlt
        · exact lt_of_lt_of_le hlt (hs'.1 q hq')
      refine ⟨0, by omega, ?_, ?_, ?_, ?_⟩
      · simp only [seedLoop, if_neg hp]; rfl
      · simp only [seedLoop, if_neg hp]; simp
      · rw [List.take_zero, eq_comm, List.filter_eq_nil_iff]
        intro q hq
        simp only [decide_eq_true_eq]
        exact fun e => absurd (hall q hq) (by rw [e]; exact lt_irrefl _)
      · rw [List.drop_zero, eq_comm, List.filter_eq_self]
        intro q hq
        simpa using hall q hq

theorem flatMap_pair_length {α β : Type} (f g : α → β) : ∀ (l : List α),
    (l.flatMap (fun p => [f p, g p])).length = 2 * l.length := by
  intro l
  induction l with
  | nil => rfl
  | cons a l ih => simp only [List.flatMap_cons, List.length_append, ih, List.length_cons,
      List.length_nil]; omega

theorem prepare_selection (O : TOrdering n) (fuel : Nat) (f4 : F4 n) (pairs : F4PairSet n)
    (sel : Selection n) (pr : F4.Prepared n) (hs : selection O pairs = .ok sel)
    (hp : F4.prepare O fuel f4 pairs = .ok pr) :
    pr.currentDegree = sel.currentDegree ∧ pr.upper = 2 * sel.index ∧ pr.pairs = sel.pairs := by
  unfold F4.prepare at hp
  rw [hs] at hp
  simp only [bind, Except.bind, pure, Except.pure] at hp
  split at hp
  · exact absurd hp (by simp)
  · split at hp
    · exact absurd hp (by simp)
    · split at hp
      · exact absurd hp (by simp)
      · simp only [Except.ok.injEq] at hp
        subst hp
        exact ⟨rfl, rfl, rfl⟩


/-- C3: for a non-empty pair set (one pair per lcm), the selection step of
`prepare` succeeds; `currentDegree` is the minimum sugar of the set; the seed
rows are the two rows `(i, lcm)`, `(j, lcm)` of each pair whose sugar equals
that minimum, `index` counts those pairs and `upper` is twice that number; the
pair set left behind holds exactly the pairs of strictly larger sugar; and the
selected and the remaining pairs together are the old pair set, no pair lost
or duplicated. -/
theorem C3_selection_minimal_sugar (O : TOrdering n) (pairs : F4PairSet n)
    (hne : pairs ≠ []) (hk : KeysDistinct pairs) :
    ∃ sel : Selection n, selection O pairs = .ok sel ∧
      (∃ p ∈ pairs, p.sugar = sel.currentDegree) ∧
      (∀ p ∈ pairs, sel.currentDegree ≤ p.sugar) ∧
      (∃ chosen : List (F4Pair n),
        chosen.Perm (pairs.filter (fun p => decide (p.sugar = sel.currentDegree))) ∧
        sel.rows = chosen.flatMap (fun p => [(p.i, p.LCM), (p.j, p.LCM)]) ∧
        sel.index = chosen.length ∧ sel.rows.length = 2 * sel.index ∧
        (chosen ++ sel.pairs).Perm pairs) ∧
      sel.pairs.Perm (pairs.filter (fun p => decide (sel.currentDegree < p.sugar))) ∧
      ∀ (fuel : Nat) (f4 : F4 n) (pr : F4.Prepared n),
        F4.prepare O fuel f4 pairs = .ok pr →
          pr.currentDegree = sel.currentDegree ∧ pr.upper = 2 * sel.index ∧
            pr.pairs = sel.pairs := by
  have hperm := stdSort_perm s pairs
  have hsorted := stdSort_s_sorted pairs
  have hsel : selection O pairs = (match stdSort s pairs with
      | [] => .error .outOfBounds
      | first :: _ =>
        .ok { currentDegree := first.sugar,
              rows := (seedLoop first.sugar (stdSort s pairs) 0 [] []).2.1,
              pivots := (seedLoop first.sugar (stdSort s pairs) 0 [] []).2.2,
              index := (seedLoop first.sugar (stdSort s pairs) 0 [] []).1,
              pairs := setInsertAll (F4PairComparator O)
                ((stdSort s pairs).drop (seedLoop first.sugar (stdSort s pairs) 0 [] []).1)
                [] }) := rfl
  generalize stdSort s pairs = tmp at hperm hsorted hsel
  cases tmp with
  | nil => exact absurd hperm.symm.eq_nil hne
  | cons first rest =>
    simp only at hsel
    have hge : ∀ p ∈ first :: rest, first.sugar ≤ p.sugar := by
      intro p hp
      rcases List.mem_cons.1 hp with e | hp'
      · rw [e]
      · exact (List.sorted_cons.1 hsorted).1 p hp'
    obtain ⟨k, h0, h1, h2, h3, h4⟩ :=
      seedLoop_spec first.sugar (first :: rest) 0 [] [] hsorted hge
    have hlen : ((first :: rest).take k).length = k := by
      rw [List.length_take]; omega
    have hkd : KeysDistinct (first :: rest) := (keysDistinct_perm hperm).2 hk
    have hdrop : (setInsertAll (F4PairComparator O)
        ((first :: rest).drop (seedLoop first.sugar (first :: rest) 0 [] []).1) []).Perm
        ((first :: rest).drop k) := by
      rw [h1, Nat.zero_add]
      have := (setInsertAll_fold O ((first :: rest).drop k) []).2.2
        (by simpa using List.Pairwise.sublist (List.drop_sublist k _) hkd)
      simpa using this
    refine ⟨_, hsel, ⟨first, hperm.mem_iff.1 (List.mem_cons_self _ _), rfl⟩,
      fun p hp => hge p (hperm.mem_iff.2 hp), ⟨(first :: rest).take k, ?_, ?_, ?_, ?_, ?_⟩, ?_, ?_⟩
    · rw [h3]; exact hperm.filter _
    · rw [h2]; simp
    · rw [h1, Nat.zero_add, hlen]
    · rw [h2, h1, List.nil_append, Nat.zero_add, flatMap_pair_length, hlen]
    · exact (List.Perm.append_left _ hdrop).trans
        ((List.take_append_drop k (first :: rest)).symm ▸ hperm)
    · exact hdrop.trans (h4 ▸ hperm.filter _)
    · intro fuel f4 pr hp
      exact prepare_selection O fuel f4 pairs _ pr hsel hp


theorem setupRows_mono (f4 : F4 n) (upper : Nat) : ∀ (fuel i : Nat) (st r : Prep n),
    F4.setupRows f4 upper fuel i st = .ok r → F4.setupRows f4 upper (fuel + 1) i st = .ok r := by
  intro fuel
  induction fuel with
  | zero =>
    intro i st r h
    simp only [F4.setupRows] at h ⊢
    split_ifs at h ⊢ with hi
    exact h
  | succ fuel ih =>
    intro i st r h
    rw [F4.setupRows] at h ⊢
    split_ifs at h ⊢ with hi
    · exact ih _ _ _ h
    · exact h

theorem prepare_mono (O : TOrdering n) (fuel : Nat) (f4 : F4 n) (pairs : F4PairSet n)
    (pr : F4.Prepared n) (h : F4.prepare O fuel f4 pairs = .ok pr) :
    F4.prepare O (fuel + 1) f4 pairs = .ok pr := by
  unfold F4.prepare at h ⊢
  simp only [bind, Except.bind] at h ⊢
  cases hsel : selection O pairs with
  | error e => rw [hsel] at h; exact absurd h (by simp)
  | ok sel =>
    rw [hsel] at h
    simp only at h ⊢
    cases hrows : F4.setupRows f4 (2 * sel.index) fuel 0
        { rows := sel.rows, pivots := sel.pivots, pivotOps := [], termsUnordered := [],
          rightSide := [] } with
    | error e => rw [hrows] at h; exact absurd h (by simp)
    | ok st =>
      rw [hrows] at h
      rw [setupRows_mono f4 _ fuel 0 _ st hrows]
      exact h

theorem reduce_mono (O : TOrdering n) (F : CoeffField) (fuel : Nat) (f4 : F4 n)
    (pairs : F4PairSet n) (r : F4 n × F4PairSet n × List (Polynomial n))
    (h : F4.reduce O F fuel f4 pairs = .ok r) : F4.reduce O F (fuel + 1) f4 pairs = .ok r := by
  unfold F4.reduce at h ⊢
  simp only [bind, Except.bind] at h ⊢
  cases hp : F4.prepare O fuel f4 pairs with
  | error e => rw [hp] at h; exact absurd h (by simp)
  | ok pr =>
    rw [hp] at h
    rw [prepare_mono O fuel f4 pairs pr hp]
    exact h

theorem reduce_mono_le (O : TOrdering n) (F : CoeffField) (f4 : F4 n) (pairs : F4PairSet n)
    (r : F4 n × F4PairSet n × List (Polynomial n)) : ∀ (k fuel : Nat),
    F4.reduce O F fuel f4 pairs = .ok r → F4.reduce O F (fuel + k) f4 pairs = .ok r := by
  intro k
  induction k with
  | zero => intro fuel h; exact h
  | succ k ih =>
    intro fuel h
    exact reduce_mono O F (fuel + k) f4 pairs r (ih fuel h)

theorem reduce_mono_of_le (O : TOrdering n) (F : CoeffField) (f4 : F4 n) (pairs : F4PairSet n)
    (r : F4 n × F4PairSet n × List (Polynomial n)) (a b : Nat) (hab : a ≤ b)
    (h : F4.reduce O F a f4 pairs = .ok r) : F4.reduce O F b f4 pairs = .ok r := by
  have := reduce_mono_le O F f4 pairs r (b - a) a h
  rwa [Nat.add_sub_cancel' hab] at this

theorem reduce_det (O : TOrdering n) (F : CoeffField) (f4 : F4 n) (pairs : F4PairSet n)
    (r r' : F4 n × F4PairSet n × List (Polynomial n)) (a b : Nat)
    (h : F4.reduce O F a f4 pairs = .ok r) (h' : F4.reduce O F b f4 pairs = .ok r') :
    r = r' := by
  have h1 := reduce_mono_of_le O F f4 pairs r a (a + b) (Nat.le_add_right _ _) h
  have h2 := reduce_mono_of_le O F f4 pairs r' b (a + b) (Nat.le_add_left _ _) h'
  rw [h1] at h2
  exact Except.ok.inj h2

theorem BREAKPOINT_mono : ∀ (fuel : Nat) (stdin rest : List Nat),
    F4.BREAKPOINT fuel stdin = .ok rest → F4.BREAKPOINT (fuel + 1) stdin = .ok rest := by
  intro fuel
  induction fuel with
  | zero =>
    intro stdin rest h
    rw [F4.BREAKPOINT] at h
    cases h
  | succ fuel ih =>
    intro stdin rest h
    rw [F4.BREAKPOINT] at h ⊢
    by_cases hc : (F4.getchar stdin).1 ≠ 10
    · rw [if_pos hc] at h ⊢
      exact ih _ _ h
    · rw [if_neg hc] at h ⊢
      exact h

theorem BREAKPOINT_mono_of_le (stdin rest : List Nat) (a b : Nat) (hab : a ≤ b)
    (h : F4.BREAKPOINT a stdin = .ok rest) : F4.BREAKPOINT b stdin = .ok rest := by
  obtain ⟨k, rfl⟩ := Nat.exists_eq_add_of_le hab
  induction k with
  | zero => exact h
  | succ k ih => exact BREAKPOINT_mono _ _ _ (ih (Nat.le_add_right _ _))

theorem BREAKPOINT_det (stdin r r' : List Nat) (a b : Nat)
    (h : F4.BREAKPOINT a stdin = .ok r) (h' : F4.BREAKPOINT b stdin = .ok r') : r = r' := by
  have h1 := BREAKPOINT_mono_of_le stdin r a (a + b) (Nat.le_add_right _ _) h
  have h2 := BREAKPOINT_mono_of_le stdin r' b (a + b) (Nat.le_add_left _ _) h'
  rw [h1] at h2
  exact Except.ok.inj h2

/-- When `BREAKPOINT` returns it has consumed exactly one newline. -/
theorem BREAKPOINT_spec : ∀ (fuel : Nat) (stdin rest : List Nat),
    F4.BREAKPOINT fuel stdin = .ok rest →
      stdin.count 10 = rest.count 10 + 1 ∧ rest.length < stdin.length := by
  intro fuel
  induction fuel with
  | zero =>
    intro stdin rest h
    rw [F4.BREAKPOINT] at h
    cases h
  | succ fuel ih =>
    intro stdin rest h
    rw [F4.BREAKPOINT] at h
    cases stdin with
    | nil =>
      have hc : (F4.getchar ([] : List Nat)).1 ≠ 10 := by decide
      rw [if_pos hc] at h
      exact ih _ _ h
    | cons c cs =>
      by_cases hc : c = 10
      · have hc' : ¬ (F4.getchar (c :: cs)).1 ≠ 10 := by
          simp only [F4.getchar, hc]
          decide
        rw [if_neg hc'] at h
        simp only [F4.getchar, Except.ok.injEq] at h
        subst h
        subst hc
        simp
      · have hc' : (F4.getchar (c :: cs)).1 ≠ 10 := by
          simp only [F4.getchar]
          exact_mod_cast hc
        rw [if_pos hc'] at h
        obtain ⟨h1, h2⟩ := ih _ _ h
        simp only [F4.getchar] at h1 h2
        refine ⟨?_, by simp only [List.length_cons]; omega⟩
        rw [List.count_cons_of_ne (Ne.symm hc)]
        exact h1

/-- With a newline ahead, `BREAKPOINT` returns once its budget covers the
input. -/
theorem BREAKPOINT_ok : ∀ (stdin : List Nat), 0 < stdin.count 10 →
    ∃ rest, F4.BREAKPOINT stdin.length stdin = .ok rest := by
  intro stdin
  induction stdin with
  | nil => intro h; simp at h
  | cons c cs ih =>
    intro h
    rw [List.length_cons, F4.BREAKPOINT]
    by_cases hc : c = 10
    · have hc' : ¬ (F4.getchar (c :: cs)).1 ≠ 10 := by
        simp only [F4.getchar, hc]
        decide
      rw [if_neg hc']
      exact ⟨_, rfl⟩
    · have hc' : (F4.getchar (c :: cs)).1 ≠ 10 := by
        simp only [F4.getchar]
        exact_mod_cast hc
      rw [if_pos hc']
      rw [List.count_cons_of_ne (Ne.symm hc)] at h
      exact ih h

/-- Without a newline ahead, `BREAKPOINT` does not return, whatever the
budget. -/
theorem BREAKPOINT_no_newline : ∀ (fuel : Nat) (stdin : List Nat), stdin.count 10 = 0 →
    F4.BREAKPOINT fuel stdin = .error .outOfFuel := by
  intro fuel
  induction fuel with
  | zero => intro stdin _; rw [F4.BREAKPOINT]
  | succ fuel ih =>
    intro stdin h
    rw [F4.BREAKPOINT]
    cases stdin with
    | nil =>
      have hc : (F4.getchar ([] : List Nat)).1 ≠ 10 := by decide
      rw [if_pos hc]
      exact ih _ rfl
    | cons c cs =>
      have hne : c ≠ 10 := by
        intro hc
        rw [hc] at h
        simp at h
      have hc' : (F4.getchar (c :: cs)).1 ≠ 10 := by
        simp only [F4.getchar]
        exact_mod_cast hne
      rw [if_pos hc']
      rw [List.count_cons_of_ne (Ne.symm hne)] at h
      exact ih _ h

theorem mainLoop_of_isEmpty (O : TOrdering n) (F : CoeffField) (fuel : Nat)
    (st : F4 n × F4PairSet n) (stdin : List Nat) (he : st.2.isEmpty = true) :
    F4.mainLoop O F fuel st stdin = .ok st := by
  cases fuel with
  | zero => rw [F4.mainLoop, if_pos he]
  | succ fuel => rw [F4.mainLoop, if_pos he]

/-- One turn of the driver loop on a non-empty pair set, when the wait and the
reduction return. -/
theorem mainLoop_step (O : TOrdering n) (F : CoeffField) (fuel : Nat)
    (st : F4 n × F4PairSet n) (stdin rest : List Nat)
    (r : F4 n × F4PairSet n × List (Polynomial n)) (he : ¬ st.2.isEmpty = true)
    (hb : F4.BREAKPOINT (fuel + 1) stdin = .ok rest)
    (hr : F4.reduce O F (fuel + 1) st.1 st.2 = .ok r) :
    F4.mainLoop O F (fuel + 1) st stdin
      = F4.mainLoop O F fuel
          (if !r.2.2.isEmpty then F4.updatePairs O r.1 r.2.1 r.2.2 else (r.1, r.2.1)) rest := by
  rw [F4.mainLoop, if_neg he, hb]
  simp only
  rw [hr]
  simp only
  split <;> rfl

/-- What a returning turn of the driver loop on a non-empty pair set went
through. -/
theorem mainLoop_step_inv (O : TOrdering n) (F : CoeffField) (fuel : Nat)
    (st st' : F4 n × F4PairSet n) (stdin : List Nat) (he : ¬ st.2.isEmpty = true)
    (h : F4.mainLoop O F fuel st stdin = .ok st') :
    ∃ f rest r, fuel = f + 1 ∧ F4.BREAKPOINT (f + 1) stdin = .ok rest ∧
      F4.reduce O F (f + 1) st.1 st.2 = .ok r ∧
      F4.mainLoop O F f
        (if !r.2.2.isEmpty then F4.updatePairs O r.1 r.2.1 r.2.2 else (r.1, r.2.1)) rest
        = .ok st' := by
  cases fuel with
  | zero =>
    rw [F4.mainLoop, if_neg he] at h
    cases h
  | succ f =>
    cases hb : F4.BREAKPOINT (f + 1) stdin with
    | error e =>
      rw [F4.mainLoop, if_neg he, hb] at h
      cases h
    | ok rest =>
      cases hr : F4.reduce O F (f + 1) st.1 st.2 with
      | error e =>
        rw [F4.mainLoop, if_neg he, hb] at h
        simp only [hr] at h
        cases h
      | ok r =>
        rw [mainLoop_step O F f st stdin rest r he hb hr] at h
        exact ⟨f, rest, r, rfl, hb, hr, h⟩

theorem mainLoop_mono (O : TOrdering n) (F : CoeffField) : ∀ (fuel : Nat)
    (st r : F4 n × F4PairSet n) (stdin : List Nat),
    F4.mainLoop O F fuel st stdin = .ok r → F4.mainLoop O F (fuel + 1) st stdin = .ok r := by
  intro fuel
  induction fuel with
  | zero =>
    intro st r stdin h
    by_cases he : st.2.isEmpty = true
    · rw [mainLoop_of_isEmpty O F _ st stdin he] at h ⊢
      exact h
    · rw [F4.mainLoop, if_neg he] at h
      cases h
  | succ fuel ih =>
    intro st r stdin h
    by_cases he : st.2.isEmpty = true
    · rw [mainLoop_of_isEmpty O F _ st stdin he] at h ⊢
      exact h
    · obtain ⟨f, rest, x, hf, hb, hr, hm⟩ := mainLoop_step_inv O F _ st r stdin he h
      have hf' : f = fuel := Nat.succ.inj hf.symm
      subst hf'
      rw [mainLoop_step O F (f + 1) st stdin rest x he (BREAKPOINT_mono _ _ _ hb)
        (reduce_mono O F _ _ _ x hr)]
      exact ih _ _ _ hm

theorem mainLoop_mono_le (O : TOrdering n) (F : CoeffField) (st r : F4 n × F4PairSet n)
    (stdin : List Nat) :
    ∀ (k fuel : Nat), F4.mainLoop O F fuel st stdin = .ok r →
      F4.mainLoop O F (fuel + k) st stdin = .ok r := by
  intro k
  induction k with
  | zero => intro fuel h; exact h
  | succ k ih =>
    intro fuel h
    exact mainLoop_mono O F (fuel + k) st r stdin (ih fuel h)

theorem mainLoop_mono_of_le (O : TOrdering n) (F : CoeffField) (st r : F4 n × F4PairSet n)
    (stdin : List Nat) (a b : Nat) (hab : a ≤ b) (h : F4.mainLoop O F a st stdin = .ok r) :
    F4.mainLoop O F b st stdin = .ok r := by
  have := mainLoop_mono_le O F st r stdin (b - a) a h
  rwa [Nat.add_sub_cancel' hab] at this

/-- On a non-empty pair set and an input without a newline the driver loop does
not return, whatever the budget. -/
theorem mainLoop_no_newline (O : TOrdering n) (F : CoeffField) (fuel : Nat)
    (st : F4 n × F4PairSet n) (stdin : List Nat) (he : ¬ st.2.isEmpty = true)
    (hn : stdin.count 10 = 0) : F4.mainLoop O F fuel st stdin = .error .outOfFuel := by
  cases fuel with
  | zero => rw [F4.mainLoop, if_neg he]
  | succ fuel => rw [F4.mainLoop, if_neg he, BREAKPOINT_no_newline _ _ hn]

/-- A returning run of the driver loop fixes the number `B` of batches: the
input of the run held at least `B` newlines, the loop returns the same state
on every input with at least `B` newlines, and it does not return on an input
with fewer. -/
theorem mainLoop_count (O : TOrdering n) (F : CoeffField) : ∀ (fuel : Nat)
    (st st' : F4 n × F4PairSet n) (stdin : List Nat),
    F4.mainLoop O F fuel st stdin = .ok st' →
    ∃ B, B ≤ stdin.count 10 ∧
      (∀ stdin2 : List Nat, B ≤ stdin2.count 10 →
        F4.mainLoop O F (fuel + stdin2.length) st stdin2 = .ok st') ∧
      (∀ stdin2 : List Nat, stdin2.count 10 < B →
        ∀ fuel2 st2, F4.mainLoop O F fuel2 st stdin2 ≠ .ok st2) := by
  intro fuel
  induction fuel with
  | zero =>
    intro st st' stdin h
    by_cases he : st.2.isEmpty = true
    · rw [mainLoop_of_isEmpty O F _ st stdin he] at h
      have hst := Except.ok.inj h
      subst hst
      exact ⟨0, Nat.zero_le _, fun stdin2 _ => mainLoop_of_isEmpty O F _ st stdin2 he,
        fun stdin2 hlt => absurd hlt (Nat.not_lt_zero _)⟩
    · rw [F4.mainLoop, if_neg he] at h
      cases h
  | succ fuel ih =>
    intro st st' stdin h
    by_cases he : st.2.isEmpty = true
    · rw [mainLoop_of_isEmpty O F _ st stdin he] at h
      have hst := Except.ok.inj h
      subst hst
      exact ⟨0, Nat.zero_le _, fun stdin2 _ => mainLoop_of_isEmpty O F _ st stdin2 he,
        fun stdin2 hlt => absurd hlt (Nat.not_lt_zero _)⟩
    · obtain ⟨f, rest, r, hf, hb, hr, hm⟩ := mainLoop_step_inv O F _ st st' stdin he h
      have hf' : f = fuel := Nat.succ.inj hf.symm
      subst hf'
      obtain ⟨B, hB, hpos, hneg⟩ := ih _ _ _ hm
      obtain ⟨hcount, _⟩ := BREAKPOINT_spec _ _ _ hb
      refine ⟨B + 1, by omega, fun stdin2 h2 => ?_, fun stdin2 h2 fuel2 st2 hrun => ?_⟩
      · obtain ⟨rest2, hb2⟩ := BREAKPOINT_ok stdin2 (by omega)
        obtain ⟨hc2, hl2⟩ := BREAKPOINT_spec _ _ _ hb2
        have e : f + 1 + stdin2.length = (f + stdin2.length) + 1 := by omega
        rw [e, mainLoop_step O F (f + stdin2.length) st stdin2 rest2 r he
          (BREAKPOINT_mono_of_le _ _ _ _ (by omega) hb2)
          (reduce_mono_of_le O F _ _ r _ _ (by omega) hr)]
        exact mainLoop_mono_of_le O F _ _ _ _ _ (by omega) (hpos rest2 (by omega))
      · obtain ⟨f2, rest2, r2, _, hb2, hr2, hm2⟩ :=
          mainLoop_step_inv O F _ st st2 stdin2 he hrun
        have hrr : r = r2 := reduce_det O F _ _ r r2 _ _ hr hr2
        subst hrr
        obtain ⟨hc2, _⟩ := BREAKPOINT_spec _ _ _ hb2
        exact hneg rest2 (by omega) f2 st2 hm2

theorem compute_eq (O : TOrdering n) (F : CoeffField) (fuel : Nat)
    (generators : List (Polynomial n)) (stdin : List Nat) (st : F4 n × F4PairSet n)
    (h : F4.mainLoop O F fuel
      (F4.updatePairs O (F4.empty n) []
        ((stdSort (PolynomialComparator O true) generators).map (Polynomial.normalize F)))
      stdin = .ok st) :
    F4.compute O F fuel generators stdin = .ok (F4.result st.1) := by
  unfold F4.compute
  simp only [h]

theorem compute_ok (O : TOrdering n) (F : CoeffField) (fuel : Nat)
    (generators res : List (Polynomial n)) (stdin : List Nat)
    (h : F4.compute O F fuel generators stdin = .ok res) :
    ∃ st, F4.mainLoop O F fuel
        (F4.updatePairs O (F4.empty n) []
          ((stdSort (PolynomialComparator O true) generators).map (Polynomial.normalize F)))
        stdin = .ok st ∧ res = F4.result st.1 := by
  unfold F4.compute at h
  simp only at h
  cases hm : F4.mainLoop O F fuel
      (F4.updatePairs O (F4.empty n) []
        ((stdSort (PolynomialComparator O true) generators).map (Polynomial.normalize F)))
      stdin with
  | error e => rw [hm] at h; exact absurd h (by simp)
  | ok st =>
    rw [hm] at h
    simp only [Except.ok.injEq] at h
    exact ⟨st, rfl, h.symm⟩

theorem compute_mono (O : TOrdering n) (F : CoeffField) (generators : List (Polynomial n))
    (res : List (Polynomial n)) (stdin : List Nat) : ∀ (k fuel : Nat),
    F4.compute O F fuel generators stdin = .ok res →
      F4.compute O F (fuel + k) generators stdin = .ok res := by
  intro k fuel h
  obtain ⟨st, hm, hres⟩ := compute_ok O F fuel generators res stdin h
  rw [hres]
  exact compute_eq O F _ generators stdin st (mainLoop_mono_le O F _ st stdin k fuel hm)

/-- A returning run of the driver fixes the number `B` of batches: the driver
returns the same list on every input with at least `B` newlines and does not
return on an input with fewer. -/
theorem compute_count (O : TOrdering n) (F : CoeffField) (fuel : Nat)
    (generators res : List (Polynomial n)) (stdin : List Nat)
    (h : F4.compute O F fuel generators stdin = .ok res) :
    ∃ B, B ≤ stdin.count 10 ∧
      (∀ stdin2 : List Nat, B ≤ stdin2.count 10 → ∀ k,
        F4.compute O F (fuel + stdin2.length + k) generators stdin2 = .ok res) ∧
      (∀ stdin2 : List Nat, stdin2.count 10 < B →
        ∀ fuel2 res2, F4.compute O F fuel2 generators stdin2 ≠ .ok res2) := by
  obtain ⟨st, hm, hres⟩ := compute_ok O F fuel generators res stdin h
  obtain ⟨B, hB, hpos, hneg⟩ := mainLoop_count O F fuel _ st stdin hm
  refine ⟨B, hB, fun stdin2 h2 k => ?_, fun stdin2 h2 fuel2 res2 hc => ?_⟩
  · rw [hres]
    exact compute_eq O F _ generators stdin2 st
      (mainLoop_mono_le O F _ st stdin2 k _ (hpos stdin2 h2))
  · obtain ⟨st2, hm2, _⟩ := compute_ok O F fuel2 generators res2 stdin2 hc
    exact hneg stdin2 h2 fuel2 st2 hm2

/-- When the initial `updatePairs` leaves no pair, the driver returns without
reading the standard input. -/
theorem compute_of_no_pairs (O : TOrdering n) (F : CoeffField) (fuel : Nat)
    (generators : List (Polynomial n)) (stdin : List Nat)
    (h : (F4.updatePairs O (F4.empty n) []
      ((stdSort (PolynomialComparator O true) generators).map (Polynomial.normalize F))).2
      = []) :
    F4.compute O F fuel generators stdin
      = .ok (F4.result (F4.updatePairs O (F4.empty n) []
        ((stdSort (PolynomialComparator O true) generators).map
          (Polynomial.normalize F))).1) :=
  compute_eq O F fuel generators stdin _
    (mainLoop_of_isEmpty O F fuel _ stdin (by rw [h]; rfl))

/-- When the initial `updatePairs` leaves a pair and the standard input holds
no newline, the driver does not return, whatever the budget. -/
theorem compute_no_newline (O : TOrdering n) (F : CoeffField) (fuel : Nat)
    (generators : List (Polynomial n)) (stdin : List Nat)
    (h : ¬ (F4.updatePairs O (F4.empty n) []
      ((stdSort (PolynomialComparator O true) generators).map (Polynomial.normalize F))).2.isEmpty
      = true)
    (hn : stdin.count 10 = 0) :
    F4.compute O F fuel generators stdin = .error .outOfFuel := by
  unfold F4.compute
  simp only [mainLoop_no_newline O F fuel _ stdin h hn]

set_option maxRecDepth 100000 in
/-- C2 (as stated) fails: with the standard input at its end the driver, applied
to `x+y+z, xy+xz+yz, xyz-1`, does not return, whatever the step budget: the
first turn of the driver loop waits for a newline (`BREAKPOINT`, line 383) that
never comes.  With two newlines on the input it does return. -/
theorem C2_counterexample :
    (∀ fuel : Nat,
      F4.compute (DegRevLexOrdering 3) F32003 fuel [cyclic1, cyclic2, cyclic3] []
        = .error .outOfFuel) ∧
    F4.compute (DegRevLexOrdering 3) F32003 4 [cyclic1, cyclic2, cyclic3] [10, 10]
      = .ok [cyclic1, cyclicOut2, cyclicOut3] :=
  ⟨fun fuel => compute_no_newline _ _ fuel _ [] (by decide) rfl, by decide⟩

set_option maxRecDepth 100000 in
/-- C2 (amended): over the field with 32003 elements and the
degree-reverse-lexicographic ordering on `x > y > z`, the driver applied to
`x+y+z, xy+xz+yz, xyz-1` returns exactly `x+y+z, y^2+yz+z^2, z^3-1`, in this
order, when the standard input holds at least two newlines (one for each of
the two batches), for every step budget of at least 4 plus the length of the
input; when the input holds fewer than two newlines the driver does not
return. -/
theorem C2_cyclic3_basis (stdin : List Nat) :
    (2 ≤ stdin.count 10 → ∀ k,
      F4.compute (DegRevLexOrdering 3) F32003 (4 + stdin.length + k)
        [cyclic1, cyclic2, cyclic3] stdin = .ok [cyclic1, cyclicOut2, cyclicOut3]) ∧
    (stdin.count 10 < 2 → ∀ fuel res,
      F4.compute (DegRevLexOrdering 3) F32003 fuel [cyclic1, cyclic2, cyclic3] stdin
        ≠ .ok res) := by
  have h0 : F4.compute (DegRevLexOrdering 3) F32003 4 [cyclic1, cyclic2, cyclic3] [10, 10]
      = .ok [cyclic1, cyclicOut2, cyclicOut3] := by decide
  have h1 : F4.compute (DegRevLexOrdering 3) F32003 5 [cyclic1, cyclic2, cyclic3] [10]
      = .error .outOfFuel := by decide
  obtain ⟨B, hB, hpos, hneg⟩ := compute_count _ _ _ _ _ _ h0
  have hB2 : B = 2 := by
    have hle : B ≤ 2 := hB
    by_contra hne
    have := hpos [10] (by
      have : ([10] : List Nat).count 10 = 1 := by decide
      omega) 0
    rw [show 4 + ([10] : List Nat).length + 0 = 5 from rfl, h1] at this
    cases this
  subst hB2
  exact ⟨fun h k => hpos stdin h k, fun h fuel res => hneg stdin h fuel res⟩

/-- C2 (amended), with exactly two newlines on the standard input. -/
theorem C2_cyclic3_basis_witness :
    2 ≤ ([10, 10] : List Nat).count 10 ∧
      F4.compute (DegRevLexOrdering 3) F32003 (4 + ([10, 10] : List Nat).length + 0)
        [cyclic1, cyclic2, cyclic3] [10, 10] = .ok [cyclic1, cyclicOut2, cyclicOut3] :=
  ⟨by decide, (C2_cyclic3_basis [10, 10]).1 (by decide) 0⟩

set_option maxRecDepth 100000 in
/-- C1 fails on the generators `x + y` and `x + z`, which share the leading
term `x`: for every step budget and every standard input the driver returns
the single polynomial `x + y` (and `x + z` when the generators are given in the
other order), the pair of the two generators is never formed, and the
remainder of the dropped generator on division by the returned list is
`-y + z` (resp. `y - z`), not zero. -/
theorem C1_generator_lost (k : Nat) (stdin : List Nat) :
    F4.compute (DegRevLexOrdering 3) F32003 k [xPlusY, xPlusZ] stdin = .ok [xPlusY] ∧
      F4.compute (DegRevLexOrdering 3) F32003 k [xPlusZ, xPlusY] stdin = .ok [xPlusZ] ∧
      (F4.updatePairs (DegRevLexOrdering 3) (F4.empty 3) [] [xPlusY, xPlusZ]).2 = [] ∧
      normalForm (DegRevLexOrdering 3) F32003 [xPlusY] 5 xPlusZ.coeffs []
        = some [(32002, mk3 0 1 0), (1, mk3 0 0 1)] ∧
      normalForm (DegRevLexOrdering 3) F32003 [xPlusZ] 5 xPlusY.coeffs []
        = some [(1, mk3 0 1 0), (32002, mk3 0 0 1)] := by
  refine ⟨?_, ?_, by decide, by decide, by decide⟩
  · exact (compute_of_no_pairs (DegRevLexOrdering 3) F32003 k [xPlusY, xPlusZ] stdin
      (by decide)).trans (congrArg Except.ok (by decide))
  · exact (compute_of_no_pairs (DegRevLexOrdering 3) F32003 k [xPlusZ, xPlusY] stdin
      (by decide)).trans (congrArg Except.ok (by decide))

/-- C3, at the pair set of the cyclic example after the initial update. -/
theorem C3_selection_minimal_sugar_witness :
    cyclicPairs ≠ [] ∧ KeysDistinct cyclicPairs ∧
      ∃ sel : Selection 3, selection (DegRevLexOrdering 3) cyclicPairs = .ok sel ∧
        (∃ p ∈ cyclicPairs, p.sugar = sel.currentDegree) ∧
        (∀ p ∈ cyclicPairs, sel.currentDegree ≤ p.sugar) ∧
        (∃ chosen : List (F4Pair 3),
          chosen.Perm (cyclicPairs.filter (fun p => decide (p.sugar = sel.currentDegree))) ∧
          sel.rows = chosen.flatMap (fun p => [(p.i, p.LCM), (p.j, p.LCM)]) ∧
          sel.index = chosen.length ∧ sel.rows.length = 2 * sel.index ∧
          (chosen ++ sel.pairs).Perm cyclicPairs) ∧
        sel.pairs.Perm (cyclicPairs.filter (fun p => decide (sel.currentDegree < p.sugar))) ∧
        ∀ (fuel : Nat) (f4 : F4 3) (pr : F4.Prepared 3),
          F4.prepare (DegRevLexOrdering 3) fuel f4 cyclicPairs = .ok pr →
            pr.currentDegree = sel.currentDegree ∧ pr.upper = 2 * sel.index ∧
              pr.pairs = sel.pairs :=
  ⟨by decide, by unfold KeysDistinct; decide,
    C3_selection_minimal_sugar (DegRevLexOrdering 3) cyclicPairs (by decide)
      (by unfold KeysDistinct; decide)⟩

/-- C6, in the cyclic example when `x + y + z` arrives after `xyz - 1` and
`xy + xz + yz`: the only survivor is index 1. -/
theorem C6_bucket_one_representative_witness :
    (F4.criterionM (F4.run (DegRevLexOrdering 3) [.update [cyclic3, cyclic2]]).1.groebnerBasis
        cyclic1
        (F4.run (DegRevLexOrdering 3) [.update [cyclic3, cyclic2]]).1.inGroebnerBasis).getD 1
        false = true ∧
      (((F4.bucketP2 (DegRevLexOrdering 3)
          (F4.run (DegRevLexOrdering 3) [.update [cyclic3, cyclic2]]).1.groebnerBasis cyclic1 2
          (F4.criterionM
            (F4.run (DegRevLexOrdering 3) [.update [cyclic3, cyclic2]]).1.groebnerBasis cyclic1
            (F4.run (DegRevLexOrdering 3) [.update [cyclic3, cyclic2]]).1.inGroebnerBasis)).filter
          (fun p => p.LCM = (F4.newPair
            (F4.run (DegRevLexOrdering 3) [.update [cyclic3, cyclic2]]).1.groebnerBasis
            cyclic1 1 2).LCM)).length = 1 ∧
      ∀ p ∈ F4.bucketP2 (DegRevLexOrdering 3)
          (F4.run (DegRevLexOrdering 3) [.update [cyclic3, cyclic2]]).1.groebnerBasis cyclic1 2
          (F4.criterionM
            (F4.run (DegRevLexOrdering 3) [.update [cyclic3, cyclic2]]).1.groebnerBasis cyclic1
            (F4.run (DegRevLexOrdering 3) [.update [cyclic3, cyclic2]]).1.inGroebnerBasis),
        p.LCM = (F4.newPair
            (F4.run (DegRevLexOrdering 3) [.update [cyclic3, cyclic2]]).1.groebnerBasis
            cyclic1 1 2).LCM →
          (∃ i0, (F4.criterionM
                (F4.run (DegRevLexOrdering 3) [.update [cyclic3, cyclic2]]).1.groebnerBasis
                cyclic1
                (F4.run (DegRevLexOrdering 3)
                  [.update [cyclic3, cyclic2]]).1.inGroebnerBasis).getD i0 false = true ∧
              p = F4.newPair
                (F4.run (DegRevLexOrdering 3) [.update [cyclic3, cyclic2]]).1.groebnerBasis
                cyclic1 i0 2) ∧
            ((∃ i1, (F4.criterionM
                  (F4.run (DegRevLexOrdering 3) [.update [cyclic3, cyclic2]]).1.groebnerBasis
                  cyclic1
                  (F4.run (DegRevLexOrdering 3)
                    [.update [cyclic3, cyclic2]]).1.inGroebnerBasis).getD i1 false = true ∧
                (F4.newPair
                  (F4.run (DegRevLexOrdering 3) [.update [cyclic3, cyclic2]]).1.groebnerBasis
                  cyclic1 i1 2).LCM
                  = (F4.newPair
                    (F4.run (DegRevLexOrdering 3) [.update [cyclic3, cyclic2]]).1.groebnerBasis
                    cyclic1 1 2).LCM ∧
                (F4.newPair
                  (F4.run (DegRevLexOrdering 3) [.update [cyclic3, cyclic2]]).1.groebnerBasis
                  cyclic1 i1 2).marked = false) →
              p.marked = false)) :=
  ⟨by decide,
    C6_bucket_one_representative (DegRevLexOrdering 3) [.update [cyclic3, cyclic2]] cyclic1 2 1
      (by decide)⟩

/-- C7, at a pair the cyclic example holds after the initial update. -/
theorem C7_no_marked_pair_witness :
    cyclicPair12 ∈ (F4.run (DegRevLexOrdering 3) [.update [cyclic3, cyclic2, cyclic1]]).2 ∧
      (cyclicPair12.marked = false ∧
        cyclicPair12.LCM ≠
          ((F4.run (DegRevLexOrdering 3)
              [.update [cyclic3, cyclic2, cyclic1]]).1.groebnerBasis.getD cyclicPair12.i
            default).LT.mul
          ((F4.run (DegRevLexOrdering 3)
              [.update [cyclic3, cyclic2, cyclic1]]).1.groebnerBasis.getD cyclicPair12.j
            default).LT) :=
  ⟨by decide,
    C7_no_marked_pair (DegRevLexOrdering 3) [.update [cyclic3, cyclic2, cyclic1]] cyclicPair12
      (by decide)⟩

/-- C10, at a pair the cyclic example holds after the initial update and the
selection of the first batch. -/
theorem C10_pair_wellformed_witness :
    F4.newPair [cyclic3, cyclic2, cyclic1] cyclic2 0 1
        ∈ (F4.run (DegRevLexOrdering 3) [.update [cyclic3, cyclic2, cyclic1], .select]).2 ∧
      ((F4.newPair [cyclic3, cyclic2, cyclic1] cyclic2 0 1).i
          < (F4.newPair [cyclic3, cyclic2, cyclic1] cyclic2 0 1).j ∧
        (F4.newPair [cyclic3, cyclic2, cyclic1] cyclic2 0 1).j
          < (F4.run (DegRevLexOrdering 3)
              [.update [cyclic3, cyclic2, cyclic1], .select]).1.groebnerBasis.length ∧
        (F4.newPair [cyclic3, cyclic2, cyclic1] cyclic2 0 1).LCM
          = Term.lcm
            ((F4.run (DegRevLexOrdering 3)
                [.update [cyclic3, cyclic2, cyclic1], .select]).1.groebnerBasis.getD
              (F4.newPair [cyclic3, cyclic2, cyclic1] cyclic2 0 1).i default).LT
            ((F4.run (DegRevLexOrdering 3)
                [.update [cyclic3, cyclic2, cyclic1], .select]).1.groebnerBasis.getD
              (F4.newPair [cyclic3, cyclic2, cyclic1] cyclic2 0 1).j default).LT ∧
        (F4.newPair [cyclic3, cyclic2, cyclic1] cyclic2 0 1).sugar
          = max
              (((F4.run (DegRevLexOrdering 3)
                    [.update [cyclic3, cyclic2, cyclic1], .select]).1.groebnerBasis.getD
                  (F4.newPair [cyclic3, cyclic2, cyclic1] cyclic2 0 1).i default).sugar
                - ((F4.run (DegRevLexOrdering 3)
                    [.update [cyclic3, cyclic2, cyclic1], .select]).1.groebnerBasis.getD
                  (F4.newPair [cyclic3, cyclic2, cyclic1] cyclic2 0 1).i default).LT.deg)
              (((F4.run (DegRevLexOrdering 3)
                    [.update [cyclic3, cyclic2, cyclic1], .select]).1.groebnerBasis.getD
                  (F4.newPair [cyclic3, cyclic2, cyclic1] cyclic2 0 1).j default).sugar
                - ((F4.run (DegRevLexOrdering 3)
                    [.update [cyclic3, cyclic2, cyclic1], .select]).1.groebnerBasis.getD
                  (F4.newPair [cyclic3, cyclic2, cyclic1] cyclic2 0 1).j default).LT.deg)
            + (F4.newPair [cyclic3, cyclic2, cyclic1] cyclic2 0 1).LCM.deg) :=
  ⟨by decide,
    C10_pair_wellformed (DegRevLexOrdering 3) [.update [cyclic3, cyclic2, cyclic1], .select]
      (F4.newPair [cyclic3, cyclic2, cyclic1] cyclic2 0 1) (by decide)⟩


theorem sum_zipWith_max_ge : ∀ (a b : List Nat), a.length = b.length →
    b.sum ≤ (List.zipWith (fun x y => max x y) a b).sum
  | [], [] => by simp
  | [], _ :: _ => by simp
  | _ :: _, [] => by simp
  | x :: a, y :: b => by
    intro hl
    have ih := sum_zipWith_max_ge a b (by simpa using hl)
    simp only [List.zipWith_cons_cons, List.sum_cons]
    have : y ≤ max x y := le_max_right _ _
    omega

theorem Term.deg_lcm_ge (a b : Term n) : b.deg ≤ (Term.lcm a b).deg := by
  simp only [Term.deg, Term.lcm]
  exact_mod_cast sum_zipWith_max_ge a.1 b.1 (a.2.trans b.2.symm)

theorem newPair_sugar_ge (G : List (Polynomial n)) (h : Polynomial n) (i t : Nat) :
    h.sugar ≤ (F4.newPair G h i t).sugar := by
  simp only [F4.newPair, Polynomial.lcmLT]
  have h1 := Term.deg_lcm_ge (G.getD i default).LT h.LT
  have h2 : h.sugar - h.LT.deg ≤ max ((G.getD i default).sugar - (G.getD i default).LT.deg)
      (h.sugar - h.LT.deg) := le_max_right _ _
  omega

theorem body_mem_pairs (O : TOrdering n) (f4 : F4 n) (pairs : F4PairSet n) (t : Nat)
    (h : Polynomial n) (q : F4Pair n)
    (hq : q ∈ (F4.updatePairsBody O (f4, pairs, t) h).2.1) :
    q ∈ pairs ∨ ∃ i, q = F4.newPair f4.groebnerBasis h i t := by
  unfold F4.updatePairsBody at hq
  simp only at hq
  split_ifs at hq with hs
  · rcases (criterionF_fold O _ _).2 q hq with h1 | ⟨h1, _⟩
    · rcases criterionB_fold_subset O f4.groebnerBasis h pairs [] q h1 with h2 | h2
      · exact absurd h2 (List.not_mem_nil _)
      · exact Or.inl h2
    · rw [bucketP2_mem] at h1
      obtain ⟨i, _, _, hqe, _⟩ := h1
      exact Or.inr ⟨i, hqe⟩
  · rcases criterionB_fold_subset O f4.groebnerBasis h pairs [] q hq with h2 | h2
    · exact absurd h2 (List.not_mem_nil _)
    · exact Or.inl h2

theorem fold_sugar_ge (O : TOrdering n) (d : Int) : ∀ (polys : List (Polynomial n))
    (st : F4 n × F4PairSet n × Nat), (∀ p ∈ st.2.1, d ≤ p.sugar) → (∀ g ∈ polys, d ≤ g.sugar) →
      ∀ p ∈ (polys.foldl (F4.updatePairsBody O) st).2.1, d ≤ p.sugar := by
  intro polys
  induction polys with
  | nil => intro st h1 _; exact h1
  | cons g gs ih =>
    intro st h1 h2
    simp only [List.foldl_cons]
    apply ih
    · intro p hp
      obtain ⟨f4, pairs, t⟩ := st
      rcases body_mem_pairs O f4 pairs t g p hp with h3 | ⟨i, h3⟩
      · exact h1 p h3
      · rw [h3]
        exact le_trans (h2 g (List.mem_cons_self _ _)) (newPair_sugar_ge _ g i t)
    · intro g' hg'
      exact h2 g' (List.mem_cons_of_mem _ hg')

theorem updatePairs_sugar_ge (O : TOrdering n) (d : Int) (f4 : F4 n) (pairs : F4PairSet n)
    (polys : List (Polynomial n)) (h1 : ∀ p ∈ pairs, d ≤ p.sugar)
    (h2 : ∀ g ∈ polys, d ≤ g.sugar) :
    ∀ p ∈ (F4.updatePairs O f4 pairs polys).2, d ≤ p.sugar :=
  fold_sugar_ge O d polys (f4, pairs, f4.groebnerBasis.length) h1 h2

theorem selection_sugar (O : TOrdering n) (pairs : F4PairSet n) (sel : Selection n)
    (hs : selection O pairs = .ok sel) :
    (∃ p ∈ pairs, p.sugar = sel.currentDegree) ∧ (∀ p ∈ pairs, sel.currentDegree ≤ p.sugar) ∧
      ∀ q ∈ sel.pairs, sel.currentDegree < q.sugar := by
  have hperm := stdSort_perm s pairs
  have hsorted := stdSort_s_sorted pairs
  unfold selection at hs
  simp only at hs
  generalize stdSort s pairs = tmp at hperm hsorted hs
  cases tmp with
  | nil => exact absurd hs (by simp)
  | cons first rest =>
    simp only [Except.ok.injEq] at hs
    subst hs
    simp only
    have hge : ∀ p ∈ first :: rest, first.sugar ≤ p.sugar := by
      intro p hp
      rcases List.mem_cons.1 hp with e | hp'
      · rw [e]
      · exact (List.sorted_cons.1 hsorted).1 p hp'
    obtain ⟨k, _, h1, _, _, h4⟩ :=
      seedLoop_spec first.sugar (first :: rest) 0 [] [] hsorted hge
    refine ⟨⟨first, hperm.mem_iff.1 (List.mem_cons_self _ _), rfl⟩,
      fun p hp => hge p (hperm.mem_iff.2 hp), ?_⟩
    intro q hq
    rcases (setInsertAll_fold O _ []).2.1 q hq with h5 | h5
    · exact absurd h5 (List.not_mem_nil _)
    · rw [h1, Nat.zero_add, h4, List.mem_filter] at h5
      simpa using h5.2

theorem reduce_ok (O : TOrdering n) (F : CoeffField) (fuel : Nat) (f4 : F4 n)
    (pairs : F4PairSet n) (r : F4 n × F4PairSet n × List (Polynomial n))
    (h : F4.reduce O F fuel f4 pairs = .ok r) :
    ∃ pr, F4.prepare O fuel f4 pairs = .ok pr ∧
      r.1 = { f4 with currentDegree := pr.currentDegree } ∧ r.2.1 = pr.pairs ∧
      r.2.2 = ((List.range pr.upper).filter (fun i => i % 2 == 1)).filterMap
        (fun i =>
          if !(F4.gauss F (F4.pReduce F pr.ops pr.rs) pr.upper
              (List.replicate pr.upper false)).2.getD i false then
            some (F4.extractRow pr.currentDegree pr.terms
              ((F4.gauss F (F4.pReduce F pr.ops pr.rs) pr.upper
                (List.replicate pr.upper false)).1.getD i []))
          else none) := by
  unfold F4.reduce at h
  simp only [bind, Except.bind, pure, Except.pure] at h
  cases hp : F4.prepare O fuel f4 pairs with
  | error e => rw [hp] at h; exact absurd h (by simp)
  | ok pr =>
    rw [hp] at h
    simp only [Except.ok.injEq] at h
    subst h
    exact ⟨pr, rfl, rfl, rfl, rfl⟩

theorem prepare_ok (O : TOrdering n) (fuel : Nat) (f4 : F4 n) (pairs : F4PairSet n)
    (pr : F4.Prepared n) (h : F4.prepare O fuel f4 pairs = .ok pr) :
    ∃ sel st rs ops, selection O pairs = .ok sel ∧
      F4.setupRows f4 (2 * sel.index) fuel 0
        { rows := sel.rows, pivots := sel.pivots, pivotOps := [], termsUnordered := [],
          rightSide := [] } = .ok st ∧
      F4.denseRows (setInsertAll (TermComparator O true) st.termsUnordered []) st.rightSide
        = .ok rs ∧
      F4.schedule st.pivots
        (setInsertAll (fun a b => TermComparator O true a.1 b.1) st.pivotOps []) rs.length
        = .ok ops ∧
      pr = { upper := 2 * sel.index, ops := ops,
             terms := setInsertAll (TermComparator O true) st.termsUnordered [], rs := rs,
             pairs := sel.pairs, currentDegree := sel.currentDegree } := by
  unfold F4.prepare at h
  simp only [bind, Except.bind, pure, Except.pure] at h
  cases hsel : selection O pairs with
  | error e => rw [hsel] at h; exact absurd h (by simp)
  | ok sel =>
    rw [hsel] at h
    simp only at h
    cases hst : F4.setupRows f4 (2 * sel.index) fuel 0
        { rows := sel.rows, pivots := sel.pivots, pivotOps := [], termsUnordered := [],
          rightSide := [] } with
    | error e => rw [hst] at h; exact absurd h (by simp)
    | ok st =>
      rw [hst] at h
      simp only at h
      cases hrs : F4.denseRows (setInsertAll (TermComparator O true) st.termsUnordered [])
          st.rightSide with
      | error e => rw [hrs] at h; exact absurd h (by simp)
      | ok rs =>
        rw [hrs] at h
        simp only at h
        cases hops : F4.schedule st.pivots
            (setInsertAll (fun a b => TermComparator O true a.1 b.1) st.pivotOps [])
            rs.length with
        | error e => rw [hops] at h; exact absurd h (by simp)
        | ok ops =>
          rw [hops] at h
          simp only [Except.ok.injEq] at h
          exact ⟨sel, st, rs, ops, rfl, hst, hrs, hops, h.symm⟩


theorem reduce_sugar (O : TOrdering n) (F : CoeffField) (fuel : Nat) (f4 : F4 n)
    (pairs : F4PairSet n) (r : F4 n × F4PairSet n × List (Polynomial n))
    (h : F4.reduce O F fuel f4 pairs = .ok r) :
    (∃ p ∈ pairs, p.sugar = r.1.currentDegree) ∧ (∀ p ∈ pairs, r.1.currentDegree ≤ p.sugar) ∧
      (∀ g ∈ r.2.2, g.sugar = r.1.currentDegree) ∧
      ∀ p ∈ r.2.1, r.1.currentDegree < p.sugar := by
  obtain ⟨pr, hp, h1, h2, h3⟩ := reduce_ok O F fuel f4 pairs r h
  obtain ⟨sel, st, rs, ops, hsel, _, _, _, hpr⟩ := prepare_ok O fuel f4 pairs pr hp
  obtain ⟨s1, s2, s3⟩ := selection_sugar O pairs sel hsel
  have hcd : r.1.currentDegree = sel.currentDegree := by rw [h1, hpr]
  have hpp : r.2.1 = sel.pairs := by rw [h2, hpr]
  rw [hcd, hpp]
  refine ⟨s1, s2, ?_, s3⟩
  intro g hg
  rw [h3, List.mem_filterMap] at hg
  obtain ⟨i, _, hi⟩ := hg
  split_ifs at hi
  simp only [Option.some.injEq] at hi
  rw [← hi, hpr]
  rfl

/-- C13: if `reduce` selects its batch at sugar `d` (the minimum sugar of the
pair set, stored in `currentDegree`), every polynomial it produces has sugar
`d`, so at least `d`; the pairs left after the selection have sugar above `d`;
after the produced polynomials are fed to `updatePairs` every pair in the pair
set has sugar at least `d`; hence the batch the driver selects next, from the
state its loop continues with, has sugar at least `d`. -/
theorem C13_sugar_monotone (O : TOrdering n) (F : CoeffField) (fuel : Nat) (f4 : F4 n)
    (pairs : F4PairSet n) (r : F4 n × F4PairSet n × List (Polynomial n))
    (h : F4.reduce O F fuel f4 pairs = .ok r) :
    (∃ p ∈ pairs, p.sugar = r.1.currentDegree) ∧ (∀ p ∈ pairs, r.1.currentDegree ≤ p.sugar) ∧
      (∀ g ∈ r.2.2, r.1.currentDegree ≤ g.sugar) ∧
      (∀ p ∈ r.2.1, r.1.currentDegree < p.sugar) ∧
      (∀ p ∈ (F4.updatePairs O r.1 r.2.1 r.2.2).2, r.1.currentDegree ≤ p.sugar) ∧
      ∀ (fuel' : Nat) (r' : F4 n × F4PairSet n × List (Polynomial n)),
        F4.reduce O F fuel'
            (if !r.2.2.isEmpty then F4.updatePairs O r.1 r.2.1 r.2.2 else (r.1, r.2.1)).1
            (if !r.2.2.isEmpty then F4.updatePairs O r.1 r.2.1 r.2.2 else (r.1, r.2.1)).2
          = .ok r' →
        r.1.currentDegree ≤ r'.1.currentDegree := by
  obtain ⟨h1, h2, h3, h4⟩ := reduce_sugar O F fuel f4 pairs r h
  have h5 : ∀ p ∈ (F4.updatePairs O r.1 r.2.1 r.2.2).2, r.1.currentDegree ≤ p.sugar :=
    updatePairs_sugar_ge O _ r.1 r.2.1 r.2.2 (fun p hp => le_of_lt (h4 p hp))
      (fun g hg => le_of_eq (h3 g hg).symm)
  refine ⟨h1, h2, fun g hg => le_of_eq (h3 g hg).symm, h4, h5, ?_⟩
  intro fuel' r' hr'
  obtain ⟨⟨p, hp, hpe⟩, _, _, _⟩ := reduce_sugar O F fuel' _ _ r' hr'
  rw [← hpe]
  split_ifs at hp
  · exact h5 p hp
  · exact le_of_lt (h4 p hp)

set_option maxRecDepth 100000 in
/-- C13, at the first batch of the cyclic example. -/
theorem C13_sugar_monotone_witness :
    F4.reduce (DegRevLexOrdering 3) F32003 4
        ⟨[cyclic3, cyclic2, cyclic1], [false, false, true], 0⟩ cyclicPairs
      = .ok (⟨[cyclic3, cyclic2, cyclic1], [false, false, true], 2⟩,
          [F4.newPair [cyclic3, cyclic2, cyclic1] cyclic2 0 1], [cyclicOut2]) ∧
    ((∃ p ∈ cyclicPairs, p.sugar = (2 : Int)) ∧ (∀ p ∈ cyclicPairs, (2 : Int) ≤ p.sugar) ∧
      (∀ g ∈ [cyclicOut2], (2 : Int) ≤ g.sugar) ∧
      (∀ p ∈ [F4.newPair [cyclic3, cyclic2, cyclic1] cyclic2 0 1], (2 : Int) < p.sugar) ∧
      (∀ p ∈ (F4.updatePairs (DegRevLexOrdering 3)
            ⟨[cyclic3, cyclic2, cyclic1], [false, false, true], 2⟩
            [F4.newPair [cyclic3, cyclic2, cyclic1] cyclic2 0 1] [cyclicOut2]).2,
          (2 : Int) ≤ p.sugar) ∧
      ∀ (fuel' : Nat) (r' : F4 3 × F4PairSet 3 × List (Polynomial 3)),
        F4.reduce (DegRevLexOrdering 3) F32003 fuel'
            (if !(List.isEmpty [cyclicOut2]) then
                F4.updatePairs (DegRevLexOrdering 3)
                  ⟨[cyclic3, cyclic2, cyclic1], [false, false, true], 2⟩
                  [F4.newPair [cyclic3, cyclic2, cyclic1] cyclic2 0 1] [cyclicOut2]
              else (⟨[cyclic3, cyclic2, cyclic1], [false, false, true], 2⟩,
                [F4.newPair [cyclic3, cyclic2, cyclic1] cyclic2 0 1])).1
            (if !(List.isEmpty [cyclicOut2]) then
                F4.updatePairs (DegRevLexOrdering 3)
                  ⟨[cyclic3, cyclic2, cyclic1], [false, false, true], 2⟩
                  [F4.newPair [cyclic3, cyclic2, cyclic1] cyclic2 0 1] [cyclicOut2]
              else (⟨[cyclic3, cyclic2, cyclic1], [false, false, true], 2⟩,
                [F4.newPair [cyclic3, cyclic2, cyclic1] cyclic2 0 1])).2
          = .ok r' →
        (2 : Int) ≤ r'.1.currentDegree) :=
  ⟨by decide,
    C13_sugar_monotone (DegRevLexOrdering 3) F32003 4
      ⟨[cyclic3, cyclic2, cyclic1], [false, false, true], 0⟩ cyclicPairs
      (⟨[cyclic3, cyclic2, cyclic1], [false, false, true], 2⟩,
        [F4.newPair [cyclic3, cyclic2, cyclic1] cyclic2 0 1], [cyclicOut2]) (by decide)⟩


theorem basisOk_body (O : TOrdering n) (st : F4 n × F4PairSet n × Nat) (h : Polynomial n)
    (hlen : st.1.groebnerBasis.length = st.1.inGroebnerBasis.length) (ha : Antichain st.1) :
    (F4.updatePairsBody O st h).1.groebnerBasis.length
        = (F4.updatePairsBody O st h).1.inGroebnerBasis.length ∧
      Antichain (F4.updatePairsBody O st h).1 := by
  obtain ⟨f4, pairs, t⟩ := st
  simp only at hlen ha
  unfold F4.updatePairsBody
  simp only
  by_cases hscan : F4.scanInsertIntoG f4.groebnerBasis f4.inGroebnerBasis h = true
  · rw [if_pos hscan]
    exact ⟨by simp [clearFlags_length, hlen], antichain_body_admitted f4 h hlen hscan ha⟩
  · rw [if_neg hscan]
    exact ⟨by simp [hlen], antichain_body_excluded f4 h hlen ha⟩

theorem basisOk_fold (O : TOrdering n) : ∀ (polys : List (Polynomial n))
    (st : F4 n × F4PairSet n × Nat),
    st.1.groebnerBasis.length = st.1.inGroebnerBasis.length → Antichain st.1 →
      (polys.foldl (F4.updatePairsBody O) st).1.groebnerBasis.length
          = (polys.foldl (F4.updatePairsBody O) st).1.inGroebnerBasis.length ∧
        Antichain (polys.foldl (F4.updatePairsBody O) st).1 := by
  intro polys
  induction polys with
  | nil => intro st h1 h2; exact ⟨h1, h2⟩
  | cons p ps ih =>
    intro st h1 h2
    simp only [List.foldl_cons]
    obtain ⟨h3, h4⟩ := basisOk_body O st p h1 h2
    exact ih _ h3 h4

theorem basisOk_updatePairs (O : TOrdering n) (f4 : F4 n) (pairs : F4PairSet n)
    (polys : List (Polynomial n))
    (hlen : f4.groebnerBasis.length = f4.inGroebnerBasis.length) (ha : Antichain f4) :
    (F4.updatePairs O f4 pairs polys).1.groebnerBasis.length
        = (F4.updatePairs O f4 pairs polys).1.inGroebnerBasis.length ∧
      Antichain (F4.updatePairs O f4 pairs polys).1 :=
  basisOk_fold O polys (f4, pairs, f4.groebnerBasis.length) hlen ha

theorem basisOk_mainLoop (O : TOrdering n) (F : CoeffField) : ∀ (fuel : Nat)
    (st st' : F4 n × F4PairSet n) (stdin : List Nat),
    F4.mainLoop O F fuel st stdin = .ok st' →
    st.1.groebnerBasis.length = st.1.inGroebnerBasis.length → Antichain st.1 →
      st'.1.groebnerBasis.length = st'.1.inGroebnerBasis.length ∧ Antichain st'.1 := by
  intro fuel
  induction fuel with
  | zero =>
    intro st st' stdin h h1 h2
    by_cases he : st.2.isEmpty = true
    · rw [mainLoop_of_isEmpty O F _ st stdin he] at h
      have hst := Except.ok.inj h
      subst hst
      exact ⟨h1, h2⟩
    · rw [F4.mainLoop, if_neg he] at h
      cases h
  | succ fuel ih =>
    intro st st' stdin h h1 h2
    by_cases he : st.2.isEmpty = true
    · rw [mainLoop_of_isEmpty O F _ st stdin he] at h
      have hst := Except.ok.inj h
      subst hst
      exact ⟨h1, h2⟩
    · obtain ⟨f, rest, r, hf, _, hr, hm⟩ := mainLoop_step_inv O F _ st st' stdin he h
      have hf' : f = fuel := Nat.succ.inj hf.symm
      subst hf'
      obtain ⟨pr, _, hr1, _, _⟩ := reduce_ok O F (f + 1) st.1 st.2 r hr
      have hl : r.1.groebnerBasis.length = r.1.inGroebnerBasis.length := by rw [hr1]; exact h1
      have ha : Antichain r.1 := by rw [hr1]; exact h2
      split_ifs at hm
      · obtain ⟨h3, h4⟩ := basisOk_updatePairs O r.1 r.2.1 r.2.2 hl ha
        exact ih _ _ _ hm h3 h4
      · exact ih _ _ _ hm hl ha

theorem pairwise_filterMap_range {α : Type} (R : α → α → Prop) (f : Nat → Option α) (m : Nat)
    (h : ∀ i j a b, i < j → f i = some a → f j = some b → R a b) :
    ((List.range m).filterMap f).Pairwise R := by
  rw [List.pairwise_filterMap]
  refine List.Pairwise.imp ?_ (List.pairwise_lt_range m)
  intro i j hij a ha b hb
  exact h i j a b hij ha hb

theorem result_pairwise (f4 : F4 n) (ha : Antichain f4) :
    (F4.result f4).Pairwise
      (fun a b => a.LT.isDivisibleBy b.LT = false ∧ b.LT.isDivisibleBy a.LT = false) := by
  unfold F4.result
  apply pairwise_filterMap_range
  intro i j a b hij hi hj
  split_ifs at hi hj with h1 h2
  have ea : f4.groebnerBasis.getD i default = a := by
    rw [List.getD_eq_getElem?_getD]
    rw [List.get?_eq_getElem?] at hi
    rw [hi]; rfl
  have eb : f4.groebnerBasis.getD j default = b := by
    rw [List.getD_eq_getElem?_getD]
    rw [List.get?_eq_getElem?] at hj
    rw [hj]; rfl
  rw [← ea, ← eb]
  exact ⟨ha j i (by omega) h2 h1, ha i j (by omega) h1 h2⟩

theorem antichain_empty : Antichain (F4.empty n) := by
  intro i j _ hi
  simp [F4.empty] at hi

set_option maxRecDepth 100000 in
/-- C14 (as stated) fails: for the generators `x^2 + y` and `y` the driver
returns both unchanged (for every step budget and every standard input: no
pair is left, so the driver loop is not entered), and the leading term `y` of
the second returned polynomial divides the non-leading term `y` of the
first. -/
theorem C14_counterexample :
    (∀ (fuel : Nat) (stdin : List Nat),
      F4.compute (DegRevLexOrdering 2) F32003 fuel [xxPlusY, justY] stdin
        = .ok [xxPlusY, justY]) ∧
      xxPlusY.coeffs.tail = [(1, mk2 0 1)] ∧
      (mk2 0 1).isDivisibleBy justY.LT = true :=
  ⟨fun fuel stdin =>
    (compute_of_no_pairs (DegRevLexOrdering 2) F32003 fuel [xxPlusY, justY] stdin
      (by decide)).trans (congrArg Except.ok (by decide)),
    by decide, by decide⟩

/-- C14 (amended): for every input on which the driver returns, the leading
terms of the returned polynomials form an antichain: no leading term of a
returned polynomial divides the leading term of another returned polynomial.
(Nothing is said about non-leading terms: the driver does not reduce them.) -/
theorem C14_leading_terms_antichain (O : TOrdering n) (F : CoeffField) (fuel : Nat)
    (generators res : List (Polynomial n)) (stdin : List Nat)
    (h : F4.compute O F fuel generators stdin = .ok res) :
    res.Pairwise
      (fun a b => a.LT.isDivisibleBy b.LT = false ∧ b.LT.isDivisibleBy a.LT = false) := by
  obtain ⟨st, hm, hres⟩ := compute_ok O F fuel generators res stdin h
  have h0 := basisOk_updatePairs O (F4.empty n) []
    ((stdSort (PolynomialComparator O true) generators).map (Polynomial.normalize F)) rfl
    antichain_empty
  obtain ⟨_, h2⟩ := basisOk_mainLoop O F fuel _ st stdin hm h0.1 h0.2
  rw [hres]
  exact result_pairwise st.1 h2

set_option maxRecDepth 100000 in
/-- C14 (amended), at the cyclic example, with two newlines on the standard
input. -/
theorem C14_leading_terms_antichain_witness :
    F4.compute (DegRevLexOrdering 3) F32003 4 [cyclic1, cyclic2, cyclic3] [10, 10]
        = .ok [cyclic1, cyclicOut2, cyclicOut3] ∧
      [cyclic1, cyclicOut2, cyclicOut3].Pairwise
        (fun a b => a.LT.isDivisibleBy b.LT = false ∧ b.LT.isDivisibleBy a.LT = false) :=
  ⟨by decide,
    C14_leading_terms_antichain (DegRevLexOrdering 3) F32003 4 [cyclic1, cyclic2, cyclic3]
      [cyclic1, cyclicOut2, cyclicOut3] [10, 10] (by decide)⟩

theorem coprime_div_zero : ∀ (a b : List Nat), a.length = b.length →
    List.zipWith (fun x y => max x y) a b = List.zipWith (fun x y => x + y) a b →
    List.Forall₂ (fun x y => y ≤ x) b a → a = List.replicate a.length 0
  | [], [] => by simp
  | [], _ :: _ => by simp
  | _ :: _, [] => by simp
  | x :: a, y :: b => by
    intro hl hm hd
    simp only [List.zipWith_cons_cons, List.cons.injEq] at hm
    rw [List.forall₂_cons] at hd
    have ih := coprime_div_zero a b (by simpa using hl) hm.2 hd.2
    have h1 := hm.1
    have h2 := hd.1
    have hx : x = 0 := by
      rcases max_cases x y with h | h <;> omega
    simp only [List.length_cons, List.replicate_succ, List.cons.injEq]
    exact ⟨hx, ih⟩

theorem Term.not_div_of_coprime {a b : Term n} (hc : Term.lcm a b = a.mul b)
    (ha : a ≠ Term.one n) : b.isDivisibleBy a = false := by
  by_contra hd
  simp only [Bool.not_eq_false] at hd
  rw [Term.isDivisibleBy_iff] at hd
  have hm := congrArg Subtype.val hc
  simp only [Term.lcm, Term.mul] at hm
  have := coprime_div_zero a.1 b.1 (a.2.trans b.2.symm) hm hd
  apply ha
  apply Subtype.ext
  rw [this, a.2]
  rfl

theorem Term.coprime_symm {a b : Term n} (hc : Term.lcm a b = a.mul b) :
    Term.lcm b a = b.mul a := by
  have hm := congrArg Subtype.val hc
  apply Subtype.ext
  simp only [Term.lcm, Term.mul] at hm ⊢
  have e1 : List.zipWith (fun x y => max x y) b.1 a.1
      = List.zipWith (fun x y => max x y) a.1 b.1 := by
    rw [List.zipWith_comm]; congr 1; funext x y; exact max_comm _ _
  have e2 : List.zipWith (fun x y => x + y) b.1 a.1
      = List.zipWith (fun x y => x + y) a.1 b.1 := by
    rw [List.zipWith_comm]; congr 1; funext x y; exact Nat.add_comm _ _
  rw [e1, e2]; exact hm

theorem normalize_LT (F : CoeffField) (p : Polynomial n) : (p.normalize F).LT = p.LT := by
  unfold Polynomial.normalize
  cases hc : p.coeffs with
  | nil => simp only
  | cons m ms =>
    simp only
    split_ifs
    · rfl
    · simp [Polynomial.LT, hc]

theorem criterionF_all_marked (O : TOrdering n) : ∀ (P2 pairs : F4PairSet n),
    (∀ q ∈ P2, q.marked = true) → F4.criterionF O P2 pairs = pairs := by
  intro P2
  induction P2 with
  | nil => intro pairs _; rfl
  | cons p ps ih =>
    intro pairs h
    have hstep : F4.criterionF O (p :: ps) pairs
        = F4.criterionF O ps
            (if !p.marked then (setInsert (F4PairComparator O) p pairs).1 else pairs) := rfl
    rw [hstep, h p (List.mem_cons_self _ _)]
    simp only [Bool.not_true, Bool.false_eq_true, if_false]
    exact ih pairs (fun q hq => h q (List.mem_cons_of_mem _ hq))

theorem clear_fold_none (c : Nat → Bool) : ∀ (js : List Nat) (fl : List Bool),
    (∀ j ∈ js, c j = false) →
    js.foldl (fun fl j => if fl.getD j false && c j then fl.set j false else fl) fl = fl := by
  intro js
  induction js with
  | nil => intro fl _; rfl
  | cons j js ih =>
    intro fl h
    simp only [List.foldl_cons, h j (List.mem_cons_self _ _), Bool.and_false,
      Bool.false_eq_true, if_false]
    exact ih fl (fun k hk => h k (List.mem_cons_of_mem _ hk))

theorem body_coprime (O : TOrdering n) (G : List (Polynomial n)) (cd : Int) (h : Polynomial n)
    (hG : ∀ g ∈ G, g.LT ≠ Term.one n) (hh : h.LT ≠ Term.one n)
    (hc : ∀ g ∈ G, Term.lcm g.LT h.LT = g.LT.mul h.LT) :
    F4.updatePairsBody O (⟨G, List.replicate G.length true, cd⟩, [], G.length) h
      = (⟨G ++ [h], List.replicate (G ++ [h]).length true, cd⟩, [], G.length + 1) := by
  have hget : ∀ i, i < G.length → G.getD i default ∈ G := by
    intro i hi
    rw [List.getD_eq_getElem _ _ hi]
    exact List.getElem_mem hi
  have hscan : F4.scanInsertIntoG G (List.replicate G.length true) h = true := by
    rw [scanInsertIntoG_eq]
    simp only [Bool.not_eq_true', List.any_eq_false, List.mem_range, Bool.and_eq_true, not_and,
      Bool.not_eq_true]
    intro i hi _
    exact Term.not_div_of_coprime (hc _ (hget i hi)) (hG _ (hget i hi))
  have hP2 : ∀ q ∈ F4.bucketP2 O G h G.length
      (F4.criterionM G h (List.replicate G.length true)), q.marked = true := by
    intro q hq
    rw [bucketP2_mem] at hq
    obtain ⟨i, hi, _, hqe, _⟩ := hq
    rw [criterionM_length, List.length_replicate] at hi
    rw [hqe]
    simp only [F4.newPair, Polynomial.lcmLT, beq_iff_eq]
    exact hc _ (hget i hi)
  have hclear : F4.clearFlags G h (List.replicate G.length true)
      = List.replicate G.length true := by
    unfold F4.clearFlags
    apply clear_fold_none
    intro j hj
    rw [List.mem_range] at hj
    exact Term.not_div_of_coprime (Term.coprime_symm (hc _ (hget j hj))) hh
  unfold F4.updatePairsBody
  simp only
  rw [if_pos hscan, hclear, criterionF_all_marked O _ _ hP2]
  have hB : F4.criterionB O G h [] = [] := rfl
  rw [hB]
  simp [List.replicate_succ']

theorem fold_coprime (O : TOrdering n) (cd : Int) : ∀ (polys G : List (Polynomial n)),
    CoprimeLeadingTerms (G ++ polys) →
    polys.foldl (F4.updatePairsBody O) (⟨G, List.replicate G.length true, cd⟩, [], G.length)
      = (⟨G ++ polys, List.replicate (G ++ polys).length true, cd⟩, [],
          (G ++ polys).length) := by
  intro polys
  induction polys with
  | nil => intro G _; simp
  | cons p ps ih =>
    intro G hcp
    obtain ⟨h1, h2⟩ := hcp
    have h2' := List.pairwise_append.1 h2
    simp only [List.foldl_cons]
    rw [body_coprime O G cd p (fun g hg => h1 g (List.mem_append_left _ hg))
      (h1 p (List.mem_append_right _ (List.mem_cons_self _ _)))
      (fun g hg => h2'.2.2 g hg p (List.mem_cons_self _ _))]
    have := ih (G ++ [p]) (by
      rw [List.append_assoc, List.singleton_append]; exact ⟨h1, h2⟩)
    simp only [List.length_append, List.length_singleton, List.append_assoc,
      List.singleton_append, List.length_cons] at this ⊢
    exact this

theorem updatePairs_coprime (O : TOrdering n) (polys : List (Polynomial n))
    (hcp : CoprimeLeadingTerms polys) :
    F4.updatePairs O (F4.empty n) [] polys
      = (⟨polys, List.replicate polys.length true, 0⟩, []) := by
  have := fold_coprime O 0 polys [] (by simpa using hcp)
  unfold F4.updatePairs
  simp only [F4.empty, List.length_nil, List.replicate_zero, List.nil_append] at this ⊢
  rw [this]

theorem result_all_true : ∀ (G : List (Polynomial n)) (cd : Int),
    F4.result ⟨G, List.replicate G.length true, cd⟩ = G := by
  intro G cd
  induction G using List.reverseRecOn with
  | nil => rfl
  | append_singleton G a ih =>
    unfold F4.result at ih ⊢
    simp only [List.length_append, List.length_singleton, List.range_succ,
      List.filterMap_append] at ih ⊢
    have e1 : (List.range G.length).filterMap
        (fun i => if (List.replicate (G.length + 1) true).getD i false = true then
          (G ++ [a]).get? i else none)
        = (List.range G.length).filterMap
        (fun i => if (List.replicate G.length true).getD i false = true then
          G.get? i else none) := by
      apply List.filterMap_congr
      intro i hi
      rw [List.mem_range] at hi
      rw [List.getD_eq_getElem _ _ (by simpa using Nat.lt_succ_of_lt hi),
        List.getD_eq_getElem _ _ (by simpa using hi)]
      simp only [List.getElem_replicate, if_true, List.get?_eq_getElem?]
      rw [List.getElem?_append_left hi]
    rw [e1, ih]
    simp [List.getD_eq_getElem]

theorem mainLoop_empty (O : TOrdering n) (F : CoeffField) (fuel : Nat) (f4 : F4 n)
    (stdin : List Nat) : F4.mainLoop O F fuel (f4, []) stdin = .ok (f4, []) :=
  mainLoop_of_isEmpty O F fuel (f4, []) stdin rfl

theorem coprime_map_normalize (F : CoeffField) (polys : List (Polynomial n))
    (hcp : CoprimeLeadingTerms polys) :
    CoprimeLeadingTerms (polys.map (Polynomial.normalize F)) := by
  obtain ⟨h1, h2⟩ := hcp
  constructor
  · intro g hg
    rw [List.mem_map] at hg
    obtain ⟨g', hg', e⟩ := hg
    rw [← e, normalize_LT]
    exact h1 g' hg'
  · rw [List.pairwise_map]
    refine List.Pairwise.imp ?_ h2
    intro a b hab
    rw [normalize_LT, normalize_LT]
    exact hab

theorem coprime_perm {l1 l2 : List (Polynomial n)} (hp : l1.Perm l2)
    (hcp : CoprimeLeadingTerms l2) : CoprimeLeadingTerms l1 := by
  obtain ⟨h1, h2⟩ := hcp
  refine ⟨fun g hg => h1 g (hp.mem_iff.1 hg), ?_⟩
  exact (List.Perm.pairwise_iff (fun hab => Term.coprime_symm hab) hp).2 h2


/-- C15: for generators whose leading terms are non-constant and pairwise
relatively prime, `updatePairs` leaves the pair set empty and flags every
generator in-basis, and the driver returns, for every step budget and every
standard input, exactly the sorted and normalized generators. -/
theorem C15_coprime_generators (O : TOrdering n) (F : CoeffField) (fuel : Nat)
    (generators : List (Polynomial n)) (stdin : List Nat)
    (h : CoprimeLeadingTerms generators) :
    F4.updatePairs O (F4.empty n) [] generators
        = (⟨generators, List.replicate generators.length true, 0⟩, []) ∧
      F4.updatePairs O (F4.empty n) []
          ((stdSort (PolynomialComparator O true) generators).map (Polynomial.normalize F))
        = (⟨(stdSort (PolynomialComparator O true) generators).map (Polynomial.normalize F),
            List.replicate generators.length true, 0⟩, []) ∧
      F4.compute O F fuel generators stdin
        = .ok ((stdSort (PolynomialComparator O true) generators).map
            (Polynomial.normalize F)) := by
  have h1 := updatePairs_coprime O generators h
  have h2 := updatePairs_coprime O
    ((stdSort (PolynomialComparator O true) generators).map (Polynomial.normalize F))
    (coprime_map_normalize F _ (coprime_perm (stdSort_perm _ generators) h))
  have hl : ((stdSort (PolynomialComparator O true) generators).map
      (Polynomial.normalize F)).length = generators.length := by
    rw [List.length_map]; exact (stdSort_perm _ generators).length_eq
  rw [hl] at h2
  refine ⟨h1, h2, ?_⟩
  unfold F4.compute
  simp only
  rw [h2, mainLoop_empty]
  simp only
  rw [← hl, result_all_true]

/-- C15, at the generators `x` and `y` over the field with 32003 elements,
with the standard input at its end. -/
theorem C15_coprime_generators_witness :
    CoprimeLeadingTerms [justX, justY] ∧
      (F4.updatePairs (DegRevLexOrdering 2) (F4.empty 2) [] [justX, justY]
          = (⟨[justX, justY], List.replicate [justX, justY].length true, 0⟩, []) ∧
        F4.updatePairs (DegRevLexOrdering 2) (F4.empty 2) []
            ((stdSort (PolynomialComparator (DegRevLexOrdering 2) true) [justX, justY]).map
              (Polynomial.normalize F32003))
          = (⟨(stdSort (PolynomialComparator (DegRevLexOrdering 2) true) [justX, justY]).map
                (Polynomial.normalize F32003),
              List.replicate [justX, justY].length true, 0⟩, []) ∧
        F4.compute (DegRevLexOrdering 2) F32003 7 [justX, justY] []
          = .ok ((stdSort (PolynomialComparator (DegRevLexOrdering 2) true)
              [justX, justY]).map (Polynomial.normalize F32003))) ∧
      (stdSort (PolynomialComparator (DegRevLexOrdering 2) true) [justX, justY]).map
          (Polynomial.normalize F32003) = [justX, justY] :=
  ⟨by unfold CoprimeLeadingTerms; decide,
    C15_coprime_generators (DegRevLexOrdering 2) F32003 7 [justX, justY] []
      (by unfold CoprimeLeadingTerms; decide),
    by decide⟩


theorem foldl_flatten {α β : Type} (f : β → α → β) : ∀ (ls : List (List α)) (b : β),
    ls.flatten.foldl f b = ls.foldl (fun acc l => l.foldl f acc) b := by
  intro ls
  induction ls with
  | nil => intro b; rfl
  | cons l ls ih => intro b; simp only [List.flatten_cons, List.foldl_append, List.foldl_cons, ih]

theorem pReduce_eq_fold (F : CoeffField) (ops : List (List F4Operation))
    (rs : List (List coeffType)) :
    F4.pReduce F ops rs = ops.reverse.flatten.foldl (F4.pReduceOp F) rs := by
  rw [foldl_flatten]
  rfl

theorem flatten_reverse_perm {α : Type} : ∀ (ls : List (List α)),
    ls.reverse.flatten.Perm ls.flatten := by
  intro ls
  induction ls with
  | nil => exact List.Perm.refl _
  | cons l ls ih =>
    simp only [List.reverse_cons, List.flatten_append, List.flatten_cons, List.flatten_nil,
      List.append_nil]
    exact (List.perm_append_comm).trans (List.Perm.append_left l ih)

set_option maxRecDepth 100000 in
/-- C20 (as stated) fails: on the schedule `prepare` builds for the first batch
of the cyclic example (level 0 holds the operation `(1, 0, 1)`, level 1 the
operation `(0, 2, 1)`), `pReduce` runs level 1 first and leaves row 1 equal to
`y^2 + yz + z^2` (columns `y^2, yz, z^2`), whereas running level 0 first would
leave `y^2`. -/
theorem C20_counterexample :
    (F4.prepare (DegRevLexOrdering 3) 4
        ⟨[cyclic3, cyclic2, cyclic1], [false, false, true], 0⟩ cyclicPairs).map
        (fun pr => (pr.ops, pr.rs))
      = .ok ([[⟨1, 0, 1⟩], [⟨0, 2, 1⟩]], [[0, 1, 0], [1, 1, 0], [0, 1, 1]]) ∧
    F4.pReduce F32003 [[⟨1, 0, 1⟩], [⟨0, 2, 1⟩]] [[0, 1, 0], [1, 1, 0], [0, 1, 1]]
      = [[0, 0, 32002], [1, 1, 1], [0, 1, 1]] ∧
    F4.pReduceInOrder F32003 [[⟨1, 0, 1⟩], [⟨0, 2, 1⟩]] [[0, 1, 0], [1, 1, 0], [0, 1, 1]]
      = [[0, 0, 32002], [1, 0, 0], [0, 1, 1]] := by
  decide

theorem powMod_eq (m a : Nat) : ∀ (fuel e : Nat), e < 2 ^ fuel →
    CoeffField.powMod m a fuel e = a ^ e % m := by
  intro fuel
  induction fuel with
  | zero =>
    intro e he
    have : e = 0 := by simpa using he
    subst this
    simp [CoeffField.powMod]
  | succ fuel ih =>
    intro e he
    rw [CoeffField.powMod]
    by_cases h0 : e = 0
    · subst h0; simp
    · rw [if_neg h0]
      have hlt : e / 2 < 2 ^ fuel := by
        rw [Nat.div_lt_iff_lt_mul (by norm_num)]
        rw [pow_succ] at he
        exact he
      simp only
      rw [ih _ hlt]
      have hsq : a ^ (e / 2) % m * (a ^ (e / 2) % m) % m = a ^ (2 * (e / 2)) % m := by
        rw [← Nat.mul_mod, ← pow_add, two_mul]
      by_cases hev : e % 2 = 0
      · rw [if_pos hev, hsq]
        congr 2
        omega
      · rw [if_neg hev, hsq, Nat.mod_mul_mod, ← pow_succ]
        congr 2
        omega

theorem inv_correct (F : CoeffField) (hp : Nat.Prime F.modn) (x : Nat) (h0 : x ≠ 0)
    (hx : x < F.modn) : F.mul x (F.inv x) = 1 := by
  haveI : Fact (Nat.Prime F.modn) := ⟨hp⟩
  unfold CoeffField.mul CoeffField.inv
  rw [powMod_eq _ _ _ _ (lt_of_le_of_lt (Nat.sub_le _ _) (Nat.lt_two_pow _)),
    Nat.mul_mod_mod, ← pow_succ']
  have h2 : 2 ≤ F.modn := hp.two_le
  rw [show F.modn - 2 + 1 = F.modn - 1 by omega]
  have hne : (x : ZMod F.modn) ≠ 0 := by
    rw [Ne, ZMod.natCast_zmod_eq_zero_iff_dvd]
    intro hd
    have := Nat.le_of_dvd (Nat.pos_of_ne_zero h0) hd
    omega
  have hf := ZMod.pow_card_sub_one_eq_one hne
  have hc : ((x ^ (F.modn - 1) : Nat) : ZMod F.modn) = ((1 : Nat) : ZMod F.modn) := by
    push_cast
    exact hf
  rw [ZMod.natCast_eq_natCast_iff'] at hc
  rw [hc]
  exact Nat.mod_eq_of_lt (by omega)

theorem mul_zero_left (F : CoeffField) (y : Nat) : F.mul 0 y = 0 := by
  simp [CoeffField.mul]

theorem mul_lt (F : CoeffField) (hm : 0 < F.modn) (x y : Nat) : F.mul x y < F.modn :=
  Nat.mod_lt _ hm

theorem mulSub_lt (F : CoeffField) (hm : 0 < F.modn) (x y f : Nat) : F.mulSub x y f < F.modn :=
  Nat.mod_lt _ hm

theorem mulSub_zero_zero (F : CoeffField) (f : Nat) : F.mulSub 0 0 f = 0 := by
  simp [CoeffField.mulSub]

theorem mulSub_one_self (F : CoeffField) (hm : 0 < F.modn) (x : Nat) : F.mulSub x 1 x = 0 := by
  unfold CoeffField.mulSub
  have h := Nat.mod_lt x hm
  rw [Nat.one_mul, show x % F.modn + (F.modn - x % F.modn) = F.modn by omega, Nat.mod_self]



theorem getD_set_gen {α : Type} (l : List α) (i k : Nat) (x d : α) :
    (l.set i x).getD k d = if i = k ∧ i < l.length then x else l.getD k d := by
  simp only [List.getD_eq_getElem?_getD, List.getElem?_set]
  by_cases h : i = k
  · subst h
    by_cases hl : i < l.length
    · simp [hl]
    · simp [hl, List.getElem?_eq_none (Nat.le_of_not_lt hl)]
  · simp [h]

theorem getD_map_range (f : Nat → Nat) (m c : Nat) :
    ((List.range m).map f).getD c 0 = if c < m then f c else 0 := by
  simp only [List.getD_eq_getElem?_getD, List.getElem?_map]
  by_cases h : c < m
  · simp [h, List.getElem?_range h]
  · simp [h, List.getElem?_eq_none (show (List.range m).length ≤ c by simpa using h)]

theorem getD_of_le {α : Type} (l : List α) (c : Nat) (d : α) (h : l.length ≤ c) :
    l.getD c d = d := by
  simp [List.getD_eq_getElem?_getD, List.getElem?_eq_none h]

theorem entry_set (M : List (List coeffType)) (i k c : Nat) (r : List coeffType) :
    F4.entry (M.set i r) k c = if i = k ∧ i < M.length then r.getD c 0 else F4.entry M k c := by
  unfold F4.entry
  rw [getD_set_gen]
  split <;> rfl

theorem gaussScan_spec (row : List coeffType) : ∀ (q : Nat),
    ((F4.gaussScan row q).2.1 = false → ∀ c, row.getD c 0 = 0) ∧
    ((F4.gaussScan row q).2.1 = true → ∃ c, c < row.length ∧ (F4.gaussScan row q).1 = q + c + 1 ∧
      (F4.gaussScan row q).2.2 = row.getD c 0 ∧ row.getD c 0 ≠ 0 ∧
      ∀ c', c' < c → row.getD c' 0 = 0) := by
  induction row with
  | nil =>
    intro q
    simp [F4.gaussScan]
  | cons x xs ih =>
    intro q
    rw [F4.gaussScan]
    by_cases hx : x ≠ 0
    · rw [if_pos hx]
      refine ⟨by simp, fun _ => ⟨0, by simp, rfl, rfl, hx, by simp⟩⟩
    · rw [if_neg hx]
      have hx0 : x = 0 := by simpa using hx
      obtain ⟨h1, h2⟩ := ih (q + 1)
      refine ⟨fun hf c => ?_, fun ht => ?_⟩
      · cases c with
        | zero => simpa using hx0
        | succ c => simpa using h1 hf c
      · obtain ⟨c, hc, e1, e2, e3, e4⟩ := h2 ht
        refine ⟨c + 1, by simpa using hc, by rw [e1]; omega, by simpa using e2,
          by simpa using e3, fun c' hc' => ?_⟩
        cases c' with
        | zero => simpa using hx0
        | succ c' => simpa using e4 c' (by omega)

theorem gaussNormalize_length (F : CoeffField) (p x : Nat) (row : List coeffType) :
    (F4.gaussNormalize F p x row).length = row.length := by
  unfold F4.gaussNormalize
  split <;> simp

theorem gaussNormalize_getD (F : CoeffField) (p x : Nat) (row : List coeffType) (c : Nat) :
    (F4.gaussNormalize F p x row).getD c 0
      = if x ≠ 1 ∧ p ≤ c then F.mul (row.getD c 0) (F.inv x) else row.getD c 0 := by
  unfold F4.gaussNormalize
  by_cases hx : x ≠ 1
  · rw [if_pos hx]
    simp only [getD_map_range]
    by_cases hc : c < row.length
    · rw [if_pos hc]
      by_cases hp : p ≤ c
      · rw [if_pos hp, if_pos ⟨hx, hp⟩]
      · rw [if_neg hp, if_neg (fun h => hp h.2)]
    · rw [if_neg hc, getD_of_le row c 0 (Nat.le_of_not_lt hc), mul_zero_left]
      split <;> rfl
  · rw [if_neg hx, if_neg (fun h => hx h.1)]

theorem gaussUpdate_length (F : CoeffField) (upper i p : Nat) (M : List (List coeffType))
    (j : Nat) : (F4.gaussUpdate F upper i p M j).length = M.length := by
  unfold F4.gaussUpdate
  simp only
  split <;> simp

theorem gaussUpdate_row_length (F : CoeffField) (upper i p : Nat) (M : List (List coeffType))
    (j k : Nat) :
    ((F4.gaussUpdate F upper i p M j).getD k []).length = (M.getD k []).length := by
  unfold F4.gaussUpdate
  simp only
  split
  · rw [getD_set_gen]
    split
    · rename_i h
      rw [List.length_map, List.length_range, h.1]
    · rfl
  · rfl

theorem gaussUpdate_entry (F : CoeffField) (upper i p : Nat) (M : List (List coeffType))
    (j k c : Nat)
    (hlen : (M.getD ((i + j) % upper) []).length = (M.getD i []).length) :
    F4.entry (F4.gaussUpdate F upper i p M j) k c
      = if k = (i + j) % upper ∧ F4.entry M k p ≠ 0 ∧ p ≤ c then
          F.mulSub (F4.entry M k c) (F4.entry M i c) (F4.entry M k p)
        else F4.entry M k c := by
  unfold F4.gaussUpdate
  simp only
  by_cases hk : k = (i + j) % upper
  · subst hk
    by_cases hz : (M.getD ((i + j) % upper) []).getD p 0 ≠ 0
    · rw [if_pos hz, entry_set]
      have hlt : (i + j) % upper < M.length := by
        by_contra hcon
        rw [getD_of_le M _ [] (Nat.le_of_not_lt hcon)] at hz
        simp at hz
      rw [if_pos ⟨rfl, hlt⟩, getD_map_range]
      unfold F4.entry CoeffField.getFactor
      by_cases hc : c < (M.getD ((i + j) % upper) []).length
      · rw [if_pos hc]
        by_cases hp : p ≤ c
        · rw [if_pos hp, if_pos ⟨rfl, hz, hp⟩]
        · rw [if_neg hp, if_neg (fun h => hp h.2.2)]
      · rw [if_neg hc]
        have h1 := getD_of_le _ c 0 (Nat.le_of_not_lt hc)
        have h2 := getD_of_le (M.getD i []) c 0 (by rw [← hlen]; exact Nat.le_of_not_lt hc)
        rw [h1, h2, mulSub_zero_zero]
        split <;> rfl
    · rw [if_neg hz, if_neg (fun h => hz h.2.1)]
  · have hr : ¬ (k = (i + j) % upper ∧ F4.entry M k p ≠ 0 ∧ p ≤ c) := fun h => hk h.1
    rw [if_neg hr]
    by_cases hz : (M.getD ((i + j) % upper) []).getD p 0 ≠ 0
    · rw [if_pos hz, entry_set]
      have hr2 : ¬ ((i + j) % upper = k ∧ (i + j) % upper < M.length) := fun h => hk h.1.symm
      rw [if_neg hr2]
    · rw [if_neg hz]


theorem add_mod_cases (i j upper : Nat) (hi : i < upper) (hj : j < upper) :
    (i + j) % upper = if i + j < upper then i + j else i + j - upper := by
  by_cases h : i + j < upper
  · rw [if_pos h, Nat.mod_eq_of_lt h]
  · rw [if_neg h, Nat.mod_eq_sub_mod (Nat.le_of_not_lt h), Nat.mod_eq_of_lt (by omega)]

theorem mem_gaussIndices (upper j : Nat) :
    j ∈ (List.range upper).filter (fun j => 2 ≤ j && j % 2 == 0)
      ↔ j < upper ∧ 2 ≤ j ∧ j % 2 = 0 := by
  simp [List.mem_filter]

theorem gaussIndices_ne (i j upper : Nat) (hi : i < upper) (hj : j < upper) (h2 : 2 ≤ j) :
    (i + j) % upper ≠ i := by
  rw [add_mod_cases i j upper hi hj]
  split <;> omega

theorem gaussIndices_inj (i j j' upper : Nat) (hi : i < upper) (hj : j < upper)
    (hj' : j' < upper) (h : (i + j) % upper = (i + j') % upper) : j = j' := by
  rw [add_mod_cases i j upper hi hj, add_mod_cases i j' upper hi hj'] at h
  split at h <;> split at h <;> omega

theorem gaussIndices_cover (i upper k : Nat) (hi : i < upper) (hodd : i % 2 = 1)
    (hev : upper % 2 = 0) :
    (∃ j, j ∈ (List.range upper).filter (fun j => 2 ≤ j && j % 2 == 0) ∧ (i + j) % upper = k)
      ↔ k < upper ∧ k % 2 = 1 ∧ k ≠ i := by
  constructor
  · rintro ⟨j, hj, rfl⟩
    rw [mem_gaussIndices] at hj
    refine ⟨Nat.mod_lt _ (by omega), ?_, gaussIndices_ne i j upper hi hj.1 hj.2.1⟩
    rw [add_mod_cases i j upper hi hj.1]
    split <;> omega
  · rintro ⟨hk, hko, hne⟩
    by_cases h : i < k
    · refine ⟨k - i, (mem_gaussIndices _ _).2 ⟨by omega, by omega, by omega⟩, ?_⟩
      rw [add_mod_cases i (k - i) upper hi (by omega)]
      split <;> omega
    · refine ⟨k + upper - i, (mem_gaussIndices _ _).2 ⟨by omega, by omega, by omega⟩, ?_⟩
      rw [add_mod_cases i (k + upper - i) upper hi (by omega)]
      split <;> omega

theorem gaussUpdate_fold_length (F : CoeffField) (upper i p : Nat) :
    ∀ (js : List Nat) (M : List (List coeffType)),
      (js.foldl (F4.gaussUpdate F upper i p) M).length = M.length := by
  intro js
  induction js with
  | nil => intro M; rfl
  | cons j js ih =>
    intro M
    rw [List.foldl_cons, ih, gaussUpdate_length]

theorem gaussUpdate_fold_row_length (F : CoeffField) (upper i p : Nat) :
    ∀ (js : List Nat) (M : List (List coeffType)) (k : Nat),
      ((js.foldl (F4.gaussUpdate F upper i p) M).getD k []).length = (M.getD k []).length := by
  intro js
  induction js with
  | nil => intro M k; rfl
  | cons j js ih =>
    intro M k
    rw [List.foldl_cons, ih, gaussUpdate_row_length]

theorem gaussUpdate_fold_entry (F : CoeffField) (upper i p : Nat) :
    ∀ (js : List Nat) (M : List (List coeffType)),
      (∀ j ∈ js, (i + j) % upper ≠ i) →
      (js.map (fun j => (i + j) % upper)).Nodup →
      (∀ j ∈ js, (M.getD ((i + j) % upper) []).length = (M.getD i []).length) →
      ∀ k c, F4.entry (js.foldl (F4.gaussUpdate F upper i p) M) k c
        = if (∃ j, j ∈ js ∧ (i + j) % upper = k) ∧ F4.entry M k p ≠ 0 ∧ p ≤ c then
            F.mulSub (F4.entry M k c) (F4.entry M i c) (F4.entry M k p)
          else F4.entry M k c := by
  intro js
  induction js with
  | nil =>
    intro M _ _ _ k c
    simp
  | cons j js ih =>
    intro M hne hnd hlen k c
    rw [List.foldl_cons]
    have hlenj := hlen j (List.mem_cons_self _ _)
    have hnej := hne j (List.mem_cons_self _ _)
    rw [List.map_cons, List.nodup_cons] at hnd
    rw [ih (F4.gaussUpdate F upper i p M j)
      (fun j' hj' => hne j' (List.mem_cons_of_mem _ hj')) hnd.2
      (fun j' hj' => by
        rw [gaussUpdate_row_length, gaussUpdate_row_length]
        exact hlen j' (List.mem_cons_of_mem _ hj'))]
    have hi : ∀ c', F4.entry (F4.gaussUpdate F upper i p M j) i c' = F4.entry M i c' := by
      intro c'
      rw [gaussUpdate_entry F upper i p M j i c' hlenj]
      exact if_neg (fun h => hnej h.1.symm)
    by_cases hk : k = (i + j) % upper
    · have hno : ¬ ∃ j', j' ∈ js ∧ (i + j') % upper = k := by
        rintro ⟨j', hj', e⟩
        apply hnd.1
        rw [List.mem_map]
        exact ⟨j', hj', by rw [e, hk]⟩
      have hyes : ∃ j', j' ∈ j :: js ∧ (i + j') % upper = k :=
        ⟨j, List.mem_cons_self _ _, hk.symm⟩
      rw [if_neg (fun h => hno h.1), gaussUpdate_entry F upper i p M j k c hlenj]
      by_cases hc : F4.entry M k p ≠ 0 ∧ p ≤ c
      · rw [if_pos ⟨hk, hc⟩, if_pos ⟨hyes, hc⟩]
      · rw [if_neg (fun h => hc h.2), if_neg (fun h => hc h.2)]
    · have hk' : ∀ c', F4.entry (F4.gaussUpdate F upper i p M j) k c' = F4.entry M k c' := by
        intro c'
        rw [gaussUpdate_entry F upper i p M j k c' hlenj]
        exact if_neg (fun h => hk h.1)
      rw [hk', hk', hi]
      have hiff : (∃ j', j' ∈ js ∧ (i + j') % upper = k)
          ↔ ∃ j', j' ∈ j :: js ∧ (i + j') % upper = k := by
        constructor
        · rintro ⟨j', hj', e⟩
          exact ⟨j', List.mem_cons_of_mem _ hj', e⟩
        · rintro ⟨j', hj', e⟩
          rcases List.mem_cons.1 hj' with rfl | h
          · exact absurd e.symm hk
          · exact ⟨j', h, e⟩
      by_cases hc : (∃ j', j' ∈ js ∧ (i + j') % upper = k) ∧ F4.entry M k p ≠ 0 ∧ p ≤ c
      · rw [if_pos hc, if_pos ⟨hiff.1 hc.1, hc.2⟩]
      · rw [if_neg hc, if_neg (fun h => hc ⟨hiff.2 h.1, h.2⟩)]

theorem gaussIndices_nodup (i upper : Nat) (hi : i < upper) :
    (((List.range upper).filter (fun j => 2 ≤ j && j % 2 == 0)).map
      (fun j => (i + j) % upper)).Nodup := by
  rw [List.nodup_map_iff_inj_on ((List.nodup_range upper).filter _)]
  intro j hj j' hj' h
  rw [mem_gaussIndices] at hj hj'
  exact gaussIndices_inj i j j' upper hi hj.1 hj'.1 h

/-- The elimination step of `gauss` for the pivot row `i` and pivot column `p`,
entry by entry: every other odd row below `upper` with a nonzero entry in
column `p` has the multiple of row `i` subtracted from column `p` on. -/
theorem gaussEliminate_entry (F : CoeffField) (w upper i p : Nat) (M : List (List coeffType))
    (hi : i < upper) (hodd : i % 2 = 1) (hev : upper % 2 = 0) (hup : upper ≤ M.length)
    (hrect : ∀ k, k < M.length → (M.getD k []).length = w) (k c : Nat) :
    F4.entry (((List.range upper).filter (fun j => 2 ≤ j && j % 2 == 0)).foldl
        (F4.gaussUpdate F upper i p) M) k c
      = if (k < upper ∧ k % 2 = 1 ∧ k ≠ i) ∧ F4.entry M k p ≠ 0 ∧ p ≤ c then
          F.mulSub (F4.entry M k c) (F4.entry M i c) (F4.entry M k p)
        else F4.entry M k c := by
  rw [gaussUpdate_fold_entry F upper i p _ M
    (fun j hj => by
      rw [mem_gaussIndices] at hj
      exact gaussIndices_ne i j upper hi hj.1 hj.2.1)
    (gaussIndices_nodup i upper hi)
    (fun j _ => by
      rw [hrect _ (lt_of_lt_of_le (Nat.mod_lt _ (by omega)) hup),
        hrect _ (lt_of_lt_of_le hi hup)])]
  have hiff := gaussIndices_cover i upper k hi hodd hev
  by_cases hc : (k < upper ∧ k % 2 = 1 ∧ k ≠ i) ∧ F4.entry M k p ≠ 0 ∧ p ≤ c
  · rw [if_pos hc, if_pos ⟨hiff.2 hc.1, hc.2⟩]
  · rw [if_neg hc, if_neg (fun h => hc ⟨hiff.1 h.1, h.2⟩)]


theorem gaussRow_inv (F : CoeffField) (hp : Nat.Prime F.modn) (w upper : Nat)
    (hev : upper % 2 = 0) (st : List (List coeffType) × List Bool) (i : Nat) (P : List Nat)
    (hi : i < upper) (hodd : i % 2 = 1) (hM : F4.MatrixOk F w st.1)
    (hup : upper ≤ st.1.length) (hE : upper ≤ st.2.length)
    (hPi : ∀ i', i' ∈ P → i' ≠ i)
    (hP : ∀ i', i' ∈ P → F4.RowReduced upper st.1 st.2 i') :
    F4.MatrixOk F w (F4.gaussRow F upper st i).1 ∧
      (F4.gaussRow F upper st i).1.length = st.1.length ∧
      (F4.gaussRow F upper st i).2.length = st.2.length ∧
      F4.RowReduced upper (F4.gaussRow F upper st i).1 (F4.gaussRow F upper st i).2 i ∧
      ∀ i', i' ∈ P → F4.RowReduced upper (F4.gaussRow F upper st i).1
        (F4.gaussRow F upper st i).2 i' := by
  obtain ⟨M, E⟩ := st
  simp only at hM hup hE hP
  have hm : 0 < F.modn := hp.pos
  have hiM : i < M.length := lt_of_lt_of_le hi hup
  have hiE : i < E.length := lt_of_lt_of_le hi hE
  obtain ⟨hs1, hs2⟩ := gaussScan_spec (M.getD i []) 0
  unfold F4.gaussRow
  simp only
  cases hf : (F4.gaussScan (M.getD i []) 0).2.1 with
  | false =>
    have hz := hs1 hf
    simp only [Bool.false_eq_true, if_false, Bool.not_false, List.length_set]
    refine ⟨hM, trivial, trivial, Or.inl ⟨?_, hz⟩, ?_⟩
    · rw [getD_set_gen, if_pos ⟨rfl, hiE⟩]
    · intro i' hi'
      have hne := hPi i' hi'
      rcases hP i' hi' with h | h
      · refine Or.inl ⟨?_, h.2⟩
        rw [getD_set_gen, if_neg (fun hh => hne hh.1.symm)]
        exact h.1
      · refine Or.inr ⟨?_, h.2⟩
        rw [getD_set_gen, if_neg (fun hh => hne hh.1.symm)]
        exact h.1
  | true =>
    obtain ⟨p, hpl, e1, e2, hx, hzb⟩ := hs2 hf
    simp only [if_true, Bool.not_true, List.length_set]
    have hpe : (F4.gaussScan (M.getD i []) 0).1 - 1 = p := by rw [e1]; omega
    rw [hpe, e2]
    -- the pivot value
    have hxlt : (M.getD i []).getD p 0 < F.modn := hM.2 i p
    -- abbreviations
    have hN : ∀ c, F4.entry (M.set i (F4.gaussNormalize F p ((M.getD i []).getD p 0)
        (M.getD i []))) i c
          = if (M.getD i []).getD p 0 ≠ 1 ∧ p ≤ c then
              F.mul (F4.entry M i c) (F.inv ((M.getD i []).getD p 0))
            else F4.entry M i c := by
      intro c
      rw [entry_set, if_pos ⟨rfl, hiM⟩, gaussNormalize_getD]
      rfl
    have hO : ∀ k c, k ≠ i → F4.entry (M.set i (F4.gaussNormalize F p
        ((M.getD i []).getD p 0) (M.getD i []))) k c = F4.entry M k c := by
      intro k c hk
      rw [entry_set, if_neg (fun h => hk h.1.symm)]
    have hrect1 : ∀ k, k < (M.set i (F4.gaussNormalize F p ((M.getD i []).getD p 0)
        (M.getD i []))).length →
        ((M.set i (F4.gaussNormalize F p ((M.getD i []).getD p 0) (M.getD i []))).getD k
          []).length = w := by
      intro k hk
      rw [List.length_set] at hk
      rw [getD_set_gen]
      split
      · rw [gaussNormalize_length]
        exact hM.1 i hiM
      · exact hM.1 k hk
    have hlt1 : ∀ k c, F4.entry (M.set i (F4.gaussNormalize F p ((M.getD i []).getD p 0)
        (M.getD i []))) k c < F.modn := by
      intro k c
      by_cases hk : k = i
      · subst hk
        rw [hN]
        split
        · exact mul_lt F hm _ _
        · exact hM.2 k c
      · rw [hO k c hk]
        exact hM.2 k c
    have hNp : F4.entry (M.set i (F4.gaussNormalize F p ((M.getD i []).getD p 0)
        (M.getD i []))) i p = 1 := by
      rw [hN]
      by_cases h1 : (M.getD i []).getD p 0 = 1
      · rw [if_neg (fun h => h.1 h1)]
        exact h1
      · rw [if_pos ⟨h1, le_refl _⟩]
        exact inv_correct F hp _ hx hxlt
    have hNz : ∀ c, F4.entry M i c = 0 → F4.entry (M.set i (F4.gaussNormalize F p
        ((M.getD i []).getD p 0) (M.getD i []))) i c = 0 := by
      intro c hc
      rw [hN, hc]
      split
      · exact mul_zero_left F _
      · rfl
    have hup1 : upper ≤ (M.set i (F4.gaussNormalize F p ((M.getD i []).getD p 0)
        (M.getD i []))).length := by
      rw [List.length_set]; exact hup
    have hEl := gaussEliminate_entry F w upper i p _ hi hodd hev hup1 hrect1
    have hM1len : (M.set i (F4.gaussNormalize F p ((M.getD i []).getD p 0)
        (M.getD i []))).length = M.length := List.length_set _ _ _
    generalize (M.set i (F4.gaussNormalize F p ((M.getD i []).getD p 0) (M.getD i [])))
      = M1 at hN hO hrect1 hlt1 hNp hNz hup1 hEl hM1len ⊢
    have hlenF : (((List.range upper).filter (fun j => 2 ≤ j && j % 2 == 0)).foldl
        (F4.gaussUpdate F upper i p) M1).length = M1.length := gaussUpdate_fold_length _ _ _ _ _ _
    have hrow2 : ∀ k, ((((List.range upper).filter (fun j => 2 ≤ j && j % 2 == 0)).foldl
        (F4.gaussUpdate F upper i p) M1).getD k []).length = (M1.getD k []).length :=
      gaussUpdate_fold_row_length _ _ _ _ _ _
    generalize (((List.range upper).filter (fun j => 2 ≤ j && j % 2 == 0)).foldl
        (F4.gaussUpdate F upper i p) M1) = M2 at hEl hlenF hrow2 ⊢
    have hzi : ∀ c, c < p → F4.entry M i c = 0 := hzb
    have hpi : F4.entry M i p ≠ 0 := hx
    have h2i : ∀ c, F4.entry M2 i c = F4.entry M1 i c := by
      intro c
      rw [hEl]
      exact if_neg (fun h => h.1.2.2 rfl)
    refine ⟨⟨fun k hk => ?_, fun k c => ?_⟩, by rw [hlenF, hM1len], trivial,
      Or.inr ⟨?_, p, ?_, ?_, ?_⟩, ?_⟩
    · rw [hrow2]
      exact hrect1 k (by rw [← hlenF]; exact hk)
    · rw [hEl]
      split
      · exact mulSub_lt F hm _ _ _
      · exact hlt1 k c
    · rw [getD_set_gen, if_pos ⟨rfl, hiE⟩]
    · rw [h2i, hNp]
    · intro c hc
      rw [h2i]
      exact hNz c (hzi c hc)
    · intro k hk hko hki
      rw [hEl]
      by_cases hz : F4.entry M1 k p ≠ 0
      · rw [if_pos ⟨⟨hk, hko, hki⟩, hz, le_refl _⟩, hNp]
        exact mulSub_one_self F hm _
      · rw [if_neg (fun h => hz h.2.1)]
        simpa using hz
    · intro i' hi'
      have hne := hPi i' hi'
      have hEi' : (E.set i false).getD i' false = E.getD i' false := by
        rw [getD_set_gen, if_neg (fun hh => hne hh.1.symm)]
      rcases hP i' hi' with h | h
      · refine Or.inl ⟨by rw [hEi']; exact h.1, fun c => ?_⟩
        rw [hEl, hO i' _ hne, hO i' _ hne, h.2 p]
        rw [if_neg (fun hh => hh.2.1 rfl)]
        exact h.2 c
      · obtain ⟨hE', p', hp1, hpz, hcol⟩ := h
        have hip' : F4.entry M i p' = 0 := hcol i hi hodd (Ne.symm hne)
        have hpp : p ≠ p' := by
          rintro rfl
          exact hpi hip'
        have h1ip' : F4.entry M1 i p' = 0 := hNz p' hip'
        have hnocond : ∀ c, c ≤ p' → ¬ ((i' < upper ∧ i' % 2 = 1 ∧ i' ≠ i) ∧
            F4.entry M1 i' p ≠ 0 ∧ p ≤ c) := by
          rintro c hc ⟨_, hz, hpc⟩
          rw [hO i' _ hne] at hz
          exact hz (hpz p (by omega))
        refine Or.inr ⟨by rw [hEi']; exact hE', p', ?_, ?_, ?_⟩
        · rw [hEl, if_neg (hnocond p' (le_refl _)), hO i' _ hne]
          exact hp1
        · intro c hc
          rw [hEl, if_neg (hnocond c (le_of_lt hc)), hO i' _ hne]
          exact hpz c hc
        · intro k hk hko hki'
          by_cases hki : k = i
          · subst hki
            rw [h2i]
            exact h1ip'
          · have hkz : F4.entry M1 k p' = 0 := by
              rw [hO k _ hki]
              exact hcol k hk hko hki'
            rw [hEl, hkz, h1ip']
            split
            · exact mulSub_zero_zero F _
            · rfl


theorem matrixOk_of_rows (F : CoeffField) (hm : 0 < F.modn) (w : Nat)
    (M : List (List coeffType))
    (hM : ∀ row ∈ M, row.length = w ∧ ∀ x ∈ row, x < F.modn) : F4.MatrixOk F w M := by
  refine ⟨fun k hk => ?_, fun k c => ?_⟩
  · rw [List.getD_eq_getElem _ _ hk]
    exact (hM _ (List.getElem_mem _)).1
  · unfold F4.entry
    by_cases hk : k < M.length
    · rw [List.getD_eq_getElem _ _ hk]
      by_cases hc : c < M[k].length
      · rw [List.getD_eq_getElem _ _ hc]
        exact (hM _ (List.getElem_mem _)).2 _ (List.getElem_mem _)
      · rw [getD_of_le _ _ _ (Nat.le_of_not_lt hc)]
        exact hm
    · rw [getD_of_le _ _ _ (Nat.le_of_not_lt hk)]
      simpa using hm

theorem gaussRow_fold_inv (F : CoeffField) (hp : Nat.Prime F.modn) (w upper : Nat)
    (hev : upper % 2 = 0) :
    ∀ (L : List Nat) (st : List (List coeffType) × List Bool) (P : List Nat),
      (∀ i, i ∈ L → i < upper ∧ i % 2 = 1) → L.Nodup → (∀ i, i ∈ L → i ∉ P) →
      F4.MatrixOk F w st.1 → upper ≤ st.1.length → upper ≤ st.2.length →
      (∀ i', i' ∈ P → F4.RowReduced upper st.1 st.2 i') →
      F4.MatrixOk F w (L.foldl (F4.gaussRow F upper) st).1 ∧
        (L.foldl (F4.gaussRow F upper) st).1.length = st.1.length ∧
        (L.foldl (F4.gaussRow F upper) st).2.length = st.2.length ∧
        ∀ i', i' ∈ P ++ L → F4.RowReduced upper (L.foldl (F4.gaussRow F upper) st).1
          (L.foldl (F4.gaussRow F upper) st).2 i' := by
  intro L
  induction L with
  | nil =>
    intro st P _ _ _ hM _ _ hP
    exact ⟨hM, rfl, rfl, by simpa using hP⟩
  | cons i L ih =>
    intro st P hL hnd hLP hM hup hE hP
    rw [List.foldl_cons]
    rw [List.nodup_cons] at hnd
    obtain ⟨hi, hodd⟩ := hL i (List.mem_cons_self _ _)
    obtain ⟨h1, h2, h3, h4, h5⟩ := gaussRow_inv F hp w upper hev st i P hi hodd hM hup hE
      (fun i' hi' e => hLP i (List.mem_cons_self _ _) (e ▸ hi')) hP
    obtain ⟨k1, k2, k3, k4⟩ := ih (F4.gaussRow F upper st i) (P ++ [i])
      (fun j hj => hL j (List.mem_cons_of_mem _ hj)) hnd.2
      (fun j hj hjP => by
        rcases List.mem_append.1 hjP with h | h
        · exact hLP j (List.mem_cons_of_mem _ hj) h
        · rw [List.mem_singleton] at h
          subst h
          exact hnd.1 hj)
      h1 (by rw [h2]; exact hup) (by rw [h3]; exact hE)
      (fun i' hi' => by
        rcases List.mem_append.1 hi' with h | h
        · exact h5 i' h
        · rw [List.mem_singleton] at h
          subst h
          exact h4)
    refine ⟨k1, by rw [k2, h2], by rw [k3, h3], fun i' hi' => k4 i' ?_⟩
    simpa using hi'

/-- After `gauss`, the table is still a table over the field and every odd row
below `upper` is finished. -/
theorem gauss_spec (F : CoeffField) (hp : Nat.Prime F.modn) (w upper : Nat)
    (M : List (List coeffType)) (E : List Bool) (hM : F4.MatrixOk F w M)
    (hev : upper % 2 = 0) (hup : upper ≤ M.length) (hE : upper ≤ E.length) :
    F4.MatrixOk F w (F4.gauss F M upper E).1 ∧
      (F4.gauss F M upper E).1.length = M.length ∧
      (F4.gauss F M upper E).2.length = E.length ∧
      ∀ i, i < upper → i % 2 = 1 →
        F4.RowReduced upper (F4.gauss F M upper E).1 (F4.gauss F M upper E).2 i := by
  obtain ⟨h1, h2, h3, h4⟩ := gaussRow_fold_inv F hp w upper hev
    ((List.range upper).filter (fun i => i % 2 == 1)) (M, E) []
    (fun i hi => by simpa [List.mem_filter] using hi)
    ((List.nodup_range upper).filter _) (fun _ _ h => by simp at h) hM hup hE
    (fun _ h => by simp at h)
  refine ⟨h1, h2, h3, fun i hi hodd => h4 i ?_⟩
  simp [List.mem_filter, hi, hodd]

/-- C11: over a prime field and for an even `upper`, after `gauss` the odd rows
below `upper` are in reduced row-echelon form up to row order.  Every odd row
that is not marked empty has its first nonzero entry equal to 1 in some column
`p`, and every other odd row below `upper` has 0 in column `p`; an odd row that
is marked empty is zero; and two different odd rows have their first nonzero
entries in different columns. -/
theorem C11_gauss_reduced_echelon (F : CoeffField) (hp : Nat.Prime F.modn) (w upper : Nat)
    (matrix : List (List coeffType)) (empty : List Bool)
    (hM : ∀ row ∈ matrix, row.length = w ∧ ∀ x ∈ row, x < F.modn)
    (hev : upper % 2 = 0) (hup : upper ≤ matrix.length) (hE : upper ≤ empty.length) :
    (∀ i, i < upper → i % 2 = 1 → (F4.gauss F matrix upper empty).2.getD i false = false →
      ∃ p, F4.entry (F4.gauss F matrix upper empty).1 i p = 1 ∧
        (∀ c, c < p → F4.entry (F4.gauss F matrix upper empty).1 i c = 0) ∧
        ∀ k, k < upper → k % 2 = 1 → k ≠ i →
          F4.entry (F4.gauss F matrix upper empty).1 k p = 0) ∧
    (∀ i, i < upper → i % 2 = 1 → (F4.gauss F matrix upper empty).2.getD i false = true →
      ∀ c, F4.entry (F4.gauss F matrix upper empty).1 i c = 0) ∧
    (∀ i i' p p', i < upper → i % 2 = 1 → i' < upper → i' % 2 = 1 → i ≠ i' →
      F4.entry (F4.gauss F matrix upper empty).1 i p ≠ 0 →
      (∀ c, c < p → F4.entry (F4.gauss F matrix upper empty).1 i c = 0) →
      F4.entry (F4.gauss F matrix upper empty).1 i' p' ≠ 0 →
      (∀ c, c < p' → F4.entry (F4.gauss F matrix upper empty).1 i' c = 0) →
      p ≠ p') := by
  obtain ⟨_, _, _, h⟩ := gauss_spec F hp w upper matrix empty
    (matrixOk_of_rows F hp.pos w matrix hM) hev hup hE
  refine ⟨fun i hi hodd he => ?_, fun i hi hodd he => ?_, ?_⟩
  · rcases h i hi hodd with h1 | h1
    · rw [h1.1] at he
      cases he
    · exact h1.2
  · rcases h i hi hodd with h1 | h1
    · exact h1.2
    · rw [h1.1] at he
      cases he
  · intro i i' p p' hi hodd hi' hodd' hne hnz hzb hnz' _ hpp
    subst hpp
    rcases h i hi hodd with h1 | ⟨_, q, hq1, hqz, hcol⟩
    · exact hnz (h1.2 p)
    · have hqp : q = p := by
        rcases Nat.lt_trichotomy q p with hlt | heq | hgt
        · have := hzb q hlt
          rw [hq1] at this
          cases this
        · exact heq
        · exact absurd (hqz p hgt) hnz
      subst hqp
      exact hnz' (hcol i' hi' hodd' (Ne.symm hne))

set_option maxRecDepth 100000 in
/-- C11, on a table with two odd rows over the field with 32003 elements. -/
theorem C11_gauss_reduced_echelon_witness :
    Nat.Prime F32003.modn ∧
    F4.gauss F32003 gaussIn 4 [false, false, false, false]
      = ([[0, 0, 0], [1, 2, 0], [0, 0, 0], [0, 0, 1]], [false, false, false, false]) ∧
    (∀ i, i < 4 → i % 2 = 1 →
      (F4.gauss F32003 gaussIn 4 [false, false, false, false]).2.getD i false = false →
      ∃ p, F4.entry (F4.gauss F32003 gaussIn 4 [false, false, false, false]).1 i p = 1 ∧
        (∀ c, c < p →
          F4.entry (F4.gauss F32003 gaussIn 4 [false, false, false, false]).1 i c = 0) ∧
        ∀ k, k < 4 → k % 2 = 1 → k ≠ i →
          F4.entry (F4.gauss F32003 gaussIn 4 [false, false, false, false]).1 k p = 0) :=
  ⟨by show Nat.Prime 32003; norm_num, by decide,
    (C11_gauss_reduced_echelon F32003 (by show Nat.Prime 32003; norm_num) 3 4 gaussIn
      [false, false, false, false] (by decide) (by decide) (by decide) (by decide)).1⟩


/-! ### Generic facts about `setInsert` -/

theorem setInsert_subset {α : Type} (comp : α → α → Bool) (x : α) (s : List α) (y : α)
    (h : y ∈ (setInsert comp x s).1) : y = x ∨ y ∈ s := by
  unfold setInsert at h
  split at h
  · exact Or.inr h
  · simpa [List.mem_orderedInsert] using h

theorem setInsert_superset {α : Type} (comp : α → α → Bool) (x : α) (s : List α) (y : α)
    (h : y ∈ s) : y ∈ (setInsert comp x s).1 := by
  unfold setInsert
  split
  · exact h
  · simp [List.mem_orderedInsert, h]

theorem orderedInsert_pairwise {α : Type} (r : α → α → Prop) [DecidableRel r]
    (htrans : ∀ a b c, r a b → r b c → r a c) (x : α) :
    ∀ (s : List α), (∀ y ∈ s, r x y ∨ r y x) → s.Pairwise r →
      (List.orderedInsert r x s).Pairwise r := by
  intro s
  induction s with
  | nil => intro _ _; simp
  | cons a s ih =>
    intro hcmp hs
    rw [List.pairwise_cons] at hs
    rw [List.orderedInsert]
    by_cases hxa : r x a
    · rw [if_pos hxa]
      refine List.pairwise_cons.2 ⟨fun y hy => ?_, List.pairwise_cons.2 hs⟩
      rcases List.mem_cons.1 hy with rfl | hy'
      · exact hxa
      · exact htrans _ _ _ hxa (hs.1 y hy')
    · rw [if_neg hxa]
      have hax : r a x := (hcmp a (List.mem_cons_self _ _)).resolve_left hxa
      refine List.pairwise_cons.2 ⟨fun y hy => ?_,
        ih (fun y hy => hcmp y (List.mem_cons_of_mem _ hy)) hs.2⟩
      rw [List.mem_orderedInsert] at hy
      rcases hy with rfl | hy'
      · exact hax
      · exact hs.1 y hy'

/-- A comparator that orders by a term key, descending. -/
theorem setInsert_key_sorted {α : Type} (O : TOrdering n) (key : α → Term n) (x : α)
    (s : List α) (hs : s.Pairwise (fun a b => O.lt (key b) (key a) = true)) :
    (setInsert (fun a b => TermComparator O true (key a) (key b)) x s).1.Pairwise
      (fun a b => O.lt (key b) (key a) = true) := by
  unfold setInsert
  split
  · exact hs
  · rename_i hany
    simp only [List.any_eq_true, not_exists, not_and, Bool.and_eq_true, Bool.not_eq_true',
      TermComparator, if_true] at hany
    have hcmp : ∀ y ∈ s, O.lt (key y) (key x) = true ∨ O.lt (key x) (key y) = true := by
      intro y hy
      by_cases h1 : O.lt (key y) (key x) = true
      · exact Or.inl h1
      · right
        have h1' : O.lt (key y) (key x) = false := by simpa using h1
        have h2 := hany y hy h1'
        simpa using h2
    have := orderedInsert_pairwise (fun a b => O.lt (key b) (key a) = true)
      (fun a b c hab hbc => O.trans _ _ _ hbc hab) x s hcmp hs
    simpa [TermComparator] using this

theorem setInsert_key_cover {α : Type} (O : TOrdering n) (key : α → Term n) (x : α)
    (s : List α) :
    ∃ y ∈ (setInsert (fun a b => TermComparator O true (key a) (key b)) x s).1,
      key y = key x := by
  unfold setInsert
  split
  · rename_i hany
    simp only [List.any_eq_true, Bool.and_eq_true, Bool.not_eq_true', TermComparator,
      if_true] at hany
    obtain ⟨y, hy, h1, h2⟩ := hany
    refine ⟨y, hy, ?_⟩
    by_contra hne
    rcases O.total _ _ hne with h | h
    · rw [h] at h1; cases h1
    · rw [h] at h2; cases h2
  · exact ⟨x, by simp [List.mem_orderedInsert], rfl⟩

theorem setInsertAll_key_spec {α : Type} (O : TOrdering n) (key : α → Term n) :
    ∀ (xs s : List α), s.Pairwise (fun a b => O.lt (key b) (key a) = true) →
      (setInsertAll (fun a b => TermComparator O true (key a) (key b)) xs s).Pairwise
          (fun a b => O.lt (key b) (key a) = true) ∧
        (∀ y ∈ setInsertAll (fun a b => TermComparator O true (key a) (key b)) xs s,
          y ∈ xs ∨ y ∈ s) ∧
        (∀ x, x ∈ xs ∨ x ∈ s →
          ∃ y ∈ setInsertAll (fun a b => TermComparator O true (key a) (key b)) xs s,
            key y = key x) := by
  intro xs
  induction xs with
  | nil =>
    intro s hs
    refine ⟨hs, fun y hy => Or.inr hy, fun x hx => ?_⟩
    rcases hx with hx | hx
    · cases hx
    · exact ⟨x, hx, rfl⟩
  | cons a xs ih =>
    intro s hs
    obtain ⟨h1, h2, h3⟩ := ih _ (setInsert_key_sorted O key a s hs)
    refine ⟨h1, fun y hy => ?_, fun x hx => ?_⟩
    · rcases h2 y hy with h | h
      · exact Or.inl (List.mem_cons_of_mem _ h)
      · rcases setInsert_subset _ _ _ _ h with rfl | h'
        · exact Or.inl (List.mem_cons_self _ _)
        · exact Or.inr h'
    · rcases hx with hx | hx
      · rcases List.mem_cons.1 hx with rfl | hx'
        · obtain ⟨y, hy, hk⟩ := setInsert_key_cover O key x s
          obtain ⟨z, hz, hk'⟩ := h3 y (Or.inr hy)
          exact ⟨z, hz, hk'.trans hk⟩
        · exact h3 x (Or.inl hx')
      · exact h3 x (Or.inr (setInsert_superset _ _ _ _ hx))

/-- The column list: sorted strictly descending, hence without repetition, and
holding exactly the collected terms. -/
theorem terms_spec (O : TOrdering n) (tu : List (Term n)) :
    (setInsertAll (TermComparator O true) tu []).Pairwise (fun a b => O.lt b a = true) ∧
      (setInsertAll (TermComparator O true) tu []).Nodup ∧
      ∀ t, t ∈ setInsertAll (TermComparator O true) tu [] ↔ t ∈ tu := by
  obtain ⟨h1, h2, h3⟩ := setInsertAll_key_spec O (fun t : Term n => t) tu [] List.Pairwise.nil
  refine ⟨h1, ?_, fun t => ⟨fun h => ?_, fun h => ?_⟩⟩
  · refine List.Pairwise.imp ?_ h1
    intro a b hab e
    subst e
    rw [O.irrefl] at hab
    cases hab
  · rcases h2 t h with h | h
    · exact h
    · cases h
  · obtain ⟨y, hy, e⟩ := h3 t (Or.inl h)
    have e' : y = t := e
    subst e'
    exact hy


/-! ### Induction principles for symbolic preprocessing -/

theorem setupRows_induct (f4 : F4 n) (upper : Nat) (Q : Nat → Prep n → Prop)
    (hstep : ∀ i st, i < st.rows.length → Q i st → Q (i + 1) (F4.setupRow f4 upper i st)) :
    ∀ (fuel i : Nat) (st r : Prep n), Q i st → F4.setupRows f4 upper fuel i st = .ok r →
      ∃ j, Q j r ∧ r.rows.length ≤ j := by
  intro fuel
  induction fuel with
  | zero =>
    intro i st r hQ h
    rw [F4.setupRows] at h
    split at h
    · cases h
    · rename_i hlt
      simp only [Except.ok.injEq] at h
      subst h
      exact ⟨i, hQ, Nat.le_of_not_lt hlt⟩
  | succ fuel ih =>
    intro i st r hQ h
    rw [F4.setupRows] at h
    split at h
    · rename_i hlt
      exact ih _ _ _ (hstep i st hlt hQ) h
    · rename_i hlt
      simp only [Except.ok.injEq] at h
      subst h
      exact ⟨i, hQ, Nat.le_of_not_lt hlt⟩

theorem foldl_induct {α β : Type} (f : β → α → β) (Q : β → Prop) :
    ∀ (l : List α) (b : β), Q b → (∀ b a, a ∈ l → Q b → Q (f b a)) → Q (l.foldl f b) := by
  intro l
  induction l with
  | nil => intro b hb _; exact hb
  | cons a l ih =>
    intro b hb hstep
    exact ih _ (hstep b a (List.mem_cons_self _ _) hb)
      (fun b' a' ha' hb' => hstep b' a' (List.mem_cons_of_mem _ ha') hb')

theorem setupRow_eq (f4 : F4 n) (upper i : Nat) (st : Prep n) :
    F4.setupRow f4 upper i st
      = (F4.rowMonomials f4 upper i (st.rows.getD i (0, Term.one n))).foldl
          (fun st mt => F4.setupMonomial f4 i st mt.1 mt.2)
          { st with rightSide := st.rightSide ++ [[]] } := rfl

theorem setupRow_induct (f4 : F4 n) (upper i : Nat) (st : Prep n) (Q : Prep n → Prop)
    (h0 : Q { st with rightSide := st.rightSide ++ [[]] })
    (hstep : ∀ (st' : Prep n) (mt : Monomial n × Term n),
      mt ∈ F4.rowMonomials f4 upper i (st.rows.getD i (0, Term.one n)) →
      Q st' → Q (F4.setupMonomial f4 i st' mt.1 mt.2)) :
    Q (F4.setupRow f4 upper i st) := by
  rw [setupRow_eq]
  exact foldl_induct _ Q _ _ h0 (fun b a ha hb => hstep b a ha hb)

theorem rowMonomials_mem (f4 : F4 n) (upper i : Nat) (row : Nat × Term n)
    (mt : Monomial n × Term n) (h : mt ∈ F4.rowMonomials f4 upper i row) :
    mt.1 ∈ (f4.groebnerBasis.getD row.1 default).coeffs ∧
      mt.2 = (row.2.div (f4.groebnerBasis.getD row.1 default).LT).mul mt.1.2 := by
  unfold F4.rowMonomials at h
  have h' := List.mem_of_mem_drop h
  rw [List.zip_map_right] at h'
  simp only [List.mem_map] at h'
  obtain ⟨⟨a, b⟩, hab, rfl⟩ := h'
  have : a = b := by
    revert hab
    generalize (f4.groebnerBasis.getD row.1 default).coeffs = l
    induction l with
    | nil => simp
    | cons c l ih =>
      intro hab
      simp only [List.zip_cons_cons, List.mem_cons, Prod.mk.injEq] at hab
      rcases hab with ⟨rfl, rfl⟩ | hab
      · rfl
      · exact ih hab
  subst this
  exact ⟨(List.of_mem_zip hab).1, rfl⟩


theorem setupMonomial_cases (f4 : F4 n) (i : Nat) (st : Prep n) (m : Monomial n) (t : Term n) :
    (t ∈ st.termsUnordered ∧
      F4.setupMonomial f4 i st m t
        = { st with rightSide := st.rightSide.set i (st.rightSide.getD i [] ++ [(m.1, t)]) }) ∨
    (t ∉ st.termsUnordered ∧ mapHas st.pivots t = true ∧
      F4.setupMonomial f4 i st m t
        = { st with pivotOps := mapPush st.pivotOps t (i, m.1) }) ∨
    (t ∉ st.termsUnordered ∧ mapHas st.pivots t = false ∧
      ∃ k, f4.findReducer t = some k ∧
        F4.setupMonomial f4 i st m t
          = { st with rows := st.rows ++ [(k, t)],
                      pivots := mapInsert st.pivots t st.rows.length,
                      pivotOps := mapPush st.pivotOps t (i, m.1) }) ∨
    (t ∉ st.termsUnordered ∧ mapHas st.pivots t = false ∧ f4.findReducer t = none ∧
      F4.setupMonomial f4 i st m t
        = { st with rightSide := st.rightSide.set i (st.rightSide.getD i [] ++ [(m.1, t)]),
                    termsUnordered := st.termsUnordered ++ [t] }) := by
  unfold F4.setupMonomial
  by_cases hw : t ∈ st.termsUnordered
  · left
    have : st.termsUnordered.contains t = true := by simpa using hw
    simp [this, hw]
  · right
    have hc : st.termsUnordered.contains t = false := by simpa using hw
    by_cases hp : mapHas st.pivots t = true
    · left
      simp [hc, hp, hw]
    · right
      have hp' : mapHas st.pivots t = false := by simpa using hp
      cases hr : f4.findReducer t with
      | some k =>
        left
        refine ⟨hw, hp', k, rfl, ?_⟩
        simp [hc, hp', hr, hw]
      | none =>
        right
        refine ⟨hw, hp', rfl, ?_⟩
        simp [hc, hp', hr, hw]


theorem mapM_ok {α β : Type} (f : α → Except Fault β) :
    ∀ (l : List α) (rs : List β), l.mapM f = .ok rs → List.Forall₂ (fun a b => f a = .ok b) l rs := by
  intro l
  induction l with
  | nil =>
    intro rs h
    simp only [List.mapM_nil, pure, Except.pure, Except.ok.injEq] at h
    subst h
    exact List.Forall₂.nil
  | cons a l ih =>
    intro rs h
    rw [List.mapM_cons] at h
    simp only [bind, Except.bind, pure, Except.pure] at h
    cases ha : f a with
    | error e => rw [ha] at h; cases h
    | ok b =>
      rw [ha] at h
      simp only at h
      cases hl : l.mapM f with
      | error e => rw [hl] at h; cases h
      | ok bs =>
        rw [hl] at h
        simp only [Except.ok.injEq] at h
        subst h
        exact List.Forall₂.cons ha (ih bs hl)

theorem denseRow_spec : ∀ (row : List (Monomial n)) (cols : List (Term n)) (k : Nat)
    (out r : List coeffType), F4.denseRow row cols k out = .ok r →
    r.length = out.length ∧ ∀ c, r.getD c 0 = out.getD c 0 ∨ ∃ m ∈ row, r.getD c 0 = m.1 := by
  intro row cols
  induction cols generalizing row with
  | nil =>
    intro k out r h
    cases row with
    | nil =>
      simp only [F4.denseRow, Except.ok.injEq] at h
      subst h
      exact ⟨rfl, fun c => Or.inl rfl⟩
    | cons m ms => simp [F4.denseRow] at h
  | cons c cs ih =>
    intro k out r h
    cases row with
    | nil =>
      simp only [F4.denseRow, Except.ok.injEq] at h
      subst h
      exact ⟨rfl, fun c => Or.inl rfl⟩
    | cons m ms =>
      rw [F4.denseRow] at h
      split at h
      · obtain ⟨h1, h2⟩ := ih ms (k + 1) _ r h
        refine ⟨by rw [h1, List.length_set], fun c' => ?_⟩
        rcases h2 c' with h3 | ⟨m', hm', e⟩
        · rw [getD_set_gen] at h3
          split at h3
          · exact Or.inr ⟨m, List.mem_cons_self _ _, h3⟩
          · exact Or.inl h3
        · exact Or.inr ⟨m', List.mem_cons_of_mem _ hm', e⟩
      · exact ih (m :: ms) (k + 1) out r h

theorem getD_replicate_zero (w c : Nat) : (List.replicate w (0 : Nat)).getD c 0 = 0 := by
  by_cases h : c < w
  · rw [List.getD_eq_getElem _ _ (by simpa using h)]
    simp
  · exact getD_of_le _ _ _ (by simpa using h)

theorem denseRows_spec (terms : List (Term n)) (rightSide : List (List (Monomial n)))
    (rs : List (List coeffType)) (h : F4.denseRows terms rightSide = .ok rs) :
    rs.length = rightSide.length ∧
      ∀ i, i < rs.length →
        F4.denseRow (rightSide.getD i []) terms 0 (List.replicate terms.length 0)
          = .ok (rs.getD i []) := by
  have hf := mapM_ok _ _ _ h
  refine ⟨hf.length_eq.symm, fun i hi => ?_⟩
  have hi' : i < rightSide.length := by rw [hf.length_eq]; exact hi
  rw [List.getD_eq_getElem _ _ hi, List.getD_eq_getElem _ _ hi']
  exact (List.forall₂_iff_get.1 hf).2 i hi' hi

theorem denseRows_matrixOk (F : CoeffField) (hm : 0 < F.modn) (terms : List (Term n))
    (rightSide : List (List (Monomial n))) (rs : List (List coeffType))
    (hb : ∀ row ∈ rightSide, ∀ e ∈ row, e.1 < F.modn)
    (h : F4.denseRows terms rightSide = .ok rs) : F4.MatrixOk F terms.length rs := by
  obtain ⟨hl, hrow⟩ := denseRows_spec terms rightSide rs h
  have key : ∀ i, i < rs.length → (rs.getD i []).length = terms.length ∧
      ∀ c, (rs.getD i []).getD c 0 < F.modn := by
    intro i hi
    obtain ⟨h1, h2⟩ := denseRow_spec _ _ _ _ _ (hrow i hi)
    refine ⟨by rw [h1, List.length_replicate], fun c => ?_⟩
    rcases h2 c with h3 | ⟨m, hm', e⟩
    · rw [h3, getD_replicate_zero]
      exact hm
    · rw [e]
      have hi' : i < rightSide.length := by rw [← hl]; exact hi
      refine hb _ ?_ m hm'
      rw [List.getD_eq_getElem _ _ hi']
      exact List.getElem_mem _
  refine ⟨fun k hk => (key k hk).1, fun k c => ?_⟩
  by_cases hk : k < rs.length
  · exact (key k hk).2 c
  · unfold F4.entry
    rw [getD_of_le _ _ _ (Nat.le_of_not_lt hk)]
    simpa using hm

theorem mulSubRow_getD (F : CoeffField) (tr orow : List coeffType) (f c : Nat) :
    (F.mulSubRow tr orow f).getD c 0
      = if c < tr.length then F.mulSub (tr.getD c 0) (orow.getD c 0) f else 0 := by
  unfold CoeffField.mulSubRow
  rw [getD_map_range]

theorem pReduceOp_entry (F : CoeffField) (rs : List (List coeffType)) (op : F4Operation)
    (k c : Nat) :
    F4.entry (F4.pReduceOp F rs op) k c
      = if op.target = k ∧ op.target < rs.length ∧ c < (rs.getD op.target []).length then
          F.mulSub (F4.entry rs k c) (F4.entry rs op.oper c) op.factor
        else F4.entry rs k c := by
  unfold F4.pReduceOp
  rw [entry_set]
  by_cases h : op.target = k ∧ op.target < rs.length
  · rw [if_pos h, mulSubRow_getD]
    obtain ⟨h1, h2⟩ := h
    subst h1
    by_cases hc : c < (rs.getD op.target []).length
    · rw [if_pos hc, if_pos ⟨rfl, h2, hc⟩]
      rfl
    · rw [if_neg hc, if_neg (fun hh => hc hh.2.2)]
      unfold F4.entry
      rw [getD_of_le _ _ _ (Nat.le_of_not_lt hc)]
  · rw [if_neg h, if_neg (fun hh => h ⟨hh.1, hh.2.1⟩)]

theorem pReduceOp_matrixOk (F : CoeffField) (hm : 0 < F.modn) (w : Nat)
    (rs : List (List coeffType)) (op : F4Operation) (h : F4.MatrixOk F w rs) :
    F4.MatrixOk F w (F4.pReduceOp F rs op) ∧ (F4.pReduceOp F rs op).length = rs.length := by
  have hlen : (F4.pReduceOp F rs op).length = rs.length := by
    unfold F4.pReduceOp
    rw [List.length_set]
  refine ⟨⟨fun k hk => ?_, fun k c => ?_⟩, hlen⟩
  · rw [hlen] at hk
    unfold F4.pReduceOp
    rw [getD_set_gen]
    split
    · rename_i hh
      unfold CoeffField.mulSubRow
      rw [List.length_map, List.length_range]
      exact h.1 _ hh.2
    · exact h.1 k hk
  · rw [pReduceOp_entry]
    split
    · exact mulSub_lt F hm _ _ _
    · exact h.2 k c

theorem pReduce_matrixOk (F : CoeffField) (hm : 0 < F.modn) (w : Nat)
    (ops : List (List F4Operation)) (rs : List (List coeffType)) (h : F4.MatrixOk F w rs) :
    F4.MatrixOk F w (F4.pReduce F ops rs) ∧ (F4.pReduce F ops rs).length = rs.length := by
  rw [pReduce_eq_fold]
  exact foldl_induct (F4.pReduceOp F)
    (fun M => F4.MatrixOk F w M ∧ M.length = rs.length) _ rs ⟨h, rfl⟩
    (fun M op _ hM => ⟨(pReduceOp_matrixOk F hm w M op hM.1).1,
      by rw [(pReduceOp_matrixOk F hm w M op hM.1).2, hM.2]⟩)


theorem seedLoop_length (cd : Int) : ∀ (l : List (F4Pair n)) (index : Nat)
    (rows : List (Nat × Term n)) (pivots : List (Term n × Nat)),
    (seedLoop cd l index rows pivots).2.1.length + 2 * index
      = rows.length + 2 * (seedLoop cd l index rows pivots).1 := by
  intro l
  induction l with
  | nil => intro index rows pivots; simp [seedLoop]
  | cons p ps ih =>
    intro index rows pivots
    rw [seedLoop]
    split
    · have := ih (index + 1) (rows ++ [(p.i, p.LCM), (p.j, p.LCM)])
        (mapInsert pivots p.LCM (2 * index))
      simp only [List.length_append, List.length_cons, List.length_nil] at this
      omega
    · simp

theorem selection_ok (O : TOrdering n) (pairs : F4PairSet n) (sel : Selection n)
    (h : selection O pairs = .ok sel) :
    ∃ first rest, stdSort s pairs = first :: rest ∧
      sel = { currentDegree := first.sugar,
              rows := (seedLoop first.sugar (first :: rest) 0 [] []).2.1,
              pivots := (seedLoop first.sugar (first :: rest) 0 [] []).2.2,
              index := (seedLoop first.sugar (first :: rest) 0 [] []).1,
              pairs := setInsertAll (F4PairComparator O)
                ((first :: rest).drop (seedLoop first.sugar (first :: rest) 0 [] []).1) [] } := by
  unfold selection at h
  simp only at h
  cases hs : stdSort s pairs with
  | nil => rw [hs] at h; cases h
  | cons first rest =>
    rw [hs] at h
    simp only [Except.ok.injEq] at h
    exact ⟨first, rest, rfl, h.symm⟩

theorem selection_rows_length (O : TOrdering n) (pairs : F4PairSet n) (sel : Selection n)
    (h : selection O pairs = .ok sel) : sel.rows.length = 2 * sel.index := by
  obtain ⟨first, rest, _, rfl⟩ := selection_ok O pairs sel h
  have := seedLoop_length first.sugar (first :: rest) 0 [] []
  simpa using this

theorem setupMonomial_rows_rightSide (f4 : F4 n) (i : Nat) (st : Prep n) (m : Monomial n)
    (t : Term n) :
    st.rows.length ≤ (F4.setupMonomial f4 i st m t).rows.length ∧
      (F4.setupMonomial f4 i st m t).rightSide.length = st.rightSide.length ∧
      ∀ row ∈ (F4.setupMonomial f4 i st m t).rightSide, ∀ e ∈ row,
        e = (m.1, t) ∨ ∃ row' ∈ st.rightSide, e ∈ row' := by
  have hset : ∀ row ∈ st.rightSide.set i (st.rightSide.getD i [] ++ [(m.1, t)]), ∀ e ∈ row,
      e = (m.1, t) ∨ ∃ row' ∈ st.rightSide, e ∈ row' := by
    intro row hrow e he
    rcases List.mem_or_eq_of_mem_set hrow with h | h
    · exact Or.inr ⟨row, h, he⟩
    · subst h
      rcases List.mem_append.1 he with h' | h'
      · right
        by_cases hi : i < st.rightSide.length
        · rw [List.getD_eq_getElem _ _ hi] at h'
          exact ⟨_, List.getElem_mem _, h'⟩
        · rw [getD_of_le _ _ _ (Nat.le_of_not_lt hi)] at h'
          cases h'
      · left
        simpa using h'
  rcases setupMonomial_cases f4 i st m t with ⟨_, e⟩ | ⟨_, _, e⟩ | ⟨_, _, k, _, e⟩ | ⟨_, _, _, e⟩
  · rw [e]
    exact ⟨le_refl _, by simp, hset⟩
  · rw [e]
    exact ⟨le_refl _, rfl, fun row hrow e' he => Or.inr ⟨row, hrow, he⟩⟩
  · rw [e]
    exact ⟨by simp, rfl, fun row hrow e' he => Or.inr ⟨row, hrow, he⟩⟩
  · rw [e]
    exact ⟨le_refl _, by simp, hset⟩

theorem setupRows_shape (F : CoeffField) (f4 : F4 n) (upper fuel : Nat) (st r : Prep n)
    (hred : ∀ g ∈ f4.groebnerBasis, ∀ m ∈ g.coeffs, m.1 < F.modn)
    (h0 : st.rightSide = [])
    (h : F4.setupRows f4 upper fuel 0 st = .ok r) :
    r.rightSide.length = r.rows.length ∧ st.rows.length ≤ r.rows.length ∧
      ∀ row ∈ r.rightSide, ∀ e ∈ row, e.1 < F.modn := by
  obtain ⟨j, ⟨h1, h2, h3, h4⟩, h5⟩ := setupRows_induct f4 upper
    (fun i s => s.rightSide.length = i ∧ i ≤ s.rows.length ∧ st.rows.length ≤ s.rows.length ∧
      ∀ row ∈ s.rightSide, ∀ e ∈ row, e.1 < F.modn)
    (fun i s hi hQ => by
      refine setupRow_induct f4 upper i s
        (fun s' => s'.rightSide.length = i + 1 ∧ i + 1 ≤ s'.rows.length ∧
          st.rows.length ≤ s'.rows.length ∧ ∀ row ∈ s'.rightSide, ∀ e ∈ row, e.1 < F.modn)
        ⟨by simp [hQ.1], hi, hQ.2.2.1, fun row hrow e he => ?_⟩ ?_
      · rcases List.mem_append.1 hrow with h' | h'
        · exact hQ.2.2.2 row h' e he
        · rw [List.mem_singleton] at h'
          subst h'
          cases he
      · intro s' mt hmt hQ'
        obtain ⟨k1, k2, k3⟩ := setupMonomial_rows_rightSide f4 i s' mt.1 mt.2
        refine ⟨by rw [k2]; exact hQ'.1, le_trans hQ'.2.1 k1, le_trans hQ'.2.2.1 k1,
          fun row hrow e he => ?_⟩
        rcases k3 row hrow e he with h' | ⟨row', hrow', he'⟩
        · subst h'
          have hm := (rowMonomials_mem f4 upper i _ mt hmt).1
          by_cases hk : (s.rows.getD i (0, Term.one n)).1 < f4.groebnerBasis.length
          · rw [List.getD_eq_getElem _ _ hk] at hm
            exact hred _ (List.getElem_mem _) mt.1 hm
          · rw [getD_of_le _ _ _ (Nat.le_of_not_lt hk)] at hm
            cases hm
        · exact hQ'.2.2.2 row' hrow' e he')
    fuel 0 st r ⟨by simp [h0], Nat.zero_le _, le_refl _, by simp [h0]⟩ h
  exact ⟨by omega, h3, h4⟩

/-- What `prepare` guarantees about the shape of its outputs. -/
theorem prepare_shape (O : TOrdering n) (F : CoeffField) (hm : 0 < F.modn) (fuel : Nat)
    (f4 : F4 n) (pairs : F4PairSet n) (pr : F4.Prepared n)
    (hred : ∀ g ∈ f4.groebnerBasis, ∀ m ∈ g.coeffs, m.1 < F.modn)
    (h : F4.prepare O fuel f4 pairs = .ok pr) :
    F4.MatrixOk F pr.terms.length pr.rs ∧ pr.upper ≤ pr.rs.length ∧ pr.upper % 2 = 0 ∧
      pr.terms.Nodup ∧ pr.terms.Pairwise (fun a b => O.lt b a = true) := by
  obtain ⟨sel, st, rs, ops, hsel, hst, hrs, _, rfl⟩ := prepare_ok O fuel f4 pairs pr h
  obtain ⟨k1, k2, k3⟩ := setupRows_shape F f4 _ fuel _ st hred rfl hst
  have hl := (denseRows_spec _ _ _ hrs).1
  have hsl := selection_rows_length O pairs sel hsel
  simp only at k2
  refine ⟨denseRows_matrixOk F hm _ _ _ k3 hrs, ?_, by simp only; omega,
    (terms_spec O st.termsUnordered).2.1, (terms_spec O st.termsUnordered).1⟩
  simp only
  omega


theorem filterMap_ite {α β : Type} (p : α → Bool) (f : α → β) : ∀ (l : List α),
    l.filterMap (fun a => if p a then some (f a) else none) = (l.filter p).map f := by
  intro l
  induction l with
  | nil => rfl
  | cons a l ih =>
    by_cases h : p a = true
    · simp [List.filterMap_cons, h, ih]
    · simp [List.filterMap_cons, h, ih]

theorem extractRow_eq (cd : Int) (terms : List (Term n)) (M : List (List coeffType)) (i : Nat) :
    F4.extractRow cd terms (M.getD i [])
      = ⟨((List.range terms.length).filter (fun c => F4.entry M i c != 0)).map
          (fun c => (F4.entry M i c, terms.getD c (Term.one n))), cd⟩ := by
  unfold F4.extractRow
  congr 1
  rw [← filterMap_ite]
  apply List.filterMap_congr
  intro c _
  unfold F4.entry
  by_cases h : (M.getD i []).getD c 0 = 0
  · simp [h]
  · simp [h]

theorem row_zero_iff (M : List (List coeffType)) (i : Nat) :
    (∀ c, F4.entry M i c = 0) ↔ (M.getD i []).any (fun x => x != 0) = false := by
  rw [List.any_eq_false]
  constructor
  · intro h x hx
    obtain ⟨c, hc, rfl⟩ := List.getElem_of_mem hx
    have := h c
    unfold F4.entry at this
    rw [List.getD_eq_getElem _ _ hc] at this
    rw [this]
    simp
  · intro h c
    unfold F4.entry
    by_cases hc : c < (M.getD i []).length
    · rw [List.getD_eq_getElem _ _ hc]
      simpa using h _ (List.getElem_mem hc)
    · exact getD_of_le _ _ _ (Nat.le_of_not_lt hc)

/-- C12: over a prime field and a basis with reduced coefficients, `reduce`
returns one polynomial for each odd row below `upper` that is not identically
zero after `gauss`, in increasing row order; the flag `empty[i]` is set exactly
for the odd rows that are zero in the final matrix; the monomials of the
polynomial of row `i` are the pairs (entry, column term) of the nonzero entries
of the row in column order; so no coefficient is zero, no term is repeated, and
the sugar is `currentDegree`. -/
theorem C12_reduce_extracts (O : TOrdering n) (F : CoeffField) (hp : Nat.Prime F.modn)
    (fuel : Nat) (f4 : F4 n) (pairs : F4PairSet n)
    (r : F4 n × F4PairSet n × List (Polynomial n))
    (hred : ∀ g ∈ f4.groebnerBasis, ∀ m ∈ g.coeffs, m.1 < F.modn)
    (h : F4.reduce O F fuel f4 pairs = .ok r) :
    ∃ pr, F4.prepare O fuel f4 pairs = .ok pr ∧
      (∀ i, i < pr.upper → i % 2 = 1 →
        ((F4.gauss F (F4.pReduce F pr.ops pr.rs) pr.upper
            (List.replicate pr.upper false)).2.getD i false = true ↔
          ∀ c, F4.entry (F4.gauss F (F4.pReduce F pr.ops pr.rs) pr.upper
            (List.replicate pr.upper false)).1 i c = 0)) ∧
      r.2.2 = (((List.range pr.upper).filter (fun i => i % 2 == 1)).filter
          (fun i => ((F4.gauss F (F4.pReduce F pr.ops pr.rs) pr.upper
            (List.replicate pr.upper false)).1.getD i []).any (fun x => x != 0))).map
          (fun i => ⟨((List.range pr.terms.length).filter
              (fun c => F4.entry (F4.gauss F (F4.pReduce F pr.ops pr.rs) pr.upper
                (List.replicate pr.upper false)).1 i c != 0)).map
              (fun c => (F4.entry (F4.gauss F (F4.pReduce F pr.ops pr.rs) pr.upper
                (List.replicate pr.upper false)).1 i c, pr.terms.getD c (Term.one n))),
            pr.currentDegree⟩) ∧
      pr.terms.Nodup ∧
      ∀ g ∈ r.2.2, (∀ m ∈ g.coeffs, m.1 ≠ 0) ∧ (g.coeffs.map Prod.snd).Nodup ∧
        g.sugar = r.1.currentDegree := by
  obtain ⟨pr, hpr, hr1, _, hr3⟩ := reduce_ok O F fuel f4 pairs r h
  obtain ⟨hM, hup, hev, hnd, _⟩ := prepare_shape O F hp.pos fuel f4 pairs pr hred hpr
  obtain ⟨hM1, hl1⟩ := pReduce_matrixOk F hp.pos _ pr.ops pr.rs hM
  obtain ⟨hM2, _, _, hrr⟩ := gauss_spec F hp _ pr.upper _ (List.replicate pr.upper false) hM1 hev
    (by rw [hl1]; exact hup) (by simp)
  refine ⟨pr, hpr, ?_⟩
  generalize F4.gauss F (F4.pReduce F pr.ops pr.rs) pr.upper (List.replicate pr.upper false)
    = G at hr3 hM2 hrr ⊢
  have hflag : ∀ i, i < pr.upper → i % 2 = 1 →
      (G.2.getD i false = true ↔ ∀ c, F4.entry G.1 i c = 0) := by
    intro i hi hodd
    rcases hrr i hi hodd with ⟨h1, h2⟩ | ⟨h1, p, h2, _⟩
    · exact ⟨fun _ => h2, fun _ => h1⟩
    · constructor
      · intro hh
        rw [h1] at hh
        cases hh
      · intro hh
        rw [hh p] at h2
        cases h2
  have hlist : r.2.2 = (((List.range pr.upper).filter (fun i => i % 2 == 1)).filter
      (fun i => (G.1.getD i []).any (fun x => x != 0))).map
      (fun i => ⟨((List.range pr.terms.length).filter (fun c => F4.entry G.1 i c != 0)).map
        (fun c => (F4.entry G.1 i c, pr.terms.getD c (Term.one n))), pr.currentDegree⟩) := by
    rw [hr3, filterMap_ite (fun i => !G.2.getD i false)
      (fun i => F4.extractRow pr.currentDegree pr.terms (G.1.getD i []))]
    have hfe : ((List.range pr.upper).filter (fun i => i % 2 == 1)).filter
        (fun i => !G.2.getD i false)
        = ((List.range pr.upper).filter (fun i => i % 2 == 1)).filter
          (fun i => (G.1.getD i []).any (fun x => x != 0)) := by
      apply List.filter_congr
      intro i hi
      simp only [List.mem_filter, List.mem_range, beq_iff_eq] at hi
      have h1 := hflag i hi.1 hi.2
      rw [row_zero_iff G.1 i] at h1
      by_cases hE : G.2.getD i false = true
      · have hA := h1.1 hE
        rw [hE, hA]
        rfl
      · have hE' : G.2.getD i false = false := Bool.eq_false_of_not_eq_true hE
        have hA : (G.1.getD i []).any (fun x => x != 0) = true := by
          by_contra hc
          exact hE (h1.2 (Bool.eq_false_of_not_eq_true hc))
        rw [hE', hA]
        rfl
    rw [hfe]
    apply List.map_congr_left
    intro i _
    exact extractRow_eq _ _ _ _
  refine ⟨hflag, hlist, hnd, fun g hg => ?_⟩
  rw [hlist, List.mem_map] at hg
  obtain ⟨i, _, rfl⟩ := hg
  refine ⟨fun m hm => ?_, ?_, by rw [hr1]⟩
  · simp only [List.mem_map, List.mem_filter] at hm
    obtain ⟨c, ⟨_, hc⟩, rfl⟩ := hm
    simpa using hc
  · simp only [List.map_map]
    refine List.Nodup.map_on ?_ ((List.nodup_range _).filter _)
    intro a ha b hb hab
    simp only [List.mem_filter, List.mem_range] at ha hb
    simp only [Function.comp] at hab
    rw [List.getD_eq_getElem _ _ ha.1, List.getD_eq_getElem _ _ hb.1] at hab
    exact (List.Nodup.getElem_inj_iff hnd).1 hab

set_option maxRecDepth 100000 in
/-- C12, at the first batch of the cyclic example: one polynomial, read off the
only odd row. -/
theorem C12_reduce_extracts_witness :
    Nat.Prime F32003.modn ∧
    F4.reduce (DegRevLexOrdering 3) F32003 4
        ⟨[cyclic3, cyclic2, cyclic1], [false, false, true], 0⟩ cyclicPairs
      = .ok (⟨[cyclic3, cyclic2, cyclic1], [false, false, true], 2⟩,
          [F4.newPair [cyclic3, cyclic2, cyclic1] cyclic2 0 1], [cyclicOut2]) ∧
    ∃ pr, F4.prepare (DegRevLexOrdering 3) 4
        ⟨[cyclic3, cyclic2, cyclic1], [false, false, true], 0⟩ cyclicPairs = .ok pr ∧
      pr.terms.Nodup ∧
      ∀ g ∈ [cyclicOut2], (∀ m ∈ g.coeffs, m.1 ≠ 0) ∧ (g.coeffs.map Prod.snd).Nodup ∧
        g.sugar = 2 := by
  have hp : Nat.Prime F32003.modn := by show Nat.Prime 32003; norm_num
  have hr : F4.reduce (DegRevLexOrdering 3) F32003 4
        ⟨[cyclic3, cyclic2, cyclic1], [false, false, true], 0⟩ cyclicPairs
      = .ok (⟨[cyclic3, cyclic2, cyclic1], [false, false, true], 2⟩,
          [F4.newPair [cyclic3, cyclic2, cyclic1] cyclic2 0 1], [cyclicOut2]) := by decide
  obtain ⟨pr, h1, _, _, h4, h5⟩ := C12_reduce_extracts (DegRevLexOrdering 3) F32003 hp 4
    ⟨[cyclic3, cyclic2, cyclic1], [false, false, true], 0⟩ cyclicPairs _ (by decide) hr
  exact ⟨hp, hr, pr, h1, h4, h5⟩


theorem foldlM_map_except {α β γ : Type} (g : α → β) (f : γ → β → Except Fault γ) :
    ∀ (l : List α) (c : γ), (l.map g).foldlM f c = l.foldlM (fun c a => f c (g a)) c := by
  intro l
  induction l with
  | nil => intro c; rfl
  | cons a l ih =>
    intro c
    simp only [List.map_cons, List.foldlM_cons, bind, Except.bind]
    cases f c (g a) with
    | error e => rfl
    | ok c' => exact ih c'

theorem foldlM_flatMap_except {α β γ : Type} (g : α → List β) (f : γ → β → Except Fault γ) :
    ∀ (l : List α) (c : γ),
      (l.flatMap g).foldlM f c = l.foldlM (fun c a => (g a).foldlM f c) c := by
  intro l
  induction l with
  | nil => intro c; rfl
  | cons a l ih =>
    intro c
    simp only [List.flatMap_cons, List.foldlM_append, List.foldlM_cons, bind, Except.bind]
    cases (g a).foldlM f c with
    | error e => rfl
    | ok c' => exact ih c'

theorem schedule_eq (pivots : List (Term n × Nat))
    (groups : List (Term n × List (Nat × coeffType))) (rows : Nat) :
    F4.schedule pivots groups rows
      = ((F4.scheduledOps pivots groups).foldlM
          (fun sc op => F4.scheduleOp op.oper sc (op.target, op.factor))
          ({ l := List.replicate rows 0, ops := [[]] } : F4.Sched)).map
          (fun sc => sc.ops.dropLast) := by
  unfold F4.schedule F4.scheduledOps
  rw [foldlM_flatMap_except]
  have : (fun (sc : F4.Sched) (it : Term n × List (Nat × coeffType)) =>
        it.2.foldlM (F4.scheduleOp (mapGet pivots it.1 0)) sc)
      = (fun sc it => (it.2.map (fun e => F4Operation.mk e.1 (mapGet pivots it.1 0) e.2)).foldlM
          (fun sc op => F4.scheduleOp op.oper sc (op.target, op.factor)) sc) := by
    funext sc it
    rw [foldlM_map_except]
  rw [this]
  simp only [bind, Except.bind, pure, Except.pure, Except.map]


theorem flatten_set_append {α : Type} : ∀ (ls : List (List α)) (k : Nat) (x : α),
    k < ls.length →
    (ls.set k (ls.getD k [] ++ [x])).flatten.Perm (ls.flatten ++ [x]) := by
  intro ls
  induction ls with
  | nil => intro k x hk; simp at hk
  | cons l ls ih =>
    intro k x hk
    cases k with
    | zero =>
      simp only [List.set_cons_zero, List.getD_cons_zero, List.flatten_cons,
        List.append_assoc]
      exact List.Perm.append_left _ List.perm_append_comm
    | succ k =>
      simp only [List.set_cons_succ, List.getD_cons_succ, List.flatten_cons,
        List.append_assoc]
      exact List.Perm.append_left _ (ih k x (by simpa using hk))

theorem scheduleOp_ok (o : Nat) (sc sc' : F4.Sched) (e : Nat × coeffType)
    (h : F4.scheduleOp o sc e = .ok sc') (hne : e.1 ≠ o) :
    e.1 < sc.l.length ∧ o < sc.l.length ∧ sc.l.getD e.1 0 < sc.ops.length ∧
      sc'.l.length = sc.l.length ∧
      (∀ x, sc'.l.getD x 0
        = if x = e.1 then sc.l.getD e.1 0 + 1
          else if x = o then max (sc.l.getD o 0) (sc.l.getD e.1 0 + 1)
          else sc.l.getD x 0) ∧
      sc.ops.length ≤ sc'.ops.length ∧ sc.l.getD e.1 0 + 1 < sc'.ops.length ∧
      (∀ L, sc'.ops.getD L []
        = if L = sc.l.getD e.1 0 then sc.ops.getD L [] ++ [F4Operation.mk e.1 o e.2]
          else sc.ops.getD L []) ∧
      sc'.ops.flatten.Perm (sc.ops.flatten ++ [F4Operation.mk e.1 o e.2]) := by
  unfold F4.scheduleOp at h
  simp only at h
  split at h
  · rename_i hc
    obtain ⟨ht, ho, hlt⟩ := hc
    simp only [Except.ok.injEq] at h
    have hl1 : ∀ x, ((sc.l.set e.1 (sc.l.getD e.1 0 + 1)).getD x 0)
        = if x = e.1 then sc.l.getD e.1 0 + 1 else sc.l.getD x 0 := by
      intro x
      rw [getD_set_gen]
      by_cases hx : x = e.1
      · rw [if_pos ⟨hx.symm, ht⟩, if_pos hx]
      · rw [if_neg (fun hh => hx hh.1.symm), if_neg hx]
    have hl2 : ∀ x, (if (sc.l.set e.1 (sc.l.getD e.1 0 + 1)).getD o 0
          < (sc.l.set e.1 (sc.l.getD e.1 0 + 1)).getD e.1 0
        then (sc.l.set e.1 (sc.l.getD e.1 0 + 1)).set o
          ((sc.l.set e.1 (sc.l.getD e.1 0 + 1)).getD e.1 0)
        else sc.l.set e.1 (sc.l.getD e.1 0 + 1)).getD x 0
        = if x = e.1 then sc.l.getD e.1 0 + 1
          else if x = o then max (sc.l.getD o 0) (sc.l.getD e.1 0 + 1)
          else sc.l.getD x 0 := by
      intro x
      rw [hl1 o, hl1 e.1, if_pos rfl, if_neg (Ne.symm hne)]
      by_cases hlt' : sc.l.getD o 0 < sc.l.getD e.1 0 + 1
      · rw [if_pos hlt', getD_set_gen, hl1 x]
        by_cases hx : x = e.1
        · rw [if_neg (fun hh => hne (hx ▸ hh.1.symm)), if_pos hx, if_pos hx]
        · by_cases hxo : x = o
          · rw [if_pos ⟨hxo.symm, by rw [List.length_set]; exact ho⟩, if_neg hx, if_pos hxo,
              max_eq_right (le_of_lt hlt')]
          · rw [if_neg (fun hh => hxo hh.1.symm), if_neg hx, if_neg hx, if_neg hxo]
      · rw [if_neg hlt', hl1 x]
        by_cases hx : x = e.1
        · rw [if_pos hx, if_pos hx]
        · rw [if_neg hx, if_neg hx]
          by_cases hxo : x = o
          · rw [if_pos hxo, hxo, max_eq_left (Nat.le_of_not_lt hlt')]
          · rw [if_neg hxo]
    have hlen2 : (if (sc.l.set e.1 (sc.l.getD e.1 0 + 1)).getD o 0
          < (sc.l.set e.1 (sc.l.getD e.1 0 + 1)).getD e.1 0
        then (sc.l.set e.1 (sc.l.getD e.1 0 + 1)).set o
          ((sc.l.set e.1 (sc.l.getD e.1 0 + 1)).getD e.1 0)
        else sc.l.set e.1 (sc.l.getD e.1 0 + 1)).length = sc.l.length := by
      split <;> simp
    have hset : ∀ L, (sc.ops.set (sc.l.getD e.1 0)
        (sc.ops.getD (sc.l.getD e.1 0) [] ++ [F4Operation.mk e.1 o e.2])).getD L []
        = if L = sc.l.getD e.1 0 then sc.ops.getD L [] ++ [F4Operation.mk e.1 o e.2]
          else sc.ops.getD L [] := by
      intro L
      rw [getD_set_gen]
      by_cases hL : L = sc.l.getD e.1 0
      · rw [if_pos ⟨hL.symm, hlt⟩, if_pos hL, hL]
      · rw [if_neg (fun hh => hL hh.1.symm), if_neg hL]
    have hp := flatten_set_append sc.ops (sc.l.getD e.1 0) (F4Operation.mk e.1 o e.2) hlt
    have hlen1 : (sc.ops.set (sc.l.getD e.1 0)
        (sc.ops.getD (sc.l.getD e.1 0) [] ++ [F4Operation.mk e.1 o e.2])).length
        = sc.ops.length := List.length_set _ _ _
    generalize (if (sc.l.set e.1 (sc.l.getD e.1 0 + 1)).getD o 0
          < (sc.l.set e.1 (sc.l.getD e.1 0 + 1)).getD e.1 0
        then (sc.l.set e.1 (sc.l.getD e.1 0 + 1)).set o
          ((sc.l.set e.1 (sc.l.getD e.1 0 + 1)).getD e.1 0)
        else sc.l.set e.1 (sc.l.getD e.1 0 + 1)) = l2 at h hl2 hlen2
    generalize (sc.ops.set (sc.l.getD e.1 0)
        (sc.ops.getD (sc.l.getD e.1 0) [] ++ [F4Operation.mk e.1 o e.2])) = ops1
      at h hset hp hlen1
    have hl2t := hl2 e.1
    rw [if_pos rfl] at hl2t
    rw [hl2t] at h
    by_cases hge : sc.l.getD e.1 0 + 1 ≥ ops1.length
    · rw [if_pos hge] at h
      subst h
      refine ⟨ht, ho, hlt, hlen2, hl2, by simp [hlen1],
        by simp only [List.length_append, List.length_singleton, hlen1]; omega, fun L => ?_,
        by simpa using hp⟩
      rw [← hset L]
      simp only
      by_cases hL : L < ops1.length
      · rw [List.getD_eq_getElem _ _ (by simp; omega), List.getD_eq_getElem _ _ hL,
          List.getElem_append_left hL]
      · rw [getD_of_le ops1 _ _ (Nat.le_of_not_lt hL)]
        by_cases hL' : L < (ops1 ++ [[]]).length
        · rw [List.getD_eq_getElem _ _ hL', List.getElem_append_right (Nat.le_of_not_lt hL)]
          simp
        · rw [getD_of_le _ _ _ (Nat.le_of_not_lt hL')]
    · rw [if_neg hge] at h
      subst h
      exact ⟨ht, ho, hlt, hlen2, hl2, by simp [hlen1], by simp only; omega, hset, hp⟩
  · cases h


theorem schedInv_step (sc sc' : F4.Sched) (done : List F4Operation) (op : F4Operation)
    (hinv : F4.SchedInv sc done) (hfresh : ∀ a ∈ done, a.target ≠ op.oper)
    (hne : op.target ≠ op.oper)
    (h : F4.scheduleOp op.oper sc (op.target, op.factor) = .ok sc') :
    F4.SchedInv sc' (done ++ [op]) ∧ sc'.l.length = sc.l.length := by
  obtain ⟨j0, j1, j2, j5, j4, j6⟩ := hinv
  obtain ⟨ht, ho, hlt, hlen, hl, hopsle, hopslt, hops, hperm⟩ :=
    scheduleOp_ok op.oper sc sc' (op.target, op.factor) h hne
  have hop : F4Operation.mk op.target op.oper op.factor = op := by cases op; rfl
  simp only [hop] at hl hops hperm ht hlt hopslt
  have hmono : ∀ x, sc.l.getD x 0 ≤ sc'.l.getD x 0 := by
    intro x
    rw [hl x]
    split
    · rename_i hx
      rw [hx]
      omega
    · split
      · rename_i hx
        rw [hx]
        exact le_max_left _ _
      · exact le_refl _
  have hlt' : sc'.l.getD op.target 0 = sc.l.getD op.target 0 + 1 := by
    rw [hl, if_pos rfl]
  have hlo' : sc.l.getD op.target 0 + 1 ≤ sc'.l.getD op.oper 0 := by
    rw [hl, if_neg (Ne.symm hne), if_pos rfl]
    exact le_max_right _ _
  have hmem : ∀ L op', op' ∈ sc'.ops.getD L [] →
      op' ∈ sc.ops.getD L [] ∨ (L = sc.l.getD op.target 0 ∧ op' = op) := by
    intro L op' hm
    rw [hops L] at hm
    split at hm
    · rename_i hL
      rcases List.mem_append.1 hm with h1 | h1
      · exact Or.inl h1
      · exact Or.inr ⟨hL, by simpa using h1⟩
    · exact Or.inl hm
  have hdone : ∀ L op', op' ∈ sc.ops.getD L [] → op' ∈ done := by
    intro L op' hm
    refine j6.subset (List.mem_flatten.2 ⟨_, ?_, hm⟩)
    by_cases hL : L < sc.ops.length
    · rw [List.getD_eq_getElem _ _ hL]
      exact List.getElem_mem _
    · rw [getD_of_le _ _ _ (Nat.le_of_not_lt hL)] at hm
      cases hm
  refine ⟨⟨le_trans j0 hopsle, ?_, ?_, ?_, ?_, ?_⟩, hlen⟩
  · intro x hx
    rw [hlen] at hx
    rw [hl x]
    split
    · exact hopslt
    · split
      · exact max_lt (lt_of_lt_of_le (j1 _ ho) hopsle) hopslt
      · exact lt_of_lt_of_le (j1 x hx) hopsle
  · intro L op' hm
    rw [hlen]
    rcases hmem L op' hm with h1 | ⟨hL, rfl⟩
    · obtain ⟨a, b, c, d⟩ := j2 L op' h1
      exact ⟨a, b, lt_of_lt_of_le c (hmono _), lt_of_lt_of_le d (hmono _)⟩
    · refine ⟨ht, ho, ?_, ?_⟩
      · rw [hlt', hL]
        omega
      · rw [hL]
        omega
  · intro L
    rw [hops L]
    split
    · rename_i hL
      rw [List.map_append, List.map_singleton]
      refine List.Nodup.append (j5 L) (List.nodup_singleton _) ?_
      rw [List.disjoint_singleton]
      intro hm
      rw [List.mem_map] at hm
      obtain ⟨op', hop', e⟩ := hm
      have := (j2 L op' hop').2.2.1
      rw [e, hL] at this
      exact lt_irrefl _ this
    · exact j5 L
  · intro L1 L2 op1 op2 h1 h2 e
    rcases hmem L1 op1 h1 with h1' | ⟨hL1, rfl⟩
    · rcases hmem L2 op2 h2 with h2' | ⟨hL2, rfl⟩
      · exact j4 L1 L2 op1 op2 h1' h2' e
      · exact absurd e (hfresh op1 (hdone L1 op1 h1'))
    · rcases hmem L2 op2 h2 with h2' | ⟨hL2, rfl⟩
      · have := (j2 L2 op2 h2').2.2.2
        rw [← e] at this
        rw [hL1]
        exact this
      · exact absurd e hne
  · exact hperm.trans (List.Perm.append_right _ j6)

theorem schedInv_fold : ∀ (todo done : List F4Operation) (sc sc' : F4.Sched),
    F4.SchedInv sc done →
    (done ++ todo).Pairwise (fun a b => a.target ≠ b.oper) →
    (∀ a ∈ todo, a.target ≠ a.oper) →
    todo.foldlM (fun sc op => F4.scheduleOp op.oper sc (op.target, op.factor)) sc = .ok sc' →
    F4.SchedInv sc' (done ++ todo) ∧ sc'.l.length = sc.l.length := by
  intro todo
  induction todo with
  | nil =>
    intro done sc sc' hinv _ _ h
    simp only [List.foldlM_nil, pure, Except.pure, Except.ok.injEq] at h
    subst h
    exact ⟨by simpa using hinv, rfl⟩
  | cons op todo ih =>
    intro done sc sc' hinv hpw hne h
    rw [List.foldlM_cons] at h
    simp only [bind, Except.bind] at h
    cases h1 : F4.scheduleOp op.oper sc (op.target, op.factor) with
    | error e => rw [h1] at h; cases h
    | ok sc1 =>
      rw [h1] at h
      simp only at h
      have hfresh : ∀ a ∈ done, a.target ≠ op.oper := by
        intro a ha
        rw [List.pairwise_append] at hpw
        exact hpw.2.2 a ha op (List.mem_cons_self _ _)
      obtain ⟨k1, k2⟩ := schedInv_step sc sc1 done op hinv hfresh
        (hne op (List.mem_cons_self _ _)) h1
      obtain ⟨k3, k4⟩ := ih (done ++ [op]) sc1 sc' k1 (by simpa using hpw)
        (fun a ha => hne a (List.mem_cons_of_mem _ ha)) h
      exact ⟨by simpa using k3, by rw [k4, k2]⟩

theorem getD_dropLast (ls : List (List F4Operation)) (hlast : ls.getD (ls.length - 1) [] = [])
    (L : Nat) : ls.dropLast.getD L [] = ls.getD L [] := by
  by_cases hL : L < ls.length - 1
  · rw [List.getD_eq_getElem _ _ (by simpa using hL), List.getD_eq_getElem _ _ (by omega),
      List.getElem_dropLast]
  · rw [getD_of_le _ _ _ (by simpa using Nat.le_of_not_lt hL)]
    by_cases hL' : L = ls.length - 1
    · rw [hL', hlast]
    · rw [getD_of_le _ _ _ (by omega)]

theorem flatten_dropLast (ls : List (List F4Operation))
    (hlast : ls.getD (ls.length - 1) [] = []) : ls.dropLast.flatten = ls.flatten := by
  rcases List.eq_nil_or_concat ls with rfl | ⟨l, a, rfl⟩
  · rfl
  · have : a = [] := by
      rw [← hlast]
      simp [List.getD_eq_getElem?_getD]
    subst this
    simp

/-- The scheduler, given that no operation placed earlier works on the
operator row of a later one: the levels hold exactly the operations of
`scheduledOps`; within a level the targets are distinct; and an operation on a
row sits in a strictly higher level than every operation that uses the row as
its operator. -/
theorem schedule_spec (pivots : List (Term n × Nat))
    (groups : List (Term n × List (Nat × coeffType))) (rows : Nat)
    (ops : List (List F4Operation))
    (hpw : (F4.scheduledOps pivots groups).Pairwise (fun a b => a.target ≠ b.oper))
    (hne : ∀ a ∈ F4.scheduledOps pivots groups, a.target ≠ a.oper)
    (h : F4.schedule pivots groups rows = .ok ops) :
    (∀ L, ((ops.getD L []).map F4Operation.target).Nodup) ∧
      (∀ L1 L2 op1 op2, op1 ∈ ops.getD L1 [] → op2 ∈ ops.getD L2 [] →
        op1.target = op2.oper → L2 < L1) ∧
      ops.flatten.Perm (F4.scheduledOps pivots groups) ∧
      (∀ op ∈ ops.flatten, op.target < rows ∧ op.oper < rows) := by
  rw [schedule_eq] at h
  cases hf : (F4.scheduledOps pivots groups).foldlM
      (fun sc op => F4.scheduleOp op.oper sc (op.target, op.factor))
      ({ l := List.replicate rows 0, ops := [[]] } : F4.Sched) with
  | error e => rw [hf] at h; cases h
  | ok sc =>
    rw [hf] at h
    simp only [Except.map, Except.ok.injEq] at h
    have hinit : F4.SchedInv ({ l := List.replicate rows 0, ops := [[]] } : F4.Sched) [] := by
      refine ⟨by simp, fun x hx => ?_, fun L op hm => ?_, fun L => ?_, fun L1 L2 op1 op2 hm => ?_,
        by simp⟩
      · simp only [getD_replicate_zero]
        simp
      · exfalso
        cases L with
        | zero => simp at hm
        | succ L => simp at hm
      · cases L with
        | zero => simp
        | succ L => simp
      · exfalso
        cases L1 with
        | zero => simp at hm
        | succ L => simp at hm
    obtain ⟨⟨j0, j1, j2, j5, j4, j6⟩, hlen⟩ := schedInv_fold _ [] _ sc hinit (by simpa using hpw)
      hne hf
    simp only [List.nil_append, List.length_replicate] at j6 hlen
    have hlast : sc.ops.getD (sc.ops.length - 1) [] = [] := by
      rw [List.eq_nil_iff_forall_not_mem]
      intro op hm
      obtain ⟨a, _, c, _⟩ := j2 _ op hm
      have := j1 _ a
      omega
    subst h
    refine ⟨fun L => ?_, fun L1 L2 op1 op2 h1 h2 e => ?_, ?_, fun op hm => ?_⟩
    · rw [getD_dropLast _ hlast]
      exact j5 L
    · rw [getD_dropLast _ hlast] at h1 h2
      exact j4 L1 L2 op1 op2 h1 h2 e
    · rw [flatten_dropLast _ hlast]
      exact j6
    · rw [flatten_dropLast _ hlast, List.mem_flatten] at hm
      obtain ⟨lv, hlv, hop⟩ := hm
      obtain ⟨L, hL, rfl⟩ := List.getElem_of_mem hlv
      have := j2 L op (by rw [List.getD_eq_getElem _ _ hL]; exact hop)
      rw [hlen] at this
      exact ⟨this.1, this.2.1⟩


theorem zipWith_sub_add : ∀ (a b : List Nat), List.Forall₂ (fun x y => y ≤ x) a b →
    List.zipWith (fun x y => x + y) (List.zipWith (fun x y => x - y) a b) b = a := by
  intro a b h
  induction h with
  | nil => rfl
  | cons hxy _ ih =>
    simp only [List.zipWith_cons_cons, ih, List.cons.injEq, and_true]
    omega

theorem Term.div_mul_cancel (a b : Term n) (h : a.isDivisibleBy b = true) :
    (a.div b).mul b = a := by
  apply Subtype.ext
  exact zipWith_sub_add a.1 b.1 ((Term.isDivisibleBy_iff a b).1 h)

theorem mapHas_mapInsert {α β : Type} [DecidableEq α] (m : List (α × β)) (k k' : α) (v : β) :
    mapHas (mapInsert m k v) k' = (mapHas m k' || decide (k = k')) := by
  unfold mapInsert mapHas
  by_cases h : m.any (fun e => e.1 == k) = true
  · rw [if_pos h]
    by_cases hk : k = k'
    · subst hk
      simp [h]
    · simp [hk]
  · rw [if_neg h]
    simp only [List.any_append, List.any_cons, List.any_nil, Bool.or_false]
    by_cases hk : k = k'
    · simp [hk]
    · simp [hk]

theorem mapGet_mapInsert {α β : Type} [DecidableEq α] (m : List (α × β)) (k k' : α) (v d : β) :
    mapGet (mapInsert m k v) k' d
      = if mapHas m k' = true then mapGet m k' d else if k = k' then v else d := by
  unfold mapInsert mapHas mapGet
  by_cases h : m.any (fun e => e.1 == k) = true
  · rw [if_pos h]
    by_cases hk' : m.any (fun e => e.1 == k') = true
    · rw [if_pos hk']
    · rw [if_neg hk']
      have hk : k ≠ k' := by
        rintro rfl
        exact hk' h
      rw [if_neg hk]
      have : m.find? (fun e => e.1 == k') = none := by
        rw [List.find?_eq_none]
        intro x hx hxk
        exact hk' (List.any_eq_true.2 ⟨x, hx, hxk⟩)
      rw [this]
  · rw [if_neg h]
    by_cases hk' : m.any (fun e => e.1 == k') = true
    · rw [if_pos hk']
      obtain ⟨x, hx, hxk⟩ := List.any_eq_true.1 hk'
      rw [List.find?_append]
      cases hf : m.find? (fun e => e.1 == k') with
      | none =>
        rw [List.find?_eq_none] at hf
        exact absurd hxk (hf x hx)
      | some y => rfl
    · rw [if_neg hk']
      have : m.find? (fun e => e.1 == k') = none := by
        rw [List.find?_eq_none]
        intro x hx hxk
        exact hk' (List.any_eq_true.2 ⟨x, hx, hxk⟩)
      rw [List.find?_append, this]
      by_cases hk : k = k'
      · subst hk
        simp
      · simp [hk]

theorem mem_mapPush {α β : Type} [DecidableEq α] (m : List (α × List β)) (k : α) (v : β)
    (e : α × List β) (h : e ∈ mapPush m k v) :
    (e ∈ m ∧ e.1 ≠ k) ∨ (e.1 = k ∧ ((∃ l, (k, l) ∈ m ∧ e.2 = l ++ [v]) ∨
      (mapHas m k = false ∧ e.2 = [v]))) := by
  unfold mapPush at h
  split at h
  · rw [List.mem_map] at h
    obtain ⟨e0, he0, rfl⟩ := h
    by_cases hk : e0.1 = k
    · right
      have : (e0.1 == k) = true := by simpa using hk
      simp only [this, if_true]
      exact ⟨hk, Or.inl ⟨e0.2, by rw [← hk]; exact he0, rfl⟩⟩
    · left
      have : (e0.1 == k) = false := by simpa using hk
      simp only [this]
      exact ⟨he0, hk⟩
  · rename_i hany
    rcases List.mem_append.1 h with h1 | h1
    · left
      refine ⟨h1, fun hk => hany ?_⟩
      exact List.any_eq_true.2 ⟨e, h1, by simpa using hk⟩
    · right
      rw [List.mem_singleton] at h1
      subst h1
      exact ⟨rfl, Or.inr ⟨Bool.eq_false_of_not_eq_true hany, rfl⟩⟩

theorem getD_append_left {α : Type} (l : List α) (y : α) (x : Nat) (d : α) (h : x < l.length) :
    (l ++ [y]).getD x d = l.getD x d := by
  rw [List.getD_eq_getElem _ _ h, List.getD_eq_getElem _ _ (by simp; omega),
    List.getElem_append_left h]

theorem getD_append_length {α : Type} (l : List α) (y d : α) :
    (l ++ [y]).getD l.length d = y := by
  rw [List.getD_eq_getElem _ _ (by simp)]
  simp

theorem findReducer_some (f4 : F4 n) (t : Term n) (k : Nat) (h : f4.findReducer t = some k) :
    k < f4.groebnerBasis.length ∧ f4.inGroebnerBasis.getD k false = true ∧
      t.isDivisibleBy (f4.groebnerBasis.getD k default).LT = true := by
  unfold F4.findReducer at h
  have h1 := List.find?_some h
  have h2 := List.mem_of_find?_eq_some h
  simp only [Bool.and_eq_true] at h1
  exact ⟨by simpa using h2, h1.1, h1.2⟩

/-- In a pivot row every walked monomial is smaller than the row's term. -/
theorem rowMonomials_lt (O : TOrdering n) (hmul : O.Multiplicative) (f4 : F4 n)
    (upper i : Nat) (row : Nat × Term n)
    (hs : SortedPoly O (f4.groebnerBasis.getD row.1 default))
    (hd : row.2.isDivisibleBy (f4.groebnerBasis.getD row.1 default).LT = true)
    (hpiv : F4.pivotRow upper i = true)
    (mt : Monomial n × Term n) (h : mt ∈ F4.rowMonomials f4 upper i row) :
    O.lt mt.2 row.2 = true := by
  unfold F4.rowMonomials at h
  unfold F4.pivotRow at hpiv
  simp only [hpiv, if_true] at h
  unfold SortedPoly at hs
  generalize f4.groebnerBasis.getD row.1 default = g at h hs hd
  cases hc : g.coeffs with
  | nil => rw [hc] at h; simp at h
  | cons m0 tl =>
    have hLT : g.LT = m0.2 := by
      unfold Polynomial.LT
      rw [hc]
    rw [hc] at h hs
    rw [hLT] at h hd
    simp only [List.map_cons, List.zip_cons_cons, List.drop_succ_cons, List.drop_zero] at h
    rw [List.zip_map_right, List.mem_map] at h
    obtain ⟨⟨a, b⟩, hab, rfl⟩ := h
    have ha := (List.of_mem_zip hab).2
    have hlt := (List.pairwise_cons.1 hs).1 b ha
    have := hmul _ _ (row.2.div m0.2) hlt
    rw [Term.div_mul_cancel _ _ hd] at this
    exact this


theorem prepInv_setupMonomial (O : TOrdering n) (f4 : F4 n) (upper : Nat)
    (hev : upper % 2 = 0) (st : Prep n) (i : Nat) (m : Monomial n) (t : Term n)
    (hinv : F4.PrepInv O f4 upper st) (hi : i < st.rows.length)
    (hlt : F4.pivotRow upper i = true → O.lt t (st.rows.getD i (0, Term.one n)).2 = true) :
    F4.PrepInv O f4 upper (F4.setupMonomial f4 i st m t) := by
  obtain ⟨p0, p1, p2, p3, p4⟩ := hinv
  have hpush3 : ∀ e ∈ mapPush st.pivotOps t (i, m.1), e.1 = t ∨ e ∈ st.pivotOps := by
    intro e he
    rcases mem_mapPush _ _ _ _ he with ⟨h1, _⟩ | ⟨h1, _⟩
    · exact Or.inr h1
    · exact Or.inl h1
  have hpush4 : ∀ e ∈ mapPush st.pivotOps t (i, m.1), ∀ rc ∈ e.2,
      (e.1 = t ∧ rc = (i, m.1)) ∨ ∃ e' ∈ st.pivotOps, e'.1 = e.1 ∧ rc ∈ e'.2 := by
    intro e he rc hrc
    rcases mem_mapPush _ _ _ _ he with ⟨h1, _⟩ | ⟨h1, ⟨l, hl, h2⟩ | ⟨_, h2⟩⟩
    · exact Or.inr ⟨e, h1, rfl, hrc⟩
    · rw [h2] at hrc
      rcases List.mem_append.1 hrc with h3 | h3
      · exact Or.inr ⟨(t, l), hl, h1.symm, h3⟩
      · exact Or.inl ⟨h1, by simpa using h3⟩
    · rw [h2] at hrc
      exact Or.inl ⟨h1, by simpa using hrc⟩
  rcases setupMonomial_cases f4 i st m t with ⟨_, e⟩ | ⟨_, hp, e⟩ | ⟨_, hp, k, hk, e⟩ | ⟨_, _, _, e⟩
  · rw [e]
    exact ⟨p0, p1, p2, p3, p4⟩
  · rw [e]
    refine ⟨p0, p1, p2, fun e' he' => ?_, fun e' he' rc hrc => ?_⟩
    · rcases hpush3 e' he' with h | h
      · rw [h]; exact hp
      · exact p3 e' h
    · rcases hpush4 e' he' rc hrc with ⟨h1, h2⟩ | ⟨e'', he'', h1, h2⟩
      · rw [h1, h2]
        exact ⟨hi, hlt⟩
      · rw [← h1]
        exact p4 e'' he'' rc h2
  · rw [e]
    obtain ⟨_, _, hdiv⟩ := findReducer_some f4 t k hk
    have hstab : ∀ x, x < st.rows.length →
        (st.rows ++ [(k, t)]).getD x (0, Term.one n) = st.rows.getD x (0, Term.one n) :=
      fun x hx => getD_append_left _ _ _ _ hx
    refine ⟨by simp only [List.length_append, List.length_singleton]; omega,
      fun x hx => ?_, fun τ hτ => ?_, fun e' he' => ?_, fun e' he' rc hrc => ?_⟩
    · simp only [List.length_append, List.length_singleton] at hx
      by_cases hx' : x < st.rows.length
      · rw [hstab x hx']
        exact p1 x hx'
      · have : x = st.rows.length := by omega
        subst this
        rw [getD_append_length]
        exact hdiv
    · simp only [mapHas_mapInsert, Bool.or_eq_true, decide_eq_true_eq] at hτ
      simp only [mapGet_mapInsert]
      by_cases hh : mapHas st.pivots τ = true
      · rw [if_pos hh]
        obtain ⟨a, b, c⟩ := p2 τ hh
        refine ⟨by simp only [List.length_append, List.length_singleton]; omega, b, ?_⟩
        rw [hstab _ a]
        exact c
      · rw [if_neg hh]
        have hτ' : t = τ := hτ.resolve_left hh
        rw [if_pos hτ', getD_append_length]
        refine ⟨by simp, ?_, hτ'⟩
        unfold F4.pivotRow
        by_cases hgt : st.rows.length > upper
        · simp [hgt]
        · have : st.rows.length = upper := by omega
          simp [this, hev]
    · rw [mapHas_mapInsert]
      rcases hpush3 e' he' with h | h
      · simp [h]
      · simp [p3 e' h]
    · rcases hpush4 e' he' rc hrc with ⟨h1, h2⟩ | ⟨e'', he'', h1, h2⟩
      · rw [h1, h2]
        refine ⟨by simp only [List.length_append, List.length_singleton]; omega, ?_⟩
        simp only
        rw [hstab i hi]
        exact hlt
      · rw [← h1]
        obtain ⟨a, b⟩ := p4 e'' he'' rc h2
        refine ⟨by simp only [List.length_append, List.length_singleton]; omega, ?_⟩
        simp only
        rw [hstab _ a]
        exact b
  · rw [e]
    exact ⟨p0, p1, p2, p3, p4⟩

theorem setupMonomial_rows_stable (f4 : F4 n) (i : Nat) (st : Prep n) (m : Monomial n)
    (t : Term n) (x : Nat) (hx : x < st.rows.length) :
    x < (F4.setupMonomial f4 i st m t).rows.length ∧
      (F4.setupMonomial f4 i st m t).rows.getD x (0, Term.one n)
        = st.rows.getD x (0, Term.one n) := by
  rcases setupMonomial_cases f4 i st m t with ⟨_, e⟩ | ⟨_, hp, e⟩ | ⟨_, hp, k, hk, e⟩ | ⟨_, _, _, e⟩
  · rw [e]; exact ⟨hx, rfl⟩
  · rw [e]; exact ⟨hx, rfl⟩
  · rw [e]
    exact ⟨by simp only [List.length_append, List.length_singleton]; omega,
      getD_append_left _ _ _ _ hx⟩
  · rw [e]; exact ⟨hx, rfl⟩

theorem sortedPoly_getD (O : TOrdering n) (G : List (Polynomial n))
    (hs : ∀ g ∈ G, SortedPoly O g) (k : Nat) : SortedPoly O (G.getD k default) := by
  by_cases hk : k < G.length
  · rw [List.getD_eq_getElem _ _ hk]
    exact hs _ (List.getElem_mem _)
  · rw [getD_of_le _ _ _ (Nat.le_of_not_lt hk)]
    exact List.Pairwise.nil

theorem prepInv_setupRow (O : TOrdering n) (hmul : O.Multiplicative) (f4 : F4 n)
    (hs : ∀ g ∈ f4.groebnerBasis, SortedPoly O g) (upper : Nat) (hev : upper % 2 = 0)
    (st : Prep n) (i : Nat) (hinv : F4.PrepInv O f4 upper st) (hi : i < st.rows.length) :
    F4.PrepInv O f4 upper (F4.setupRow f4 upper i st) := by
  have := setupRow_induct f4 upper i st
    (fun s' => F4.PrepInv O f4 upper s' ∧ i < s'.rows.length ∧
      s'.rows.getD i (0, Term.one n) = st.rows.getD i (0, Term.one n))
    ⟨hinv, hi, rfl⟩
    (fun s' mt hmt hQ => by
      obtain ⟨q1, q2, q3⟩ := hQ
      obtain ⟨r1, r2⟩ := setupMonomial_rows_stable f4 i s' mt.1 mt.2 i q2
      refine ⟨prepInv_setupMonomial O f4 upper hev s' i mt.1 mt.2 q1 q2 (fun hpiv => ?_), r1,
        by rw [r2, q3]⟩
      rw [q3]
      exact rowMonomials_lt O hmul f4 upper i _ (sortedPoly_getD O _ hs _)
        (hinv.2.1 i hi) hpiv mt hmt)
  exact this.1

theorem prepInv_setupRows (O : TOrdering n) (hmul : O.Multiplicative) (f4 : F4 n)
    (hs : ∀ g ∈ f4.groebnerBasis, SortedPoly O g) (upper : Nat) (hev : upper % 2 = 0)
    (fuel : Nat) (st r : Prep n) (hinv : F4.PrepInv O f4 upper st)
    (h : F4.setupRows f4 upper fuel 0 st = .ok r) : F4.PrepInv O f4 upper r := by
  obtain ⟨_, hj, _⟩ := setupRows_induct f4 upper (fun _ s => F4.PrepInv O f4 upper s)
    (fun i s hi hQ => prepInv_setupRow O hmul f4 hs upper hev s i hQ hi) fuel 0 st r hinv h
  exact hj


theorem seedLoop_inv (f4 : F4 n) (cd : Int) : ∀ (l : List (F4Pair n)) (index : Nat)
    (rows : List (Nat × Term n)) (pivots : List (Term n × Nat)),
    (∀ p ∈ l, p.LCM.isDivisibleBy (f4.groebnerBasis.getD p.i default).LT = true ∧
      p.LCM.isDivisibleBy (f4.groebnerBasis.getD p.j default).LT = true) →
    rows.length = 2 * index →
    (∀ x, x < rows.length →
      (rows.getD x (0, Term.one n)).2.isDivisibleBy
        (f4.groebnerBasis.getD (rows.getD x (0, Term.one n)).1 default).LT = true) →
    (∀ τ, mapHas pivots τ = true →
      mapGet pivots τ 0 < rows.length ∧ mapGet pivots τ 0 % 2 = 0 ∧
        (rows.getD (mapGet pivots τ 0) (0, Term.one n)).2 = τ) →
    (∀ x, x < (seedLoop cd l index rows pivots).2.1.length →
      ((seedLoop cd l index rows pivots).2.1.getD x (0, Term.one n)).2.isDivisibleBy
        (f4.groebnerBasis.getD
          ((seedLoop cd l index rows pivots).2.1.getD x (0, Term.one n)).1 default).LT = true) ∧
    (∀ τ, mapHas (seedLoop cd l index rows pivots).2.2 τ = true →
      mapGet (seedLoop cd l index rows pivots).2.2 τ 0
          < (seedLoop cd l index rows pivots).2.1.length ∧
        mapGet (seedLoop cd l index rows pivots).2.2 τ 0 % 2 = 0 ∧
        ((seedLoop cd l index rows pivots).2.1.getD
          (mapGet (seedLoop cd l index rows pivots).2.2 τ 0) (0, Term.one n)).2 = τ) := by
  intro l
  induction l with
  | nil =>
    intro index rows pivots _ _ h1 h2
    exact ⟨h1, h2⟩
  | cons p ps ih =>
    intro index rows pivots hp hlen h1 h2
    rw [seedLoop]
    split
    · have hpd := hp p (List.mem_cons_self _ _)
      have hget : ∀ x, (rows ++ [(p.i, p.LCM), (p.j, p.LCM)]).getD x (0, Term.one n)
          = if x < rows.length then rows.getD x (0, Term.one n)
            else if x = rows.length then (p.i, p.LCM)
            else if x = rows.length + 1 then (p.j, p.LCM) else (0, Term.one n) := by
        intro x
        by_cases hx : x < rows.length
        · rw [if_pos hx, List.getD_eq_getElem _ _ (by simp; omega), List.getD_eq_getElem _ _ hx,
            List.getElem_append_left hx]
        · rw [if_neg hx]
          by_cases hx1 : x = rows.length
          · rw [if_pos hx1, List.getD_eq_getElem _ _ (by simp; omega),
              List.getElem_append_right (by omega)]
            simp [hx1]
          · rw [if_neg hx1]
            by_cases hx2 : x = rows.length + 1
            · rw [if_pos hx2, List.getD_eq_getElem _ _ (by simp; omega),
                List.getElem_append_right (by omega)]
              simp [hx2]
            · rw [if_neg hx2, getD_of_le _ _ _ (by simp; omega)]
      refine ih (index + 1) _ _ (fun q hq => hp q (List.mem_cons_of_mem _ hq))
        (by simp only [List.length_append, List.length_cons, List.length_nil]; omega)
        (fun x hx => ?_) (fun τ hτ => ?_)
      · rw [hget x]
        simp only [List.length_append, List.length_cons, List.length_nil] at hx
        by_cases hx0 : x < rows.length
        · rw [if_pos hx0]
          exact h1 x hx0
        · rw [if_neg hx0]
          by_cases hx1 : x = rows.length
          · rw [if_pos hx1]
            exact hpd.1
          · rw [if_neg hx1, if_pos (by omega)]
            exact hpd.2
      · simp only [mapHas_mapInsert, Bool.or_eq_true, decide_eq_true_eq] at hτ
        simp only [mapGet_mapInsert]
        by_cases hh : mapHas pivots τ = true
        · rw [if_pos hh]
          obtain ⟨a, b, c⟩ := h2 τ hh
          refine ⟨by simp only [List.length_append, List.length_cons, List.length_nil]; omega,
            b, ?_⟩
          rw [hget, if_pos a]
          exact c
        · rw [if_neg hh]
          have hτ' : p.LCM = τ := hτ.resolve_left hh
          rw [if_pos hτ']
          refine ⟨by simp only [List.length_append, List.length_cons, List.length_nil]; omega,
            by omega, ?_⟩
          rw [hget, if_neg (by omega), if_pos hlen.symm]
          exact hτ'
    · exact ⟨h1, h2⟩

theorem prepInv_init (O : TOrdering n) (f4 : F4 n) (pairs : F4PairSet n) (sel : Selection n)
    (hpairs : ∀ p ∈ pairs, p.LCM.isDivisibleBy (f4.groebnerBasis.getD p.i default).LT = true ∧
      p.LCM.isDivisibleBy (f4.groebnerBasis.getD p.j default).LT = true)
    (h : selection O pairs = .ok sel) :
    F4.PrepInv O f4 (2 * sel.index)
      { rows := sel.rows, pivots := sel.pivots, pivotOps := [], termsUnordered := [],
        rightSide := [] } := by
  have hlen := selection_rows_length O pairs sel h
  obtain ⟨first, rest, hsort, rfl⟩ := selection_ok O pairs sel h
  have hmem : ∀ p ∈ first :: rest, p ∈ pairs := by
    intro p hp
    rw [← hsort] at hp
    exact (stdSort_perm s pairs).mem_iff.1 hp
  obtain ⟨k1, k2⟩ := seedLoop_inv f4 first.sugar (first :: rest) 0 [] []
    (fun p hp => hpairs p (hmem p hp)) rfl (fun x hx => by simp at hx)
    (fun τ hτ => by simp [mapHas] at hτ)
  simp only at hlen
  refine ⟨by simp only; omega, k1, fun τ hτ => ?_, fun e he => absurd he (List.not_mem_nil _),
    fun e he => absurd he (List.not_mem_nil _)⟩
  obtain ⟨a, b, c⟩ := k2 τ hτ
  refine ⟨a, ?_, c⟩
  unfold F4.pivotRow
  simp only at b ⊢
  simp [b]


/-- Under the preprocessing invariant, no operation works on the operator row
of an operation the scheduler places later, nor on its own operator row. -/
theorem scheduledOps_order (O : TOrdering n) (f4 : F4 n) (upper : Nat) (st : Prep n)
    (hinv : F4.PrepInv O f4 upper st) :
    (F4.scheduledOps st.pivots
        (setInsertAll (fun a b => TermComparator O true a.1 b.1) st.pivotOps [])).Pairwise
        (fun a b => a.target ≠ b.oper) ∧
      ∀ a ∈ F4.scheduledOps st.pivots
        (setInsertAll (fun a b => TermComparator O true a.1 b.1) st.pivotOps []),
        a.target ≠ a.oper := by
  obtain ⟨_, _, p2, p3, p4⟩ := hinv
  obtain ⟨hsorted, hsub, _⟩ := setInsertAll_key_spec O
    (fun e : Term n × List (Nat × coeffType) => e.1) st.pivotOps [] List.Pairwise.nil
  have hmem : ∀ e ∈ setInsertAll (fun a b => TermComparator O true a.1 b.1) st.pivotOps [],
      e ∈ st.pivotOps := by
    intro e he
    rcases hsub e he with h | h
    · exact h
    · cases h
  -- an entry listed under `e1` is not the pivot row of `e2` unless `e1 < e2`
  have key : ∀ e1 ∈ st.pivotOps, ∀ e2 ∈ st.pivotOps, ∀ rc ∈ e1.2,
      rc.1 = mapGet st.pivots e2.1 0 → O.lt e1.1 e2.1 = true := by
    intro e1 he1 e2 he2 rc hrc heq
    obtain ⟨_, b, c⟩ := p2 e2.1 (p3 e2 he2)
    have := (p4 e1 he1 rc hrc).2
    rw [heq] at this
    rw [c] at this
    exact this b
  unfold F4.scheduledOps
  constructor
  · rw [List.pairwise_flatMap]
    constructor
    · intro e he
      rw [List.pairwise_map]
      refine List.pairwise_of_forall_mem_list ?_
      intro a ha b _ heq
      simp only at heq
      have := key e (hmem e he) e (hmem e he) a ha heq
      rw [O.irrefl] at this
      cases this
    · refine List.Pairwise.imp_of_mem ?_ hsorted
      intro e1 e2 he1 he2 h12 x hx y hy heq
      rw [List.mem_map] at hx hy
      obtain ⟨a, ha, rfl⟩ := hx
      obtain ⟨b, _, rfl⟩ := hy
      simp only at heq
      have h1 := key e1 (hmem e1 he1) e2 (hmem e2 he2) a ha heq
      have := O.trans _ _ _ h1 h12
      rw [O.irrefl] at this
      cases this
  · intro a ha heq
    rw [List.mem_flatMap] at ha
    obtain ⟨e, he, hx⟩ := ha
    rw [List.mem_map] at hx
    obtain ⟨rc, hrc, rfl⟩ := hx
    simp only at heq
    have := key e (hmem e he) e (hmem e he) rc hrc heq
    rw [O.irrefl] at this
    cases this

/-- The schedule `prepare` builds, for a basis of sorted polynomials, a
multiplicative ordering and pairs whose lcm is a multiple of both leading
terms. -/
theorem prepare_schedule (O : TOrdering n) (hmul : O.Multiplicative) (fuel : Nat) (f4 : F4 n)
    (pairs : F4PairSet n) (pr : F4.Prepared n)
    (hs : ∀ g ∈ f4.groebnerBasis, SortedPoly O g)
    (hpairs : ∀ p ∈ pairs, p.LCM.isDivisibleBy (f4.groebnerBasis.getD p.i default).LT = true ∧
      p.LCM.isDivisibleBy (f4.groebnerBasis.getD p.j default).LT = true)
    (h : F4.prepare O fuel f4 pairs = .ok pr) :
    (∀ L, ((pr.ops.getD L []).map F4Operation.target).Nodup) ∧
      (∀ L1 L2 op1 op2, op1 ∈ pr.ops.getD L1 [] → op2 ∈ pr.ops.getD L2 [] →
        op1.target = op2.oper → L2 < L1) ∧
      (∀ op ∈ pr.ops.flatten, op.target < pr.rs.length ∧ op.oper < pr.rs.length) := by
  obtain ⟨sel, st, rs, ops, hsel, hst, _, hops, rfl⟩ := prepare_ok O fuel f4 pairs pr h
  have hinv := prepInv_setupRows O hmul f4 hs (2 * sel.index) (by omega) fuel _ st
    (prepInv_init O f4 pairs sel hpairs hsel) hst
  obtain ⟨hpw, hne⟩ := scheduledOps_order O f4 _ st hinv
  obtain ⟨h1, h2, _, h4⟩ := schedule_spec _ _ _ ops hpw hne hops
  exact ⟨h1, h2, h4⟩

theorem mem_getD_of_mem {α : Type} (ls : List (List α)) (l : List α) (h : l ∈ ls) :
    ∃ L, L < ls.length ∧ ls.getD L [] = l := by
  obtain ⟨L, hL, rfl⟩ := List.getElem_of_mem h
  exact ⟨L, hL, List.getD_eq_getElem _ _ hL⟩

/-- C19: in the schedule built by `prepare` (basis polynomials sorted strictly
descending, ordering compatible with multiplication, every pair's lcm a
multiple of the two leading terms), the operations of a level are independent:
the target rows of a level are pairwise distinct, and no row is the target of
one operation and the operator of another operation of the same level. -/
theorem C19_level_independent (O : TOrdering n) (hmul : O.Multiplicative) (fuel : Nat)
    (f4 : F4 n) (pairs : F4PairSet n) (pr : F4.Prepared n)
    (hs : ∀ g ∈ f4.groebnerBasis, SortedPoly O g)
    (hpairs : ∀ p ∈ pairs, p.LCM.isDivisibleBy (f4.groebnerBasis.getD p.i default).LT = true ∧
      p.LCM.isDivisibleBy (f4.groebnerBasis.getD p.j default).LT = true)
    (h : F4.prepare O fuel f4 pairs = .ok pr) :
    ∀ level ∈ pr.ops, (level.map F4Operation.target).Nodup ∧
      ∀ a ∈ level, ∀ b ∈ level, a.target ≠ b.oper := by
  obtain ⟨h1, h2, _⟩ := prepare_schedule O hmul fuel f4 pairs pr hs hpairs h
  intro level hl
  obtain ⟨L, _, rfl⟩ := mem_getD_of_mem _ _ hl
  exact ⟨h1 L, fun a ha b hb heq => lt_irrefl _ (h2 L L a b ha hb heq)⟩

theorem pairwise_reverse_flatten (ops : List (List F4Operation))
    (h2 : ∀ L1 L2 op1 op2, op1 ∈ ops.getD L1 [] → op2 ∈ ops.getD L2 [] →
      op1.target = op2.oper → L2 < L1) :
    ops.reverse.flatten.Pairwise (fun a b => b.target ≠ a.oper) := by
  rw [List.pairwise_flatten]
  constructor
  · intro l hl
    rw [List.mem_reverse] at hl
    obtain ⟨L, _, rfl⟩ := mem_getD_of_mem _ _ hl
    exact List.pairwise_of_forall_mem_list
      (fun a ha b hb heq => lt_irrefl _ (h2 L L b a hb ha heq))
  · rw [List.pairwise_reverse, List.pairwise_iff_getElem]
    intro i j hi hj hij x hx y hy heq
    have := h2 i j y x (by rw [List.getD_eq_getElem _ _ hi]; exact hy)
      (by rw [List.getD_eq_getElem _ _ hj]; exact hx) heq
    omega

/-- C18: for the schedule built by `prepare` (basis polynomials sorted strictly
descending, ordering compatible with multiplication, every pair's lcm a
multiple of the two leading terms), `pReduce` applies the operations in the
order of the list `ops.reverse.flatten`, and in that order every operation
whose target is a row `o` comes before every operation that uses `o` as its
operator row. -/
theorem C18_operator_rows_final (O : TOrdering n) (hmul : O.Multiplicative) (F : CoeffField)
    (fuel : Nat) (f4 : F4 n) (pairs : F4PairSet n) (pr : F4.Prepared n)
    (hs : ∀ g ∈ f4.groebnerBasis, SortedPoly O g)
    (hpairs : ∀ p ∈ pairs, p.LCM.isDivisibleBy (f4.groebnerBasis.getD p.i default).LT = true ∧
      p.LCM.isDivisibleBy (f4.groebnerBasis.getD p.j default).LT = true)
    (h : F4.prepare O fuel f4 pairs = .ok pr) :
    F4.pReduce F pr.ops pr.rs = pr.ops.reverse.flatten.foldl (F4.pReduceOp F) pr.rs ∧
      ∀ (i j : Nat) (hi : i < pr.ops.reverse.flatten.length)
        (hj : j < pr.ops.reverse.flatten.length),
        (pr.ops.reverse.flatten.get ⟨i, hi⟩).target = (pr.ops.reverse.flatten.get ⟨j, hj⟩).oper →
        i < j := by
  obtain ⟨_, h2, _⟩ := prepare_schedule O hmul fuel f4 pairs pr hs hpairs h
  refine ⟨pReduce_eq_fold F pr.ops pr.rs, ?_⟩
  have hpw := pairwise_reverse_flatten pr.ops h2
  rw [List.pairwise_iff_getElem] at hpw
  intro i j hi hj heq
  by_contra hij
  rcases Nat.lt_or_ge j i with hlt | hge
  · exact hpw j i hj hi hlt heq
  · have : i = j := by omega
    subst this
    have hm := List.get_mem pr.ops.reverse.flatten i hi
    rw [List.mem_flatten] at hm
    obtain ⟨l, hl, hx⟩ := hm
    rw [List.mem_reverse] at hl
    obtain ⟨L, _, rfl⟩ := mem_getD_of_mem _ _ hl
    exact lt_irrefl _ (h2 L L _ _ hx hx heq)


theorem sum_zipWith_add : ∀ (c a : List Nat), c.length = a.length →
    (List.zipWith (fun x y => x + y) c a).sum = c.sum + a.sum
  | [], [], _ => rfl
  | [], _ :: _, h => by simp at h
  | _ :: _, [], h => by simp at h
  | x :: c, y :: a, h => by
    simp only [List.zipWith_cons_cons, List.sum_cons,
      sum_zipWith_add c a (by simpa using h)]
    omega

theorem lexGt_zipWith_add : ∀ (c a b : List Nat), c.length = a.length → c.length = b.length →
    lexGt (List.zipWith (fun x y => x + y) c a) (List.zipWith (fun x y => x + y) c b)
      = lexGt a b
  | [], [], [], _, _ => rfl
  | [], _ :: _, _, h, _ => by simp at h
  | [], [], _ :: _, _, h => by simp at h
  | _ :: _, [], _, h, _ => by simp at h
  | _ :: _, _ :: _, [], _, h => by simp at h
  | x :: c, y :: a, z :: b, h1, h2 => by
    simp only [List.zipWith_cons_cons, lexGt]
    rw [lexGt_zipWith_add c a b (by simpa using h1) (by simpa using h2)]
    by_cases hyz : y = z
    · simp [hyz]
    · have : ¬ x + y = x + z := by omega
      simp only [hyz, this, if_false]
      congr 1
      apply propext
      omega

theorem degRevLex_multiplicative (n : Nat) : (DegRevLexOrdering n).Multiplicative := by
  intro a b c h
  show degRevLexLt (c.mul a) (c.mul b) = true
  have h' : degRevLexLt a b = true := h
  unfold degRevLexLt at h' ⊢
  unfold Term.mul
  simp only
  rw [sum_zipWith_add c.1 a.1 (by rw [c.2, a.2]), sum_zipWith_add c.1 b.1 (by rw [c.2, b.2]),
    List.reverse_zipWith (by rw [c.2, a.2]), List.reverse_zipWith (by rw [c.2, b.2]),
    lexGt_zipWith_add _ _ _ (by simp [c.2, a.2]) (by simp [c.2, b.2])]
  simp only [Bool.or_eq_true, Bool.and_eq_true, decide_eq_true_eq] at h' ⊢
  rcases h' with h1 | ⟨h1, h2⟩
  · left; omega
  · right; exact ⟨by omega, h2⟩

set_option maxRecDepth 100000 in
/-- C19, at the first batch of the cyclic example. -/
theorem C19_level_independent_witness :
    (DegRevLexOrdering 3).Multiplicative ∧
    (F4.prepare (DegRevLexOrdering 3) 4
        ⟨[cyclic3, cyclic2, cyclic1], [false, false, true], 0⟩ cyclicPairs).map
        (fun pr => pr.ops) = .ok [[⟨1, 0, 1⟩], [⟨0, 2, 1⟩]] ∧
    ∀ level ∈ [[F4Operation.mk 1 0 1], [F4Operation.mk 0 2 1]],
      (level.map F4Operation.target).Nodup ∧ ∀ a ∈ level, ∀ b ∈ level, a.target ≠ b.oper := by
  have hp : (F4.prepare (DegRevLexOrdering 3) 4
        ⟨[cyclic3, cyclic2, cyclic1], [false, false, true], 0⟩ cyclicPairs).map
        (fun pr => pr.ops) = .ok [[⟨1, 0, 1⟩], [⟨0, 2, 1⟩]] := by decide
  refine ⟨degRevLex_multiplicative 3, hp, ?_⟩
  cases hq : F4.prepare (DegRevLexOrdering 3) 4
      ⟨[cyclic3, cyclic2, cyclic1], [false, false, true], 0⟩ cyclicPairs with
  | error e => rw [hq] at hp; cases hp
  | ok pr =>
    rw [hq] at hp
    simp only [Except.map, Except.ok.injEq] at hp
    rw [← hp]
    exact C19_level_independent (DegRevLexOrdering 3) (degRevLex_multiplicative 3) 4
      ⟨[cyclic3, cyclic2, cyclic1], [false, false, true], 0⟩ cyclicPairs pr (by decide)
      (by decide) hq

set_option maxRecDepth 100000 in
/-- C18, at the first batch of the cyclic example: the operation on row 0 runs
before the operation that uses row 0 as its operator. -/
theorem C18_operator_rows_final_witness :
    (DegRevLexOrdering 3).Multiplicative ∧
    ∃ pr, F4.prepare (DegRevLexOrdering 3) 4
        ⟨[cyclic3, cyclic2, cyclic1], [false, false, true], 0⟩ cyclicPairs = .ok pr ∧
      pr.ops.reverse.flatten = [⟨0, 2, 1⟩, ⟨1, 0, 1⟩] ∧
      F4.pReduce F32003 pr.ops pr.rs
        = pr.ops.reverse.flatten.foldl (F4.pReduceOp F32003) pr.rs ∧
      ∀ (i j : Nat) (hi : i < pr.ops.reverse.flatten.length)
        (hj : j < pr.ops.reverse.flatten.length),
        (pr.ops.reverse.flatten.get ⟨i, hi⟩).target = (pr.ops.reverse.flatten.get ⟨j, hj⟩).oper →
        i < j := by
  have hp : (F4.prepare (DegRevLexOrdering 3) 4
        ⟨[cyclic3, cyclic2, cyclic1], [false, false, true], 0⟩ cyclicPairs).map
        (fun pr => pr.ops) = .ok [[⟨1, 0, 1⟩], [⟨0, 2, 1⟩]] := by decide
  refine ⟨degRevLex_multiplicative 3, ?_⟩
  cases hq : F4.prepare (DegRevLexOrdering 3) 4
      ⟨[cyclic3, cyclic2, cyclic1], [false, false, true], 0⟩ cyclicPairs with
  | error e => rw [hq] at hp; cases hp
  | ok pr =>
    rw [hq] at hp
    simp only [Except.map, Except.ok.injEq] at hp
    have h := C18_operator_rows_final (DegRevLexOrdering 3) (degRevLex_multiplicative 3) F32003 4
      ⟨[cyclic3, cyclic2, cyclic1], [false, false, true], 0⟩ cyclicPairs pr (by decide)
      (by decide) hq
    exact ⟨pr, rfl, by rw [hp]; rfl, h.1, h.2⟩


theorem cast_mulSub (F : CoeffField) (hm : 0 < F.modn) (x y f : Nat) :
    ((F.mulSub x y f : Nat) : ZMod F.modn) = (x : ZMod F.modn) - (y : ZMod F.modn) * f := by
  unfold CoeffField.mulSub
  have hle : (y * f) % F.modn ≤ F.modn := le_of_lt (Nat.mod_lt _ hm)
  rw [ZMod.natCast_mod, Nat.cast_add, ZMod.natCast_mod, Nat.cast_sub hle, ZMod.natCast_mod,
    ZMod.natCast_self, Nat.cast_mul]
  ring

theorem pReduceOp_row_length (F : CoeffField) (rs : List (List coeffType)) (op : F4Operation)
    (k : Nat) : ((F4.pReduceOp F rs op).getD k []).length = (rs.getD k []).length := by
  unfold F4.pReduceOp
  rw [getD_set_gen]
  split
  · rename_i hh
    unfold CoeffField.mulSubRow
    rw [List.length_map, List.length_range, hh.1]
  · rfl

theorem pReduceOp_length (F : CoeffField) (rs : List (List coeffType)) (op : F4Operation) :
    (F4.pReduceOp F rs op).length = rs.length := by
  unfold F4.pReduceOp
  rw [List.length_set]

theorem exec_shape (F : CoeffField) : ∀ (E : List F4Operation) (M : List (List coeffType)),
    (E.foldl (F4.pReduceOp F) M).length = M.length ∧
      ∀ k, ((E.foldl (F4.pReduceOp F) M).getD k []).length = (M.getD k []).length := by
  intro E
  induction E with
  | nil => intro M; exact ⟨rfl, fun _ => rfl⟩
  | cons a E ih =>
    intro M
    rw [List.foldl_cons]
    obtain ⟨h1, h2⟩ := ih (F4.pReduceOp F M a)
    exact ⟨by rw [h1, pReduceOp_length], fun k => by rw [h2, pReduceOp_row_length]⟩

theorem exec_unchanged (F : CoeffField) : ∀ (E : List F4Operation) (M : List (List coeffType))
    (x c : Nat), (∀ a ∈ E, a.target ≠ x) →
    F4.entry (E.foldl (F4.pReduceOp F) M) x c = F4.entry M x c := by
  intro E
  induction E with
  | nil => intro M x c _; rfl
  | cons a E ih =>
    intro M x c h
    rw [List.foldl_cons, ih _ x c (fun b hb => h b (List.mem_cons_of_mem _ hb)),
      pReduceOp_entry]
    exact if_neg (fun hh => h a (List.mem_cons_self _ _) hh.1)

theorem entry_of_le (M : List (List coeffType)) (k c : Nat) (h : (M.getD k []).length ≤ c) :
    F4.entry M k c = 0 :=
  getD_of_le _ _ _ h

/-- Executing a list of operations in which no operation works on the operator
row of an earlier one: the final table satisfies
`final(r) = initial(r) - sum of factor * final(oper)` over the operations on
`r`. -/
theorem exec_fixpoint (F : CoeffField) (hm : 0 < F.modn) (w : Nat) :
    ∀ (E : List F4Operation) (M : List (List coeffType)),
    E.Pairwise (fun a b => b.target ≠ a.oper) → (∀ a ∈ E, a.target ≠ a.oper) →
    (∀ a ∈ E, a.target < M.length) → (∀ k, k < M.length → (M.getD k []).length = w) →
    ∀ r c, (F4.entry (E.foldl (F4.pReduceOp F) M) r c : ZMod F.modn)
      = (F4.entry M r c : ZMod F.modn)
        - ((E.filter (fun op => op.target = r)).map (fun op =>
            (op.factor : ZMod F.modn) *
              (F4.entry (E.foldl (F4.pReduceOp F) M) op.oper c : ZMod F.modn))).sum := by
  intro E
  induction E with
  | nil => intro M _ _ _ _ r c; simp
  | cons a E ih =>
    intro M hpw hne htl hrect r c
    rw [List.pairwise_cons] at hpw
    rw [List.foldl_cons]
    have hl1 := pReduceOp_length F M a
    have hih := ih (F4.pReduceOp F M a) hpw.2 (fun b hb => hne b (List.mem_cons_of_mem _ hb))
      (fun b hb => by rw [hl1]; exact htl b (List.mem_cons_of_mem _ hb))
      (fun k hk => by rw [pReduceOp_row_length]; exact hrect k (by rw [← hl1]; exact hk)) r c
    rw [hih, pReduceOp_entry]
    by_cases har : a.target = r
    · have hfil : (a :: E).filter (fun op => decide (op.target = r))
          = a :: E.filter (fun op => decide (op.target = r)) := by
        rw [List.filter_cons_of_pos (by simpa using har)]
      rw [hfil, List.map_cons, List.sum_cons]
      have hat := htl a (List.mem_cons_self _ _)
      have hop : F4.entry (E.foldl (F4.pReduceOp F) (F4.pReduceOp F M a)) a.oper c
          = F4.entry M a.oper c := by
        rw [exec_unchanged F E _ a.oper c (fun b hb => hpw.1 b hb), pReduceOp_entry]
        exact if_neg (fun hh => hne a (List.mem_cons_self _ _) hh.1)
      rw [hop]
      by_cases hc : c < (M.getD a.target []).length
      · rw [if_pos ⟨har, hat, hc⟩, cast_mulSub F hm]
        ring
      · rw [if_neg (fun hh => hc hh.2.2)]
        have hc' : w ≤ c := by
          rw [← hrect a.target hat]
          exact Nat.le_of_not_lt hc
        have : F4.entry M a.oper c = 0 := by
          by_cases ho : a.oper < M.length
          · exact entry_of_le _ _ _ (by rw [hrect _ ho]; exact hc')
          · unfold F4.entry
            rw [getD_of_le M _ _ (Nat.le_of_not_lt ho)]
            rfl
        rw [this]
        simp
    · rw [if_neg (fun hh => har hh.1)]
      have hfil : (a :: E).filter (fun op => decide (op.target = r))
          = E.filter (fun op => decide (op.target = r)) := by
        rw [List.filter_cons_of_neg (by simpa using har)]
      rw [hfil]


theorem sumAt_append (l : List (Monomial n)) (e : Monomial n) (u : Term n) :
    F4.sumAt (l ++ [e]) u = F4.sumAt l u + (if e.2 = u then e.1 else 0) := by
  unfold F4.sumAt
  rw [List.filter_append, List.map_append, List.sum_append]
  by_cases h : e.2 = u
  · simp [h]
  · simp [h]

theorem monoSum_append (l : List (Monomial n × Term n)) (mt : Monomial n × Term n)
    (u : Term n) :
    F4.monoSum (l ++ [mt]) u = F4.monoSum l u + (if mt.2 = u then mt.1.1 else 0) := by
  unfold F4.monoSum
  rw [List.filter_append, List.map_append, List.sum_append]
  by_cases h : mt.2 = u
  · simp [h]
  · simp [h]

theorem mapPush_keys {α β : Type} [DecidableEq α] (m : List (α × List β)) (k : α) (v : β) :
    (mapPush m k v).map Prod.fst
      = if m.any (fun e => e.1 == k) then m.map Prod.fst else m.map Prod.fst ++ [k] := by
  unfold mapPush
  split
  · rw [List.map_map]
    apply List.map_congr_left
    intro e _
    simp only [Function.comp]
    split <;> rfl
  · simp

theorem mapPush_nodup {α β : Type} [DecidableEq α] (m : List (α × List β)) (k : α) (v : β)
    (h : (m.map Prod.fst).Nodup) : ((mapPush m k v).map Prod.fst).Nodup := by
  rw [mapPush_keys]
  split
  · exact h
  · rename_i hany
    refine List.Nodup.append h (List.nodup_singleton _) ?_
    rw [List.disjoint_singleton]
    intro hk
    rw [List.mem_map] at hk
    obtain ⟨e, he, hek⟩ := hk
    exact hany (List.any_eq_true.2 ⟨e, he, by simpa using hek⟩)

theorem poSum_cons (e : Term n × List (Nat × coeffType))
    (m : List (Term n × List (Nat × coeffType))) (x : Nat) (u : Term n) :
    F4.poSum (e :: m) x u
      = (if e.1 = u then ((e.2.filter (fun rc => rc.1 = x)).map Prod.snd).sum else 0)
        + F4.poSum m x u := by
  unfold F4.poSum
  by_cases h : e.1 = u
  · simp [h]
  · simp [h]

theorem poSum_of_not_mem (m : List (Term n × List (Nat × coeffType))) (x : Nat) (u : Term n)
    (h : u ∉ m.map Prod.fst) : F4.poSum m x u = 0 := by
  induction m with
  | nil => rfl
  | cons e m ih =>
    rw [poSum_cons]
    simp only [List.map_cons, List.mem_cons, not_or] at h
    rw [if_neg (fun hh => h.1 hh.symm), ih h.2]

theorem poSum_mapPush_present (k : Term n) (i c x : Nat) (u : Term n) :
    ∀ (m : List (Term n × List (Nat × coeffType))), (m.map Prod.fst).Nodup →
      k ∈ m.map Prod.fst →
      F4.poSum (m.map (fun e => if e.1 == k then (e.1, e.2 ++ [(i, c)]) else e)) x u
        = F4.poSum m x u + (if k = u ∧ i = x then c else 0) := by
  intro m
  induction m with
  | nil => intro _ hk; simp at hk
  | cons e m ih =>
    intro hnd hk
    rw [List.map_cons, List.nodup_cons] at hnd
    rw [List.map_cons, poSum_cons, poSum_cons]
    by_cases hek : e.1 = k
    · have hb : (e.1 == k) = true := by simpa using hek
      simp only [hb, if_true]
      have hnot : k ∉ m.map Prod.fst := by rw [← hek]; exact hnd.1
      have hsame : m.map (fun e => if e.1 == k then (e.1, e.2 ++ [(i, c)]) else e) = m := by
        conv_rhs => rw [← List.map_id m]
        apply List.map_congr_left
        intro e' he'
        have : e'.1 ≠ k := fun hh => hnot (List.mem_map.2 ⟨e', he', hh⟩)
        have hb' : (e'.1 == k) = false := by simpa using this
        simp [hb']
      rw [hsame]
      by_cases hu : e.1 = u
      · rw [if_pos hu, if_pos hu, List.filter_append, List.map_append, List.sum_append]
        have hku : k = u := hek ▸ hu
        by_cases hix : i = x
        · rw [if_pos ⟨hku, hix⟩]
          simp [hix]
          omega
        · rw [if_neg (fun hh => hix hh.2)]
          simp [hix]
      · rw [if_neg hu, if_neg hu, if_neg (fun hh => hu (hek ▸ hh.1))]
        omega
    · have hb : (e.1 == k) = false := by simpa using hek
      simp only [hb]
      have hk' : k ∈ m.map Prod.fst := by
        rcases List.mem_cons.1 hk with h | h
        · exact absurd h.symm hek
        · exact h
      rw [ih hnd.2 hk']
      simp only [Bool.false_eq_true, if_false]
      omega

theorem poSum_append_single (m : List (Term n × List (Nat × coeffType))) (k : Term n)
    (i c x : Nat) (u : Term n) :
    F4.poSum (m ++ [(k, [(i, c)])]) x u
      = F4.poSum m x u + (if k = u ∧ i = x then c else 0) := by
  induction m with
  | nil =>
    rw [List.nil_append, poSum_cons]
    by_cases hku : k = u
    · by_cases hix : i = x
      · simp [hku, hix, F4.poSum]
      · simp [hku, hix, F4.poSum]
    · simp [hku, F4.poSum]
  | cons e m ih =>
    rw [List.cons_append, poSum_cons, poSum_cons, ih]
    omega

theorem poSum_mapPush (m : List (Term n × List (Nat × coeffType))) (k : Term n)
    (i c x : Nat) (u : Term n) (hnd : (m.map Prod.fst).Nodup) :
    F4.poSum (mapPush m k (i, c)) x u
      = F4.poSum m x u + (if k = u ∧ i = x then c else 0) := by
  unfold mapPush
  split
  · rename_i hany
    obtain ⟨e, he, hek⟩ := List.any_eq_true.1 hany
    exact poSum_mapPush_present k i c x u m hnd
      (List.mem_map.2 ⟨e, he, by simpa using hek⟩)
  · exact poSum_append_single m k i c x u


theorem contentInv_congr (f4 : F4 n) (P P' : Nat → List (Monomial n × Term n)) (st : Prep n)
    (h : ∀ x, P' x = P x) (hinv : F4.ContentInv f4 P st) : F4.ContentInv f4 P' st := by
  obtain ⟨c1, c2, c3, c4, c5⟩ := hinv
  exact ⟨fun x u => by rw [h x]; exact c1 x u, c2, c3, c4, c5⟩

theorem contentInv_setupMonomial (f4 : F4 n) (i : Nat) (st : Prep n) (m : Monomial n)
    (t : Term n) (P P' : Nat → List (Monomial n × Term n))
    (hinv : F4.ContentInv f4 P st) (hi : i < st.rightSide.length)
    (hP : ∀ x, P' x = if x = i then P i ++ [(m, t)] else P x) :
    F4.ContentInv f4 P' (F4.setupMonomial f4 i st m t) := by
  obtain ⟨c1, c2, c3, c4, c5⟩ := hinv
  have hrs : ∀ x, (st.rightSide.set i (st.rightSide.getD i [] ++ [(m.1, t)])).getD x []
      = if x = i then st.rightSide.getD i [] ++ [(m.1, t)] else st.rightSide.getD x [] := by
    intro x
    rw [getD_set_gen]
    by_cases hx : x = i
    · rw [if_pos ⟨hx.symm, hi⟩, if_pos hx]
    · rw [if_neg (fun hh => hx hh.1.symm), if_neg hx]
  -- the sparse row takes the monomial
  have hA : ∀ x u, F4.sumAt ((st.rightSide.set i
        (st.rightSide.getD i [] ++ [(m.1, t)])).getD x []) u + F4.poSum st.pivotOps x u
      = F4.monoSum (P' x) u := by
    intro x u
    rw [hrs x, hP x]
    by_cases hx : x = i
    · subst hx
      rw [if_pos rfl, if_pos rfl, sumAt_append, monoSum_append, ← c1 x u]
      simp only
      omega
    · rw [if_neg hx, if_neg hx]
      exact c1 x u
  -- `pivotOps` takes the monomial
  have hB : ∀ x u, F4.sumAt (st.rightSide.getD x []) u
        + F4.poSum (mapPush st.pivotOps t (i, m.1)) x u = F4.monoSum (P' x) u := by
    intro x u
    rw [poSum_mapPush _ _ _ _ _ _ c4, hP x]
    by_cases hx : x = i
    · subst hx
      rw [if_pos rfl, monoSum_append, ← c1 x u]
      simp only
      by_cases htu : t = u
      · simp only [htu, and_self, if_true]
        omega
      · simp only [htu, false_and, if_false]
        omega
    · rw [if_neg hx, if_neg (fun hh => hx hh.2.symm)]
      exact c1 x u
  rcases setupMonomial_cases f4 i st m t with ⟨hw, e⟩ | ⟨_, hp, e⟩ | ⟨hw, hp, k, hk, e⟩ |
    ⟨_, hp, _, e⟩
  · rw [e]
    refine ⟨hA, fun x e' he' => ?_, c3, c4, c5⟩
    simp only at he' ⊢
    rw [hrs x] at he'
    split at he'
    · rcases List.mem_append.1 he' with h | h
      · exact c2 i e' h
      · rw [List.mem_singleton] at h
        rw [h]
        exact hw
    · exact c2 x e' he'
  · rw [e]
    exact ⟨hB, c2, c3, mapPush_nodup _ _ _ c4, c5⟩
  · rw [e]
    refine ⟨hB, c2, fun u hu => ?_, mapPush_nodup _ _ _ c4, fun x hx => ?_⟩
    · simp only
      rw [mapHas_mapInsert, c3 u hu]
      have : t ≠ u := fun hh => hw (hh ▸ hu)
      simp [this]
    · simp only [List.length_append, List.length_singleton] at hx
      simp only
      by_cases hx' : x < st.rows.length
      · rw [getD_append_left _ _ _ _ hx']
        exact c5 x hx'
      · have : x = st.rows.length := by omega
        subst this
        rw [getD_append_length]
        exact (findReducer_some f4 t k hk).1
  · rw [e]
    refine ⟨hA, fun x e' he' => ?_, fun u hu => ?_, c4, c5⟩
    · simp only at he' ⊢
      rw [hrs x] at he'
      split at he'
      · rcases List.mem_append.1 he' with h | h
        · exact List.mem_append_left _ (c2 i e' h)
        · rw [List.mem_singleton] at h
          rw [h]
          simp
      · exact List.mem_append_left _ (c2 x e' he')
    · simp only at hu ⊢
      rcases List.mem_append.1 hu with h | h
      · exact c3 u h
      · rw [List.mem_singleton] at h
        rw [h]
        exact hp

theorem foldl_induct_pre {α β : Type} (f : β → α → β) (Q : List α → β → Prop) :
    ∀ (l pre : List α) (b : β), Q pre b →
      (∀ pre a b, a ∈ l → Q pre b → Q (pre ++ [a]) (f b a)) → Q (pre ++ l) (l.foldl f b) := by
  intro l
  induction l with
  | nil => intro pre b hb _; simpa using hb
  | cons a l ih =>
    intro pre b hb hstep
    have := ih (pre ++ [a]) (f b a) (hstep pre a b (List.mem_cons_self _ _) hb)
      (fun pre' a' b' ha' hb' => hstep pre' a' b' (List.mem_cons_of_mem _ ha') hb')
    simpa using this

theorem setupMonomial_rightSide_length (f4 : F4 n) (i : Nat) (st : Prep n) (m : Monomial n)
    (t : Term n) : (F4.setupMonomial f4 i st m t).rightSide.length = st.rightSide.length :=
  (setupMonomial_rows_rightSide f4 i st m t).2.1

theorem contentInv_setupRow (f4 : F4 n) (upper i : Nat) (st : Prep n)
    (P : Nat → List (Monomial n × Term n)) (hinv : F4.ContentInv f4 P st)
    (hi : st.rightSide.length = i) (hPi : P i = []) :
    F4.ContentInv f4
        (fun x => if x = i then F4.rowMonomials f4 upper i (st.rows.getD i (0, Term.one n))
          else P x)
        (F4.setupRow f4 upper i st) ∧
      (F4.setupRow f4 upper i st).rightSide.length = i + 1 := by
  rw [setupRow_eq]
  have h0 : F4.ContentInv f4 (fun x => if x = i then [] else P x)
      { st with rightSide := st.rightSide ++ [[]] } := by
    obtain ⟨c1, c2, c3, c4, c5⟩ := hinv
    have hg : ∀ x, (st.rightSide ++ [[]]).getD x [] = st.rightSide.getD x [] := by
      intro x
      by_cases hx : x < st.rightSide.length
      · exact getD_append_left _ _ _ _ hx
      · rw [getD_of_le st.rightSide _ _ (Nat.le_of_not_lt hx)]
        by_cases hx' : x = st.rightSide.length
        · rw [hx', getD_append_length]
        · rw [getD_of_le _ _ _ (by simp; omega)]
    refine ⟨fun x u => ?_, fun x e he => ?_, c3, c4, c5⟩
    · simp only
      rw [hg x]
      by_cases hx : x = i
      · rw [if_pos hx, ← hPi, ← hx]
        exact c1 x u
      · rw [if_neg hx]
        exact c1 x u
    · simp only at he
      rw [hg x] at he
      exact c2 x e he
  have := foldl_induct_pre (fun st mt => F4.setupMonomial f4 i st mt.1 mt.2)
    (fun pre s => F4.ContentInv f4 (fun x => if x = i then pre else P x) s ∧
      s.rightSide.length = i + 1)
    (F4.rowMonomials f4 upper i (st.rows.getD i (0, Term.one n))) []
    { st with rightSide := st.rightSide ++ [[]] }
    ⟨h0, by simp [hi]⟩
    (fun pre a b _ hQ => by
      refine ⟨contentInv_setupMonomial f4 i b a.1 a.2 _ _ hQ.1 (by rw [hQ.2]; omega)
        (fun x => ?_), by rw [setupMonomial_rightSide_length]; exact hQ.2⟩
      by_cases hx : x = i
      · simp [hx]
      · simp [hx])
  simpa using this

theorem setupRow_rows_stable (f4 : F4 n) (upper i : Nat) (st : Prep n) (x : Nat)
    (hx : x < st.rows.length) :
    x < (F4.setupRow f4 upper i st).rows.length ∧
      (F4.setupRow f4 upper i st).rows.getD x (0, Term.one n)
        = st.rows.getD x (0, Term.one n) := by
  exact setupRow_induct f4 upper i st
    (fun s' => x < s'.rows.length ∧
      s'.rows.getD x (0, Term.one n) = st.rows.getD x (0, Term.one n))
    ⟨hx, rfl⟩
    (fun s' mt _ hQ => by
      obtain ⟨r1, r2⟩ := setupMonomial_rows_stable f4 i s' mt.1 mt.2 x hQ.1
      exact ⟨r1, by rw [r2, hQ.2]⟩)

/-- After symbolic preprocessing every row has been walked completely. -/
theorem contentInv_setupRows (f4 : F4 n) (upper fuel : Nat) (st r : Prep n)
    (hinv : F4.ContentInv f4 (fun _ => []) st) (h0 : st.rightSide = [])
    (h : F4.setupRows f4 upper fuel 0 st = .ok r) :
    F4.ContentInv f4
        (fun x => if x < r.rows.length then
          F4.rowMonomials f4 upper x (r.rows.getD x (0, Term.one n)) else []) r ∧
      r.rightSide.length = r.rows.length := by
  obtain ⟨j, ⟨h1, h2, h3⟩, h4⟩ := setupRows_induct f4 upper
    (fun i s => F4.ContentInv f4
        (fun x => if x < i then F4.rowMonomials f4 upper x (s.rows.getD x (0, Term.one n))
          else []) s ∧
      s.rightSide.length = i ∧ i ≤ s.rows.length)
    (fun i s hi hQ => by
      obtain ⟨q1, q2, q3⟩ := hQ
      obtain ⟨k1, k2⟩ := contentInv_setupRow f4 upper i s _ q1 q2 (by simp)
      refine ⟨contentInv_congr f4 _ _ _ (fun x => ?_) k1, k2,
        (setupRow_rows_stable f4 upper i s i hi).1⟩
      show (if x < i + 1 then F4.rowMonomials f4 upper x
            ((F4.setupRow f4 upper i s).rows.getD x (0, Term.one n)) else [])
        = if x = i then F4.rowMonomials f4 upper i (s.rows.getD i (0, Term.one n))
          else if x < i then F4.rowMonomials f4 upper x (s.rows.getD x (0, Term.one n)) else []
      by_cases hx : x = i
      · subst hx
        rw [if_pos (Nat.lt_succ_self _), if_pos rfl,
          (setupRow_rows_stable f4 upper x s x hi).2]
      · by_cases hx' : x < i
        · rw [if_pos (by omega), if_neg hx, if_pos hx',
            (setupRow_rows_stable f4 upper i s x (by omega)).2]
        · rw [if_neg (by omega), if_neg hx, if_neg hx'])
    fuel 0 st r
    ⟨contentInv_congr f4 _ _ _ (fun x => by simp) hinv, by simp [h0], Nat.zero_le _⟩ h
  have hj : j = r.rows.length := by omega
  subst hj
  exact ⟨h1, h2⟩


theorem sumAt_cons (m : Monomial n) (ms : List (Monomial n)) (u : Term n) :
    F4.sumAt (m :: ms) u = (if m.2 = u then m.1 else 0) + F4.sumAt ms u := by
  unfold F4.sumAt
  by_cases h : m.2 = u
  · simp [h]
  · simp [h]

theorem sumAt_of_not_mem (row : List (Monomial n)) (u : Term n)
    (h : ∀ e ∈ row, e.2 ≠ u) : F4.sumAt row u = 0 := by
  induction row with
  | nil => rfl
  | cons m ms ih =>
    rw [sumAt_cons, if_neg (h m (List.mem_cons_self _ _)),
      ih (fun e he => h e (List.mem_cons_of_mem _ he))]

theorem denseRow_terms : ∀ (cols : List (Term n)) (row : List (Monomial n)) (k : Nat)
    (out r : List coeffType), F4.denseRow row cols k out = .ok r → ∀ e ∈ row, e.2 ∈ cols := by
  intro cols
  induction cols with
  | nil =>
    intro row k out r h e he
    cases row with
    | nil => cases he
    | cons m ms => simp [F4.denseRow] at h
  | cons c cs ih =>
    intro row k out r h e he
    cases row with
    | nil => cases he
    | cons m ms =>
      rw [F4.denseRow] at h
      split at h
      · rename_i hmc
        rcases List.mem_cons.1 he with rfl | he'
        · rw [hmc]; exact List.mem_cons_self _ _
        · exact List.mem_cons_of_mem _ (ih ms (k + 1) _ r h e he')
      · rename_i hmc
        have := ih (m :: ms) (k + 1) out r h e he
        exact List.mem_cons_of_mem _ this

theorem denseRow_keep : ∀ (cols : List (Term n)) (row : List (Monomial n)) (k : Nat)
    (out r : List coeffType), F4.denseRow row cols k out = .ok r →
    ∀ j, j < k → r.getD j 0 = out.getD j 0 := by
  intro cols
  induction cols with
  | nil =>
    intro row k out r h j _
    cases row with
    | nil =>
      simp only [F4.denseRow, Except.ok.injEq] at h
      rw [h]
    | cons m ms => simp [F4.denseRow] at h
  | cons c cs ih =>
    intro row k out r h j hj
    cases row with
    | nil =>
      simp only [F4.denseRow, Except.ok.injEq] at h
      rw [h]
    | cons m ms =>
      rw [F4.denseRow] at h
      split at h
      · rw [ih ms (k + 1) _ r h j (by omega), getD_set_gen, if_neg (by omega)]
      · exact ih (m :: ms) (k + 1) out r h j (by omega)

/-- The dense write-out of a sparse row against a column list without
repetition: column `k + a` receives the coefficient the row holds for the
`a`-th column term. -/
theorem denseRow_sem : ∀ (cols : List (Term n)) (row : List (Monomial n)) (k : Nat)
    (out r : List coeffType), cols.Nodup → k + cols.length ≤ out.length →
    (∀ j, k ≤ j → out.getD j 0 = 0) → F4.denseRow row cols k out = .ok r →
    ∀ a, a < cols.length → r.getD (k + a) 0 = F4.sumAt row (cols.getD a (Term.one n)) := by
  intro cols
  induction cols with
  | nil => intro row k out r _ _ _ _ a ha; simp at ha
  | cons c cs ih =>
    intro row k out r hnd hlen hz h a ha
    rw [List.nodup_cons] at hnd
    simp only [List.length_cons] at hlen ha
    cases row with
    | nil =>
      simp only [F4.denseRow, Except.ok.injEq] at h
      rw [← h, hz _ (by omega)]
      rfl
    | cons m ms =>
      rw [F4.denseRow] at h
      split at h
      · rename_i hmc
        have hms : ∀ e ∈ ms, e.2 ∈ cs := denseRow_terms cs ms (k + 1) _ r h
        cases a with
        | zero =>
          rw [Nat.add_zero, denseRow_keep cs ms (k + 1) _ r h k (by omega), getD_set_gen,
            if_pos ⟨rfl, by omega⟩, List.getD_cons_zero, sumAt_cons, if_pos hmc,
            sumAt_of_not_mem ms c (fun e he hh => hnd.1 (hh ▸ hms e he)), Nat.add_zero]
        | succ a =>
          have := ih ms (k + 1) _ r hnd.2 (by rw [List.length_set]; omega)
            (fun j hj => by rw [getD_set_gen, if_neg (by omega)]; exact hz j (by omega)) h a
            (by omega)
          rw [show k + (a + 1) = k + 1 + a by omega, this, List.getD_cons_succ, sumAt_cons,
            if_neg, Nat.zero_add]
          intro hh
          rw [hmc] at hh
          apply hnd.1
          rw [hh]
          rw [List.getD_eq_getElem _ _ (by omega)]
          exact List.getElem_mem _
      · rename_i hmc
        have hms : ∀ e ∈ m :: ms, e.2 ∈ cs := denseRow_terms cs (m :: ms) (k + 1) _ r h
        cases a with
        | zero =>
          rw [Nat.add_zero, denseRow_keep cs (m :: ms) (k + 1) _ r h k (by omega),
            hz k (le_refl _), List.getD_cons_zero,
            sumAt_of_not_mem (m :: ms) c (fun e he hh => hnd.1 (hh ▸ hms e he))]
        | succ a =>
          have := ih (m :: ms) (k + 1) out r hnd.2 (by omega)
            (fun j hj => hz j (by omega)) h a (by omega)
          rw [show k + (a + 1) = k + 1 + a by omega, this, List.getD_cons_succ]

theorem filter_range_getD {α : Type} [DecidableEq α] (l : List α) (d u : α) (hnd : l.Nodup) :
    (List.range l.length).filter (fun c => l.getD c d = u)
      = if u ∈ l then [l.indexOf u] else [] := by
  by_cases hu : u ∈ l
  · rw [if_pos hu]
    have hidx : l.indexOf u < l.length := List.indexOf_lt_length.2 hu
    have hcongr : (List.range l.length).filter (fun c => decide (l.getD c d = u))
        = (List.range l.length).filter (fun c => c == l.indexOf u) := by
      apply List.filter_congr
      intro c hc
      rw [List.mem_range] at hc
      rw [List.getD_eq_getElem _ _ hc]
      have h1 : (l[c] = u) ↔ c = l.indexOf u := by
        constructor
        · intro h
          have h2 : l[l.indexOf u] = u := List.getElem_indexOf hidx
          exact (List.Nodup.getElem_inj_iff hnd).1 (h.trans h2.symm)
        · intro h
          subst h
          exact List.getElem_indexOf hidx
      by_cases hh : l[c] = u
      · simp [hh, h1.1 hh]
      · have : c ≠ l.indexOf u := fun e => hh (h1.2 e)
        simp [hh, this]
    rw [hcongr, List.filter_beq, List.count_eq_one_of_mem (List.nodup_range _)
      (List.mem_range.2 hidx)]
    rfl
  · rw [if_neg hu, List.filter_eq_nil_iff]
    intro c hc
    rw [List.mem_range] at hc
    rw [List.getD_eq_getElem _ _ hc]
    simp only [decide_eq_true_eq]
    intro hh
    exact hu (hh ▸ List.getElem_mem _)

theorem densePoly_eq (F : CoeffField) (terms : List (Term n)) (v : List coeffType)
    (u : Term n) (hnd : terms.Nodup) :
    F4.densePoly F terms v u
      = if u ∈ terms then (v.getD (terms.indexOf u) 0 : ZMod F.modn) else 0 := by
  unfold F4.densePoly
  rw [filter_range_getD terms (Term.one n) u hnd]
  split <;> simp

/-- The dense row written for a sparse row, read back as a polynomial: the
coefficient of every term is the one the sparse row holds. -/
theorem densePoly_denseRow (F : CoeffField) (terms : List (Term n)) (row : List (Monomial n))
    (r : List coeffType) (hnd : terms.Nodup)
    (h : F4.denseRow row terms 0 (List.replicate terms.length 0) = .ok r) (u : Term n) :
    F4.densePoly F terms r u = (F4.sumAt row u : ZMod F.modn) := by
  rw [densePoly_eq F terms r u hnd]
  by_cases hu : u ∈ terms
  · rw [if_pos hu]
    have hidx : terms.indexOf u < terms.length := List.indexOf_lt_length.2 hu
    have := denseRow_sem terms row 0 _ r hnd (by simp) (fun j _ => getD_replicate_zero _ _) h
      (terms.indexOf u) hidx
    rw [Nat.zero_add] at this
    rw [this, List.getD_eq_getElem _ _ hidx, List.getElem_indexOf hidx]
  · rw [if_neg hu, sumAt_of_not_mem row u
      (fun e he hh => hu (hh ▸ denseRow_terms terms row 0 _ r h e he))]
    simp


theorem setInsertAll_key_perm {α : Type} (O : TOrdering n) (key : α → Term n) :
    ∀ (xs s : List α), ((s ++ xs).map key).Nodup →
      (setInsertAll (fun a b => TermComparator O true (key a) (key b)) xs s).Perm (s ++ xs) := by
  intro xs
  induction xs with
  | nil => intro s _; simp [setInsertAll]
  | cons x xs ih =>
    intro s hnd
    have hstep : (setInsert (fun a b => TermComparator O true (key a) (key b)) x s).1.Perm
        (s ++ [x]) := by
      unfold setInsert
      split
      · rename_i hany
        exfalso
        simp only [List.any_eq_true, Bool.and_eq_true, Bool.not_eq_true', TermComparator,
          if_true] at hany
        obtain ⟨y, hy, h1, h2⟩ := hany
        have hk : key y = key x := by
          by_contra hne
          rcases O.total _ _ hne with h | h
          · rw [h] at h1; cases h1
          · rw [h] at h2; cases h2
        rw [List.map_append, List.map_cons] at hnd
        have := (List.nodup_append.1 hnd).2.2
        exact this (List.mem_map.2 ⟨y, hy, rfl⟩) (by rw [hk]; exact List.mem_cons_self _ _)
      · exact (List.perm_orderedInsert _ x s).trans (List.perm_append_singleton x s).symm
    have hnd' : (((setInsert (fun a b => TermComparator O true (key a) (key b)) x s).1
        ++ xs).map key).Nodup := by
      have hp : ((setInsert (fun a b => TermComparator O true (key a) (key b)) x s).1
          ++ xs).Perm (s ++ x :: xs) := by
        refine (List.Perm.append_right xs hstep).trans ?_
        simp
      exact (hp.map key).nodup_iff.2 hnd
    have := ih _ hnd'
    refine this.trans ?_
    refine (List.Perm.append_right xs hstep).trans ?_
    simp

theorem scheduledOps_cons (pivots : List (Term n × Nat))
    (e : Term n × List (Nat × coeffType)) (po : List (Term n × List (Nat × coeffType))) :
    F4.scheduledOps pivots (e :: po)
      = e.2.map (fun rc => F4Operation.mk rc.1 (mapGet pivots e.1 0) rc.2)
        ++ F4.scheduledOps pivots po := by
  unfold F4.scheduledOps
  rw [List.flatMap_cons]

/-- Summing `factor * [oper is the pivot row of u]` over the operations on row
`x` gives the coefficient `pivotOps` lists for `x` under `u`. -/
theorem scheduledOps_ind_sum (F : CoeffField) (upper : Nat) (rows : List (Nat × Term n))
    (pivots : List (Term n × Nat)) (x : Nat) (u : Term n) :
    ∀ (po : List (Term n × List (Nat × coeffType))),
      (∀ e ∈ po, F4.pivotRow upper (mapGet pivots e.1 0) = true ∧
        (rows.getD (mapGet pivots e.1 0) (0, Term.one n)).2 = e.1) →
      (((F4.scheduledOps pivots po).filter (fun op => op.target = x)).map
          (fun op => (op.factor : ZMod F.modn) *
            (if F4.pivotRow upper op.oper = true ∧ (rows.getD op.oper (0, Term.one n)).2 = u
              then 1 else 0))).sum
        = (F4.poSum po x u : ZMod F.modn) := by
  intro po
  induction po with
  | nil => intro _; simp [F4.scheduledOps, F4.poSum]
  | cons e po ih =>
    intro h
    rw [scheduledOps_cons, List.filter_append, List.map_append, List.sum_append,
      ih (fun e' he' => h e' (List.mem_cons_of_mem _ he')), poSum_cons, Nat.cast_add]
    congr 1
    obtain ⟨h1, h2⟩ := h e (List.mem_cons_self _ _)
    rw [List.filter_map, List.map_map]
    have hfun : ((fun op : F4Operation => (op.factor : ZMod F.modn) *
          (if F4.pivotRow upper op.oper = true ∧ (rows.getD op.oper (0, Term.one n)).2 = u
            then 1 else 0)) ∘
        (fun rc : Nat × coeffType => F4Operation.mk rc.1 (mapGet pivots e.1 0) rc.2))
        = fun rc => (rc.2 : ZMod F.modn) * (if e.1 = u then 1 else 0) := by
      funext rc
      simp only [Function.comp, h1, h2, true_and]
    have hfil : ((fun op : F4Operation => decide (op.target = x)) ∘
        (fun rc : Nat × coeffType => F4Operation.mk rc.1 (mapGet pivots e.1 0) rc.2))
        = fun rc => decide (rc.1 = x) := by
      funext rc
      rfl
    rw [hfun, hfil]
    by_cases heu : e.1 = u
    · rw [if_pos heu]
      simp only [heu, if_true, mul_one]
      induction (e.2.filter (fun rc => decide (rc.1 = x))) with
      | nil => simp
      | cons a l ihl => simp [ihl]
    · rw [if_neg heu]
      simp [heu]


theorem zip_map_self {α β : Type} (f : α → β) : ∀ (l : List α),
    l.zip (l.map f) = l.map (fun m => (m, f m)) := by
  intro l
  induction l with
  | nil => rfl
  | cons a l ih => simp [ih]

theorem monoSum_map (F : CoeffField) (f : Monomial n → Term n) (u : Term n) :
    ∀ (l : List (Monomial n)),
      ((F4.monoSum (l.map (fun m => (m, f m))) u : Nat) : ZMod F.modn)
        = ((l.filter (fun m => f m = u)).map (fun m => (m.1 : ZMod F.modn))).sum := by
  intro l
  induction l with
  | nil => simp [F4.monoSum]
  | cons a l ih =>
    have hcons : F4.monoSum ((a :: l).map (fun m => (m, f m))) u
        = (if f a = u then a.1 else 0) + F4.monoSum (l.map (fun m => (m, f m))) u := by
      unfold F4.monoSum
      by_cases h : f a = u
      · simp [h]
      · simp [h]
    rw [hcons, Nat.cast_add, ih]
    by_cases h : f a = u
    · simp [h]
    · simp [h]

theorem monic_cons (g : Polynomial n) (h : Monic g) :
    ∃ tl, g.coeffs = (1, g.LT) :: tl := by
  unfold Monic at h
  unfold Polynomial.LT
  cases hc : g.coeffs with
  | nil => rw [hc] at h; simp at h
  | cons m tl =>
    rw [hc] at h
    simp only [List.head?_cons, Option.map_some', Option.some.injEq] at h
    refine ⟨tl, ?_⟩
    simp only
    rw [← h]

/-- The row polynomial is the implicit leading monomial of a pivot row plus the
monomials walked by symbolic preprocessing. -/
theorem rowPoly_eq (F : CoeffField) (f4 : F4 n) (upper x : Nat) (row : Nat × Term n)
    (hd : row.2.isDivisibleBy (f4.groebnerBasis.getD row.1 default).LT = true)
    (hmonic : F4.pivotRow upper x = true → Monic (f4.groebnerBasis.getD row.1 default))
    (u : Term n) :
    F4.rowPoly F f4 row u
      = (if F4.pivotRow upper x = true ∧ row.2 = u then 1 else 0)
        + (F4.monoSum (F4.rowMonomials f4 upper x row) u : ZMod F.modn) := by
  unfold F4.rowPoly F4.rowMonomials
  simp only
  rw [zip_map_self, ← List.map_drop, monoSum_map]
  by_cases hpiv : F4.pivotRow upper x = true
  · have hb : (decide (x > upper) || x % 2 == 0) = true := hpiv
    obtain ⟨tl, htl⟩ := monic_cons _ (hmonic hpiv)
    simp only [hb, if_true, hpiv, true_and]
    rw [htl, List.drop_succ_cons, List.drop_zero, List.filter_cons]
    simp only [decide_eq_true_eq]
    rw [Term.div_mul_cancel _ _ hd]
    by_cases hu : row.2 = u
    · simp [hu]
    · simp [hu]
  · have hb : (decide (x > upper) || x % 2 == 0) = false := Bool.eq_false_of_not_eq_true hpiv
    simp only [hb, Bool.false_eq_true, if_false, List.drop_zero, hpiv, false_and, zero_add]

theorem densePoly_fixpoint (F : CoeffField) (hm : 0 < F.modn) (terms : List (Term n))
    (hnd : terms.Nodup) (E : List F4Operation) (M : List (List coeffType))
    (hpw : E.Pairwise (fun a b => b.target ≠ a.oper)) (hne : ∀ a ∈ E, a.target ≠ a.oper)
    (htl : ∀ a ∈ E, a.target < M.length)
    (hrect : ∀ k, k < M.length → (M.getD k []).length = terms.length) (x : Nat) (u : Term n) :
    F4.densePoly F terms ((E.foldl (F4.pReduceOp F) M).getD x []) u
      = F4.densePoly F terms (M.getD x []) u
        - ((E.filter (fun op => op.target = x)).map (fun op =>
            (op.factor : ZMod F.modn) *
              F4.densePoly F terms ((E.foldl (F4.pReduceOp F) M).getD op.oper []) u)).sum := by
  simp only [densePoly_eq F terms _ u hnd]
  by_cases hu : u ∈ terms
  · simp only [hu, if_true]
    exact exec_fixpoint F hm terms.length E M hpw hne htl hrect x (terms.indexOf u)
  · simp [hu]


theorem mem_scheduledOps (pivots : List (Term n × Nat))
    (po : List (Term n × List (Nat × coeffType))) (a : F4Operation)
    (h : a ∈ F4.scheduledOps pivots po) :
    ∃ e ∈ po, ∃ rc ∈ e.2, a = F4Operation.mk rc.1 (mapGet pivots e.1 0) rc.2 := by
  unfold F4.scheduledOps at h
  rw [List.mem_flatMap] at h
  obtain ⟨e, he, hx⟩ := h
  rw [List.mem_map] at hx
  obtain ⟨rc, hrc, rfl⟩ := hx
  exact ⟨e, he, rc, hrc, rfl⟩

/-- The final polynomial of every row satisfies
`final(x) = rowPoly(x) - sum of factor * final(oper)` over the operations on
`x`. -/
theorem fullPoly_step (O : TOrdering n) (F : CoeffField) (hm : 0 < F.modn) (f4 : F4 n)
    (upper : Nat) (st : Prep n) (terms : List (Term n)) (rs : List (List coeffType))
    (E : List F4Operation) (hnd : terms.Nodup)
    (hpi : F4.PrepInv O f4 upper st)
    (hci : F4.ContentInv f4
      (fun x => if x < st.rows.length then
        F4.rowMonomials f4 upper x (st.rows.getD x (0, Term.one n)) else []) st)
    (hlen : st.rightSide.length = st.rows.length)
    (hmonic : ∀ g ∈ f4.groebnerBasis, Monic g)
    (hrs : F4.denseRows terms st.rightSide = .ok rs)
    (hperm : E.Perm (F4.scheduledOps st.pivots st.pivotOps))
    (hpw : E.Pairwise (fun a b => b.target ≠ a.oper)) (hne : ∀ a ∈ E, a.target ≠ a.oper)
    (x : Nat) (hx : x < st.rows.length) (u : Term n) :
    F4.fullPoly F upper st.rows terms (E.foldl (F4.pReduceOp F) rs) x u
      = F4.rowPoly F f4 (st.rows.getD x (0, Term.one n)) u
        - ((E.filter (fun op => op.target = x)).map (fun op =>
            (op.factor : ZMod F.modn) *
              F4.fullPoly F upper st.rows terms (E.foldl (F4.pReduceOp F) rs) op.oper u)).sum := by
  obtain ⟨_, p1, p2, p3, p4⟩ := hpi
  obtain ⟨c1, _, _, _, c5⟩ := hci
  obtain ⟨hl, hrow⟩ := denseRows_spec terms st.rightSide rs hrs
  have hN : rs.length = st.rows.length := by rw [hl, hlen]
  have htl : ∀ a ∈ E, a.target < rs.length := by
    intro a ha
    obtain ⟨e, he, rc, hrc, rfl⟩ := mem_scheduledOps _ _ a (hperm.subset ha)
    rw [hN]
    exact (p4 e he rc hrc).1
  have hrect : ∀ k, k < rs.length → (rs.getD k []).length = terms.length := by
    intro k hk
    rw [(denseRow_spec _ _ _ _ _ (hrow k hk)).1, List.length_replicate]
  have hdense := densePoly_fixpoint F hm terms hnd E rs hpw hne htl hrect x u
  have hinit : F4.densePoly F terms (rs.getD x []) u
      = (F4.sumAt (st.rightSide.getD x []) u : ZMod F.modn) :=
    densePoly_denseRow F terms _ _ hnd (hrow x (by rw [hN]; exact hx)) u
  have hrp := rowPoly_eq F f4 upper x (st.rows.getD x (0, Term.one n)) (p1 x hx)
    (fun _ => hmonic _ (by
      rw [List.getD_eq_getElem _ _ (c5 x hx)]
      exact List.getElem_mem _)) u
  have hc1 := c1 x u
  simp only [if_pos hx] at hc1
  have hind : ((E.filter (fun op => op.target = x)).map (fun op =>
        (op.factor : ZMod F.modn) *
          (if F4.pivotRow upper op.oper = true ∧ (st.rows.getD op.oper (0, Term.one n)).2 = u
            then 1 else 0))).sum = (F4.poSum st.pivotOps x u : ZMod F.modn) := by
    rw [← scheduledOps_ind_sum F upper st.rows st.pivots x u st.pivotOps
      (fun e he => ⟨(p2 e.1 (p3 e he)).2.1, (p2 e.1 (p3 e he)).2.2⟩)]
    exact ((hperm.filter _).map _).sum_eq
  unfold F4.fullPoly
  simp only [mul_add, List.sum_map_add]
  rw [hind, hdense, hinit, hrp, ← hc1, Nat.cast_add]
  ring

theorem list_sum_apply {ι α : Type} (K : Type) [AddCommMonoid K] (l : List ι)
    (g : ι → α → K) (u : α) : (l.map g).sum u = (l.map (fun i => g i u)).sum := by
  induction l with
  | nil => rfl
  | cons a l ih => simp [ih]

theorem exec_before (E : List F4Operation)
    (hpw : E.Pairwise (fun a b => b.target ≠ a.oper)) (hne : ∀ a ∈ E, a.target ≠ a.oper)
    (i j : Nat) (hi : i < E.length) (hj : j < E.length)
    (h : (E.get ⟨i, hi⟩).target = (E.get ⟨j, hj⟩).oper) : i < j := by
  rw [List.pairwise_iff_getElem] at hpw
  by_contra hij
  rcases Nat.lt_or_ge j i with hlt | hge
  · exact hpw j i hj hi hlt h
  · have : i = j := by omega
    subst this
    exact hne _ (List.get_mem E i hi) h

/-- Every operator row ends as a linear combination of pivot row polynomials,
and every row ends as its row polynomial minus such a combination. -/
theorem fullPoly_span (F : CoeffField) (f4 : F4 n) (upper : Nat) (rows : List (Nat × Term n))
    (terms : List (Term n)) (R : List (List coeffType)) (E : List F4Operation)
    (hpw : E.Pairwise (fun a b => b.target ≠ a.oper)) (hne : ∀ a ∈ E, a.target ≠ a.oper)
    (hoper : ∀ a ∈ E, a.oper < rows.length ∧ F4.pivotRow upper a.oper = true)
    (hstep : ∀ x, x < rows.length → ∀ u,
      F4.fullPoly F upper rows terms R x u
        = F4.rowPoly F f4 (rows.getD x (0, Term.one n)) u
          - ((E.filter (fun op => op.target = x)).map (fun op =>
              (op.factor : ZMod F.modn) * F4.fullPoly F upper rows terms R op.oper u)).sum) :
    ∀ x, x < rows.length →
      (fun u => F4.rowPoly F f4 (rows.getD x (0, Term.one n)) u
          - F4.fullPoly F upper rows terms R x u)
        ∈ Submodule.span (ZMod F.modn)
          {f | ∃ y, y < rows.length ∧ F4.pivotRow upper y = true ∧
            f = F4.rowPoly F f4 (rows.getD y (0, Term.one n))} := by
  -- the combination subtracted from row `x`
  have hsum : ∀ x, x < rows.length →
      (fun u => F4.rowPoly F f4 (rows.getD x (0, Term.one n)) u
          - F4.fullPoly F upper rows terms R x u)
        = ((E.filter (fun op => op.target = x)).map (fun op =>
            (op.factor : ZMod F.modn) • F4.fullPoly F upper rows terms R op.oper)).sum := by
    intro x hx
    funext u
    rw [hstep x hx u, list_sum_apply]
    simp only [Pi.smul_apply, smul_eq_mul]
    ring
  have hop : ∀ j (hj : j < E.length),
      F4.fullPoly F upper rows terms R (E.get ⟨j, hj⟩).oper
        ∈ Submodule.span (ZMod F.modn)
          {f | ∃ y, y < rows.length ∧ F4.pivotRow upper y = true ∧
            f = F4.rowPoly F f4 (rows.getD y (0, Term.one n))} := by
    intro j
    induction j using Nat.strong_induction_on with
    | _ j ih =>
      intro hj
      obtain ⟨ho, hpiv⟩ := hoper _ (List.get_mem E j hj)
      have hrow : F4.rowPoly F f4 (rows.getD (E.get ⟨j, hj⟩).oper (0, Term.one n))
          ∈ Submodule.span (ZMod F.modn)
            {f | ∃ y, y < rows.length ∧ F4.pivotRow upper y = true ∧
              f = F4.rowPoly F f4 (rows.getD y (0, Term.one n))} :=
        Submodule.subset_span ⟨_, ho, hpiv, rfl⟩
      have hdiff := hsum _ ho
      have hmem : ((E.filter (fun op => op.target = (E.get ⟨j, hj⟩).oper)).map (fun op =>
          (op.factor : ZMod F.modn) • F4.fullPoly F upper rows terms R op.oper)).sum
          ∈ Submodule.span (ZMod F.modn)
            {f | ∃ y, y < rows.length ∧ F4.pivotRow upper y = true ∧
              f = F4.rowPoly F f4 (rows.getD y (0, Term.one n))} := by
        refine list_sum_mem ?_
        intro f hf
        rw [List.mem_map] at hf
        obtain ⟨b, hb, rfl⟩ := hf
        rw [List.mem_filter] at hb
        obtain ⟨i, hi, hbi⟩ := List.getElem_of_mem hb.1
        have hlt : i < j := exec_before E hpw hne i j hi hj (by
          have := hb.2
          simp only [decide_eq_true_eq] at this
          rw [List.get_eq_getElem, hbi]
          exact this)
        have := ih i hlt hi
        rw [List.get_eq_getElem, hbi] at this
        exact Submodule.smul_mem _ _ this
      have heq : F4.fullPoly F upper rows terms R (E.get ⟨j, hj⟩).oper
          = F4.rowPoly F f4 (rows.getD (E.get ⟨j, hj⟩).oper (0, Term.one n))
            - (fun u => F4.rowPoly F f4 (rows.getD (E.get ⟨j, hj⟩).oper (0, Term.one n)) u
                - F4.fullPoly F upper rows terms R (E.get ⟨j, hj⟩).oper u) := by
        funext u
        simp
      rw [heq, hdiff]
      exact Submodule.sub_mem _ hrow hmem
  intro x hx
  rw [hsum x hx]
  refine list_sum_mem ?_
  intro f hf
  rw [List.mem_map] at hf
  obtain ⟨b, hb, rfl⟩ := hf
  rw [List.mem_filter] at hb
  obtain ⟨i, hi, hbi⟩ := List.getElem_of_mem hb.1
  have := hop i hi
  rw [List.get_eq_getElem, hbi] at this
  exact Submodule.smul_mem _ _ this


theorem seedLoop_rows_all (cd : Int) (Q : Nat × Term n → Prop) :
    ∀ (l : List (F4Pair n)) (index : Nat) (rows : List (Nat × Term n))
      (pivots : List (Term n × Nat)),
      (∀ p ∈ l, Q (p.i, p.LCM) ∧ Q (p.j, p.LCM)) → (∀ e ∈ rows, Q e) →
      ∀ e ∈ (seedLoop cd l index rows pivots).2.1, Q e := by
  intro l
  induction l with
  | nil => intro index rows pivots _ h; exact h
  | cons p ps ih =>
    intro index rows pivots hp h
    rw [seedLoop]
    split
    · refine ih _ _ _ (fun q hq => hp q (List.mem_cons_of_mem _ hq)) ?_
      intro e he
      rcases List.mem_append.1 he with h1 | h1
      · exact h e h1
      · have hq := hp p (List.mem_cons_self _ _)
        simp only [List.mem_cons, List.mem_singleton, List.not_mem_nil, or_false] at h1
        rcases h1 with rfl | rfl
        · exact hq.1
        · exact hq.2
    · exact h

theorem contentInv_init (O : TOrdering n) (f4 : F4 n) (pairs : F4PairSet n) (sel : Selection n)
    (hpairs : ∀ p ∈ pairs, p.i < f4.groebnerBasis.length ∧ p.j < f4.groebnerBasis.length)
    (h : selection O pairs = .ok sel) :
    F4.ContentInv f4 (fun _ => [])
      { rows := sel.rows, pivots := sel.pivots, pivotOps := [], termsUnordered := [],
        rightSide := [] } := by
  obtain ⟨first, rest, hsort, rfl⟩ := selection_ok O pairs sel h
  have hmem : ∀ p ∈ first :: rest, p ∈ pairs := by
    intro p hp
    rw [← hsort] at hp
    exact (stdSort_perm s pairs).mem_iff.1 hp
  have hrows := seedLoop_rows_all first.sugar (fun e => e.1 < f4.groebnerBasis.length)
    (first :: rest) 0 [] [] (fun p hp => hpairs p (hmem p hp)) (fun e he => by cases he)
  refine ⟨fun x u => ?_, fun x e he => ?_, fun u hu => absurd hu (List.not_mem_nil _),
    List.nodup_nil, fun x hx => ?_⟩
  · simp [F4.sumAt, F4.poSum, F4.monoSum]
  · simp at he
  · simp only at hx ⊢
    rw [List.getD_eq_getElem _ _ hx]
    exact hrows _ (List.getElem_mem _)

theorem setupRows_rows_stable (f4 : F4 n) (upper fuel : Nat) (st r : Prep n)
    (h : F4.setupRows f4 upper fuel 0 st = .ok r) (x : Nat) (hx : x < st.rows.length) :
    x < r.rows.length ∧ r.rows.getD x (0, Term.one n) = st.rows.getD x (0, Term.one n) := by
  obtain ⟨_, hj, _⟩ := setupRows_induct f4 upper
    (fun _ s => x < s.rows.length ∧
      s.rows.getD x (0, Term.one n) = st.rows.getD x (0, Term.one n))
    (fun i s _ hQ => by
      obtain ⟨r1, r2⟩ := setupRow_rows_stable f4 upper i s x hQ.1
      exact ⟨r1, by rw [r2, hQ.2]⟩)
    fuel 0 st r ⟨hx, rfl⟩ h
  exact hj

/-- C17: assume every basis polynomial is monic with its monomials sorted
strictly descending, the ordering is compatible with multiplication, and the
pairs name basis elements whose leading terms divide the pair's lcm.  Then
after `prepare` and `pReduce`: (1) the final table satisfies the recursion
`final(r) = initial(r) - sum over the operations (r, o, c) of c * final(o)`;
(2) every operator row is a pivot row; (3) no column term is a pivot term, and
the dense rows have no other terms; (4) for every odd seed row `r < upper`,
the dense row read as a polynomial over the column terms is the row polynomial
`(lcm / LT(f_k)) * f_k` of the seed row minus a linear combination of the
polynomials of the pivot rows. -/
theorem C17_pReduce_row_polynomial (O : TOrdering n) (hmul : O.Multiplicative)
    (F : CoeffField) (hm : 0 < F.modn) (fuel : Nat) (f4 : F4 n) (pairs : F4PairSet n)
    (pr : F4.Prepared n)
    (hs : ∀ g ∈ f4.groebnerBasis, SortedPoly O g)
    (hmonic : ∀ g ∈ f4.groebnerBasis, Monic g)
    (hpairs : ∀ p ∈ pairs,
      (p.i < f4.groebnerBasis.length ∧ p.j < f4.groebnerBasis.length) ∧
      p.LCM.isDivisibleBy (f4.groebnerBasis.getD p.i default).LT = true ∧
      p.LCM.isDivisibleBy (f4.groebnerBasis.getD p.j default).LT = true)
    (h : F4.prepare O fuel f4 pairs = .ok pr) :
    ∃ sel st, selection O pairs = .ok sel ∧
      F4.setupRows f4 (2 * sel.index) fuel 0
        { rows := sel.rows, pivots := sel.pivots, pivotOps := [], termsUnordered := [],
          rightSide := [] } = .ok st ∧
      pr.upper = 2 * sel.index ∧ pr.rs.length = st.rows.length ∧
      (∀ r, r < pr.upper → r < st.rows.length ∧
        st.rows.getD r (0, Term.one n) = sel.rows.getD r (0, Term.one n)) ∧
      (∀ r c, (F4.entry (F4.pReduce F pr.ops pr.rs) r c : ZMod F.modn)
        = (F4.entry pr.rs r c : ZMod F.modn)
          - ((pr.ops.flatten.filter (fun op => op.target = r)).map (fun op =>
              (op.factor : ZMod F.modn) *
                (F4.entry (F4.pReduce F pr.ops pr.rs) op.oper c : ZMod F.modn))).sum) ∧
      (∀ op ∈ pr.ops.flatten,
        op.oper < st.rows.length ∧ F4.pivotRow pr.upper op.oper = true) ∧
      (∀ u ∈ pr.terms, mapHas st.pivots u = false) ∧
      (∀ r u, u ∉ pr.terms →
        F4.densePoly F pr.terms ((F4.pReduce F pr.ops pr.rs).getD r []) u = 0) ∧
      (∀ r, r < pr.upper → r % 2 = 1 →
        (fun u => F4.rowPoly F f4 (st.rows.getD r (0, Term.one n)) u
            - F4.densePoly F pr.terms ((F4.pReduce F pr.ops pr.rs).getD r []) u)
          ∈ Submodule.span (ZMod F.modn)
            {f | ∃ y, y < st.rows.length ∧ F4.pivotRow pr.upper y = true ∧
              f = F4.rowPoly F f4 (st.rows.getD y (0, Term.one n))}) := by
  obtain ⟨sel, st, rs, ops, hsel, hst, hrs, hops, rfl⟩ := prepare_ok O fuel f4 pairs pr h
  have hpi := prepInv_setupRows O hmul f4 hs (2 * sel.index) (by omega) fuel _ st
    (prepInv_init O f4 pairs sel (fun p hp => (hpairs p hp).2) hsel) hst
  obtain ⟨hci, hlen⟩ := contentInv_setupRows f4 (2 * sel.index) fuel _ st
    (contentInv_init O f4 pairs sel (fun p hp => (hpairs p hp).1) hsel) rfl hst
  obtain ⟨hpw0, hne0⟩ := scheduledOps_order O f4 _ st hpi
  obtain ⟨_, h2, hperm0, _⟩ := schedule_spec _ _ _ ops hpw0 hne0 hops
  obtain ⟨_, hndT, hmemT⟩ := terms_spec O st.termsUnordered
  have hgroups : (setInsertAll (fun a b => TermComparator O true a.1 b.1) st.pivotOps []).Perm
      st.pivotOps := by
    have := setInsertAll_key_perm O (fun e : Term n × List (Nat × coeffType) => e.1)
      st.pivotOps [] (by simpa using hci.2.2.2.1)
    simpa using this
  have hperm : ops.reverse.flatten.Perm (F4.scheduledOps st.pivots st.pivotOps) :=
    (flatten_reverse_perm ops).trans (hperm0.trans (List.Perm.flatMap_right _ hgroups))
  have hpw := pairwise_reverse_flatten ops h2
  have hne : ∀ a ∈ ops.reverse.flatten, a.target ≠ a.oper := by
    intro a ha heq
    rw [List.mem_flatten] at ha
    obtain ⟨l, hl, hx⟩ := ha
    rw [List.mem_reverse] at hl
    obtain ⟨L, _, rfl⟩ := mem_getD_of_mem _ _ hl
    exact lt_irrefl _ (h2 L L _ _ hx hx heq)
  have hoper : ∀ a ∈ ops.reverse.flatten,
      a.oper < st.rows.length ∧ F4.pivotRow (2 * sel.index) a.oper = true := by
    intro a ha
    obtain ⟨e, he, rc, _, rfl⟩ := mem_scheduledOps _ _ a (hperm.subset ha)
    obtain ⟨a1, a2, _⟩ := hpi.2.2.1 e.1 (hpi.2.2.2.1 e he)
    exact ⟨a1, a2⟩
  obtain ⟨hl, hrow⟩ := denseRows_spec _ st.rightSide rs hrs
  have hN : rs.length = st.rows.length := by rw [hl, hlen]
  have htl : ∀ a ∈ ops.reverse.flatten, a.target < rs.length := by
    intro a ha
    obtain ⟨e, he, rc, hrc, rfl⟩ := mem_scheduledOps _ _ a (hperm.subset ha)
    rw [hN]
    exact (hpi.2.2.2.2 e he rc hrc).1
  have hrect : ∀ k, k < rs.length → (rs.getD k []).length
      = (setInsertAll (TermComparator O true) st.termsUnordered []).length := by
    intro k hk
    rw [(denseRow_spec _ _ _ _ _ (hrow k hk)).1, List.length_replicate]
  have hstep := fullPoly_step O F hm f4 (2 * sel.index) st _ rs _ hndT hpi hci hlen hmonic hrs
    hperm hpw hne
  have hspan := fullPoly_span F f4 (2 * sel.index) st.rows _ _ _ hpw hne hoper hstep
  have hflat : ops.reverse.flatten.Perm ops.flatten := flatten_reverse_perm ops
  refine ⟨sel, st, hsel, hst, rfl, hN, fun r hr => ?_, fun r c => ?_, fun op hop => ?_,
    fun u hu => ?_, fun r u hu => ?_, fun r hr hodd => ?_⟩
  · exact setupRows_rows_stable f4 _ fuel _ st hst r
      (by rw [selection_rows_length O pairs sel hsel]; exact hr)
  · simp only
    rw [pReduce_eq_fold, exec_fixpoint F hm _ _ rs hpw hne htl hrect r c]
    congr 1
    exact ((hflat.filter _).map _).sum_eq
  · exact hoper op (hflat.symm.subset hop)
  · exact hci.2.2.1 u ((hmemT u).1 hu)
  · simp only
    rw [densePoly_eq F _ _ u hndT, if_neg hu]
  · simp only
    rw [pReduce_eq_fold]
    have hlt : r < st.rows.length := lt_of_lt_of_le hr hpi.1
    have := hspan r hlt
    have hfull : ∀ u, F4.fullPoly F (2 * sel.index) st.rows
        (setInsertAll (TermComparator O true) st.termsUnordered [])
        (ops.reverse.flatten.foldl (F4.pReduceOp F) rs) r u
        = F4.densePoly F (setInsertAll (TermComparator O true) st.termsUnordered [])
          ((ops.reverse.flatten.foldl (F4.pReduceOp F) rs).getD r []) u := by
      intro u
      unfold F4.fullPoly
      have hr' : r < 2 * sel.index := hr
      have hnp : ¬ (F4.pivotRow (2 * sel.index) r = true) := by
        unfold F4.pivotRow
        simp
        omega
      rw [if_neg (fun hh => hnp hh.1), add_zero]
    simp only [hfull] at this
    exact this

set_option maxRecDepth 100000 in
/-- C17, at the first batch of the cyclic example over the field with 32003
elements. -/
theorem C17_pReduce_row_polynomial_witness :
    (DegRevLexOrdering 3).Multiplicative ∧ 0 < F32003.modn ∧
    (∀ g ∈ [cyclic3, cyclic2, cyclic1], SortedPoly (DegRevLexOrdering 3) g ∧ Monic g) ∧
    ∃ pr, F4.prepare (DegRevLexOrdering 3) 4
        ⟨[cyclic3, cyclic2, cyclic1], [false, false, true], 0⟩ cyclicPairs = .ok pr ∧
      ∃ sel st, selection (DegRevLexOrdering 3) cyclicPairs = .ok sel ∧
        F4.setupRows ⟨[cyclic3, cyclic2, cyclic1], [false, false, true], 0⟩ (2 * sel.index) 4 0
          { rows := sel.rows, pivots := sel.pivots, pivotOps := [], termsUnordered := [],
            rightSide := [] } = .ok st ∧
        pr.upper = 2 * sel.index ∧ pr.rs.length = st.rows.length ∧
        (∀ r, r < pr.upper → r < st.rows.length ∧
          st.rows.getD r (0, Term.one 3) = sel.rows.getD r (0, Term.one 3)) ∧
        (∀ r c, (F4.entry (F4.pReduce F32003 pr.ops pr.rs) r c : ZMod F32003.modn)
          = (F4.entry pr.rs r c : ZMod F32003.modn)
            - ((pr.ops.flatten.filter (fun op => op.target = r)).map (fun op =>
                (op.factor : ZMod F32003.modn) *
                  (F4.entry (F4.pReduce F32003 pr.ops pr.rs) op.oper c
                    : ZMod F32003.modn))).sum) ∧
        (∀ op ∈ pr.ops.flatten,
          op.oper < st.rows.length ∧ F4.pivotRow pr.upper op.oper = true) ∧
        (∀ u ∈ pr.terms, mapHas st.pivots u = false) ∧
        (∀ r u, u ∉ pr.terms →
          F4.densePoly F32003 pr.terms ((F4.pReduce F32003 pr.ops pr.rs).getD r []) u = 0) ∧
        (∀ r, r < pr.upper → r % 2 = 1 →
          (fun u => F4.rowPoly F32003 ⟨[cyclic3, cyclic2, cyclic1], [false, false, true], 0⟩
                (st.rows.getD r (0, Term.one 3)) u
              - F4.densePoly F32003 pr.terms
                  ((F4.pReduce F32003 pr.ops pr.rs).getD r []) u)
            ∈ Submodule.span (ZMod F32003.modn)
              {f | ∃ y, y < st.rows.length ∧ F4.pivotRow pr.upper y = true ∧
                f = F4.rowPoly F32003 ⟨[cyclic3, cyclic2, cyclic1], [false, false, true], 0⟩
                  (st.rows.getD y (0, Term.one 3))}) := by
  have hp : (F4.prepare (DegRevLexOrdering 3) 4
        ⟨[cyclic3, cyclic2, cyclic1], [false, false, true], 0⟩ cyclicPairs).map
        (fun pr => pr.ops) = .ok [[⟨1, 0, 1⟩], [⟨0, 2, 1⟩]] := by decide
  refine ⟨degRevLex_multiplicative 3, by decide, by decide, ?_⟩
  cases hq : F4.prepare (DegRevLexOrdering 3) 4
      ⟨[cyclic3, cyclic2, cyclic1], [false, false, true], 0⟩ cyclicPairs with
  | error e => rw [hq] at hp; cases hp
  | ok pr =>
    exact ⟨pr, rfl, C17_pReduce_row_polynomial (DegRevLexOrdering 3)
      (degRevLex_multiplicative 3) F32003 (by decide) 4
      ⟨[cyclic3, cyclic2, cyclic1], [false, false, true], 0⟩ cyclicPairs pr (by decide)
      (by decide) (by decide) hq⟩


theorem termClosed_union (G : List (Polynomial n)) (S T : Finset (Term n))
    (hS : F4.TermClosed G S) (hT : F4.TermClosed G T) : F4.TermClosed G (S ∪ T) := by
  intro τ hτ g hg hd m hm
  rcases Finset.mem_union.1 hτ with h | h
  · exact Finset.mem_union_left _ (hS τ h g hg hd m hm)
  · exact Finset.mem_union_right _ (hT τ h g hg hd m hm)

theorem termClosed_list (G : List (Polynomial n)) : ∀ (l : List (Term n)),
    (∀ t ∈ l, ∃ S : Finset (Term n), t ∈ S ∧ F4.TermClosed G S) →
    ∃ S : Finset (Term n), (∀ t ∈ l, t ∈ S) ∧ F4.TermClosed G S := by
  intro l
  induction l with
  | nil =>
    intro _
    exact ⟨∅, fun t ht => absurd ht (List.not_mem_nil _),
      fun τ hτ => absurd hτ (Finset.not_mem_empty _)⟩
  | cons a l ih =>
    intro h
    obtain ⟨S1, h1, c1⟩ := h a (List.mem_cons_self _ _)
    obtain ⟨S2, h2, c2⟩ := ih (fun t ht => h t (List.mem_cons_of_mem _ ht))
    refine ⟨S1 ∪ S2, fun t ht => ?_, termClosed_union G S1 S2 c1 c2⟩
    rcases List.mem_cons.1 ht with rfl | ht'
    · exact Finset.mem_union_left _ h1
    · exact Finset.mem_union_right _ (h2 t ht')

/-- Under a well-founded ordering compatible with multiplication and a basis of
sorted polynomials, every term lies in a finite set closed under symbolic
preprocessing. -/
theorem termClosed_exists (O : TOrdering n)
    (hwf : WellFounded (fun a b : Term n => O.lt a b = true)) (hmul : O.Multiplicative)
    (G : List (Polynomial n)) (hs : ∀ g ∈ G, SortedPoly O g) :
    ∀ τ : Term n, ∃ S : Finset (Term n), τ ∈ S ∧ F4.TermClosed G S := by
  intro τ
  induction τ using hwf.induction with
  | _ τ ih =>
    have hsucc : ∀ t ∈ G.flatMap (fun g =>
        if τ.isDivisibleBy g.LT = true then
          g.coeffs.tail.map (fun m => (τ.div g.LT).mul m.2) else []),
        ∃ S : Finset (Term n), t ∈ S ∧ F4.TermClosed G S := by
      intro t ht
      apply ih
      rw [List.mem_flatMap] at ht
      obtain ⟨g, hg, ht⟩ := ht
      split at ht
      · rename_i hd
        rw [List.mem_map] at ht
        obtain ⟨m, hm, rfl⟩ := ht
        have hsg := hs g hg
        unfold SortedPoly at hsg
        cases hc : g.coeffs with
        | nil => rw [hc] at hm; cases hm
        | cons m0 tl =>
          rw [hc] at hm hsg
          have hLT : g.LT = m0.2 := by
            unfold Polynomial.LT
            rw [hc]
          have hlt := (List.pairwise_cons.1 hsg).1 m hm
          have := hmul _ _ (τ.div g.LT) hlt
          rw [← hLT, Term.div_mul_cancel _ _ hd] at this
          exact this
      · cases ht
    obtain ⟨S, hS, hc⟩ := termClosed_list G _ hsucc
    refine ⟨insert τ S, Finset.mem_insert_self _ _, ?_⟩
    intro τ' hτ' g hg hd m hm
    rcases Finset.mem_insert.1 hτ' with rfl | h
    · cases hc' : g.coeffs with
      | nil => rw [hc'] at hm; cases hm
      | cons m0 tl =>
        rw [hc'] at hm
        have hLT : g.LT = m0.2 := by
          unfold Polynomial.LT
          rw [hc']
        rcases List.mem_cons.1 hm with rfl | hm'
        · rw [← hLT, Term.div_mul_cancel _ _ hd]
          exact Finset.mem_insert_self _ _
        · refine Finset.mem_insert_of_mem (hS _ ?_)
          rw [List.mem_flatMap]
          refine ⟨g, hg, ?_⟩
          rw [if_pos hd, hc', List.tail_cons, List.mem_map]
          exact ⟨m, hm', rfl⟩
    · exact Finset.mem_insert_of_mem (hc τ' h g hg hd m hm)


theorem boundInv_setupMonomial (S : Finset (Term n)) (f4 : F4 n) (upper i : Nat)
    (st : Prep n) (m : Monomial n) (t : Term n) (hinv : F4.BoundInv S upper st)
    (hup : upper ≤ st.rows.length) (ht : t ∈ S) :
    F4.BoundInv S upper (F4.setupMonomial f4 i st m t) := by
  obtain ⟨b1, b2, b3⟩ := hinv
  rcases setupMonomial_cases f4 i st m t with ⟨_, e⟩ | ⟨_, _, e⟩ | ⟨_, hp, k, _, e⟩ | ⟨_, _, _, e⟩
  · rw [e]; exact ⟨b1, b2, b3⟩
  · rw [e]; exact ⟨b1, b2, b3⟩
  · rw [e]
    have hdrop : (st.rows ++ [(k, t)]).drop upper = st.rows.drop upper ++ [(k, t)] := by
      rw [List.drop_append_of_le_length hup]
    refine ⟨fun e' he' => ?_, ?_, fun e' he' => ?_⟩
    · rcases List.mem_append.1 he' with h | h
      · exact b1 e' h
      · rw [List.mem_singleton] at h
        rw [h]
        exact ht
    · simp only
      rw [hdrop, List.map_append, List.map_singleton]
      refine List.Nodup.append b2 (List.nodup_singleton _) ?_
      rw [List.disjoint_singleton]
      intro hmem
      rw [List.mem_map] at hmem
      obtain ⟨e', he', heq⟩ := hmem
      have := b3 e' he'
      rw [heq, hp] at this
      cases this
    · simp only at he' ⊢
      rw [hdrop] at he'
      rw [mapHas_mapInsert]
      rcases List.mem_append.1 he' with h | h
      · rw [b3 e' h]
        rfl
      · rw [List.mem_singleton] at h
        rw [h]
        simp
  · rw [e]; exact ⟨b1, b2, b3⟩

theorem getD_mem_of_lt {α : Type} (l : List α) (k : Nat) (d : α) (h : k < l.length) :
    l.getD k d ∈ l := by
  rw [List.getD_eq_getElem _ _ h]
  exact List.getElem_mem _

theorem rowMonomials_closed (S : Finset (Term n)) (f4 : F4 n)
    (hc : F4.TermClosed f4.groebnerBasis S) (upper i : Nat) (row : Nat × Term n)
    (hrow : row.2 ∈ S)
    (hd : row.2.isDivisibleBy (f4.groebnerBasis.getD row.1 default).LT = true)
    (mt : Monomial n × Term n) (h : mt ∈ F4.rowMonomials f4 upper i row) : mt.2 ∈ S := by
  obtain ⟨h1, h2⟩ := rowMonomials_mem f4 upper i row mt h
  rw [h2]
  by_cases hk : row.1 < f4.groebnerBasis.length
  · exact hc row.2 hrow _ (getD_mem_of_lt _ _ _ hk) hd mt.1 h1
  · rw [getD_of_le _ _ _ (Nat.le_of_not_lt hk)] at h1
    cases h1

theorem bound_setupRow (O : TOrdering n) (hmul : O.Multiplicative) (f4 : F4 n)
    (hs : ∀ g ∈ f4.groebnerBasis, SortedPoly O g) (S : Finset (Term n))
    (hc : F4.TermClosed f4.groebnerBasis S) (upper : Nat) (hev : upper % 2 = 0)
    (st : Prep n) (i : Nat) (hi : i < st.rows.length)
    (hinv : F4.PrepInv O f4 upper st ∧ F4.BoundInv S upper st) :
    F4.PrepInv O f4 upper (F4.setupRow f4 upper i st) ∧
      F4.BoundInv S upper (F4.setupRow f4 upper i st) := by
  refine ⟨prepInv_setupRow O hmul f4 hs upper hev st i hinv.1 hi, ?_⟩
  have := setupRow_induct f4 upper i st
    (fun s' => F4.BoundInv S upper s' ∧ upper ≤ s'.rows.length)
    ⟨hinv.2, hinv.1.1⟩
    (fun s' mt hmt hQ => by
      refine ⟨boundInv_setupMonomial S f4 upper i s' mt.1 mt.2 hQ.1 hQ.2 ?_,
        le_trans hQ.2 (setupMonomial_rows_rightSide f4 i s' mt.1 mt.2).1⟩
      exact rowMonomials_closed S f4 hc upper i _
        (hinv.2.1 _ (getD_mem_of_lt _ _ _ hi)) (hinv.1.2.1 i hi) mt hmt)
  exact this.1

theorem boundInv_length (S : Finset (Term n)) (upper : Nat) (st : Prep n)
    (h : F4.BoundInv S upper st) : st.rows.length ≤ upper + S.card := by
  obtain ⟨b1, b2, _⟩ := h
  have hsub : ((st.rows.drop upper).map Prod.snd).toFinset ⊆ S := by
    intro t ht
    rw [List.mem_toFinset, List.mem_map] at ht
    obtain ⟨e, he, rfl⟩ := ht
    exact b1 e (List.mem_of_mem_drop he)
  have := Finset.card_le_card hsub
  rw [List.toFinset_card_of_nodup b2, List.length_map, List.length_drop] at this
  omega

theorem setupRows_total (f4 : F4 n) (upper : Nat) (Q : Prep n → Prop) (B : Nat)
    (hstep : ∀ i st, i < st.rows.length → Q st → Q (F4.setupRow f4 upper i st))
    (hB : ∀ st, Q st → st.rows.length ≤ B) :
    ∀ (fuel i : Nat) (st : Prep n), Q st → B < fuel + i →
      ∃ r, F4.setupRows f4 upper fuel i st = .ok r := by
  intro fuel
  induction fuel with
  | zero =>
    intro i st hQ hlt
    rw [F4.setupRows]
    have := hB st hQ
    rw [if_neg (by omega)]
    exact ⟨st, rfl⟩
  | succ fuel ih =>
    intro i st hQ hlt
    rw [F4.setupRows]
    split
    · rename_i hi
      exact ih (i + 1) _ (hstep i st hi hQ) (by omega)
    · exact ⟨st, rfl⟩

/-- The loop over the growing row list ends: for a well-founded ordering
compatible with multiplication and sorted basis polynomials there is a fuel
with which `setupRows` returns. -/
theorem setupRows_terminates (O : TOrdering n)
    (hwf : WellFounded (fun a b : Term n => O.lt a b = true)) (hmul : O.Multiplicative)
    (f4 : F4 n) (hs : ∀ g ∈ f4.groebnerBasis, SortedPoly O g) (upper : Nat)
    (hev : upper % 2 = 0) (st : Prep n) (hpi : F4.PrepInv O f4 upper st)
    (hlen : st.rows.length ≤ upper) :
    ∃ fuel r, F4.setupRows f4 upper fuel 0 st = .ok r := by
  obtain ⟨S, hS, hc⟩ := termClosed_list f4.groebnerBasis (st.rows.map Prod.snd)
    (fun t _ => termClosed_exists O hwf hmul f4.groebnerBasis hs t)
  have hb0 : F4.BoundInv S upper st := by
    refine ⟨fun e he => hS _ (List.mem_map.2 ⟨e, he, rfl⟩), ?_, ?_⟩
    · rw [List.drop_eq_nil_of_le hlen]
      exact List.nodup_nil
    · rw [List.drop_eq_nil_of_le hlen]
      intro e he
      cases he
  obtain ⟨r, hr⟩ := setupRows_total f4 upper
    (fun s => F4.PrepInv O f4 upper s ∧ F4.BoundInv S upper s) (upper + S.card)
    (fun i s hi hQ => bound_setupRow O hmul f4 hs S hc upper hev s i hi hQ)
    (fun s hQ => boundInv_length S upper s hQ.2) (upper + S.card + 1) 0 st ⟨hpi, hb0⟩
    (by omega)
  exact ⟨_, r, hr⟩


theorem denseRow_ok (O : TOrdering n) : ∀ (cols : List (Term n)) (row : List (Monomial n))
    (k : Nat) (out : List coeffType), cols.Pairwise (fun a b => O.lt b a = true) →
    row.Pairwise (fun a b => O.lt b.2 a.2 = true) → (∀ e ∈ row, e.2 ∈ cols) →
    ∃ r, F4.denseRow row cols k out = .ok r := by
  intro cols
  induction cols with
  | nil =>
    intro row k out _ _ hmem
    cases row with
    | nil => exact ⟨out, rfl⟩
    | cons m ms => exact absurd (hmem m (List.mem_cons_self _ _)) (List.not_mem_nil _)
  | cons c cs ih =>
    intro row k out hcols hrow hmem
    rw [List.pairwise_cons] at hcols
    cases row with
    | nil => exact ⟨out, rfl⟩
    | cons m ms =>
      rw [List.pairwise_cons] at hrow
      rw [F4.denseRow]
      split
      · rename_i hmc
        refine ih ms (k + 1) _ hcols.2 hrow.2 (fun e he => ?_)
        rcases List.mem_cons.1 (hmem e (List.mem_cons_of_mem _ he)) with h | h
        · exfalso
          have := hrow.1 e he
          rw [h, hmc, O.irrefl] at this
          cases this
        · exact h
      · rename_i hmc
        have hm : m.2 ∈ cs := by
          rcases List.mem_cons.1 (hmem m (List.mem_cons_self _ _)) with h | h
          · exact absurd h hmc
          · exact h
        refine ih (m :: ms) (k + 1) out hcols.2 (List.pairwise_cons.2 hrow) (fun e he => ?_)
        rcases List.mem_cons.1 he with rfl | he'
        · exact hm
        · rcases List.mem_cons.1 (hmem e (List.mem_cons_of_mem _ he')) with h | h
          · exfalso
            have h1 := hrow.1 e he'
            have h2 := hcols.1 m.2 hm
            rw [h] at h1
            have := O.trans _ _ _ h1 h2
            rw [O.irrefl] at this
            cases this
          · exact h

theorem mapM_ok_of_forall {α β : Type} (f : α → Except Fault β) : ∀ (l : List α),
    (∀ a ∈ l, ∃ b, f a = .ok b) → ∃ bs, l.mapM f = .ok bs := by
  intro l
  induction l with
  | nil => intro _; exact ⟨[], rfl⟩
  | cons a l ih =>
    intro h
    obtain ⟨b, hb⟩ := h a (List.mem_cons_self _ _)
    obtain ⟨bs, hbs⟩ := ih (fun a' ha' => h a' (List.mem_cons_of_mem _ ha'))
    refine ⟨b :: bs, ?_⟩
    rw [List.mapM_cons, hb]
    simp only [bind, Except.bind, hbs, pure, Except.pure]

theorem foldl_induct_split {α β : Type} (f : β → α → β) (Q : List α → β → Prop)
    (l0 : List α) :
    ∀ (l pre : List α) (b : β), l0 = pre ++ l → Q pre b →
      (∀ pre a rest b, l0 = pre ++ a :: rest → Q pre b → Q (pre ++ [a]) (f b a)) →
      Q l0 (l.foldl f b) := by
  intro l
  induction l with
  | nil =>
    intro pre b h hb _
    rw [h]
    simpa using hb
  | cons a l ih =>
    intro pre b h hb hstep
    exact ih (pre ++ [a]) (f b a) (by rw [h]; simp) (hstep pre a l b h hb) hstep

theorem rowMonomials_sorted (O : TOrdering n) (hmul : O.Multiplicative) (f4 : F4 n)
    (upper i : Nat) (row : Nat × Term n)
    (hs : SortedPoly O (f4.groebnerBasis.getD row.1 default)) :
    (F4.rowMonomials f4 upper i row).Pairwise (fun a b => O.lt b.2 a.2 = true) := by
  unfold F4.rowMonomials
  simp only
  rw [zip_map_self]
  refine List.Pairwise.sublist (List.drop_sublist _ _) ?_
  rw [List.pairwise_map]
  exact List.Pairwise.imp (fun hab => hmul _ _ _ hab) hs

/-- Every sparse row is sorted strictly descending. -/
theorem rightSide_sorted_setupRow (O : TOrdering n) (hmul : O.Multiplicative) (f4 : F4 n)
    (hs : ∀ g ∈ f4.groebnerBasis, SortedPoly O g) (upper i : Nat) (st : Prep n)
    (hi : st.rightSide.length = i)
    (hinv : ∀ x, (st.rightSide.getD x []).Pairwise (fun a b => O.lt b.2 a.2 = true)) :
    (∀ x, ((F4.setupRow f4 upper i st).rightSide.getD x []).Pairwise
        (fun a b => O.lt b.2 a.2 = true)) ∧
      (F4.setupRow f4 upper i st).rightSide.length = i + 1 := by
  rw [setupRow_eq]
  have hsorted := rowMonomials_sorted O hmul f4 upper i (st.rows.getD i (0, Term.one n))
    (sortedPoly_getD O _ hs _)
  have hg : ∀ x, (st.rightSide ++ [[]]).getD x [] = st.rightSide.getD x [] := by
    intro x
    by_cases hx : x < st.rightSide.length
    · exact getD_append_left _ _ _ _ hx
    · rw [getD_of_le st.rightSide _ _ (Nat.le_of_not_lt hx)]
      by_cases hx' : x = st.rightSide.length
      · rw [hx', getD_append_length]
      · rw [getD_of_le _ _ _ (by simp; omega)]
  have := foldl_induct_split (fun st mt => F4.setupMonomial f4 i st mt.1 mt.2)
    (fun pre s => (∀ x, (s.rightSide.getD x []).Pairwise (fun a b => O.lt b.2 a.2 = true)) ∧
      s.rightSide.length = i + 1 ∧
      ∀ e ∈ s.rightSide.getD i [], ∃ mt ∈ pre, mt.2 = e.2)
    (F4.rowMonomials f4 upper i (st.rows.getD i (0, Term.one n)))
    (F4.rowMonomials f4 upper i (st.rows.getD i (0, Term.one n))) []
    { st with rightSide := st.rightSide ++ [[]] } rfl
    ⟨fun x => by simp only; rw [hg x]; exact hinv x, by simp [hi], fun e he => by
      simp only at he
      rw [hg i, getD_of_le _ _ _ (by omega)] at he
      cases he⟩
    (fun pre a rest b hsplit hQ => by
      obtain ⟨q1, q2, q3⟩ := hQ
      have hlt : ∀ mt ∈ pre, O.lt a.2 mt.2 = true := by
        intro mt hmt
        rw [hsplit, List.pairwise_append] at hsorted
        exact hsorted.2.2 mt hmt a (List.mem_cons_self _ _)
      have hset : ∀ x, (b.rightSide.set i (b.rightSide.getD i [] ++ [(a.1.1, a.2)])).getD x []
          = if x = i then b.rightSide.getD i [] ++ [(a.1.1, a.2)]
            else b.rightSide.getD x [] := by
        intro x
        rw [getD_set_gen]
        by_cases hx : x = i
        · rw [if_pos ⟨hx.symm, by omega⟩, if_pos hx]
        · rw [if_neg (fun hh => hx hh.1.symm), if_neg hx]
      have hnew : (∀ x, ((b.rightSide.set i
            (b.rightSide.getD i [] ++ [(a.1.1, a.2)])).getD x []).Pairwise
            (fun a b => O.lt b.2 a.2 = true)) ∧
          ∀ e ∈ (b.rightSide.set i (b.rightSide.getD i [] ++ [(a.1.1, a.2)])).getD i [],
            ∃ mt ∈ pre ++ [a], mt.2 = e.2 := by
        constructor
        · intro x
          rw [hset x]
          split
          · rw [List.pairwise_append]
            refine ⟨q1 i, List.pairwise_singleton _ _, fun e he e' he' => ?_⟩
            rw [List.mem_singleton] at he'
            rw [he']
            obtain ⟨mt, hmt, hmte⟩ := q3 e he
            rw [← hmte]
            exact hlt mt hmt
          · exact q1 x
        · intro e he
          rw [hset i, if_pos rfl] at he
          rcases List.mem_append.1 he with h | h
          · obtain ⟨mt, hmt, hmte⟩ := q3 e h
            exact ⟨mt, List.mem_append_left _ hmt, hmte⟩
          · rw [List.mem_singleton] at h
            exact ⟨a, by simp, by rw [h]⟩
      have hold : ∀ e ∈ b.rightSide.getD i [], ∃ mt ∈ pre ++ [a], mt.2 = e.2 := by
        intro e he
        obtain ⟨mt, hmt, hmte⟩ := q3 e he
        exact ⟨mt, List.mem_append_left _ hmt, hmte⟩
      beta_reduce
      rcases setupMonomial_cases f4 i b a.1 a.2 with ⟨_, e⟩ | ⟨_, _, e⟩ | ⟨_, _, k, _, e⟩ |
        ⟨_, _, _, e⟩
      · rw [e]
        exact ⟨hnew.1, by simp [q2], hnew.2⟩
      · rw [e]
        exact ⟨q1, q2, hold⟩
      · rw [e]
        exact ⟨q1, q2, hold⟩
      · rw [e]
        exact ⟨hnew.1, by simp [q2], hnew.2⟩)
  exact ⟨this.1, this.2.1⟩

theorem rightSide_sorted_setupRows (O : TOrdering n) (hmul : O.Multiplicative) (f4 : F4 n)
    (hs : ∀ g ∈ f4.groebnerBasis, SortedPoly O g) (upper fuel : Nat) (st r : Prep n)
    (h0 : st.rightSide = []) (h : F4.setupRows f4 upper fuel 0 st = .ok r) :
    ∀ x, (r.rightSide.getD x []).Pairwise (fun a b => O.lt b.2 a.2 = true) := by
  obtain ⟨_, hj, _⟩ := setupRows_induct f4 upper
    (fun i s => (∀ x, (s.rightSide.getD x []).Pairwise (fun a b => O.lt b.2 a.2 = true)) ∧
      s.rightSide.length = i)
    (fun i s _ hQ => rightSide_sorted_setupRow O hmul f4 hs upper i s hQ.2 hQ.1)
    fuel 0 st r ⟨fun x => by rw [h0]; simp, by rw [h0]; rfl⟩ h
  exact hj.1


theorem scheduleOp_succeeds (o : Nat) (sc : F4.Sched) (e : Nat × coeffType)
    (h : e.1 < sc.l.length ∧ o < sc.l.length ∧ sc.l.getD e.1 0 < sc.ops.length) :
    ∃ sc', F4.scheduleOp o sc e = .ok sc' := by
  unfold F4.scheduleOp
  simp only
  rw [if_pos h]
  exact ⟨_, rfl⟩

theorem schedInv_fold_ok : ∀ (todo done : List F4Operation) (sc : F4.Sched),
    F4.SchedInv sc done →
    (done ++ todo).Pairwise (fun a b => a.target ≠ b.oper) →
    (∀ a ∈ todo, a.target ≠ a.oper) →
    (∀ a ∈ todo, a.target < sc.l.length ∧ a.oper < sc.l.length) →
    ∃ sc', todo.foldlM (fun sc op => F4.scheduleOp op.oper sc (op.target, op.factor)) sc
      = .ok sc' := by
  intro todo
  induction todo with
  | nil => intro done sc _ _ _ _; exact ⟨sc, rfl⟩
  | cons op todo ih =>
    intro done sc hinv hpw hne hb
    obtain ⟨hbt, hbo⟩ := hb op (List.mem_cons_self _ _)
    obtain ⟨sc1, h1⟩ := scheduleOp_succeeds op.oper sc (op.target, op.factor)
      ⟨hbt, hbo, hinv.2.1 _ hbt⟩
    have hfresh : ∀ a ∈ done, a.target ≠ op.oper := by
      intro a ha
      rw [List.pairwise_append] at hpw
      exact hpw.2.2 a ha op (List.mem_cons_self _ _)
    obtain ⟨k1, k2⟩ := schedInv_step sc sc1 done op hinv hfresh
      (hne op (List.mem_cons_self _ _)) h1
    obtain ⟨sc', h2⟩ := ih (done ++ [op]) sc1 k1 (by simpa using hpw)
      (fun a ha => hne a (List.mem_cons_of_mem _ ha))
      (fun a ha => by rw [k2]; exact hb a (List.mem_cons_of_mem _ ha))
    refine ⟨sc', ?_⟩
    rw [List.foldlM_cons, h1]
    simp only [bind, Except.bind]
    exact h2

theorem schedInv_init (rows : Nat) :
    F4.SchedInv ({ l := List.replicate rows 0, ops := [[]] } : F4.Sched) [] := by
  refine ⟨by simp, fun x hx => ?_, fun L op hm => ?_, fun L => ?_, fun L1 L2 op1 op2 hm => ?_,
    by simp⟩
  · simp only [getD_replicate_zero]
    simp
  · exfalso
    cases L with
    | zero => simp at hm
    | succ L => simp at hm
  · cases L with
    | zero => simp
    | succ L => simp
  · exfalso
    cases L1 with
    | zero => simp at hm
    | succ L => simp at hm

theorem schedule_ok (pivots : List (Term n × Nat))
    (groups : List (Term n × List (Nat × coeffType))) (rows : Nat)
    (hpw : (F4.scheduledOps pivots groups).Pairwise (fun a b => a.target ≠ b.oper))
    (hne : ∀ a ∈ F4.scheduledOps pivots groups, a.target ≠ a.oper)
    (hb : ∀ a ∈ F4.scheduledOps pivots groups, a.target < rows ∧ a.oper < rows) :
    ∃ ops, F4.schedule pivots groups rows = .ok ops := by
  rw [schedule_eq]
  obtain ⟨sc, hsc⟩ := schedInv_fold_ok (F4.scheduledOps pivots groups) []
    ({ l := List.replicate rows 0, ops := [[]] } : F4.Sched) (schedInv_init rows)
    (by simpa using hpw) hne (by simpa using hb)
  rw [hsc]
  exact ⟨_, rfl⟩

theorem selection_of_ne_nil (O : TOrdering n) (pairs : F4PairSet n) (hne : pairs ≠ []) :
    ∃ sel, selection O pairs = .ok sel := by
  unfold selection
  simp only
  cases hs : stdSort s pairs with
  | nil =>
    have := (stdSort_perm s pairs).symm
    rw [hs] at this
    exact absurd this.eq_nil hne
  | cons first rest => exact ⟨_, rfl⟩

/-- The preparation of a batch returns, given enough fuel. -/
theorem prepare_terminates (O : TOrdering n)
    (hwf : WellFounded (fun a b : Term n => O.lt a b = true)) (hmul : O.Multiplicative)
    (f4 : F4 n) (pairs : F4PairSet n) (hs : ∀ g ∈ f4.groebnerBasis, SortedPoly O g)
    (hpairs : ∀ p ∈ pairs,
      (p.i < f4.groebnerBasis.length ∧ p.j < f4.groebnerBasis.length) ∧
      p.LCM.isDivisibleBy (f4.groebnerBasis.getD p.i default).LT = true ∧
      p.LCM.isDivisibleBy (f4.groebnerBasis.getD p.j default).LT = true)
    (hne : pairs ≠ []) :
    ∃ fuel pr, F4.prepare O fuel f4 pairs = .ok pr := by
  obtain ⟨sel, hsel⟩ := selection_of_ne_nil O pairs hne
  have hpi0 := prepInv_init O f4 pairs sel (fun p hp => (hpairs p hp).2) hsel
  obtain ⟨fuel, st, hst⟩ := setupRows_terminates O hwf hmul f4 hs (2 * sel.index) (by omega)
    _ hpi0 (le_of_eq (selection_rows_length O pairs sel hsel))
  have hpi := prepInv_setupRows O hmul f4 hs (2 * sel.index) (by omega) fuel _ st hpi0 hst
  obtain ⟨hci, hlen⟩ := contentInv_setupRows f4 (2 * sel.index) fuel _ st
    (contentInv_init O f4 pairs sel (fun p hp => (hpairs p hp).1) hsel) rfl hst
  have hsorted := rightSide_sorted_setupRows O hmul f4 hs (2 * sel.index) fuel _ st rfl hst
  obtain ⟨hTs, _, hTm⟩ := terms_spec O st.termsUnordered
  obtain ⟨rs, hrs⟩ : ∃ rs, F4.denseRows (setInsertAll (TermComparator O true)
      st.termsUnordered []) st.rightSide = .ok rs := by
    unfold F4.denseRows
    apply mapM_ok_of_forall
    intro row hrow
    obtain ⟨x, hx, rfl⟩ := List.getElem_of_mem hrow
    have hrx : st.rightSide.getD x [] = st.rightSide[x] := List.getD_eq_getElem _ _ hx
    refine denseRow_ok O _ _ 0 _ hTs (hrx ▸ hsorted x) (fun e he => ?_)
    exact (hTm e.2).2 (hci.2.1 x e (hrx ▸ he))
  obtain ⟨hl, _⟩ := denseRows_spec _ st.rightSide rs hrs
  obtain ⟨hpw, hne'⟩ := scheduledOps_order O f4 _ st hpi
  obtain ⟨_, hsub, _⟩ := setInsertAll_key_spec O
    (fun e : Term n × List (Nat × coeffType) => e.1) st.pivotOps [] List.Pairwise.nil
  obtain ⟨ops, hops⟩ := schedule_ok st.pivots
    (setInsertAll (fun a b => TermComparator O true a.1 b.1) st.pivotOps []) rs.length hpw hne'
    (fun a ha => by
      obtain ⟨e, he, rc, hrc, rfl⟩ := mem_scheduledOps _ _ a ha
      have he' : e ∈ st.pivotOps := by
        rcases hsub e he with h | h
        · exact h
        · cases h
      rw [hl, hlen]
      exact ⟨(hpi.2.2.2.2 e he' rc hrc).1, (hpi.2.2.1 e.1 (hpi.2.2.2.1 e he')).1⟩)
  refine ⟨fuel, (⟨2 * sel.index, ops,
    setInsertAll (TermComparator O true) st.termsUnordered [], rs, sel.pairs,
    sel.currentDegree⟩ : F4.Prepared n), ?_⟩
  unfold F4.prepare
  simp only [bind, Except.bind, pure, Except.pure, hsel, hst, hrs, hops]


theorem cover_body (O : TOrdering n) (st : F4 n × F4PairSet n × Nat) (h : Polynomial n)
    (hlen : st.1.groebnerBasis.length = st.1.inGroebnerBasis.length) (hc : Cover st.1) :
    Cover (F4.updatePairsBody O st h).1 := by
  unfold F4.updatePairsBody
  simp only
  have hget : ∀ i, i < st.1.groebnerBasis.length →
      (st.1.groebnerBasis ++ [h]).getD i default = st.1.groebnerBasis.getD i default :=
    fun i hi => getD_append_left _ _ _ _ hi
  have hlast : (st.1.groebnerBasis ++ [h]).getD st.1.groebnerBasis.length default = h :=
    getD_append_length _ _ _
  split
  · -- admitted
    intro i hi
    simp only [List.length_append, List.length_singleton] at hi ⊢
    have hnew : ∃ j, j < st.1.groebnerBasis.length + 1 ∧
        (F4.clearFlags st.1.groebnerBasis h st.1.inGroebnerBasis ++ [true]).getD j false = true ∧
        ((st.1.groebnerBasis ++ [h]).getD j default).LT = h.LT := by
      refine ⟨st.1.groebnerBasis.length, by omega, ?_, by rw [hlast]⟩
      have : st.1.groebnerBasis.length
          = (F4.clearFlags st.1.groebnerBasis h st.1.inGroebnerBasis).length := by
        rw [clearFlags_length, hlen]
      rw [this, getD_append_length]
    by_cases hi' : i < st.1.groebnerBasis.length
    · obtain ⟨j, hj, hfj, hdj⟩ := hc i hi'
      rw [hget i hi']
      by_cases hcl : (st.1.groebnerBasis.getD j default).LT.isDivisibleBy h.LT = true
      · obtain ⟨j', hj', hf', hLT⟩ := hnew
        refine ⟨j', hj', hf', ?_⟩
        rw [hLT]
        exact Term.isDivisibleBy_trans hdj hcl
      · refine ⟨j, by omega, ?_, by rw [hget j hj]; exact hdj⟩
        rw [getD_append_left _ _ _ _ (by rw [clearFlags_length, ← hlen]; exact hj),
          clearFlags_getD, hfj]
        have : (st.1.groebnerBasis.getD j default).LT.isDivisibleBy h.LT = false :=
          Bool.eq_false_of_not_eq_true hcl
        rw [this]
        simp
    · have : i = st.1.groebnerBasis.length := by omega
      subst this
      obtain ⟨j', hj', hf', hLT⟩ := hnew
      refine ⟨j', hj', hf', ?_⟩
      rw [hLT, hlast]
      exact Term.isDivisibleBy_refl _
  · -- excluded
    rename_i hscan
    rw [scanInsertIntoG_eq] at hscan
    simp only [Bool.not_eq_true, Bool.not_eq_false', List.any_eq_true, List.mem_range,
      Bool.and_eq_true] at hscan
    obtain ⟨k, hk, hfk, hdk⟩ := hscan
    intro i hi
    simp only [List.length_append, List.length_singleton] at hi ⊢
    have hflag : ∀ j, j < st.1.groebnerBasis.length →
        (st.1.inGroebnerBasis ++ [false]).getD j false = st.1.inGroebnerBasis.getD j false :=
      fun j hj => getD_append_left _ _ _ _ (by rw [← hlen]; exact hj)
    by_cases hi' : i < st.1.groebnerBasis.length
    · obtain ⟨j, hj, hfj, hdj⟩ := hc i hi'
      refine ⟨j, by omega, by rw [hflag j hj]; exact hfj, ?_⟩
      rw [hget i hi', hget j hj]
      exact hdj
    · have : i = st.1.groebnerBasis.length := by omega
      subst this
      refine ⟨k, by omega, by rw [hflag k hk]; exact hfk, ?_⟩
      rw [hlast, hget k hk]
      exact hdk

theorem cover_fold (O : TOrdering n) : ∀ (polys : List (Polynomial n))
    (st : F4 n × F4PairSet n × Nat),
    st.1.groebnerBasis.length = st.1.inGroebnerBasis.length → Cover st.1 →
    Cover (polys.foldl (F4.updatePairsBody O) st).1 := by
  intro polys
  induction polys with
  | nil => intro st _ hc; exact hc
  | cons h polys ih =>
    intro st hlen hc
    rw [List.foldl_cons]
    refine ih _ ?_ (cover_body O st h hlen hc)
    obtain ⟨h1, _, h3, _⟩ := updatePairsBody_basis O st h
    rw [h1, h3, List.length_append, List.length_singleton, hlen]

theorem cover_updatePairs (O : TOrdering n) (f4 : F4 n) (pairs : F4PairSet n)
    (polys : List (Polynomial n))
    (hlen : f4.groebnerBasis.length = f4.inGroebnerBasis.length) (hc : Cover f4) :
    Cover (F4.updatePairs O f4 pairs polys).1 :=
  cover_fold O polys (f4, pairs, f4.groebnerBasis.length) hlen hc

theorem updatePairs_basis (O : TOrdering n) (f4 : F4 n) (pairs : F4PairSet n)
    (polys : List (Polynomial n)) :
    (F4.updatePairs O f4 pairs polys).1.groebnerBasis = f4.groebnerBasis ++ polys :=
  (updatePairs_fold_basis O polys (f4, pairs, f4.groebnerBasis.length)).1

/-- With covered leading terms, a term without a reducer among the in-basis
elements is not a multiple of any leading term of the basis. -/
theorem cover_not_div (f4 : F4 n) (hc : Cover f4) (t : Term n)
    (h : f4.findReducer t = none) :
    ∀ g ∈ f4.groebnerBasis, t.isDivisibleBy g.LT = false := by
  intro g hg
  obtain ⟨i, hi, rfl⟩ := List.getElem_of_mem hg
  obtain ⟨j, hj, hfj, hdj⟩ := hc i hi
  rw [List.getD_eq_getElem _ _ hi] at hdj
  unfold F4.findReducer at h
  rw [List.find?_eq_none] at h
  have := h j (List.mem_range.2 hj)
  simp only [Bool.and_eq_true, not_and, Bool.not_eq_true] at this
  have hnd := this hfj
  by_contra hcon
  have hd : t.isDivisibleBy (f4.groebnerBasis[i]).LT = true := by
    simpa using hcon
  have := Term.isDivisibleBy_trans hd hdj
  rw [hnd] at this
  cases this


theorem Term.isDivisibleBy_iff_getD (a b : Term n) :
    a.isDivisibleBy b = true ↔ ∀ i : Fin n, b.1.getD i 0 ≤ a.1.getD i 0 := by
  rw [Term.isDivisibleBy_iff, List.forall₂_iff_get]
  constructor
  · rintro ⟨_, h⟩ i
    have ha : (i : Nat) < a.1.length := by rw [a.2]; exact i.2
    have hb : (i : Nat) < b.1.length := by rw [b.2]; exact i.2
    rw [List.getD_eq_getElem _ _ ha, List.getD_eq_getElem _ _ hb]
    exact h i ha hb
  · intro h
    refine ⟨by rw [a.2, b.2], fun i ha hb => ?_⟩
    have := h ⟨i, by rw [← a.2]; exact ha⟩
    simp only at this
    rw [List.getD_eq_getElem _ _ ha, List.getD_eq_getElem _ _ hb] at this
    exact this

/-- The driver cannot make progress for ever: the leading terms generate an
ascending chain of monomial ideals, and the pair set shrinks in between. -/
theorem stepRel_wf : WellFounded (F4.StepRel : F4 n × F4PairSet n → F4 n × F4PairSet n → Prop) := by
  classical
  let toF : Term n → (Fin n →₀ ℕ) := fun t =>
    Finsupp.equivFunOnFinite.symm (fun i : Fin n => t.1.getD i 0)
  let I : List (Polynomial n) → Ideal (MvPolynomial (Fin n) ℚ) := fun G =>
    Ideal.span ((fun a => MvPolynomial.monomial a (1 : ℚ)) '' {a | ∃ g ∈ G, a = toF g.LT})
  have hgrow : ∀ G G', F4.Grows G G' → I G < I G' := by
    intro G G' hg
    obtain ⟨hsub, h, hh, hnd⟩ := hg
    have hle : I G ≤ I G' := by
      apply Ideal.span_mono
      apply Set.image_subset
      rintro a ⟨g, hg, rfl⟩
      exact ⟨g, hsub g hg, rfl⟩
    refine lt_of_le_of_ne hle ?_
    intro heq
    have hin : MvPolynomial.monomial (toF h.LT) (1 : ℚ) ∈ I G' :=
      Ideal.subset_span ⟨toF h.LT, ⟨h, hh, rfl⟩, rfl⟩
    rw [← heq] at hin
    rw [MvPolynomial.mem_ideal_span_monomial_image] at hin
    have hsupp : toF h.LT ∈ (MvPolynomial.monomial (toF h.LT) (1 : ℚ)).support := by
      rw [MvPolynomial.support_monomial]
      simp
    obtain ⟨si, ⟨g, hg, rfl⟩, hle'⟩ := hin _ hsupp
    have hdiv : h.LT.isDivisibleBy g.LT = true := by
      rw [Term.isDivisibleBy_iff_getD]
      intro i
      have := hle' i
      simpa [toF] using this
    rw [hnd g hg] at hdiv
    cases hdiv
  refine Subrelation.wf ?_ (InvImage.wf
    (fun s : F4 n × F4PairSet n => (I s.1.groebnerBasis, s.2.length))
    (WellFounded.prod_lex wellFounded_gt wellFounded_lt))
  intro s' s hrel
  rcases hrel with hg | ⟨heq, hlt⟩
  · exact Prod.Lex.left _ _ (hgrow _ _ hg)
  · show Prod.Lex _ _ (I s'.1.groebnerBasis, s'.2.length) (I s.1.groebnerBasis, s.2.length)
    rw [heq]
    exact Prod.Lex.right _ hlt


theorem noReducer_setupRows (f4 : F4 n) (upper fuel : Nat) (st r : Prep n)
    (h0 : ∀ t ∈ st.termsUnordered, f4.findReducer t = none)
    (h : F4.setupRows f4 upper fuel 0 st = .ok r) :
    ∀ t ∈ r.termsUnordered, f4.findReducer t = none := by
  obtain ⟨_, hj, _⟩ := setupRows_induct f4 upper
    (fun _ s => ∀ t ∈ s.termsUnordered, f4.findReducer t = none)
    (fun i s _ hQ => setupRow_induct f4 upper i s
      (fun s' => ∀ t ∈ s'.termsUnordered, f4.findReducer t = none) hQ
      (fun s' mt _ hQ' => by
        rcases setupMonomial_cases f4 i s' mt.1 mt.2 with ⟨_, e⟩ | ⟨_, _, e⟩ | ⟨_, _, k, _, e⟩ |
          ⟨_, _, hnone, e⟩
        · rw [e]; exact hQ'
        · rw [e]; exact hQ'
        · rw [e]; exact hQ'
        · rw [e]
          intro t ht
          simp only at ht
          rcases List.mem_append.1 ht with h1 | h1
          · exact hQ' t h1
          · rw [List.mem_singleton] at h1
            rw [h1]
            exact hnone))
    fuel 0 st r h0 h
  exact hj

theorem zipWith_max_ge_left : ∀ (a b : List Nat), a.length = b.length →
    List.Forall₂ (fun x y => y ≤ x) (List.zipWith (fun x y => max x y) a b) a
  | [], [], _ => List.Forall₂.nil
  | [], _ :: _, h => by simp at h
  | _ :: _, [], h => by simp at h
  | x :: a, y :: b, h => by
    simp only [List.zipWith_cons_cons]
    exact List.Forall₂.cons (le_max_left _ _) (zipWith_max_ge_left a b (by simpa using h))

theorem zipWith_max_ge_right : ∀ (a b : List Nat), a.length = b.length →
    List.Forall₂ (fun x y => y ≤ x) (List.zipWith (fun x y => max x y) a b) b
  | [], [], _ => List.Forall₂.nil
  | [], _ :: _, h => by simp at h
  | _ :: _, [], h => by simp at h
  | x :: a, y :: b, h => by
    simp only [List.zipWith_cons_cons]
    exact List.Forall₂.cons (le_max_right _ _) (zipWith_max_ge_right a b (by simpa using h))

theorem Term.lcm_div_left (a b : Term n) : (Term.lcm a b).isDivisibleBy a = true :=
  (Term.isDivisibleBy_iff _ _).2 (zipWith_max_ge_left a.1 b.1 (by rw [a.2, b.2]))

theorem Term.lcm_div_right (a b : Term n) : (Term.lcm a b).isDivisibleBy b = true :=
  (Term.isDivisibleBy_iff _ _).2 (zipWith_max_ge_right a.1 b.1 (by rw [a.2, b.2]))

theorem pairOk_div (G : List (Polynomial n)) (p : F4Pair n) (h : PairOk G p) :
    (p.i < G.length ∧ p.j < G.length) ∧
      p.LCM.isDivisibleBy (G.getD p.i default).LT = true ∧
      p.LCM.isDivisibleBy (G.getD p.j default).LT = true := by
  obtain ⟨_, h1, h2, h3⟩ := h
  have hL : p.LCM = Term.lcm (G.getD p.i default).LT (G.getD p.j default).LT := by
    conv_lhs => rw [h3]
    rfl
  refine ⟨⟨by omega, h2⟩, ?_, ?_⟩
  · rw [hL]; exact Term.lcm_div_left _ _
  · rw [hL]; exact Term.lcm_div_right _ _

theorem seedLoop_index_ge (cd : Int) : ∀ (l : List (F4Pair n)) (index : Nat)
    (rows : List (Nat × Term n)) (pivots : List (Term n × Nat)),
    index ≤ (seedLoop cd l index rows pivots).1 := by
  intro l
  induction l with
  | nil => intro index rows pivots; exact le_refl _
  | cons p ps ih =>
    intro index rows pivots
    rw [seedLoop]
    split
    · exact le_trans (Nat.le_succ _) (ih _ _ _)
    · exact le_refl _

theorem setInsertAll_length_le {α : Type} (comp : α → α → Bool) : ∀ (xs s : List α),
    (setInsertAll comp xs s).length ≤ s.length + xs.length := by
  intro xs
  induction xs with
  | nil => intro s; simp [setInsertAll]
  | cons x xs ih =>
    intro s
    have h1 : (setInsert comp x s).1.length ≤ s.length + 1 := by
      unfold setInsert
      split
      · simp
      · simp [List.orderedInsert_length]
    have := ih (setInsert comp x s).1
    simp only [List.length_cons]
    unfold setInsertAll at this ⊢
    rw [List.foldl_cons]
    omega

/-- Selecting a batch removes at least one pair. -/
theorem selection_shrinks (O : TOrdering n) (pairs : F4PairSet n) (sel : Selection n)
    (h : selection O pairs = .ok sel) : sel.pairs.length < pairs.length := by
  obtain ⟨first, rest, hsort, rfl⟩ := selection_ok O pairs sel h
  have hlen : (first :: rest).length = pairs.length := by
    rw [← hsort]
    exact (stdSort_perm s pairs).length_eq
  have hidx : 1 ≤ (seedLoop first.sugar (first :: rest) 0 [] []).1 := by
    rw [seedLoop, if_pos rfl]
    exact seedLoop_index_ge _ _ _ _ _
  have := setInsertAll_length_le (F4PairComparator O)
    ((first :: rest).drop (seedLoop first.sugar (first :: rest) 0 [] []).1) []
  simp only [List.length_drop, List.length_nil, Nat.zero_add, List.length_cons] at this hlen
  show (setInsertAll (F4PairComparator O)
    ((first :: rest).drop (seedLoop first.sugar (first :: rest) 0 [] []).1) []).length
      < pairs.length
  omega


/-- The polynomials `reduce` returns are sorted, have reduced coefficients, and
their leading terms are not multiples of any leading term of the basis. -/
theorem reduce_polys_props (O : TOrdering n) (F : CoeffField) (hp : Nat.Prime F.modn)
    (fuel : Nat) (f4 : F4 n) (pairs : F4PairSet n)
    (r : F4 n × F4PairSet n × List (Polynomial n))
    (hred : ∀ g ∈ f4.groebnerBasis, ∀ m ∈ g.coeffs, m.1 < F.modn) (hc : Cover f4)
    (h : F4.reduce O F fuel f4 pairs = .ok r) :
    ∀ g ∈ r.2.2, SortedPoly O g ∧ (∀ m ∈ g.coeffs, m.1 < F.modn) ∧
      ∀ g' ∈ f4.groebnerBasis, g.LT.isDivisibleBy g'.LT = false := by
  obtain ⟨pr, hpr, _, _, hr3⟩ := reduce_ok O F fuel f4 pairs r h
  obtain ⟨hM, hup, hev, _, hsortT⟩ := prepare_shape O F hp.pos fuel f4 pairs pr hred hpr
  obtain ⟨hM1, hl1⟩ := pReduce_matrixOk F hp.pos _ pr.ops pr.rs hM
  obtain ⟨hM2, hlenG, _, hrr⟩ := gauss_spec F hp _ pr.upper _ (List.replicate pr.upper false)
    hM1 hev (by rw [hl1]; exact hup) (by simp)
  have hterms : ∀ t ∈ pr.terms, f4.findReducer t = none := by
    obtain ⟨sel, st, rs, ops, _, hst, _, _, rfl⟩ := prepare_ok O fuel f4 pairs pr hpr
    intro t ht
    exact noReducer_setupRows f4 _ fuel _ st (fun t ht => absurd ht (List.not_mem_nil _)) hst t
      (((terms_spec O st.termsUnordered).2.2 t).1 ht)
  generalize F4.gauss F (F4.pReduce F pr.ops pr.rs) pr.upper (List.replicate pr.upper false)
    = G at hr3 hM2 hrr hlenG
  intro g hg
  rw [hr3, List.mem_filterMap] at hg
  obtain ⟨i, hi, hgi⟩ := hg
  simp only [List.mem_filter, List.mem_range, beq_iff_eq] at hi
  split at hgi
  · rename_i hflag
    simp only [Option.some.injEq] at hgi
    rw [extractRow_eq] at hgi
    have hfl : G.2.getD i false = false := by simpa using hflag
    obtain ⟨p, hp1, _, _⟩ : ∃ p, F4.entry G.1 i p = 1 ∧ (∀ c, c < p → F4.entry G.1 i c = 0) ∧
        ∀ k, k < pr.upper → k % 2 = 1 → k ≠ i → F4.entry G.1 k p = 0 := by
      rcases hrr i hi.1 hi.2 with ⟨h1, _⟩ | ⟨_, h2⟩
      · rw [hfl] at h1
        cases h1
      · exact h2
    have hiG : i < G.1.length := by
      rw [hlenG, hl1]
      exact lt_of_lt_of_le hi.1 hup
    have hpl : p < pr.terms.length := by
      by_contra hcon
      have := entry_of_le G.1 i p (by rw [hM2.1 i hiG]; exact Nat.le_of_not_lt hcon)
      rw [hp1] at this
      cases this
    have hpmem : p ∈ (List.range pr.terms.length).filter (fun c => F4.entry G.1 i c != 0) := by
      rw [List.mem_filter, List.mem_range]
      exact ⟨hpl, by rw [hp1]; rfl⟩
    subst hgi
    refine ⟨?_, fun m hm => ?_, ?_⟩
    · unfold SortedPoly
      simp only
      rw [List.pairwise_map]
      have hrange : ((List.range pr.terms.length).filter
          (fun c => F4.entry G.1 i c != 0)).Pairwise (fun a b => a < b) :=
        List.Pairwise.sublist (List.filter_sublist _) (List.pairwise_lt_range _)
      refine List.Pairwise.imp_of_mem ?_ hrange
      intro a b ha hb hab
      rw [List.mem_filter, List.mem_range] at ha hb
      simp only
      rw [List.getD_eq_getElem _ _ ha.1, List.getD_eq_getElem _ _ hb.1]
      exact (List.pairwise_iff_getElem.1 hsortT) a b ha.1 hb.1 hab
    · simp only [List.mem_map] at hm
      obtain ⟨c, _, rfl⟩ := hm
      exact hM2.2 i c
    · have hLT : (⟨((List.range pr.terms.length).filter
            (fun c => F4.entry G.1 i c != 0)).map
            (fun c => (F4.entry G.1 i c, pr.terms.getD c (Term.one n))),
            pr.currentDegree⟩ : Polynomial n).LT ∈ pr.terms := by
        unfold Polynomial.LT
        simp only
        cases hL : (List.range pr.terms.length).filter (fun c => F4.entry G.1 i c != 0) with
        | nil => rw [hL] at hpmem; cases hpmem
        | cons c0 tl =>
          have hc0 : c0 ∈ (List.range pr.terms.length).filter
              (fun c => F4.entry G.1 i c != 0) := by rw [hL]; exact List.mem_cons_self _ _
          rw [List.mem_filter, List.mem_range] at hc0
          simp only [List.map_cons]
          exact getD_mem_of_lt _ _ _ hc0.1
      exact cover_not_div f4 hc _ (hterms _ hLT)
  · cases hgi

theorem reduce_terminates (O : TOrdering n)
    (hwf : WellFounded (fun a b : Term n => O.lt a b = true)) (hmul : O.Multiplicative)
    (F : CoeffField) (f4 : F4 n) (pairs : F4PairSet n)
    (hs : ∀ g ∈ f4.groebnerBasis, SortedPoly O g)
    (hpairs : ∀ p ∈ pairs, PairOk f4.groebnerBasis p) (hne : pairs ≠ []) :
    ∃ fuel r, F4.reduce O F fuel f4 pairs = .ok r := by
  obtain ⟨fuel, pr, hpr⟩ := prepare_terminates O hwf hmul f4 pairs hs
    (fun p hp => pairOk_div _ p (hpairs p hp)) hne
  cases hr : F4.reduce O F fuel f4 pairs with
  | ok r => exact ⟨fuel, r, hr⟩
  | error e =>
    unfold F4.reduce at hr
    simp only [bind, Except.bind, pure, Except.pure, hpr] at hr
    cases hr

theorem terms_bounded_finite (n d : Nat) : {a : Term n | a.1.sum ≤ d}.Finite := by
  have hfin : (Set.univ.pi (fun _ : Fin n => Set.Iic d)).Finite :=
    Set.Finite.pi (fun _ => Set.finite_Iic d)
  refine Set.Finite.of_finite_image (f := fun (a : Term n) (i : Fin n) => a.1.getD i 0)
    (hfin.subset ?_) ?_
  · rintro g ⟨a, ha, rfl⟩
    intro i _
    simp only [Set.mem_Iic]
    have hi : (i : Nat) < a.1.length := by rw [a.2]; exact i.2
    rw [List.getD_eq_getElem _ _ hi]
    exact le_trans (List.le_sum_of_mem (List.getElem_mem _)) ha
  · intro a _ b _ hab
    apply Subtype.ext
    apply List.ext_getElem (by rw [a.2, b.2])
    intro i h1 h2
    have := congrFun hab ⟨i, by rw [← a.2]; exact h1⟩
    simp only at this
    rw [List.getD_eq_getElem _ _ h1, List.getD_eq_getElem _ _ h2] at this
    exact this

theorem wf_of_finite_below (O : TOrdering n)
    (hfin : ∀ b : Term n, {a : Term n | O.lt a b = true}.Finite) :
    WellFounded (fun a b : Term n => O.lt a b = true) := by
  refine Subrelation.wf ?_
    (InvImage.wf (fun b : Term n => Set.ncard {a : Term n | O.lt a b = true}) wellFounded_lt)
  intro a b hab
  show Set.ncard {x : Term n | O.lt x a = true} < Set.ncard {x : Term n | O.lt x b = true}
  refine Set.ncard_lt_ncard ?_ (hfin b)
  refine ⟨fun x hx => O.trans _ _ _ hx hab, fun hsub => ?_⟩
  have := hsub (show a ∈ {x : Term n | O.lt x b = true} from hab)
  simp only [Set.mem_setOf_eq] at this
  rw [O.irrefl] at this
  cases this

/-- The degree-reverse-lexicographic ordering is well-founded. -/
theorem degRevLex_wf (n : Nat) :
    WellFounded (fun a b : Term n => (DegRevLexOrdering n).lt a b = true) := by
  apply wf_of_finite_below
  intro b
  refine (terms_bounded_finite n b.1.sum).subset ?_
  intro a ha
  have h : degRevLexLt a b = true := ha
  unfold degRevLexLt at h
  simp only [Bool.or_eq_true, Bool.and_eq_true, decide_eq_true_eq] at h
  simp only [Set.mem_setOf_eq]
  rcases h with h | ⟨h, _⟩
  · exact le_of_lt h
  · exact le_of_eq h


/-- One turn of the driver loop keeps the state well-formed and makes
progress. -/
theorem driver_step (O : TOrdering n) (F : CoeffField) (hp : Nat.Prime F.modn) (fuel : Nat)
    (s : F4 n × F4PairSet n) (r : F4 n × F4PairSet n × List (Polynomial n))
    (hok : F4.StateOk O F s) (hr : F4.reduce O F fuel s.1 s.2 = .ok r) :
    F4.StateOk O F
        (if !r.2.2.isEmpty then F4.updatePairs O r.1 r.2.1 r.2.2 else (r.1, r.2.1)) ∧
      F4.StepRel
        (if !r.2.2.isEmpty then F4.updatePairs O r.1 r.2.1 r.2.2 else (r.1, r.2.1)) s := by
  obtain ⟨hinv, hsort, hcoef, hcov⟩ := hok
  obtain ⟨pr, hpr, hr1, hr2, _⟩ := reduce_ok O F fuel s.1 s.2 r hr
  obtain ⟨sel, _, _, _, hsel, _, _, _, hpreq⟩ := prepare_ok O fuel s.1 s.2 pr hpr
  have hpairs : r.2.1 = sel.pairs := by rw [hr2, hpreq]
  have hcd : pr.currentDegree = sel.currentDegree := by rw [hpreq]
  have hstep : F4.step O s F4.Action.select = (r.1, r.2.1) := by
    unfold F4.step
    simp only [hsel]
    rw [hr1, hpairs, hcd]
  have hinv' : Inv (r.1, r.2.1) := by
    rw [← hstep]
    exact inv_step O s F4.Action.select hinv
  have hG : r.1.groebnerBasis = s.1.groebnerBasis := by rw [hr1]
  have hfl : r.1.inGroebnerBasis = s.1.inGroebnerBasis := by rw [hr1]
  have hcov' : Cover r.1 := by
    unfold Cover
    rw [hG, hfl]
    exact hcov
  have hprops := reduce_polys_props O F hp fuel s.1 s.2 r hcoef hcov hr
  by_cases he : r.2.2.isEmpty = true
  · have hif : (if (!r.2.2.isEmpty) = true then F4.updatePairs O r.1 r.2.1 r.2.2
        else (r.1, r.2.1)) = (r.1, r.2.1) := by
      rw [he]
      rfl
    rw [hif]
    refine ⟨⟨hinv', by simp only; rw [hG]; exact hsort, by simp only; rw [hG]; exact hcoef,
      hcov'⟩, Or.inr ⟨hG, ?_⟩⟩
    simp only
    rw [hpairs]
    exact selection_shrinks O s.2 sel hsel
  · have he' : r.2.2.isEmpty = false := Bool.eq_false_of_not_eq_true he
    have hif : (if (!r.2.2.isEmpty) = true then F4.updatePairs O r.1 r.2.1 r.2.2
        else (r.1, r.2.1)) = F4.updatePairs O r.1 r.2.1 r.2.2 := by
      rw [he']
      rfl
    rw [hif]
    have hbasis := updatePairs_basis O r.1 r.2.1 r.2.2
    rw [hG] at hbasis
    refine ⟨⟨inv_updatePairs O r.1 r.2.1 r.2.2 hinv', ?_, ?_,
      cover_updatePairs O r.1 r.2.1 r.2.2 hinv'.1 hcov'⟩, Or.inl ⟨?_, ?_⟩⟩
    · intro g hg
      rw [hbasis] at hg
      rcases List.mem_append.1 hg with h | h
      · exact hsort g h
      · exact (hprops g h).1
    · intro g hg
      rw [hbasis] at hg
      rcases List.mem_append.1 hg with h | h
      · exact hcoef g h
      · exact (hprops g h).2.1
    · intro g hg
      rw [hbasis]
      exact List.mem_append_left _ hg
    · obtain ⟨h, tl, hpolys⟩ : ∃ h tl, r.2.2 = h :: tl := by
        cases hq : r.2.2 with
        | nil => rw [hq] at he'; simp at he'
        | cons h tl => exact ⟨h, tl, rfl⟩
      refine ⟨h, ?_, (hprops h (by rw [hpolys]; exact List.mem_cons_self _ _)).2.2⟩
      rw [hbasis, hpolys]
      exact List.mem_append_right _ (List.mem_cons_self _ _)

/-- The driver loop returns, given a newline for every batch and enough
fuel. -/
theorem mainLoop_terminates (O : TOrdering n)
    (hwf : WellFounded (fun a b : Term n => O.lt a b = true)) (hmul : O.Multiplicative)
    (F : CoeffField) (hp : Nat.Prime F.modn) :
    ∀ s : F4 n × F4PairSet n, F4.StateOk O F s →
      ∃ N fuel s', F4.mainLoop O F fuel s (List.replicate N 10) = .ok s' := by
  intro s
  induction s using stepRel_wf.induction with
  | _ s ih =>
    intro hok
    by_cases he : s.2.isEmpty = true
    · exact ⟨0, 0, s, mainLoop_of_isEmpty O F 0 s _ he⟩
    · have hne : s.2 ≠ [] := by
        intro h
        rw [h] at he
        exact he rfl
      obtain ⟨f1, r, hr⟩ := reduce_terminates O hwf hmul F s.1 s.2 hok.2.1 hok.1.2.2.1 hne
      obtain ⟨hok', hrel⟩ := driver_step O F hp f1 s r hok hr
      obtain ⟨N, f2, s', h2⟩ := ih _ hrel hok'
      refine ⟨N + 1, f1 + f2 + 1, s', ?_⟩
      have hb : F4.BREAKPOINT (f1 + f2 + 1) (List.replicate (N + 1) 10)
          = .ok (List.replicate N 10) := by
        rw [F4.BREAKPOINT, List.replicate_succ]
        have hc : ¬ (F4.getchar (10 :: List.replicate N 10)).1 ≠ 10 := by
          simp only [F4.getchar]
          decide
        rw [if_neg hc]
        rfl
      rw [mainLoop_step O F (f1 + f2) s _ _ r he hb
        (reduce_mono_of_le O F _ _ r _ _ (by omega) hr)]
      exact mainLoop_mono_of_le O F _ _ _ _ _ (by omega) h2

theorem sortedPoly_normalize (O : TOrdering n) (F : CoeffField) (g : Polynomial n)
    (h : SortedPoly O g) : SortedPoly O (g.normalize F) := by
  unfold Polynomial.normalize
  split
  · exact h
  · split
    · exact h
    · unfold SortedPoly at h ⊢
      simp only
      rw [List.pairwise_map]
      exact h

theorem coeffs_normalize (F : CoeffField) (hm : 0 < F.modn) (g : Polynomial n)
    (h : ∀ m ∈ g.coeffs, m.1 < F.modn) : ∀ m ∈ (g.normalize F).coeffs, m.1 < F.modn := by
  unfold Polynomial.normalize
  split
  · exact h
  · split
    · exact h
    · intro m hm'
      simp only [List.mem_map] at hm'
      obtain ⟨c, _, rfl⟩ := hm'
      exact mul_lt F hm _ _

theorem stateOk_init (O : TOrdering n) (F : CoeffField) (hm : 0 < F.modn)
    (generators : List (Polynomial n)) (hsorted : ∀ g ∈ generators, SortedPoly O g)
    (hcoef : ∀ g ∈ generators, ∀ m ∈ g.coeffs, m.1 < F.modn) :
    F4.StateOk O F (F4.updatePairs O (F4.empty n) []
      ((stdSort (PolynomialComparator O true) generators).map (Polynomial.normalize F))) := by
  have hinv0 : Inv ((F4.empty n, []) : F4 n × F4PairSet n) := inv_run O []
  have hbasis := updatePairs_basis O (F4.empty n) []
    ((stdSort (PolynomialComparator O true) generators).map (Polynomial.normalize F))
  have hmem : ∀ g ∈ (stdSort (PolynomialComparator O true) generators).map
      (Polynomial.normalize F), ∃ g0 ∈ generators, g = g0.normalize F := by
    intro g hg
    rw [List.mem_map] at hg
    obtain ⟨g0, hg0, rfl⟩ := hg
    exact ⟨g0, (stdSort_perm _ generators).mem_iff.1 hg0, rfl⟩
  refine ⟨inv_updatePairs O _ _ _ hinv0, fun g hg => ?_, fun g hg => ?_,
    cover_updatePairs O _ _ _ rfl (fun i hi => absurd hi (Nat.not_lt_zero _))⟩
  · rw [hbasis] at hg
    simp only [F4.empty, List.nil_append] at hg
    obtain ⟨g0, hg0, rfl⟩ := hmem g hg
    exact sortedPoly_normalize O F g0 (hsorted g0 hg0)
  · rw [hbasis] at hg
    simp only [F4.empty, List.nil_append] at hg
    obtain ⟨g0, hg0, rfl⟩ := hmem g hg
    exact coeffs_normalize F hm g0 (hcoef g0 hg0)


theorem mainLoop_ok_empty (O : TOrdering n) (F : CoeffField) : ∀ (fuel : Nat)
    (s s' : F4 n × F4PairSet n) (stdin : List Nat),
    F4.mainLoop O F fuel s stdin = .ok s' → s'.2 = [] := by
  intro fuel
  induction fuel with
  | zero =>
    intro s s' stdin h
    by_cases he : s.2.isEmpty = true
    · rw [mainLoop_of_isEmpty O F _ s stdin he] at h
      have hst := Except.ok.inj h
      subst hst
      exact List.isEmpty_iff.1 he
    · rw [F4.mainLoop, if_neg he] at h
      cases h
  | succ fuel ih =>
    intro s s' stdin h
    by_cases he : s.2.isEmpty = true
    · rw [mainLoop_of_isEmpty O F _ s stdin he] at h
      have hst := Except.ok.inj h
      subst hst
      exact List.isEmpty_iff.1 he
    · obtain ⟨f, rest, r, hf, _, _, hm⟩ := mainLoop_step_inv O F _ s s' stdin he h
      have hf' : f = fuel := Nat.succ.inj hf.symm
      subst hf'
      exact ih _ _ _ hm

set_option maxRecDepth 100000 in
/-- C16 (as stated) fails: on the cyclic example the driver loop does not
return when the standard input is at its end or holds no newline, whatever the
step budget: the pair set is not empty and the first turn of the loop waits for
a newline (`BREAKPOINT`, line 383). -/
theorem C16_counterexample :
    (F4.updatePairs (DegRevLexOrdering 3) (F4.empty 3) []
        ((stdSort (PolynomialComparator (DegRevLexOrdering 3) true)
          [cyclic1, cyclic2, cyclic3]).map (Polynomial.normalize F32003))).2 ≠ [] ∧
    (∀ fuel : Nat,
      F4.mainLoop (DegRevLexOrdering 3) F32003 fuel
        (F4.updatePairs (DegRevLexOrdering 3) (F4.empty 3) []
          ((stdSort (PolynomialComparator (DegRevLexOrdering 3) true)
            [cyclic1, cyclic2, cyclic3]).map (Polynomial.normalize F32003))) []
        = .error .outOfFuel) ∧
    ∀ fuel : Nat,
      F4.mainLoop (DegRevLexOrdering 3) F32003 fuel
        (F4.updatePairs (DegRevLexOrdering 3) (F4.empty 3) []
          ((stdSort (PolynomialComparator (DegRevLexOrdering 3) true)
            [cyclic1, cyclic2, cyclic3]).map (Polynomial.normalize F32003))) [120, 121]
        = .error .outOfFuel :=
  ⟨by decide, fun fuel => mainLoop_no_newline _ _ fuel _ [] (by decide) rfl,
    fun fuel => mainLoop_no_newline _ _ fuel _ [120, 121] (by decide) (by decide)⟩

/-- C16 (amended): over a prime field and under a well-founded term ordering
compatible with multiplication, for every finite list of generators (sorted
polynomials with reduced coefficients): the preparation of every batch returns
(for a sorted basis and a non-empty set of well-formed pairs there is a step
budget with which `prepare`, and with it the loop over the growing row list,
ends); and there is a number `B` of batches and a final state with an empty
pair set such that the driver loop returns that state, given enough steps,
whenever the standard input holds at least `B` newlines, the driver then
returning the same result for every larger budget, and such that the driver
loop does not return when the standard input holds fewer than `B` newlines. -/
theorem C16_driver_terminates (O : TOrdering n)
    (hwf : WellFounded (fun a b : Term n => O.lt a b = true)) (hmul : O.Multiplicative)
    (F : CoeffField) (hp : Nat.Prime F.modn) (generators : List (Polynomial n))
    (hsorted : ∀ g ∈ generators, SortedPoly O g)
    (hcoef : ∀ g ∈ generators, ∀ m ∈ g.coeffs, m.1 < F.modn) :
    (∀ (f4 : F4 n) (pairs : F4PairSet n), (∀ g ∈ f4.groebnerBasis, SortedPoly O g) →
      (∀ p ∈ pairs, PairOk f4.groebnerBasis p) → pairs ≠ [] →
      ∃ fuel pr, F4.prepare O fuel f4 pairs = .ok pr) ∧
    ∃ B st, st.2 = [] ∧
      (∀ stdin : List Nat, B ≤ stdin.count 10 →
        ∃ fuel,
          F4.mainLoop O F fuel (F4.updatePairs O (F4.empty n) []
            ((stdSort (PolynomialComparator O true) generators).map (Polynomial.normalize F)))
            stdin = .ok st ∧
          ∀ k, F4.compute O F (fuel + k) generators stdin = .ok (F4.result st.1)) ∧
      (∀ stdin : List Nat, stdin.count 10 < B →
        ∀ fuel,
          (∀ st2, F4.mainLoop O F fuel (F4.updatePairs O (F4.empty n) []
            ((stdSort (PolynomialComparator O true) generators).map (Polynomial.normalize F)))
            stdin ≠ .ok st2) ∧
          ∀ res, F4.compute O F fuel generators stdin ≠ .ok res) := by
  refine ⟨fun f4 pairs hs hpairs hne => prepare_terminates O hwf hmul f4 pairs hs
    (fun p hq => pairOk_div _ p (hpairs p hq)) hne, ?_⟩
  obtain ⟨N, fuel, st, hst⟩ := mainLoop_terminates O hwf hmul F hp _
    (stateOk_init O F hp.pos generators hsorted hcoef)
  obtain ⟨B, _, hpos, hneg⟩ := mainLoop_count O F fuel _ st _ hst
  refine ⟨B, st, mainLoop_ok_empty O F fuel _ st _ hst, fun stdin h => ?_,
    fun stdin h fuel2 => ⟨fun st2 => hneg stdin h fuel2 st2, fun res hc => ?_⟩⟩
  · exact ⟨fuel + stdin.length, hpos stdin h, fun k =>
      compute_eq O F _ generators stdin st (mainLoop_mono_le O F _ st stdin k _ (hpos stdin h))⟩
  · obtain ⟨st2, hm2, _⟩ := compute_ok O F fuel2 generators res stdin hc
    exact hneg stdin h fuel2 st2 hm2

set_option maxRecDepth 100000 in
/-- C16 (amended), for the cyclic example with three indeterminates over the
field with 32003 elements and the degree-reverse-lexicographic ordering. -/
theorem C16_driver_terminates_witness :
    WellFounded (fun a b : Term 3 => (DegRevLexOrdering 3).lt a b = true) ∧
    (DegRevLexOrdering 3).Multiplicative ∧ Nat.Prime F32003.modn ∧
    (∀ g ∈ [cyclic1, cyclic2, cyclic3], SortedPoly (DegRevLexOrdering 3) g) ∧
    (∀ g ∈ [cyclic1, cyclic2, cyclic3], ∀ m ∈ g.coeffs, m.1 < F32003.modn) ∧
    ∃ B st, st.2 = [] ∧
      (∀ stdin : List Nat, B ≤ stdin.count 10 →
        ∃ fuel,
          F4.mainLoop (DegRevLexOrdering 3) F32003 fuel
            (F4.updatePairs (DegRevLexOrdering 3) (F4.empty 3) []
              ((stdSort (PolynomialComparator (DegRevLexOrdering 3) true)
                [cyclic1, cyclic2, cyclic3]).map (Polynomial.normalize F32003)))
            stdin = .ok st ∧
          ∀ k, F4.compute (DegRevLexOrdering 3) F32003 (fuel + k) [cyclic1, cyclic2, cyclic3]
            stdin = .ok (F4.result st.1)) ∧
      (∀ stdin : List Nat, stdin.count 10 < B →
        ∀ fuel,
          (∀ st2, F4.mainLoop (DegRevLexOrdering 3) F32003 fuel
            (F4.updatePairs (DegRevLexOrdering 3) (F4.empty 3) []
              ((stdSort (PolynomialComparator (DegRevLexOrdering 3) true)
                [cyclic1, cyclic2, cyclic3]).map (Polynomial.normalize F32003)))
            stdin ≠ .ok st2) ∧
          ∀ res, F4.compute (DegRevLexOrdering 3) F32003 fuel [cyclic1, cyclic2, cyclic3]
            stdin ≠ .ok res) :=
  ⟨degRevLex_wf 3, degRevLex_multiplicative 3, by show Nat.Prime 32003; norm_num,
    by decide, by decide,
    (C16_driver_terminates (DegRevLexOrdering 3) (degRevLex_wf 3) (degRevLex_multiplicative 3)
      F32003 (by show Nat.Prime 32003; norm_num) [cyclic1, cyclic2, cyclic3] (by decide)
      (by decide)).2⟩

theorem gaussUpdate_getD_ne (F : CoeffField) (upper i p : Nat) (M : List (List coeffType))
    (j k : Nat) (hk : k ≠ (i + j) % upper) :
    (F4.gaussUpdate F upper i p M j).getD k [] = M.getD k [] := by
  unfold F4.gaussUpdate
  simp only
  split
  · rw [getD_set_gen, if_neg (fun h => hk h.1.symm)]
  · rfl

theorem gaussUpdate_fold_getD_ne (F : CoeffField) (upper i p k : Nat) :
    ∀ (js : List Nat) (M : List (List coeffType)), (∀ j ∈ js, k ≠ (i + j) % upper) →
      (js.foldl (F4.gaussUpdate F upper i p) M).getD k [] = M.getD k [] := by
  intro js
  induction js with
  | nil => intro M _; rfl
  | cons j js ih =>
    intro M h
    rw [List.foldl_cons, ih _ (fun j' hj' => h j' (List.mem_cons_of_mem _ hj')),
      gaussUpdate_getD_ne F upper i p M j k (h j (List.mem_cons_self _ _))]

theorem gaussTargets_count (upper i k : Nat) (hev : upper % 2 = 0) (hodd : i % 2 = 1)
    (hi : i < upper) :
    (F4.gaussTargets upper i).count k = if k < upper ∧ k % 2 = 1 ∧ k ≠ i then 1 else 0 := by
  have hnd : (F4.gaussTargets upper i).Nodup := gaussIndices_nodup i upper hi
  have hmem : k ∈ F4.gaussTargets upper i ↔ k < upper ∧ k % 2 = 1 ∧ k ≠ i := by
    rw [← gaussIndices_cover i upper k hi hodd hev]
    unfold F4.gaussTargets
    rw [List.mem_map]
  by_cases hk : k < upper ∧ k % 2 = 1 ∧ k ≠ i
  · rw [if_pos hk]
    exact List.count_eq_one_of_mem hnd (hmem.2 hk)
  · rw [if_neg hk]
    exact List.count_eq_zero_of_not_mem (fun h => hk (hmem.1 h))

/-- C22: in `gauss`, for an even `upper` and an odd `i < upper`, the index
`k = (i + j) % upper` of the update loop (`j = 2, 4, ..., upper - 2`) takes every
odd value below `upper` other than `i` exactly once and takes no other value;
two different values of `j` give two different rows `k`; and the update loop
leaves row `i`, every even row and every row from `upper` on as they were. -/
theorem C22_gauss_stride (upper i : Nat) (hev : upper % 2 = 0) (hodd : i % 2 = 1)
    (hi : i < upper) :
    (∀ k, (F4.gaussTargets upper i).count k
      = if k < upper ∧ k % 2 = 1 ∧ k ≠ i then 1 else 0) ∧
    (∀ j j', 2 ≤ j → j < upper → 2 ≤ j' → j' < upper →
      (i + j) % upper = (i + j') % upper → j = j') ∧
    ∀ (F : CoeffField) (p : Nat) (matrix : List (List coeffType)) (k : Nat),
      k = i ∨ k % 2 = 0 ∨ upper ≤ k →
      (((List.range upper).filter (fun j => 2 ≤ j && j % 2 == 0)).foldl
        (F4.gaussUpdate F upper i p) matrix).getD k [] = matrix.getD k [] := by
  refine ⟨fun k => gaussTargets_count upper i k hev hodd hi,
    fun j j' _ hj _ hj' h => gaussIndices_inj i j j' upper hi hj hj' h, ?_⟩
  intro F p matrix k hk
  apply gaussUpdate_fold_getD_ne
  intro j hj heq
  have hc := (gaussIndices_cover i upper k hi hodd hev).1 ⟨j, hj, heq.symm⟩
  omega

/-- C22, at `upper = 6` and `i = 3`: the loop visits the rows 5 and 1, each
once, and not row 3. -/
theorem C22_gauss_stride_witness :
    6 % 2 = 0 ∧ 3 % 2 = 1 ∧ 3 < 6 ∧ F4.gaussTargets 6 3 = [5, 1] ∧
      (F4.gaussTargets 6 3).count 5 = 1 ∧ (F4.gaussTargets 6 3).count 1 = 1 ∧
      (F4.gaussTargets 6 3).count 3 = 0 :=
  ⟨by decide, by decide, by decide, by decide,
    (C22_gauss_stride 6 3 (by decide) (by decide) (by decide)).1 5,
    (C22_gauss_stride 6 3 (by decide) (by decide) (by decide)).1 1,
    (C22_gauss_stride 6 3 (by decide) (by decide) (by decide)).1 3⟩

/-- C25: starting from an empty basis, after any sequence of `updatePairs`
calls (and batch selections in between) the basis vector and the flag vector
have the same length, and for any two distinct indices that are both flagged
in-basis the leading term of the one does not divide the leading term of the
other; in particular the two leading terms differ. -/
theorem C25_in_basis_antichain (O : TOrdering n) (acts : List (F4.Action n)) :
    (F4.run O acts).1.groebnerBasis.length = (F4.run O acts).1.inGroebnerBasis.length ∧
    ∀ i j, i ≠ j → (F4.run O acts).1.inGroebnerBasis.getD i false = true →
      (F4.run O acts).1.inGroebnerBasis.getD j false = true →
      ((F4.run O acts).1.groebnerBasis.getD j default).LT.isDivisibleBy
          ((F4.run O acts).1.groebnerBasis.getD i default).LT = false ∧
        ((F4.run O acts).1.groebnerBasis.getD i default).LT
          ≠ ((F4.run O acts).1.groebnerBasis.getD j default).LT := by
  obtain ⟨hlen, _, _, hanti⟩ := inv_run O acts
  refine ⟨hlen, fun i j hij hi hj => ⟨hanti i j hij hi hj, fun heq => ?_⟩⟩
  have h := hanti i j hij hi hj
  rw [heq, Term.isDivisibleBy_refl] at h
  cases h


theorem mapHas_iff_mem {α β : Type} [DecidableEq α] (m : List (α × β)) (k : α) :
    mapHas m k = true ↔ k ∈ m.map Prod.fst := by
  unfold mapHas
  simp only [List.any_eq_true, beq_iff_eq, List.mem_map]

theorem mapInsert_of_not_has {α β : Type} [DecidableEq α] (m : List (α × β)) (k : α) (v : β)
    (h : mapHas m k = false) : mapInsert m k v = m ++ [(k, v)] := by
  unfold mapInsert
  unfold mapHas at h
  rw [h]
  simp

theorem mapInsert_of_has {α β : Type} [DecidableEq α] (m : List (α × β)) (k : α) (v : β)
    (h : mapHas m k = true) : mapInsert m k v = m := by
  unfold mapInsert
  unfold mapHas at h
  rw [h]
  simp

theorem mapGet_of_mem {α β : Type} [DecidableEq α] : ∀ (m : List (α × β)) (k : α) (v d : β),
    (m.map Prod.fst).Nodup → (k, v) ∈ m → mapGet m k d = v := by
  intro m
  induction m with
  | nil => intro k v d _ h; cases h
  | cons e m ih =>
    intro k v d hnd h
    rw [List.map_cons, List.nodup_cons] at hnd
    unfold mapGet
    rw [List.find?_cons]
    by_cases hk : e.1 = k
    · have : (e.1 == k) = true := by simpa using hk
      rw [this]
      rcases List.mem_cons.1 h with h' | h'
      · rw [← h']
      · exfalso
        apply hnd.1
        rw [hk]
        exact List.mem_map.2 ⟨(k, v), h', rfl⟩
    · have : (e.1 == k) = false := by simpa using hk
      rw [this]
      rcases List.mem_cons.1 h with h' | h'
      · exfalso
        apply hk
        rw [← h']
      · have := ih k v d hnd.2 h'
        unfold mapGet at this
        exact this

theorem mem_of_mapHas {α β : Type} [DecidableEq α] (m : List (α × β)) (k : α) (d : β)
    (hnd : (m.map Prod.fst).Nodup) (h : mapHas m k = true) : (k, mapGet m k d) ∈ m := by
  rw [mapHas_iff_mem, List.mem_map] at h
  obtain ⟨⟨k', v⟩, he, rfl⟩ := h
  rw [mapGet_of_mem m k' v d hnd he]
  exact he

theorem getD_append_nil_mem {α : Type} (ls : List (List α)) (x : Nat) (e : α)
    (h : e ∈ (ls ++ [[]]).getD x []) : e ∈ ls.getD x [] := by
  by_cases hx : x < ls.length
  · rw [getD_append_left _ _ _ _ hx] at h
    exact h
  · by_cases hx' : x = ls.length
    · rw [hx', getD_append_length] at h
      cases h
    · rw [getD_of_le _ _ _ (by simp; omega)] at h
      cases h

theorem getD_set_append_mem {α : Type} (ls : List (List α)) (i x : Nat) (a e : α)
    (h : e ∈ (ls.set i (ls.getD i [] ++ [a])).getD x []) : e ∈ ls.getD x [] ∨ e = a := by
  rw [getD_set_gen] at h
  split at h
  · rename_i hc
    rcases List.mem_append.1 h with h' | h'
    · left
      rw [← hc.1]
      exact h'
    · right
      simpa using h'
  · exact Or.inl h

theorem pivotInv_setupMonomial (f4 : F4 n) (upper : Nat) (pivots0 : List (Term n × Nat))
    (i : Nat) (st : Prep n) (m : Monomial n) (t : Term n)
    (hinv : F4.PivotInv f4 upper pivots0 st) (hi : i < st.rows.length) :
    F4.PivotInv f4 upper pivots0 (F4.setupMonomial f4 i st m t) := by
  obtain ⟨p0, p1, ⟨extra, p2, p2'⟩, p3, p4, p5, p6, p7, p8⟩ := hinv
  rcases setupMonomial_cases f4 i st m t with ⟨ht, e⟩ | ⟨ht, hp, e⟩ | ⟨ht, hp, k, hk, e⟩ |
    ⟨ht, hp, hnone, e⟩
  · rw [e]
    refine ⟨p0, p1, ⟨extra, p2, p2'⟩, p3, p4, p5, p6, p7, ?_⟩
    intro x e' he'
    rcases getD_set_append_mem _ _ _ _ _ he' with h | h
    · exact p8 x e' h
    · rw [h]
      exact ht
  · rw [e]
    refine ⟨p0, p1, ⟨extra, p2, p2'⟩, p3, p4, ?_, mapPush_nodup _ _ _ p6, p7, p8⟩
    intro e' he'
    rcases mem_mapPush _ _ _ _ he' with ⟨h1, _⟩ | ⟨h1, h2⟩
    · exact p5 e' h1
    · refine ⟨by rw [h1]; exact hp, ?_⟩
      rcases h2 with ⟨l, hl, h3⟩ | ⟨_, h3⟩
      · intro rc hrc
        rw [h3] at hrc
        rcases List.mem_append.1 hrc with h4 | h4
        · exact (p5 _ hl).2 rc h4
        · rw [List.mem_singleton] at h4
          rw [h4]
          exact hi
      · intro rc hrc
        rw [h3, List.mem_singleton] at hrc
        rw [hrc]
        exact hi
  · rw [e]
    have hins : mapInsert st.pivots t st.rows.length = st.pivots ++ [(t, st.rows.length)] :=
      mapInsert_of_not_has _ _ _ hp
    obtain ⟨hk1, hk2, hk3⟩ := findReducer_some f4 t k hk
    have hnk : t ∉ st.pivots.map Prod.fst := by
      intro h
      rw [← mapHas_iff_mem, hp] at h
      cases h
    refine ⟨?_, ?_, ⟨extra ++ [(t, st.rows.length)], ?_, ?_⟩, ?_, ?_, ?_,
      mapPush_nodup _ _ _ p6, ?_, p8⟩
    · show upper ≤ (st.rows ++ [(k, t)]).length
      rw [List.length_append]
      exact Nat.le_add_right_of_le p0
    · show ((mapInsert st.pivots t st.rows.length).map Prod.fst).Nodup
      rw [hins, List.map_append, List.nodup_append]
      refine ⟨p1, by simp, ?_⟩
      intro a ha hb
      simp only [List.map_cons, List.map_nil, List.mem_singleton] at hb
      rw [hb] at ha
      exact hnk ha
    · show mapInsert st.pivots t st.rows.length = pivots0 ++ (extra ++ [(t, st.rows.length)])
      rw [hins, p2, List.append_assoc]
    · intro e' he'
      rcases List.mem_append.1 he' with h | h
      · exact p2' e' h
      · rw [List.mem_singleton] at h
        rw [h]
        exact p0
    · show ∀ e' ∈ mapInsert st.pivots t st.rows.length,
        e'.2 < (st.rows ++ [(k, t)]).length ∧
          ((st.rows ++ [(k, t)]).getD e'.2 (0, Term.one n)).2 = e'.1
      rw [hins]
      intro e' he'
      rw [List.length_append]
      rcases List.mem_append.1 he' with h | h
      · obtain ⟨h1, h2⟩ := p3 e' h
        refine ⟨Nat.lt_add_right _ h1, ?_⟩
        rw [getD_append_left _ _ _ _ h1]
        exact h2
      · rw [List.mem_singleton] at h
        rw [h]
        refine ⟨by simp, ?_⟩
        show ((st.rows ++ [(k, t)]).getD st.rows.length (0, Term.one n)).2 = t
        rw [getD_append_length]
    · show ∀ x, upper ≤ x → x < (st.rows ++ [(k, t)]).length →
        ((st.rows ++ [(k, t)]).getD x (0, Term.one n)).1 < f4.groebnerBasis.length ∧
        f4.inGroebnerBasis.getD ((st.rows ++ [(k, t)]).getD x (0, Term.one n)).1 false = true ∧
        ((st.rows ++ [(k, t)]).getD x (0, Term.one n)).2.isDivisibleBy
          (f4.groebnerBasis.getD ((st.rows ++ [(k, t)]).getD x (0, Term.one n)).1 default).LT
            = true ∧
        (((st.rows ++ [(k, t)]).getD x (0, Term.one n)).2, x)
          ∈ mapInsert st.pivots t st.rows.length
      rw [hins]
      intro x hx1 hx2
      rw [List.length_append, List.length_singleton] at hx2
      by_cases hx : x < st.rows.length
      · rw [getD_append_left _ _ _ _ hx]
        obtain ⟨h1, h2, h3, h4⟩ := p4 x hx1 hx
        exact ⟨h1, h2, h3, List.mem_append_left _ h4⟩
      · have hx' : x = st.rows.length := by omega
        rw [hx', getD_append_length]
        exact ⟨hk1, hk2, hk3, List.mem_append_right _ (List.mem_singleton.2 rfl)⟩
    · show ∀ e' ∈ mapPush st.pivotOps t (i, m.1),
        mapHas (mapInsert st.pivots t st.rows.length) e'.1 = true ∧
          ∀ rc ∈ e'.2, rc.1 < (st.rows ++ [(k, t)]).length
      intro e' he'
      rw [List.length_append, List.length_singleton, mapHas_mapInsert]
      rcases mem_mapPush _ _ _ _ he' with ⟨h1, _⟩ | ⟨h1, h2⟩
      · obtain ⟨q1, q2⟩ := p5 e' h1
        exact ⟨by rw [q1]; rfl, fun rc hrc => Nat.lt_succ_of_lt (q2 rc hrc)⟩
      · refine ⟨by rw [h1]; simp, ?_⟩
        rcases h2 with ⟨l, hl, h3⟩ | ⟨_, h3⟩
        · intro rc hrc
          rw [h3] at hrc
          rcases List.mem_append.1 hrc with h4 | h4
          · exact Nat.lt_succ_of_lt ((p5 _ hl).2 rc h4)
          · rw [List.mem_singleton] at h4
            rw [h4]
            exact Nat.lt_succ_of_lt hi
        · intro rc hrc
          rw [h3, List.mem_singleton] at hrc
          rw [hrc]
          exact Nat.lt_succ_of_lt hi
    · show ∀ u ∈ st.termsUnordered,
        mapHas (mapInsert st.pivots t st.rows.length) u = false ∧ f4.findReducer u = none
      intro u hu
      rw [mapHas_mapInsert, (p7 u hu).1]
      refine ⟨?_, (p7 u hu).2⟩
      have : t ≠ u := fun h => ht (h ▸ hu)
      simp [this]
  · rw [e]
    refine ⟨p0, p1, ⟨extra, p2, p2'⟩, p3, p4, p5, p6, ?_, ?_⟩
    · intro u hu
      rcases List.mem_append.1 hu with h | h
      · exact p7 u h
      · rw [List.mem_singleton] at h
        rw [h]
        exact ⟨hp, hnone⟩
    · intro x e' he'
      rcases getD_set_append_mem _ _ _ _ _ he' with h | h
      · exact List.mem_append_left _ (p8 x e' h)
      · rw [h]
        exact List.mem_append_right _ (List.mem_singleton.2 rfl)

theorem pivotInv_setupRows (f4 : F4 n) (upper : Nat) (pivots0 : List (Term n × Nat))
    (fuel : Nat) (st r : Prep n) (hinv : F4.PivotInv f4 upper pivots0 st)
    (h0 : st.rightSide = []) (h : F4.setupRows f4 upper fuel 0 st = .ok r) :
    F4.PivotInv f4 upper pivots0 r ∧ r.rightSide.length = r.rows.length := by
  obtain ⟨j, ⟨h1, h2, h3⟩, h5⟩ := setupRows_induct f4 upper
    (fun i s => F4.PivotInv f4 upper pivots0 s ∧ s.rightSide.length = i ∧ i ≤ s.rows.length)
    (fun i s hi hQ => by
      refine setupRow_induct f4 upper i s
        (fun s' => F4.PivotInv f4 upper pivots0 s' ∧ s'.rightSide.length = i + 1 ∧
          i + 1 ≤ s'.rows.length) ⟨?_, by simp [hQ.2.1], hi⟩ ?_
      · obtain ⟨p0, p1, p2, p3, p4, p5, p6, p7, p8⟩ := hQ.1
        exact ⟨p0, p1, p2, p3, p4, p5, p6, p7,
          fun x e he => p8 x e (getD_append_nil_mem _ _ _ he)⟩
      · intro s' mt hmt hQ'
        obtain ⟨k1, k2, _⟩ := setupMonomial_rows_rightSide f4 i s' mt.1 mt.2
        exact ⟨pivotInv_setupMonomial f4 upper pivots0 i s' mt.1 mt.2 hQ'.1
          (by have := hQ'.2.2; omega), by rw [k2]; exact hQ'.2.1, le_trans hQ'.2.2 k1⟩)
    fuel 0 st r ⟨hinv, by simp [h0], Nat.zero_le _⟩ h
  exact ⟨h1, by omega⟩


theorem seedLoop_pivots (cd : Int) : ∀ (l : List (F4Pair n)) (index : Nat)
    (rows : List (Nat × Term n)) (pivots : List (Term n × Nat)),
    rows.length = 2 * index → (pivots.map Prod.fst).Nodup →
    (∀ e ∈ pivots, e.2 < rows.length ∧ e.2 % 2 = 0 ∧
      (rows.getD e.2 (0, Term.one n)).2 = e.1) →
    (∀ e ∈ rows, mapHas pivots e.2 = true) →
    ((seedLoop cd l index rows pivots).2.2.map Prod.fst).Nodup ∧
    (∀ e ∈ (seedLoop cd l index rows pivots).2.2,
      e.2 < (seedLoop cd l index rows pivots).2.1.length ∧ e.2 % 2 = 0 ∧
        ((seedLoop cd l index rows pivots).2.1.getD e.2 (0, Term.one n)).2 = e.1) ∧
    (∀ e ∈ (seedLoop cd l index rows pivots).2.1,
      mapHas (seedLoop cd l index rows pivots).2.2 e.2 = true) := by
  intro l
  induction l with
  | nil => intro index rows pivots _ h1 h2 h3; exact ⟨h1, h2, h3⟩
  | cons p ps ih =>
    intro index rows pivots hlen h1 h2 h3
    rw [seedLoop]
    split
    · apply ih
      · simp only [List.length_append, List.length_cons, List.length_nil]
        omega
      · by_cases hp : mapHas pivots p.LCM = true
        · rw [mapInsert_of_has _ _ _ hp]
          exact h1
        · have hp' : mapHas pivots p.LCM = false := by simpa using hp
          rw [mapInsert_of_not_has _ _ _ hp', List.map_append, List.nodup_append]
          refine ⟨h1, by simp, ?_⟩
          intro a ha hb
          simp only [List.map_cons, List.map_nil, List.mem_singleton] at hb
          rw [hb, ← mapHas_iff_mem] at ha
          exact hp ha
      · intro e he
        have hold : ∀ e ∈ pivots,
            e.2 < (rows ++ [(p.i, p.LCM), (p.j, p.LCM)]).length ∧ e.2 % 2 = 0 ∧
              ((rows ++ [(p.i, p.LCM), (p.j, p.LCM)]).getD e.2 (0, Term.one n)).2 = e.1 := by
          intro e he
          obtain ⟨a, b, c⟩ := h2 e he
          refine ⟨by rw [List.length_append]; omega, b, ?_⟩
          rw [List.getD_append _ _ _ _ a]
          exact c
        by_cases hp : mapHas pivots p.LCM = true
        · rw [mapInsert_of_has _ _ _ hp] at he
          exact hold e he
        · have hp' : mapHas pivots p.LCM = false := by simpa using hp
          rw [mapInsert_of_not_has _ _ _ hp'] at he
          rcases List.mem_append.1 he with h | h
          · exact hold e h
          · rw [List.mem_singleton] at h
            rw [h]
            refine ⟨by simp only [List.length_append, List.length_cons, List.length_nil]; omega,
              by simp, ?_⟩
            show ((rows ++ [(p.i, p.LCM), (p.j, p.LCM)]).getD (2 * index) (0, Term.one n)).2
              = p.LCM
            rw [← hlen, List.getD_append_right _ _ _ _ (le_refl _)]
            simp
      · intro e he
        rw [mapHas_mapInsert]
        rcases List.mem_append.1 he with h | h
        · rw [h3 e h]
          rfl
        · simp only [List.mem_cons, List.mem_singleton, List.not_mem_nil, or_false] at h
          rcases h with h | h <;> rw [h] <;> simp
    · exact ⟨h1, h2, h3⟩

theorem pivotInv_init (O : TOrdering n) (f4 : F4 n) (pairs : F4PairSet n) (sel : Selection n)
    (h : selection O pairs = .ok sel) :
    F4.PivotInv f4 (2 * sel.index) sel.pivots
      { rows := sel.rows, pivots := sel.pivots, pivotOps := [], termsUnordered := [],
        rightSide := [] } ∧
    (∀ e ∈ sel.pivots, e.2 < 2 * sel.index ∧ e.2 % 2 = 0) ∧
    (∀ e ∈ sel.rows, mapHas sel.pivots e.2 = true) := by
  have hlen := selection_rows_length O pairs sel h
  obtain ⟨first, rest, hsort, rfl⟩ := selection_ok O pairs sel h
  obtain ⟨k1, k2, k3⟩ := seedLoop_pivots first.sugar (first :: rest) 0 [] [] rfl
    (by simp) (fun e he => absurd he (List.not_mem_nil _))
    (fun e he => absurd he (List.not_mem_nil _))
  simp only at hlen
  refine ⟨⟨le_of_eq hlen.symm, k1, ⟨[], by simp, fun e he => absurd he (List.not_mem_nil _)⟩,
    fun e he => ⟨(k2 e he).1, (k2 e he).2.2⟩, ?_, fun e he => absurd he (List.not_mem_nil _),
    List.nodup_nil, fun e he => absurd he (List.not_mem_nil _), ?_⟩,
    fun e he => ⟨lt_of_lt_of_eq (k2 e he).1 hlen, (k2 e he).2.1⟩, k3⟩
  · intro x hx1 hx2
    exact absurd hx1 (not_le.2 (lt_of_lt_of_eq hx2 hlen))
  · intro x e he
    simp at he


theorem findReducer_none (f4 : F4 n) (t : Term n) (h : f4.findReducer t = none) (k : Nat)
    (hk : k < f4.groebnerBasis.length) (hf : f4.inGroebnerBasis.getD k false = true) :
    t.isDivisibleBy (f4.groebnerBasis.getD k default).LT = false := by
  unfold F4.findReducer at h
  rw [List.find?_eq_none] at h
  have := h k (List.mem_range.2 hk)
  simp only [Bool.and_eq_true, not_and, Bool.not_eq_true] at this
  exact this hf

theorem extractRow_terms (cd : Int) (terms : List (Term n)) (row : List coeffType)
    (m : Monomial n) (h : m ∈ (F4.extractRow cd terms row).coeffs) : m.2 ∈ terms := by
  unfold F4.extractRow at h
  simp only [List.mem_filterMap, List.mem_range] at h
  obtain ⟨j, hj, hm⟩ := h
  split at hm
  · simp only [Option.some.injEq] at hm
    rw [← hm]
    exact getD_mem_of_lt _ _ _ hj
  · cases hm

theorem reduce_terms (O : TOrdering n) (F : CoeffField) (fuel : Nat) (f4 : F4 n)
    (pairs : F4PairSet n) (pr : F4.Prepared n) (r : F4 n × F4PairSet n × List (Polynomial n))
    (hpr : F4.prepare O fuel f4 pairs = .ok pr) (h : F4.reduce O F fuel f4 pairs = .ok r) :
    ∀ g ∈ r.2.2, ∀ m ∈ g.coeffs, m.2 ∈ pr.terms := by
  obtain ⟨pr', hpr', _, _, hr3⟩ := reduce_ok O F fuel f4 pairs r h
  rw [hpr] at hpr'
  simp only [Except.ok.injEq] at hpr'
  subst hpr'
  intro g hg m hm
  rw [hr3, List.mem_filterMap] at hg
  obtain ⟨i, _, hgi⟩ := hg
  split at hgi
  · simp only [Option.some.injEq] at hgi
    rw [← hgi] at hm
    exact extractRow_terms _ _ _ m hm
  · cases hgi

theorem prepare_pivotInv (O : TOrdering n) (fuel : Nat) (f4 : F4 n) (pairs : F4PairSet n)
    (sel : Selection n) (st : Prep n) (hsel : selection O pairs = .ok sel)
    (hst : F4.setupRows f4 (2 * sel.index) fuel 0
      { rows := sel.rows, pivots := sel.pivots, pivotOps := [], termsUnordered := [],
        rightSide := [] } = .ok st) :
    F4.PivotInv f4 (2 * sel.index) sel.pivots st ∧ st.rightSide.length = st.rows.length :=
  pivotInv_setupRows f4 _ _ fuel _ st (pivotInv_init O f4 pairs sel hsel).1 rfl hst

theorem LT_mem_coeffs (g : Polynomial n) (h : g.coeffs ≠ []) :
    ∃ m ∈ g.coeffs, m.2 = g.LT := by
  unfold Polynomial.LT
  cases hc : g.coeffs with
  | nil => exact absurd hc h
  | cons m ms => exact ⟨m, List.mem_cons_self _ _, rfl⟩

/-- C24: when `prepare` returns, no column term of its dense matrix is a
multiple of the leading term of an element flagged in-basis; no column term is
a pivot term (a key of `pivots` at the end of symbolic preprocessing); and
every term of every polynomial `reduce` returns is a column term, so it is not
a multiple of such a leading term either, in particular not the leading term
of a returned polynomial that has one. -/
theorem C24_columns_irreducible (O : TOrdering n) (fuel : Nat) (f4 : F4 n)
    (pairs : F4PairSet n) (pr : F4.Prepared n) (h : F4.prepare O fuel f4 pairs = .ok pr) :
    (∀ t ∈ pr.terms, ∀ k, k < f4.groebnerBasis.length →
      f4.inGroebnerBasis.getD k false = true →
      t.isDivisibleBy (f4.groebnerBasis.getD k default).LT = false) ∧
    (∃ sel st, selection O pairs = .ok sel ∧
      F4.setupRows f4 (2 * sel.index) fuel 0
        { rows := sel.rows, pivots := sel.pivots, pivotOps := [], termsUnordered := [],
          rightSide := [] } = .ok st ∧
      ∀ t ∈ pr.terms, t ∉ st.pivots.map Prod.fst) ∧
    ∀ (F : CoeffField) (r : F4 n × F4PairSet n × List (Polynomial n)),
      F4.reduce O F fuel f4 pairs = .ok r →
      ∀ g ∈ r.2.2, ∀ k, k < f4.groebnerBasis.length →
        f4.inGroebnerBasis.getD k false = true →
        (∀ m ∈ g.coeffs, m.2 ∈ pr.terms ∧
          m.2.isDivisibleBy (f4.groebnerBasis.getD k default).LT = false) ∧
        (g.coeffs ≠ [] → g.LT.isDivisibleBy (f4.groebnerBasis.getD k default).LT = false) := by
  obtain ⟨sel, st, rs, ops, hsel, hst, _, _, hpr⟩ := prepare_ok O fuel f4 pairs pr h
  obtain ⟨⟨_, _, _, _, _, _, _, p7, _⟩, _⟩ := prepare_pivotInv O fuel f4 pairs sel st hsel hst
  have hterms : ∀ t ∈ pr.terms, t ∈ st.termsUnordered := by
    intro t ht
    rw [hpr] at ht
    exact ((terms_spec O st.termsUnordered).2.2 t).1 ht
  have hdiv : ∀ t ∈ pr.terms, ∀ k, k < f4.groebnerBasis.length →
      f4.inGroebnerBasis.getD k false = true →
      t.isDivisibleBy (f4.groebnerBasis.getD k default).LT = false :=
    fun t ht k hk hf => findReducer_none f4 t (p7 t (hterms t ht)).2 k hk hf
  refine ⟨hdiv, ⟨sel, st, hsel, hst, fun t ht hmem => ?_⟩, ?_⟩
  · rw [← mapHas_iff_mem, (p7 t (hterms t ht)).1] at hmem
    cases hmem
  · intro F r hr g hg k hk hf
    have hm := reduce_terms O F fuel f4 pairs pr r h hr g hg
    refine ⟨fun m hmm => ⟨hm m hmm, hdiv _ (hm m hmm) k hk hf⟩, fun hne => ?_⟩
    obtain ⟨m, hmm, hlt⟩ := LT_mem_coeffs g hne
    rw [← hlt]
    exact hdiv _ (hm m hmm) k hk hf


theorem rowPolynomial_sorted (O : TOrdering n) (hmul : O.Multiplicative) (f4 : F4 n)
    (hs : ∀ g ∈ f4.groebnerBasis, SortedPoly O g) (row : Nat × Term n) :
    SortedPoly O (F4.rowPolynomial f4 row) := by
  have h := sortedPoly_getD O f4.groebnerBasis hs row.1
  unfold SortedPoly at h ⊢
  unfold F4.rowPolynomial
  simp only
  rw [List.pairwise_map]
  exact List.Pairwise.imp (fun hab => hmul _ _ _ hab) h

theorem rowPolynomial_LT (f4 : F4 n) (row : Nat × Term n)
    (hd : row.2.isDivisibleBy (f4.groebnerBasis.getD row.1 default).LT = true)
    (hne : (f4.groebnerBasis.getD row.1 default).coeffs ≠ []) :
    (F4.rowPolynomial f4 row).LT = row.2 := by
  have hc := Term.div_mul_cancel _ _ hd
  unfold F4.rowPolynomial
  generalize f4.groebnerBasis.getD row.1 default = g at hd hne hc ⊢
  unfold Polynomial.LT at hc ⊢
  cases hg : g.coeffs with
  | nil => exact absurd hg hne
  | cons m ms =>
    rw [hg] at hc
    simp only [List.map_cons]
    exact hc

theorem selection_rows_ok (O : TOrdering n) (f4 : F4 n) (pairs : F4PairSet n)
    (sel : Selection n) (hpairs : ∀ p ∈ pairs, PairOk f4.groebnerBasis p)
    (h : selection O pairs = .ok sel) :
    ∀ e ∈ sel.rows, e.1 < f4.groebnerBasis.length ∧
      e.2.isDivisibleBy (f4.groebnerBasis.getD e.1 default).LT = true := by
  obtain ⟨first, rest, hsort, rfl⟩ := selection_ok O pairs sel h
  have hmem : ∀ p ∈ first :: rest, p ∈ pairs := by
    intro p hp
    rw [← hsort] at hp
    exact (stdSort_perm s pairs).mem_iff.1 hp
  exact seedLoop_rows_all first.sugar
    (fun e => e.1 < f4.groebnerBasis.length ∧
      e.2.isDivisibleBy (f4.groebnerBasis.getD e.1 default).LT = true)
    (first :: rest) 0 [] []
    (fun p hp => by
      obtain ⟨⟨a, b⟩, c, d⟩ := pairOk_div _ p (hpairs p (hmem p hp))
      exact ⟨⟨a, c⟩, ⟨b, d⟩⟩)
    (fun e he => absurd he (List.not_mem_nil _))

theorem selection_seeded (O : TOrdering n) (pairs : F4PairSet n) (sel : Selection n)
    (h : selection O pairs = .ok sel) (p : F4Pair n) (hp : p ∈ pairs)
    (hsug : p.sugar = sel.currentDegree) : (p.i, p.LCM) ∈ sel.rows := by
  obtain ⟨first, rest, hsort, rfl⟩ := selection_ok O pairs sel h
  have hsorted := stdSort_s_sorted pairs
  rw [hsort] at hsorted
  have hge : ∀ q ∈ first :: rest, first.sugar ≤ q.sugar := by
    intro q hq
    rcases List.mem_cons.1 hq with e | hq'
    · rw [e]
    · exact (List.sorted_cons.1 hsorted).1 q hq'
  obtain ⟨k, _, _, h2, h3, _⟩ :=
    seedLoop_spec first.sugar (first :: rest) 0 [] [] hsorted hge
  have hp' : p ∈ first :: rest := by
    rw [← hsort]
    exact (stdSort_perm s pairs).mem_iff.2 hp
  have hpk : p ∈ (first :: rest).take k := by
    rw [h3, List.mem_filter]
    exact ⟨hp', by simpa using hsug⟩
  show (p.i, p.LCM) ∈ (seedLoop first.sugar (first :: rest) 0 [] []).2.1
  rw [h2, List.nil_append, List.mem_flatMap]
  exact ⟨p, hpk, List.mem_cons_self _ _⟩

/-- C21: at the end of symbolic preprocessing (basis polynomials sorted
strictly descending, ordering compatible with multiplication, pairs as
`updatePairs` builds them), `pivots` has exactly one entry per pivot term; the
entry of a term `t` names an existing row `(k, t)` with `k` a basis index and
`LT(f_k)` dividing `t`; the row polynomial `(t / LT(f_k)) * f_k` is sorted
strictly descending and, when `f_k` is not zero, has leading term `t`; a
registered row below `upper` is even; the lcm of every pair of the selected
batch is registered with an even row below `upper`; and every row from `upper`
on was appended with an element flagged in-basis and is the registered row of
its term. -/
theorem C21_pivot_rows (O : TOrdering n) (hmul : O.Multiplicative) (fuel : Nat) (f4 : F4 n)
    (pairs : F4PairSet n) (sel : Selection n) (st : Prep n)
    (hs : ∀ g ∈ f4.groebnerBasis, SortedPoly O g)
    (hpairs : ∀ p ∈ pairs, PairOk f4.groebnerBasis p)
    (hsel : selection O pairs = .ok sel)
    (hst : F4.setupRows f4 (2 * sel.index) fuel 0
      { rows := sel.rows, pivots := sel.pivots, pivotOps := [], termsUnordered := [],
        rightSide := [] } = .ok st) :
    (st.pivots.map Prod.fst).Nodup ∧
    (∀ e ∈ st.pivots, e.2 < st.rows.length ∧
      (st.rows.getD e.2 (0, Term.one n)).2 = e.1 ∧
      (st.rows.getD e.2 (0, Term.one n)).1 < f4.groebnerBasis.length ∧
      e.1.isDivisibleBy
        (f4.groebnerBasis.getD (st.rows.getD e.2 (0, Term.one n)).1 default).LT = true ∧
      SortedPoly O (F4.rowPolynomial f4 (st.rows.getD e.2 (0, Term.one n))) ∧
      ((f4.groebnerBasis.getD (st.rows.getD e.2 (0, Term.one n)).1 default).coeffs ≠ [] →
        (F4.rowPolynomial f4 (st.rows.getD e.2 (0, Term.one n))).LT = e.1) ∧
      (e.2 < 2 * sel.index → e.2 % 2 = 0)) ∧
    (∀ p ∈ pairs, p.sugar = sel.currentDegree →
      ∃ r, (p.LCM, r) ∈ st.pivots ∧ r % 2 = 0 ∧ r < 2 * sel.index) ∧
    ∀ x, 2 * sel.index ≤ x → x < st.rows.length →
      (st.rows.getD x (0, Term.one n)).1 < f4.groebnerBasis.length ∧
      f4.inGroebnerBasis.getD (st.rows.getD x (0, Term.one n)).1 false = true ∧
      ((st.rows.getD x (0, Term.one n)).2, x) ∈ st.pivots := by
  obtain ⟨⟨p0, p1, ⟨extra, p2, p2'⟩, p3, p4, _⟩, _⟩ :=
    prepare_pivotInv O fuel f4 pairs sel st hsel hst
  obtain ⟨_, hseed, hrowsHas⟩ := pivotInv_init O f4 pairs sel hsel
  have hlen0 := selection_rows_length O pairs sel hsel
  have hrows0 := selection_rows_ok O f4 pairs sel hpairs hsel
  have hrowdiv : ∀ x, x < st.rows.length →
      (st.rows.getD x (0, Term.one n)).1 < f4.groebnerBasis.length ∧
      (st.rows.getD x (0, Term.one n)).2.isDivisibleBy
        (f4.groebnerBasis.getD (st.rows.getD x (0, Term.one n)).1 default).LT = true := by
    intro x hx
    by_cases hxu : 2 * sel.index ≤ x
    · obtain ⟨a, _, c, _⟩ := p4 x hxu hx
      exact ⟨a, c⟩
    · have hx0 : x < sel.rows.length := by omega
      obtain ⟨_, hst'⟩ := setupRows_rows_stable f4 _ fuel _ st hst x hx0
      rw [hst']
      exact hrows0 _ (getD_mem_of_lt _ _ _ hx0)
  have hnd0 : (sel.pivots.map Prod.fst).Nodup := by
    rw [p2, List.map_append] at p1
    exact (List.nodup_append.1 p1).1
  refine ⟨p1, fun e he => ?_, fun p hp hsug => ?_, fun x hx1 hx2 => ?_⟩
  · obtain ⟨a, b⟩ := p3 e he
    obtain ⟨c, d⟩ := hrowdiv e.2 a
    refine ⟨a, b, c, b ▸ d, rowPolynomial_sorted O hmul f4 hs _,
      fun hne => (rowPolynomial_LT f4 _ d hne).trans b, fun hlt => ?_⟩
    rw [p2] at he
    rcases List.mem_append.1 he with h | h
    · exact (hseed e h).2
    · have := p2' e h
      omega
  · have hmem := selection_seeded O pairs sel hsel p hp hsug
    have hhas := hrowsHas _ hmem
    have hin := mem_of_mapHas sel.pivots p.LCM 0 hnd0 hhas
    refine ⟨mapGet sel.pivots p.LCM 0, ?_, (hseed _ hin).2, (hseed _ hin).1⟩
    rw [p2]
    exact List.mem_append_left _ hin
  · obtain ⟨a, b, _, d⟩ := p4 x hx1 hx2
    exact ⟨a, b, d⟩


theorem sumAt_find : ∀ (row : List (Monomial n)) (u : Term n),
    row.Pairwise (fun a b => a.2 ≠ b.2) →
    F4.sumAt row u = ((row.find? (fun e => decide (e.2 = u))).map Prod.fst).getD 0 := by
  intro row
  induction row with
  | nil => intro u _; rfl
  | cons m ms ih =>
    intro u hpw
    rw [List.pairwise_cons] at hpw
    rw [sumAt_cons, List.find?_cons]
    by_cases hm : m.2 = u
    · have hd : decide (m.2 = u) = true := by simpa using hm
      rw [if_pos hm, hd, sumAt_of_not_mem ms u (fun e he h => hpw.1 e he (hm.trans h.symm))]
      rfl
    · have hd : decide (m.2 = u) = false := by simpa using hm
      rw [if_neg hm, hd, Nat.zero_add]
      exact ih u hpw.2

theorem find_of_mem : ∀ (row : List (Monomial n)) (e : Monomial n),
    row.Pairwise (fun a b => a.2 ≠ b.2) → e ∈ row →
    row.find? (fun e' => decide (e'.2 = e.2)) = some e := by
  intro row
  induction row with
  | nil => intro e _ h; cases h
  | cons m ms ih =>
    intro e hpw he
    rw [List.pairwise_cons] at hpw
    rw [List.find?_cons]
    rcases List.mem_cons.1 he with h | h
    · rw [h]
      simp
    · have hm : m.2 ≠ e.2 := hpw.1 e h
      have hd : decide (m.2 = e.2) = false := by simpa using hm
      rw [hd]
      exact ih e hpw.2 h

theorem sorted_distinct (O : TOrdering n) (row : List (Monomial n))
    (h : row.Pairwise (fun a b => O.lt b.2 a.2 = true)) :
    row.Pairwise (fun a b => a.2 ≠ b.2) := by
  refine List.Pairwise.imp ?_ h
  intro a b hab heq
  rw [heq, O.irrefl] at hab
  cases hab

theorem denseRows_total (O : TOrdering n) (hmul : O.Multiplicative) (fuel : Nat) (f4 : F4 n)
    (pairs : F4PairSet n) (sel : Selection n) (st : Prep n)
    (hs : ∀ g ∈ f4.groebnerBasis, SortedPoly O g)
    (hsel : selection O pairs = .ok sel)
    (hst : F4.setupRows f4 (2 * sel.index) fuel 0
      { rows := sel.rows, pivots := sel.pivots, pivotOps := [], termsUnordered := [],
        rightSide := [] } = .ok st) :
    ∃ rs, F4.denseRows (setInsertAll (TermComparator O true) st.termsUnordered [])
        st.rightSide = .ok rs ∧
      rs.length = st.rows.length ∧
      ∀ i, i < rs.length →
        (rs.getD i []).length
          = (setInsertAll (TermComparator O true) st.termsUnordered []).length ∧
        (∀ c, c < (setInsertAll (TermComparator O true) st.termsUnordered []).length →
          (rs.getD i []).getD c 0
            = (((st.rightSide.getD i []).find? (fun e => decide (e.2 =
                (setInsertAll (TermComparator O true) st.termsUnordered []).getD c
                  (Term.one n)))).map Prod.fst).getD 0) ∧
        ∀ e ∈ st.rightSide.getD i [],
          ∃ c, c < (setInsertAll (TermComparator O true) st.termsUnordered []).length ∧
            (setInsertAll (TermComparator O true) st.termsUnordered []).getD c (Term.one n)
              = e.2 ∧
            (rs.getD i []).getD c 0 = e.1 := by
  obtain ⟨⟨_, _, _, _, _, _, _, _, p8⟩, hlen⟩ := prepare_pivotInv O fuel f4 pairs sel st hsel hst
  have hsorted := rightSide_sorted_setupRows O hmul f4 hs (2 * sel.index) fuel _ st rfl hst
  obtain ⟨hTs, hTnd, hTm⟩ := terms_spec O st.termsUnordered
  generalize setInsertAll (TermComparator O true) st.termsUnordered [] = terms
    at hTs hTnd hTm ⊢
  obtain ⟨rs, hrs⟩ : ∃ rs, F4.denseRows terms st.rightSide = .ok rs := by
    unfold F4.denseRows
    apply mapM_ok_of_forall
    intro row hrow
    obtain ⟨x, hx, rfl⟩ := List.getElem_of_mem hrow
    have hrx : st.rightSide.getD x [] = st.rightSide[x] := List.getD_eq_getElem _ _ hx
    refine denseRow_ok O _ _ 0 _ hTs (hrx ▸ hsorted x) (fun e he => ?_)
    exact (hTm e.2).2 (p8 x e (hrx ▸ he))
  obtain ⟨hl, hrow⟩ := denseRows_spec _ st.rightSide rs hrs
  refine ⟨rs, hrs, by rw [hl, hlen], fun i hi => ?_⟩
  have hr := hrow i hi
  have hlenr := (denseRow_spec _ _ _ _ _ hr).1
  rw [List.length_replicate] at hlenr
  have hsem := denseRow_sem terms (st.rightSide.getD i []) 0 _ _ hTnd
    (by rw [List.length_replicate]; omega) (fun j _ => getD_replicate_zero _ _) hr
  have hdist := sorted_distinct O _ (hsorted i)
  have hval : ∀ c, c < terms.length → (rs.getD i []).getD c 0
      = (((st.rightSide.getD i []).find? (fun e => decide (e.2 =
          terms.getD c (Term.one n)))).map Prod.fst).getD 0 := by
    intro c hc
    have := hsem c hc
    rw [Nat.zero_add] at this
    rw [this]
    exact sumAt_find _ _ hdist
  refine ⟨hlenr, hval, fun e he => ?_⟩
  have hin : e.2 ∈ terms := (hTm e.2).2 (p8 i e he)
  obtain ⟨c, hc, hce⟩ := List.getElem_of_mem hin
  refine ⟨c, hc, by rw [List.getD_eq_getElem _ _ hc]; exact hce, ?_⟩
  rw [hval c hc, List.getD_eq_getElem _ _ hc, hce, find_of_mem _ e hdist he]
  rfl

/-- C23: with basis polynomials sorted strictly descending and an ordering
compatible with multiplication, the dense write-out of `prepare` does not run
the column iterator past the end of the column set (it returns a table); the
column set holds each collected non-pivot term once; the table has one row per
matrix row and one column per column term; the entry `rs[i][c]` is the
coefficient that the sparse row `i` records for the `c`-th column term, and 0 if
it records none; every sparse entry is found at the column of its term; and
this table and this column set are what `prepare` hands back. -/
theorem C23_dense_write_out (O : TOrdering n) (hmul : O.Multiplicative) (fuel : Nat) (f4 : F4 n)
    (pairs : F4PairSet n) (sel : Selection n) (st : Prep n)
    (hs : ∀ g ∈ f4.groebnerBasis, SortedPoly O g)
    (hsel : selection O pairs = .ok sel)
    (hst : F4.setupRows f4 (2 * sel.index) fuel 0
      { rows := sel.rows, pivots := sel.pivots, pivotOps := [], termsUnordered := [],
        rightSide := [] } = .ok st) :
    (setInsertAll (TermComparator O true) st.termsUnordered []).Nodup ∧
    (∀ t, t ∈ setInsertAll (TermComparator O true) st.termsUnordered []
      ↔ t ∈ st.termsUnordered) ∧
    st.rightSide.length = st.rows.length ∧
    ∃ rs, F4.denseRows (setInsertAll (TermComparator O true) st.termsUnordered [])
        st.rightSide = .ok rs ∧
      rs.length = st.rows.length ∧
      (∀ i, i < rs.length →
        (rs.getD i []).length
          = (setInsertAll (TermComparator O true) st.termsUnordered []).length ∧
        (∀ c, c < (setInsertAll (TermComparator O true) st.termsUnordered []).length →
          (rs.getD i []).getD c 0
            = (((st.rightSide.getD i []).find? (fun e => decide (e.2 =
                (setInsertAll (TermComparator O true) st.termsUnordered []).getD c
                  (Term.one n)))).map Prod.fst).getD 0) ∧
        ∀ e ∈ st.rightSide.getD i [],
          ∃ c, c < (setInsertAll (TermComparator O true) st.termsUnordered []).length ∧
            (setInsertAll (TermComparator O true) st.termsUnordered []).getD c (Term.one n)
              = e.2 ∧
            (rs.getD i []).getD c 0 = e.1) ∧
      ∀ pr, F4.prepare O fuel f4 pairs = .ok pr →
        pr.rs = rs ∧
          pr.terms = setInsertAll (TermComparator O true) st.termsUnordered [] := by
  obtain ⟨_, hTnd, hTm⟩ := terms_spec O st.termsUnordered
  obtain ⟨_, hlen⟩ := prepare_pivotInv O fuel f4 pairs sel st hsel hst
  obtain ⟨rs, hrs, h1, h2⟩ := denseRows_total O hmul fuel f4 pairs sel st hs hsel hst
  refine ⟨hTnd, hTm, hlen, rs, hrs, h1, h2, fun pr hpr => ?_⟩
  obtain ⟨sel', st', rs', ops, hsel', hst', hrs', _, rfl⟩ := prepare_ok O fuel f4 pairs pr hpr
  rw [hsel] at hsel'
  simp only [Except.ok.injEq] at hsel'
  subst hsel'
  rw [hst] at hst'
  simp only [Except.ok.injEq] at hst'
  subst hst'
  rw [hrs] at hrs'
  simp only [Except.ok.injEq] at hrs'
  subst hrs'
  exact ⟨rfl, rfl⟩


theorem scheduleOp_spec (o : Nat) (sc sc' : F4.Sched) (e : Nat × coeffType)
    (h : F4.scheduleOp o sc e = .ok sc') :
    e.1 < sc.l.length ∧ o < sc.l.length ∧ sc.l.getD e.1 0 < sc.ops.length ∧
      sc'.l.length = sc.l.length ∧
      (∀ x, sc'.l.getD x 0
        = if x = e.1 then sc.l.getD e.1 0 + 1
          else if x = o then max (sc.l.getD o 0) (sc.l.getD e.1 0 + 1)
          else sc.l.getD x 0) ∧
      sc'.ops.length
        = (if sc.l.getD e.1 0 + 1 ≥ sc.ops.length then sc.ops.length + 1 else sc.ops.length) ∧
      (∀ L, sc'.ops.getD L []
        = if L = sc.l.getD e.1 0 then sc.ops.getD L [] ++ [F4Operation.mk e.1 o e.2]
          else sc.ops.getD L []) ∧
      sc'.ops.flatten.Perm (sc.ops.flatten ++ [F4Operation.mk e.1 o e.2]) := by
  unfold F4.scheduleOp at h
  simp only at h
  split at h
  · rename_i hc
    obtain ⟨ht, ho, hlt⟩ := hc
    simp only [Except.ok.injEq] at h
    have hl1 : ∀ x, ((sc.l.set e.1 (sc.l.getD e.1 0 + 1)).getD x 0)
        = if x = e.1 then sc.l.getD e.1 0 + 1 else sc.l.getD x 0 := by
      intro x
      rw [getD_set_gen]
      by_cases hx : x = e.1
      · rw [if_pos ⟨hx.symm, ht⟩, if_pos hx]
      · rw [if_neg (fun hh => hx hh.1.symm), if_neg hx]
    have hl2 : ∀ x, (if (sc.l.set e.1 (sc.l.getD e.1 0 + 1)).getD o 0
          < (sc.l.set e.1 (sc.l.getD e.1 0 + 1)).getD e.1 0
        then (sc.l.set e.1 (sc.l.getD e.1 0 + 1)).set o
          ((sc.l.set e.1 (sc.l.getD e.1 0 + 1)).getD e.1 0)
        else sc.l.set e.1 (sc.l.getD e.1 0 + 1)).getD x 0
        = if x = e.1 then sc.l.getD e.1 0 + 1
          else if x = o then max (sc.l.getD o 0) (sc.l.getD e.1 0 + 1)
          else sc.l.getD x 0 := by
      intro x
      rw [hl1 o, hl1 e.1, if_pos rfl]
      by_cases hne : o = e.1
      · rw [if_pos hne, if_neg (lt_irrefl _), hl1 x]
        by_cases hx : x = e.1
        · rw [if_pos hx, if_pos hx]
        · rw [if_neg hx, if_neg hx, if_neg (fun hh => hx (hh.trans hne))]
      · rw [if_neg hne]
        by_cases hlt' : sc.l.getD o 0 < sc.l.getD e.1 0 + 1
        · rw [if_pos hlt', getD_set_gen, hl1 x]
          by_cases hx : x = e.1
          · rw [if_neg (fun hh => hne (hh.1.trans hx)), if_pos hx, if_pos hx]
          · by_cases hxo : x = o
            · rw [if_pos ⟨hxo.symm, by rw [List.length_set]; exact ho⟩, if_neg hx, if_pos hxo,
                max_eq_right (le_of_lt hlt')]
            · rw [if_neg (fun hh => hxo hh.1.symm), if_neg hx, if_neg hx, if_neg hxo]
        · rw [if_neg hlt', hl1 x]
          by_cases hx : x = e.1
          · rw [if_pos hx, if_pos hx]
          · rw [if_neg hx, if_neg hx]
            by_cases hxo : x = o
            · rw [if_pos hxo, hxo, max_eq_left (Nat.le_of_not_lt hlt')]
            · rw [if_neg hxo]
    have hlen2 : (if (sc.l.set e.1 (sc.l.getD e.1 0 + 1)).getD o 0
          < (sc.l.set e.1 (sc.l.getD e.1 0 + 1)).getD e.1 0
        then (sc.l.set e.1 (sc.l.getD e.1 0 + 1)).set o
          ((sc.l.set e.1 (sc.l.getD e.1 0 + 1)).getD e.1 0)
        else sc.l.set e.1 (sc.l.getD e.1 0 + 1)).length = sc.l.length := by
      split <;> simp
    have hset : ∀ L, (sc.ops.set (sc.l.getD e.1 0)
        (sc.ops.getD (sc.l.getD e.1 0) [] ++ [F4Operation.mk e.1 o e.2])).getD L []
        = if L = sc.l.getD e.1 0 then sc.ops.getD L [] ++ [F4Operation.mk e.1 o e.2]
          else sc.ops.getD L [] := by
      intro L
      rw [getD_set_gen]
      by_cases hL : L = sc.l.getD e.1 0
      · rw [if_pos ⟨hL.symm, hlt⟩, if_pos hL, hL]
      · rw [if_neg (fun hh => hL hh.1.symm), if_neg hL]
    have hp := flatten_set_append sc.ops (sc.l.getD e.1 0) (F4Operation.mk e.1 o e.2) hlt
    have hlen1 : (sc.ops.set (sc.l.getD e.1 0)
        (sc.ops.getD (sc.l.getD e.1 0) [] ++ [F4Operation.mk e.1 o e.2])).length
        = sc.ops.length := List.length_set _ _ _
    generalize (if (sc.l.set e.1 (sc.l.getD e.1 0 + 1)).getD o 0
          < (sc.l.set e.1 (sc.l.getD e.1 0 + 1)).getD e.1 0
        then (sc.l.set e.1 (sc.l.getD e.1 0 + 1)).set o
          ((sc.l.set e.1 (sc.l.getD e.1 0 + 1)).getD e.1 0)
        else sc.l.set e.1 (sc.l.getD e.1 0 + 1)) = l2 at h hl2 hlen2
    generalize (sc.ops.set (sc.l.getD e.1 0)
        (sc.ops.getD (sc.l.getD e.1 0) [] ++ [F4Operation.mk e.1 o e.2])) = ops1
      at h hset hp hlen1
    have hl2t := hl2 e.1
    rw [if_pos rfl] at hl2t
    rw [hl2t] at h
    by_cases hge : sc.l.getD e.1 0 + 1 ≥ ops1.length
    · rw [if_pos hge] at h
      subst h
      refine ⟨ht, ho, hlt, hlen2, hl2, ?_, fun L => ?_, by simpa using hp⟩
      · rw [if_pos (by rw [← hlen1]; exact hge)]
        simp [hlen1]
      rw [← hset L]
      simp only
      by_cases hL : L < ops1.length
      · rw [List.getD_eq_getElem _ _ (by simp; omega), List.getD_eq_getElem _ _ hL,
          List.getElem_append_left hL]
      · rw [getD_of_le ops1 _ _ (Nat.le_of_not_lt hL)]
        by_cases hL' : L < (ops1 ++ [[]]).length
        · rw [List.getD_eq_getElem _ _ hL', List.getElem_append_right (Nat.le_of_not_lt hL)]
          simp
        · rw [getD_of_le _ _ _ (Nat.le_of_not_lt hL')]
    · rw [if_neg hge] at h
      subst h
      refine ⟨ht, ho, hlt, hlen2, hl2, ?_, hset, hp⟩
      rw [if_neg (by rw [← hlen1]; exact hge)]
      exact hlen1
  · cases h

theorem levelInv_step (sc sc' : F4.Sched) (done : List F4Operation) (op : F4Operation)
    (hinv : F4.LevelInv sc done)
    (h : F4.scheduleOp op.oper sc (op.target, op.factor) = .ok sc') :
    F4.LevelInv sc' (done ++ [op]) ∧ sc'.l.length = sc.l.length := by
  obtain ⟨j0, j1, j2, j3, j4⟩ := hinv
  obtain ⟨ht, ho, hlt, hlen, hl, hopslen, hops, hperm⟩ :=
    scheduleOp_spec op.oper sc sc' (op.target, op.factor) h
  have hop : F4Operation.mk op.target op.oper op.factor = op := by cases op; rfl
  simp only [hop] at hl hops hperm ht hlt hopslen
  have hmono : ∀ x, sc.l.getD x 0 ≤ sc'.l.getD x 0 := by
    intro x
    rw [hl x]
    by_cases hx : x = op.target
    · rw [if_pos hx, hx]
      exact Nat.le_succ _
    · rw [if_neg hx]
      by_cases hxo : x = op.oper
      · rw [if_pos hxo, hxo]
        exact le_max_left _ _
      · rw [if_neg hxo]
  have hle : sc.ops.length ≤ sc'.ops.length := by
    rw [hopslen]
    split <;> omega
  have hlt2 : sc.l.getD op.target 0 + 1 < sc'.ops.length := by
    rw [hopslen]
    split <;> omega
  refine ⟨⟨le_trans j0 hle, fun x hx => ?_, fun L a ha => ?_, fun L hL => ?_,
    hperm.trans (List.Perm.append_right _ j4)⟩, hlen⟩
  · rw [hlen] at hx
    rw [hl x]
    by_cases hx1 : x = op.target
    · rw [if_pos hx1]
      exact hlt2
    · rw [if_neg hx1]
      by_cases hxo : x = op.oper
      · rw [if_pos hxo]
        exact max_lt (lt_of_lt_of_le (j1 _ ho) hle) hlt2
      · rw [if_neg hxo]
        exact lt_of_lt_of_le (j1 x hx) hle
  · rw [hops L] at ha
    rw [hlen]
    have hold : a ∈ sc.ops.getD L [] →
        a.target < sc.l.length ∧ L < sc'.l.getD a.target 0 := fun h' =>
      ⟨(j2 L a h').1, lt_of_lt_of_le (j2 L a h').2 (hmono _)⟩
    split at ha
    · rename_i hL
      rcases List.mem_append.1 ha with h' | h'
      · exact hold h'
      · rw [List.mem_singleton] at h'
        rw [h']
        refine ⟨ht, ?_⟩
        rw [hl op.target, if_pos rfl, hL]
        exact Nat.lt_succ_self _
    · exact hold ha
  · rw [hops L]
    by_cases hLl : L = sc.l.getD op.target 0
    · rw [if_pos hLl]
      simp
    · rw [if_neg hLl]
      apply j3
      rw [hopslen] at hL
      split at hL
      · omega
      · exact hL

theorem levelInv_fold : ∀ (todo done : List F4Operation) (sc : F4.Sched),
    F4.LevelInv sc done →
    (∀ a ∈ todo, a.target < sc.l.length ∧ a.oper < sc.l.length) →
    ∃ sc', todo.foldlM (fun sc op => F4.scheduleOp op.oper sc (op.target, op.factor)) sc
        = .ok sc' ∧
      F4.LevelInv sc' (done ++ todo) ∧ sc'.l.length = sc.l.length := by
  intro todo
  induction todo with
  | nil =>
    intro done sc hinv _
    exact ⟨sc, rfl, by rw [List.append_nil]; exact hinv, rfl⟩
  | cons op todo ih =>
    intro done sc hinv hb
    obtain ⟨hb1, hb2⟩ := hb op (List.mem_cons_self _ _)
    obtain ⟨sc1, h1⟩ := scheduleOp_succeeds op.oper sc (op.target, op.factor)
      ⟨hb1, hb2, hinv.2.1 _ hb1⟩
    obtain ⟨hinv1, hlen1⟩ := levelInv_step sc sc1 done op hinv h1
    obtain ⟨sc', h2, hinv2, hlen2⟩ := ih (done ++ [op]) sc1 hinv1
      (fun a ha => by rw [hlen1]; exact hb a (List.mem_cons_of_mem _ ha))
    refine ⟨sc', ?_, ?_, hlen2.trans hlen1⟩
    · rw [List.foldlM_cons, h1]
      exact h2
    · rw [List.append_assoc] at hinv2
      exact hinv2

theorem levelInv_init (rows : Nat) :
    F4.LevelInv ({ l := List.replicate rows 0, ops := [[]] } : F4.Sched) [] := by
  refine ⟨by simp, fun x hx => ?_, fun L op hop => ?_, fun L hL => ?_, by simp⟩
  · rw [getD_replicate_zero]
    simp
  · exfalso
    cases L with
    | zero => simp at hop
    | succ L => simp at hop
  · simp at hL

theorem levelInv_last (sc : F4.Sched) (done : List F4Operation) (hinv : F4.LevelInv sc done) :
    ∃ ops, sc.ops = ops ++ [[]] ∧ (∀ level ∈ ops, level ≠ []) ∧ ops.flatten.Perm done := by
  obtain ⟨j0, j1, j2, j3, j4⟩ := hinv
  have hne : sc.ops ≠ [] := by
    intro h
    rw [h] at j0
    simp at j0
  have hlast : sc.ops.getLast hne = [] := by
    rw [List.getLast_eq_getElem]
    cases hl : sc.ops[sc.ops.length - 1] with
    | nil => rfl
    | cons a as =>
      exfalso
      have hmem : a ∈ sc.ops.getD (sc.ops.length - 1) [] := by
        rw [List.getD_eq_getElem _ _ (by omega), hl]
        exact List.mem_cons_self _ _
      obtain ⟨h1, h2⟩ := j2 _ a hmem
      have := j1 _ h1
      omega
  have hsplit : sc.ops = sc.ops.dropLast ++ [[]] := by
    rw [← hlast]
    exact (List.dropLast_append_getLast hne).symm
  refine ⟨sc.ops.dropLast, hsplit, fun level hlevel => ?_, ?_⟩
  · obtain ⟨L, hL, hLe⟩ := List.getElem_of_mem hlevel
    rw [List.length_dropLast] at hL
    have := j3 L (by omega)
    rw [List.getD_eq_getElem _ _ (by omega)] at this
    rw [← hLe, List.getElem_dropLast]
    exact this
  · rw [hsplit] at j4
    simpa using j4


theorem scheduledOps_bounds (O : TOrdering n) (fuel : Nat) (f4 : F4 n) (pairs : F4PairSet n)
    (sel : Selection n) (st : Prep n) (hsel : selection O pairs = .ok sel)
    (hst : F4.setupRows f4 (2 * sel.index) fuel 0
      { rows := sel.rows, pivots := sel.pivots, pivotOps := [], termsUnordered := [],
        rightSide := [] } = .ok st) :
    (∀ a ∈ F4.scheduledOps st.pivots
        (setInsertAll (fun a b => TermComparator O true a.1 b.1) st.pivotOps []),
      a.target < st.rows.length ∧ a.oper < st.rows.length) ∧
    (F4.scheduledOps st.pivots
        (setInsertAll (fun a b => TermComparator O true a.1 b.1) st.pivotOps [])).Perm
      (F4.scheduledOps st.pivots st.pivotOps) := by
  obtain ⟨⟨_, p1, _, p3, _, p5, p6, _, _⟩, _⟩ := prepare_pivotInv O fuel f4 pairs sel st hsel hst
  obtain ⟨_, hsub, _⟩ := setInsertAll_key_spec O
    (fun e : Term n × List (Nat × coeffType) => e.1) st.pivotOps [] List.Pairwise.nil
  constructor
  · intro a ha
    obtain ⟨e, he, rc, hrc, rfl⟩ := mem_scheduledOps _ _ a ha
    have he' : e ∈ st.pivotOps := by
      rcases hsub e he with h | h
      · exact h
      · cases h
    obtain ⟨q1, q2⟩ := p5 e he'
    exact ⟨q2 rc hrc, (p3 _ (mem_of_mapHas st.pivots e.1 0 p1 q1)).1⟩
  · have hperm := setInsertAll_key_perm O
      (fun e : Term n × List (Nat × coeffType) => e.1) st.pivotOps [] (by simpa using p6)
    rw [List.nil_append] at hperm
    unfold F4.scheduledOps
    exact List.Perm.flatMap_right _ hperm

/-- C26: in the scheduler of `prepare` (run on the containers that symbolic
preprocessing and the dense write-out leave behind), after any number `k` of
placed operations the scheduler has not read outside a container, every level
counter is below the number of levels, the last level is empty and every other
level holds an operation.  At the end the levels without the last one are what
the scheduler returns: the `pop_back` removes an empty level, every returned
level is non-empty, and together the returned levels hold each entry of
`pivotOps` (as target, operator, factor) exactly once; `prepare` returns with
these levels. -/
theorem C26_schedule_levels (O : TOrdering n) (fuel : Nat) (f4 : F4 n) (pairs : F4PairSet n)
    (sel : Selection n) (st : Prep n) (rs : List (List coeffType))
    (hsel : selection O pairs = .ok sel)
    (hst : F4.setupRows f4 (2 * sel.index) fuel 0
      { rows := sel.rows, pivots := sel.pivots, pivotOps := [], termsUnordered := [],
        rightSide := [] } = .ok st)
    (hrs : F4.denseRows (setInsertAll (TermComparator O true) st.termsUnordered [])
      st.rightSide = .ok rs) :
    (∀ k, ∃ sc,
      ((F4.scheduledOps st.pivots
          (setInsertAll (fun a b => TermComparator O true a.1 b.1) st.pivotOps [])).take
        k).foldlM (fun sc op => F4.scheduleOp op.oper sc (op.target, op.factor))
        ({ l := List.replicate rs.length 0, ops := [[]] } : F4.Sched) = .ok sc ∧
      sc.l.length = rs.length ∧
      (∀ x, x < rs.length → sc.l.getD x 0 < sc.ops.length) ∧
      ∃ ops, sc.ops = ops ++ [[]] ∧ ∀ level ∈ ops, level ≠ []) ∧
    ∃ sc ops,
      (F4.scheduledOps st.pivots
          (setInsertAll (fun a b => TermComparator O true a.1 b.1) st.pivotOps [])).foldlM
        (fun sc op => F4.scheduleOp op.oper sc (op.target, op.factor))
        ({ l := List.replicate rs.length 0, ops := [[]] } : F4.Sched) = .ok sc ∧
      sc.ops = ops ++ [[]] ∧
      F4.schedule st.pivots
        (setInsertAll (fun a b => TermComparator O true a.1 b.1) st.pivotOps []) rs.length
        = .ok ops ∧
      (∀ level ∈ ops, level ≠ []) ∧
      ops.flatten.Perm (F4.scheduledOps st.pivots st.pivotOps) ∧
      ∃ pr, F4.prepare O fuel f4 pairs = .ok pr ∧ pr.ops = ops := by
  obtain ⟨hb, hperm⟩ := scheduledOps_bounds O fuel f4 pairs sel st hsel hst
  obtain ⟨_, hlen⟩ := prepare_pivotInv O fuel f4 pairs sel st hsel hst
  obtain ⟨hl, _⟩ := denseRows_spec _ st.rightSide rs hrs
  have hrows : rs.length = st.rows.length := by rw [hl, hlen]
  have hprep : ∀ ops, F4.schedule st.pivots
      (setInsertAll (fun a b => TermComparator O true a.1 b.1) st.pivotOps []) rs.length
        = .ok ops →
      F4.prepare O fuel f4 pairs = .ok (⟨2 * sel.index, ops,
        setInsertAll (TermComparator O true) st.termsUnordered [], rs, sel.pairs,
        sel.currentDegree⟩ : F4.Prepared n) := by
    intro ops hops
    unfold F4.prepare
    simp only [bind, Except.bind, pure, Except.pure, hsel, hst, hrs, hops]
  generalize setInsertAll (fun a b => TermComparator O true a.1 b.1) st.pivotOps [] = groups
    at hb hperm hprep ⊢
  have hinit := levelInv_init rs.length
  have hl0 : ({ l := List.replicate rs.length 0, ops := [[]] } : F4.Sched).l.length
      = rs.length := List.length_replicate _ _
  constructor
  · intro k
    obtain ⟨sc, h1, h2, h3⟩ := levelInv_fold ((F4.scheduledOps st.pivots groups).take k) [] _
      hinit (fun a ha => by
        rw [hl0, hrows]
        exact hb a (List.mem_of_mem_take ha))
    obtain ⟨ops, e1, e2, _⟩ := levelInv_last sc _ h2
    refine ⟨sc, h1, h3.trans hl0, fun x hx => h2.2.1 x (by rw [h3, hl0]; exact hx), ops, e1, e2⟩
  · obtain ⟨sc, h1, h2, h3⟩ := levelInv_fold (F4.scheduledOps st.pivots groups) [] _
      hinit (fun a ha => by
        rw [hl0, hrows]
        exact hb a ha)
    obtain ⟨ops, e1, e2, e3⟩ := levelInv_last sc _ h2
    have hsched : F4.schedule st.pivots groups rs.length = .ok ops := by
      rw [schedule_eq, h1]
      simp only [Except.map, e1, List.dropLast_concat]
    rw [List.nil_append] at e3
    refine ⟨sc, ops, h1, e1, hsched, e2, e3.trans hperm,
      (⟨2 * sel.index, ops, setInsertAll (TermComparator O true) st.termsUnordered [], rs,
        sel.pairs, sel.currentDegree⟩ : F4.Prepared n), hprep ops hsched, rfl⟩


set_option maxRecDepth 100000 in
theorem cyclicPairs_ok : ∀ p ∈ cyclicPairs, PairOk cyclicF4.groebnerBasis p := by
  have h := (inv_run (DegRevLexOrdering 3) [.update [cyclic3, cyclic2, cyclic1]]).2.2.1
  have hb : (F4.run (DegRevLexOrdering 3) [.update [cyclic3, cyclic2, cyclic1]]).1.groebnerBasis
      = cyclicF4.groebnerBasis := by decide
  rw [hb] at h
  exact h

set_option maxRecDepth 100000 in
theorem cyclic_parts :
    ∃ sel st rs, selection (DegRevLexOrdering 3) cyclicPairs = .ok sel ∧
      F4.setupRows cyclicF4 (2 * sel.index) 4 0
        { rows := sel.rows, pivots := sel.pivots, pivotOps := [], termsUnordered := [],
          rightSide := [] } = .ok st ∧
      F4.denseRows (setInsertAll (TermComparator (DegRevLexOrdering 3) true)
        st.termsUnordered []) st.rightSide = .ok rs := by
  have hp : (F4.prepare (DegRevLexOrdering 3) 4
        cyclicF4 cyclicPairs).map
        (fun pr => pr.ops) = .ok [[⟨1, 0, 1⟩], [⟨0, 2, 1⟩]] := by decide
  cases hq : F4.prepare (DegRevLexOrdering 3) 4
      cyclicF4 cyclicPairs with
  | error e => rw [hq] at hp; cases hp
  | ok pr =>
    obtain ⟨sel, st, rs, ops, h1, h2, h3, _⟩ := prepare_ok _ _ _ _ pr hq
    exact ⟨sel, st, rs, h1, h2, h3⟩

/-- C21, at the first batch of the cyclic example. -/
theorem C21_pivot_rows_witness :
    (DegRevLexOrdering 3).Multiplicative ∧
    (∀ g ∈ cyclicF4.groebnerBasis, SortedPoly (DegRevLexOrdering 3) g) ∧
    (∀ p ∈ cyclicPairs, PairOk cyclicF4.groebnerBasis p) ∧
    ∃ sel st, selection (DegRevLexOrdering 3) cyclicPairs = .ok sel ∧
      F4.setupRows cyclicF4 (2 * sel.index) 4 0
        { rows := sel.rows, pivots := sel.pivots, pivotOps := [], termsUnordered := [],
          rightSide := [] } = .ok st ∧
      (st.pivots.map Prod.fst).Nodup ∧
      (∀ e ∈ st.pivots, e.2 < st.rows.length ∧
        (st.rows.getD e.2 (0, Term.one 3)).2 = e.1 ∧
        (st.rows.getD e.2 (0, Term.one 3)).1 < cyclicF4.groebnerBasis.length ∧
        e.1.isDivisibleBy
          (cyclicF4.groebnerBasis.getD (st.rows.getD e.2 (0, Term.one 3)).1 default).LT = true ∧
        SortedPoly (DegRevLexOrdering 3) (F4.rowPolynomial cyclicF4 (st.rows.getD e.2 (0, Term.one
            3))) ∧
        ((cyclicF4.groebnerBasis.getD (st.rows.getD e.2 (0, Term.one 3)).1 default).coeffs ≠ [] →
          (F4.rowPolynomial cyclicF4 (st.rows.getD e.2 (0, Term.one 3))).LT = e.1) ∧
        (e.2 < 2 * sel.index → e.2 % 2 = 0)) ∧
      (∀ p ∈ cyclicPairs, p.sugar = sel.currentDegree →
        ∃ r, (p.LCM, r) ∈ st.pivots ∧ r % 2 = 0 ∧ r < 2 * sel.index) ∧
      ∀ x, 2 * sel.index ≤ x → x < st.rows.length →
        (st.rows.getD x (0, Term.one 3)).1 < cyclicF4.groebnerBasis.length ∧
        cyclicF4.inGroebnerBasis.getD (st.rows.getD x (0, Term.one 3)).1 false = true ∧
        ((st.rows.getD x (0, Term.one 3)).2, x) ∈ st.pivots := by
  obtain ⟨sel, st, _, hsel, hst, _⟩ := cyclic_parts
  exact ⟨degRevLex_multiplicative 3, by decide, cyclicPairs_ok, sel, st, hsel, hst,
    C21_pivot_rows (DegRevLexOrdering 3) (degRevLex_multiplicative 3) 4
      cyclicF4 cyclicPairs sel st (by decide)
      cyclicPairs_ok hsel hst⟩

/-- C23, at the first batch of the cyclic example. -/
theorem C23_dense_write_out_witness :
    (DegRevLexOrdering 3).Multiplicative ∧
    (∀ g ∈ cyclicF4.groebnerBasis, SortedPoly (DegRevLexOrdering 3) g) ∧
    ∃ sel st, selection (DegRevLexOrdering 3) cyclicPairs = .ok sel ∧
      F4.setupRows cyclicF4 (2 * sel.index) 4 0
        { rows := sel.rows, pivots := sel.pivots, pivotOps := [], termsUnordered := [],
          rightSide := [] } = .ok st ∧
      (setInsertAll (TermComparator (DegRevLexOrdering 3) true) st.termsUnordered []).Nodup ∧
      (∀ t, t ∈ setInsertAll (TermComparator (DegRevLexOrdering 3) true) st.termsUnordered []
        ↔ t ∈ st.termsUnordered) ∧
      st.rightSide.length = st.rows.length ∧
      ∃ rs, F4.denseRows (setInsertAll (TermComparator (DegRevLexOrdering 3) true)
          st.termsUnordered [])
          st.rightSide = .ok rs ∧
        rs.length = st.rows.length ∧
        (∀ i, i < rs.length →
          (rs.getD i []).length
            = (setInsertAll (TermComparator (DegRevLexOrdering 3) true) st.termsUnordered
                []).length ∧
          (∀ c, c < (setInsertAll (TermComparator (DegRevLexOrdering 3) true) st.termsUnordered
              []).length →
            (rs.getD i []).getD c 0
              = (((st.rightSide.getD i []).find? (fun e => decide (e.2 =
                  (setInsertAll (TermComparator (DegRevLexOrdering 3) true) st.termsUnordered
                      []).getD c
                    (Term.one 3)))).map Prod.fst).getD 0) ∧
          ∀ e ∈ st.rightSide.getD i [],
            ∃ c, c < (setInsertAll (TermComparator (DegRevLexOrdering 3) true) st.termsUnordered
                []).length ∧
              (setInsertAll (TermComparator (DegRevLexOrdering 3) true) st.termsUnordered []).getD
                  c (Term.one 3)
                = e.2 ∧
              (rs.getD i []).getD c 0 = e.1) ∧
        ∀ pr, F4.prepare (DegRevLexOrdering 3) 4 cyclicF4 cyclicPairs = .ok pr →
          pr.rs = rs ∧
            pr.terms = setInsertAll (TermComparator (DegRevLexOrdering 3) true) st.termsUnordered
                [] := by
  obtain ⟨sel, st, _, hsel, hst, _⟩ := cyclic_parts
  exact ⟨degRevLex_multiplicative 3, by decide, sel, st, hsel, hst,
    C23_dense_write_out (DegRevLexOrdering 3) (degRevLex_multiplicative 3) 4
      cyclicF4 cyclicPairs sel st (by decide)
      hsel hst⟩

set_option maxRecDepth 100000 in
/-- C24, at the first batch of the cyclic example: the column terms are `y^2`,
`yz` and `z^2`, none a multiple of the leading term `x` of the only element
flagged in-basis. -/
theorem C24_columns_irreducible_witness :
    ∃ pr, F4.prepare (DegRevLexOrdering 3) 4
        cyclicF4 cyclicPairs = .ok pr ∧
      pr.terms = [mk3 0 2 0, mk3 0 1 1, mk3 0 0 2] ∧
        (∀ t ∈ pr.terms, ∀ k, k < cyclicF4.groebnerBasis.length →
          cyclicF4.inGroebnerBasis.getD k false = true →
          t.isDivisibleBy (cyclicF4.groebnerBasis.getD k default).LT = false) ∧
        (∃ sel st, selection (DegRevLexOrdering 3) cyclicPairs = .ok sel ∧
          F4.setupRows cyclicF4 (2 * sel.index) 4 0
            { rows := sel.rows, pivots := sel.pivots, pivotOps := [], termsUnordered := [],
              rightSide := [] } = .ok st ∧
          ∀ t ∈ pr.terms, t ∉ st.pivots.map Prod.fst) ∧
        ∀ (F : CoeffField) (r : F4 3 × F4PairSet 3 × List (Polynomial 3)),
          F4.reduce (DegRevLexOrdering 3) F 4 cyclicF4 cyclicPairs = .ok r →
          ∀ g ∈ r.2.2, ∀ k, k < cyclicF4.groebnerBasis.length →
            cyclicF4.inGroebnerBasis.getD k false = true →
            (∀ m ∈ g.coeffs, m.2 ∈ pr.terms ∧
              m.2.isDivisibleBy (cyclicF4.groebnerBasis.getD k default).LT = false) ∧
            (g.coeffs ≠ [] → g.LT.isDivisibleBy (cyclicF4.groebnerBasis.getD k default).LT = false)
                := by
  have hp : (F4.prepare (DegRevLexOrdering 3) 4
        cyclicF4 cyclicPairs).map
        (fun pr => pr.terms) = .ok [mk3 0 2 0, mk3 0 1 1, mk3 0 0 2] := by decide
  cases hq : F4.prepare (DegRevLexOrdering 3) 4
      cyclicF4 cyclicPairs with
  | error e => rw [hq] at hp; cases hp
  | ok pr =>
    rw [hq] at hp
    simp only [Except.map, Except.ok.injEq] at hp
    exact ⟨pr, rfl, hp, C24_columns_irreducible (DegRevLexOrdering 3) 4
      cyclicF4 cyclicPairs pr hq⟩

/-- C26, at the first batch of the cyclic example. -/
theorem C26_schedule_levels_witness :
    ∃ sel st rs, selection (DegRevLexOrdering 3) cyclicPairs = .ok sel ∧
      F4.setupRows cyclicF4 (2 * sel.index) 4 0
        { rows := sel.rows, pivots := sel.pivots, pivotOps := [], termsUnordered := [],
          rightSide := [] } = .ok st ∧
      F4.denseRows (setInsertAll (TermComparator (DegRevLexOrdering 3) true)
        st.termsUnordered []) st.rightSide = .ok rs ∧
        (∀ k, ∃ sc,
          ((F4.scheduledOps st.pivots
              (setInsertAll (fun a b => TermComparator (DegRevLexOrdering 3) true a.1 b.1)
                  st.pivotOps [])).take
            k).foldlM (fun sc op => F4.scheduleOp op.oper sc (op.target, op.factor))
            ({ l := List.replicate rs.length 0, ops := [[]] } : F4.Sched) = .ok sc ∧
          sc.l.length = rs.length ∧
          (∀ x, x < rs.length → sc.l.getD x 0 < sc.ops.length) ∧
          ∃ ops, sc.ops = ops ++ [[]] ∧ ∀ level ∈ ops, level ≠ []) ∧
        ∃ sc ops,
          (F4.scheduledOps st.pivots
              (setInsertAll (fun a b => TermComparator (DegRevLexOrdering 3) true a.1 b.1)
                  st.pivotOps [])).foldlM
            (fun sc op => F4.scheduleOp op.oper sc (op.target, op.factor))
            ({ l := List.replicate rs.length 0, ops := [[]] } : F4.Sched) = .ok sc ∧
          sc.ops = ops ++ [[]] ∧
          F4.schedule st.pivots
            (setInsertAll (fun a b => TermComparator (DegRevLexOrdering 3) true a.1 b.1)
                st.pivotOps []) rs.length
            = .ok ops ∧
          (∀ level ∈ ops, level ≠ []) ∧
          ops.flatten.Perm (F4.scheduledOps st.pivots st.pivotOps) ∧
          ∃ pr, F4.prepare (DegRevLexOrdering 3) 4 cyclicF4 cyclicPairs = .ok pr ∧ pr.ops = ops :=
              by
  obtain ⟨sel, st, rs, hsel, hst, hrs⟩ := cyclic_parts
  exact ⟨sel, st, rs, hsel, hst, hrs,
    C26_schedule_levels (DegRevLexOrdering 3) 4
      cyclicF4 cyclicPairs sel st rs hsel hst hrs⟩

set_option maxRecDepth 100000 in
/-- C25, after `updatePairs` on the generators `x` and `y`: both are flagged
in-basis and neither leading term divides the other. -/
theorem C25_in_basis_antichain_witness :
    (F4.run (DegRevLexOrdering 2) [.update [justX, justY]]).1.inGroebnerBasis = [true, true] ∧
    (((F4.run (DegRevLexOrdering 2) [.update [justX, justY]]).1.groebnerBasis.getD 1
          default).LT.isDivisibleBy
        ((F4.run (DegRevLexOrdering 2) [.update [justX, justY]]).1.groebnerBasis.getD 0
          default).LT = false ∧
      ((F4.run (DegRevLexOrdering 2) [.update [justX, justY]]).1.groebnerBasis.getD 0
          default).LT
        ≠ ((F4.run (DegRevLexOrdering 2) [.update [justX, justY]]).1.groebnerBasis.getD 1
          default).LT) :=
  ⟨by decide,
    (C25_in_basis_antichain (DegRevLexOrdering 2) [.update [justX, justY]]).2 0 1 (by decide)
      (by decide) (by decide)⟩

theorem pReduceParallel_cons (F : CoeffField) (order : List F4Operation)
    (rest : List (List F4Operation)) (rs : List (List coeffType)) :
    F4.pReduceParallel F (order :: rest) rs
      = order.foldl (F4.pReduceOp F) (F4.pReduceParallel F rest rs) := by
  simp only [F4.pReduceParallel, List.reverse_cons, List.foldl_append, List.foldl_cons,
    List.foldl_nil]

theorem pReduce_cons (F : CoeffField) (level : List F4Operation)
    (rest : List (List F4Operation)) (rs : List (List coeffType)) :
    F4.pReduce F (level :: rest) rs = level.foldl (F4.pReduceOp F) (F4.pReduce F rest rs) := by
  simp only [F4.pReduce, List.reverse_cons, List.foldl_append, List.foldl_cons, List.foldl_nil]
  rfl

/-- Two operations with different targets, neither working on the operator row
of the other, can be applied in either order. -/
theorem pReduceOp_comm (F : CoeffField) (rs : List (List coeffType)) (a b : F4Operation)
    (h1 : a.target ≠ b.target) (h2 : a.target ≠ b.oper) (h3 : b.target ≠ a.oper) :
    F4.pReduceOp F (F4.pReduceOp F rs a) b = F4.pReduceOp F (F4.pReduceOp F rs b) a := by
  unfold F4.pReduceOp
  rw [getD_set_gen, if_neg (fun h => h1 h.1), getD_set_gen, if_neg (fun h => h2 h.1),
    getD_set_gen, if_neg (fun h => h1 h.1.symm), getD_set_gen, if_neg (fun h => h3 h.1)]
  exact List.set_comm _ _ _ h1

/-- On a schedule whose levels are independent (distinct targets in a level,
no target of a level among its operator rows) every arrangement of the levels
gives the result of `pReduce`. -/
theorem pReduceParallel_eq_pReduce (F : CoeffField) (rs : List (List coeffType)) :
    ∀ (orders ops : List (List F4Operation)), List.Forall₂ List.Perm orders ops →
    (∀ level ∈ ops, (level.map F4Operation.target).Nodup ∧
      ∀ a ∈ level, ∀ b ∈ level, a.target ≠ b.oper) →
    F4.pReduceParallel F orders rs = F4.pReduce F ops rs := by
  intro orders ops h
  induction h with
  | nil => intro _; rfl
  | @cons order level orders' ops' hp _ ih =>
    intro hind
    rw [pReduceParallel_cons, pReduce_cons, ih (fun l hl => hind l (List.mem_cons_of_mem _ hl))]
    obtain ⟨hnd, hto⟩ := hind level (List.mem_cons_self _ _)
    refine (List.Perm.foldl_eq' hp.symm ?_ _).symm
    intro x hx y hy z
    by_cases hxy : x = y
    · rw [hxy]
    · have ht : x.target ≠ y.target := fun heq =>
        hxy (List.inj_on_of_nodup_map hnd hx hy heq)
      exact pReduceOp_comm F z x y ht (hto x hx y hy) (hto y hy x hx)

/-- C20 (amended): `pReduce` executes the levels of the schedule from the last
level down to level 0, each operation exactly once.  Whatever the order
`orders[i]` in which the operations of each level `ops[i]` take effect (the
source runs them under a parallel loop and fixes none): the run applies the
operations in the order of the list `orders.reverse.flatten`, which is made of
an arrangement of the last level, then one of the level before it, and so on
down to level 0, and holds every operation of the schedule exactly once; the
operations of level 0 are applied to the result of all the other levels; and
`pReduce`, which takes the operations of a level in index order, is one of
these runs. -/
theorem C20_pReduce_reverse_levels (F : CoeffField) (ops orders : List (List F4Operation))
    (rs : List (List coeffType)) (h : List.Forall₂ List.Perm orders ops) :
    F4.pReduceParallel F orders rs = orders.reverse.flatten.foldl (F4.pReduceOp F) rs ∧
      List.Forall₂ List.Perm orders.reverse ops.reverse ∧
      orders.reverse.flatten.Perm ops.flatten ∧
      (∀ (order : List F4Operation) (rest : List (List F4Operation)),
        F4.pReduceParallel F (order :: rest) rs
          = order.foldl (F4.pReduceOp F) (F4.pReduceParallel F rest rs)) ∧
      F4.pReduce F ops rs = F4.pReduceParallel F ops rs := by
  refine ⟨?_, List.forall₂_reverse_iff.2 h, ?_,
    fun order rest => pReduceParallel_cons F order rest rs, rfl⟩
  · rw [foldl_flatten]
    rfl
  · exact (flatten_reverse_perm orders).trans (List.Perm.flatten_congr h)

/-- C20 (amended), at a schedule whose level 0 holds two operations that take
effect in the order opposite to their index order. -/
theorem C20_pReduce_reverse_levels_witness :
    List.Forall₂ List.Perm levelsSwapped levelsIn ∧
      levelsSwapped.reverse.flatten = [⟨0, 3, 1⟩, ⟨2, 0, 1⟩, ⟨1, 0, 1⟩] ∧
      F4.pReduceParallel F32003 levelsSwapped [[1, 0], [0, 1], [1, 1], [2, 3]]
        = levelsSwapped.reverse.flatten.foldl (F4.pReduceOp F32003)
            [[1, 0], [0, 1], [1, 1], [2, 3]] ∧
      levelsSwapped.reverse.flatten.Perm levelsIn.flatten :=
  ⟨List.Forall₂.cons (List.Perm.swap _ _ _) (List.Forall₂.cons (List.Perm.refl _) List.Forall₂.nil),
    by decide,
    (C20_pReduce_reverse_levels F32003 levelsIn levelsSwapped [[1, 0], [0, 1], [1, 1], [2, 3]]
      (List.Forall₂.cons (List.Perm.swap _ _ _)
        (List.Forall₂.cons (List.Perm.refl _) List.Forall₂.nil))).1,
    (C20_pReduce_reverse_levels F32003 levelsIn levelsSwapped [[1, 0], [0, 1], [1, 1], [2, 3]]
      (List.Forall₂.cons (List.Perm.swap _ _ _)
        (List.Forall₂.cons (List.Perm.refl _) List.Forall₂.nil))).2.2.1⟩

end ParallelGBC
